import Mathlib

/-!
# duc sunburst graph: layout, culling and hit-test (`src/lib/graph.c`)

A shallow embedding of the geometry engine of `graph.c` and a verification of
its specification.

Modelling conventions.

* C `double` values are modelled by `Dbl`: a rational, or one of the IEEE-754
  special values `+inf`, `-inf`, `NaN`.  The operations `+ - * /` of `Dbl` are
  the exact ones on finite values; arithmetic and comparison on the special
  values follow IEEE-754, in particular division by zero yields an infinity or
  `NaN` and every ordered comparison with `NaN` is false.  Zeros are unsigned:
  every divisor in `graph.c` is the conversion of an integer, which is never a
  negative zero.
* The program is embedded twice.  The definitions at top level (`draw_ring`,
  `find_spot`, `car2pol`, ...) use the exact operations: they describe the
  control flow, the recursion, the culling and the handling of the special
  values.  The definitions in the namespace `fp` (`fp.draw_ring`,
  `fp.find_spot`, `fp.car2pol`, `fp.pol2car`, ...) apply a rounding function
  `rnd` after every arithmetic operation, conversion and constant;
  instantiated with `Dbl.round64`, round to nearest with ties to even on the
  binary64 grid with gradual underflow and overflow to infinity, they are the
  arithmetic that the compiled program performs.  The statements whose truth
  depends on rounding (drawn implies found, partition completeness, the hue
  policy, the polar round trips) are made about the `fp` embedding.
* The functions of `math.h` (`cos`, `sin`, `hypot`, `atan2`) are parameters
  (`libm_trig`, `libc`); where their accuracy matters it is a hypothesis
  (`trig_accurate`, `polar_accurate`) on the calls made.
* C `int` values are `Int`, C integer division is `Int.tdiv` (truncation), and
  `size_t` arithmetic is reduced modulo `2^64`.
* The directory database (`duc_dirsize`, `duc_readdir`, `duc_opendirat`,
  `duc_dirpath`) is a finite tree `duc_dir`.
* Drawing is modelled by the chronological list of `draw_section` calls and
  label pushes that `draw_ring` performs.
-/

/-! ## Doubles -/

/-- A C `double`: an exact rational or an IEEE-754 special value. -/
inductive Dbl where
  | fin (q : ℚ)
  | pinf
  | ninf
  | nan
  deriving DecidableEq

namespace Dbl

/-- Unary minus. -/
def neg : Dbl → Dbl
  | fin q => fin (-q)
  | pinf => ninf
  | ninf => pinf
  | nan => nan

/-- IEEE addition: `inf + -inf = NaN`, `NaN` propagates. -/
def add : Dbl → Dbl → Dbl
  | fin a, fin b => fin (a + b)
  | nan, _ => nan
  | _, nan => nan
  | pinf, ninf => nan
  | ninf, pinf => nan
  | pinf, _ => pinf
  | _, pinf => pinf
  | ninf, _ => ninf
  | _, ninf => ninf

/-- IEEE subtraction. -/
def sub (a b : Dbl) : Dbl := add a (neg b)

/-- IEEE multiplication: `inf * 0 = NaN`, `NaN` propagates. -/
def mul : Dbl → Dbl → Dbl
  | fin a, fin b => fin (a * b)
  | nan, _ => nan
  | _, nan => nan
  | pinf, fin b => if b = 0 then nan else if 0 < b then pinf else ninf
  | ninf, fin b => if b = 0 then nan else if 0 < b then ninf else pinf
  | fin a, pinf => if a = 0 then nan else if 0 < a then pinf else ninf
  | fin a, ninf => if a = 0 then nan else if 0 < a then ninf else pinf
  | pinf, pinf => pinf
  | ninf, ninf => pinf
  | pinf, ninf => ninf
  | ninf, pinf => ninf

/-- IEEE division: `x / 0` is an infinity of the sign of `x`, `0 / 0 = NaN`,
`inf / inf = NaN`, `x / inf = 0`. -/
def div : Dbl → Dbl → Dbl
  | fin a, fin b =>
    if b = 0 then (if a = 0 then nan else if 0 < a then pinf else ninf) else fin (a / b)
  | nan, _ => nan
  | _, nan => nan
  | fin _, pinf => fin 0
  | fin _, ninf => fin 0
  | pinf, fin b => if 0 ≤ b then pinf else ninf
  | ninf, fin b => if 0 ≤ b then ninf else pinf
  | pinf, pinf => nan
  | pinf, ninf => nan
  | ninf, pinf => nan
  | ninf, ninf => nan

/-- The C comparison `a < b`; false as soon as an operand is `NaN`. -/
def lt : Dbl → Dbl → Bool
  | fin a, fin b => decide (a < b)
  | fin _, pinf => true
  | ninf, fin _ => true
  | ninf, pinf => true
  | _, _ => false

/-- The C comparison `a <= b`; false as soon as an operand is `NaN`. -/
def le : Dbl → Dbl → Bool
  | fin a, fin b => decide (a ≤ b)
  | fin _, pinf => true
  | ninf, fin _ => true
  | ninf, pinf => true
  | pinf, pinf => true
  | ninf, ninf => true
  | _, _ => false

instance : Add Dbl := ⟨add⟩
instance : Sub Dbl := ⟨sub⟩
instance : Mul Dbl := ⟨mul⟩
instance : Div Dbl := ⟨div⟩
instance : Neg Dbl := ⟨neg⟩
instance : LT Dbl := ⟨fun a b => lt a b = true⟩
instance : LE Dbl := ⟨fun a b => le a b = true⟩
instance (a b : Dbl) : Decidable (a < b) := inferInstanceAs (Decidable (lt a b = true))
instance (a b : Dbl) : Decidable (a ≤ b) := inferInstanceAs (Decidable (le a b = true))
instance (n : Nat) : OfNat Dbl n := ⟨fin n⟩

/-- Conversion of a C integer to `double`. -/
def ofInt (i : Int) : Dbl := fin i

/-- The function `floor` of `math.h`; infinities and `NaN` are returned as they
are. -/
def floor : Dbl → Dbl
  | fin q => fin (Int.floor q)
  | a => a

/-- Conversion of a `double` to a 32-bit `int`: truncation toward zero.  The
result is `none` where the behaviour of the conversion is undefined: for an
infinity or `NaN`, and when the truncated value is outside the range of `int`. -/
def toInt : Dbl → Option Int
  | fin q =>
    let z := if 0 ≤ q then Int.floor q else Int.ceil q
    if -2147483648 ≤ z ∧ z ≤ 2147483647 then some z else none
  | _ => none

end Dbl

/-- The constant `M_PI` of `math.h`: the double nearest to pi. -/
def M_PI : Dbl := Dbl.fin (884279719003555 / 281474976710656)

/-- Conversion of an integer to `size_t` (64 bits). -/
def u64 (i : Int) : Int := i % 2 ^ 64

/-! ## Data model -/

/-- The entry type; only the comparison with `DUC_MODE_DIR` is used. -/
inductive duc_mode where
  | DUC_MODE_REG
  | DUC_MODE_DIR
  deriving DecidableEq

mutual
/-- A directory handle: `duc_dirpath`, `duc_dirsize` and the entries that
`duc_readdir` yields, in order. -/
inductive duc_dir where
  | mk (path : String) (size_total : Nat) (ents : List duc_dirent)
/-- A `struct duc_dirent` together with the result of `duc_opendirat` on it
(`none` when the call returns `NULL`). -/
inductive duc_dirent where
  | mk (name : String) (size : Nat) (mode : duc_mode) (child : Option duc_dir)
end

/-- Value of `duc_dirpath`. -/
def duc_dirpath : duc_dir → String
  | .mk path _ _ => path

/-- Value of `duc_dirsize`. -/
def duc_dirsize : duc_dir → Nat
  | .mk _ size_total _ => size_total

/-- Entries read by `duc_readdir` after a rewind. -/
def duc_dir.ents : duc_dir → List duc_dirent
  | .mk _ _ ents => ents

/-- Field `name` of an entry. -/
def duc_dirent.name : duc_dirent → String
  | .mk name _ _ _ => name

/-- Field `size` of an entry. -/
def duc_dirent.size : duc_dirent → Nat
  | .mk _ size _ _ => size

/-- Field `mode` of an entry. -/
def duc_dirent.mode : duc_dirent → duc_mode
  | .mk _ _ mode _ => mode

/-- What `duc_opendirat` returns for an entry. -/
def duc_dirent.child : duc_dirent → Option duc_dir
  | .mk _ _ _ child => child

/-- The fields of `struct graph` that the geometry uses. -/
structure graph where
  cx : Int
  cy : Int
  ring_width : Int
  depth : Int
  spot_a : Dbl
  spot_r : Dbl

/-- One effect of `draw_ring`.  `ring` is the `draw_section` call of line 204,
`marker` the depth-limit call of line 216, `label` the push on `label_list`
(recorded with the polar arguments handed to `pol2car`).  The first field is a
ghost: the chain of entry names from the child of the root directory down to
the entry being drawn. -/
inductive draw_op where
  | ring (chain : List String) (a_from a_to r_from r_to hue brightness : Dbl)
  | marker (chain : List String) (a_from a_to r_from r_to hue brightness : Dbl)
  | label (chain : List String) (a r : Dbl) (name : String) (size : Nat)
  deriving DecidableEq

/-- The array `char *part[]` as a log of stores `part[level] = name`, the most
recent first; a slot never stored to is `NULL`. -/
abbrev part_log := List (Nat × String)

/-! ## draw_ring -/

/-- Function `ang`: turns to radians, with 0 pointing up. -/
def ang (a : Dbl) : Dbl := -M_PI * Dbl.fin (1 / 2) + M_PI * 2 * a

/-- First pass of `draw_ring` (lines 178-184): `size_min` and `size_max`. -/
def size_scan (size_total : Nat) (ents : List duc_dirent) : Int × Int :=
  ents.foldl
    (fun acc e =>
      (if u64 e.size < acc.1 then u64 e.size else acc.1,
       if u64 e.size > acc.2 then u64 e.size else acc.2))
    (u64 size_total, 0)

mutual
/-- Function `draw_ring` (lines 163-238). -/
def draw_ring (g : graph) (dir : duc_dir) (level : Nat) (a_min a_max : Dbl)
    (chain : List String) : List draw_op :=
  match dir with
  | .mk _ size_total ents =>
    draw_ring_loop g level (a_max - a_min) size_total
      (size_scan size_total ents).1 (size_scan size_total ents).2 chain ents a_min a_min
/-- The second `while` loop of `draw_ring` (lines 187-237), from the loop state
`a_from`, `a_to`. -/
def draw_ring_loop (g : graph) (level : Nat) (a_range : Dbl) (size_total : Nat)
    (size_min size_max : Int) (chain : List String) :
    List duc_dirent → Dbl → Dbl → List draw_op
  | [], _, _ => []
  | (.mk name size mode child) :: es, a_from, a_to =>
    let r_from := Dbl.ofInt ((level + 1) * g.ring_width)
    let r_to := r_from + Dbl.ofInt g.ring_width
    let a_to := a_to + a_range * Dbl.ofInt size / Dbl.ofInt size_total
    if r_to * (a_to - a_from) * M_PI * 2 < 2 then []
    else if a_to ≤ a_from then []
    else
      let hue := Dbl.fin (4 / 5) - Dbl.fin (4 / 5) * Dbl.ofInt (u64 (size - size_min + 1))
        / Dbl.ofInt (u64 (size_max - size_min + 1))
      let brightness := Dbl.fin (4 / 5) * r_from / Dbl.ofInt g.cx
      draw_op.ring (chain ++ [name]) a_from a_to r_from r_to hue brightness
        :: ((if mode = duc_mode.DUC_MODE_DIR then
              (if (level : Int) + 1 < g.depth then
                (match child with
                 | some dir_child => draw_ring g dir_child (level + 1) a_from a_to (chain ++ [name])
                 | none => [])
               else
                 [draw_op.marker (chain ++ [name]) a_from a_to r_to (r_to + 5) hue
                   (Dbl.fin (1 / 2))])
             else [])
          ++ ((if r_from * (a_to - a_from) > 5 then
                [draw_op.label (chain ++ [name]) (ang ((a_from + a_to) / 2)) ((r_from + r_to) / 2)
                  name size]
               else [])
              ++ draw_ring_loop g level a_range size_total size_min size_max chain es a_to a_to))
end

/-! ## find_spot -/

mutual
/-- Function `find_spot` (lines 241-288); the result is the returned flag and the
array `part` after the call. -/
def find_spot (g : graph) (dir : duc_dir) (level : Nat) (a_min a_max : Dbl)
    (part : part_log) : Bool × part_log :=
  match dir with
  | .mk _ size_total ents =>
    find_spot_loop g level (a_max - a_min) size_total ents a_min a_min part
/-- The `while` loop of `find_spot` (lines 252-285), from the loop state
`a_from`, `a_to`. -/
def find_spot_loop (g : graph) (level : Nat) (a_range : Dbl) (size_total : Nat) :
    List duc_dirent → Dbl → Dbl → part_log → Bool × part_log
  | [], _, _, part => (false, part)
  | (.mk name size mode child) :: es, a_from, a_to, part =>
    let a_to := a_to + a_range * Dbl.ofInt size / Dbl.ofInt size_total
    if a_to > a_from then
      let r_from := Dbl.ofInt ((level + 1) * g.ring_width)
      let r_to := r_from + Dbl.ofInt g.ring_width
      let a := g.spot_a
      let r := g.spot_r
      if a ≥ a_from ∧ a ≤ a_to ∧ r ≥ r_from ∧ r ≤ r_to then
        (true, (level, name) :: part)
      else if mode = duc_mode.DUC_MODE_DIR ∧ (level : Int) + 1 < g.depth then
        match child with
        | some dir_child =>
          let res := find_spot g dir_child (level + 1) a_from a_to part
          if res.1 then (true, (level, name) :: res.2)
          else find_spot_loop g level a_range size_total es a_to a_to res.2
        | none => find_spot_loop g level a_range size_total es a_to a_to part
      else find_spot_loop g level a_range size_total es a_to a_to part
    else find_spot_loop g level a_range size_total es a_to a_to part
end

/-! ## Orchestration -/

/-- The chart context set up by `duc_graph_cairo` and `duc_graph_xy_to_path`
(lines 321-326 and 363-368), before the probe point is known. -/
def graph_init (size depth : Int) : graph :=
  { cx := size.tdiv 2
    cy := size.tdiv 2
    ring_width := ((size - 30).tdiv 2).tdiv (depth + 1)
    depth := depth
    spot_a := 0
    spot_r := 0 }

/-- The draw effects of `duc_graph_cairo`: `draw_ring` from level 1 with span
0..1.  The result is `none` when `depth + 1 = 0` (integer division by zero). -/
def duc_graph_cairo (dir : duc_dir) (size depth : Int) : Option (List draw_op) :=
  if depth + 1 = 0 then none
  else some (draw_ring (graph_init size depth) dir 1 0 1 [])

/-- The functions of the C library that `graph.c` calls and whose code is not
part of the program: `hypot` and `atan2` of `math.h`, and the effect of
`dirname` of `libgen.h` on the buffer it is given. -/
structure libc where
  hypot : Dbl → Dbl → Dbl
  atan2 : Dbl → Dbl → Dbl
  dirname : String → String

/-- Function `car2pol` (lines 52-59): the pair `(a, r)`. -/
def car2pol (lc : libc) (g : graph) (x y : Int) : Dbl × Dbl :=
  let x := x - g.cx
  let y := y - g.cy
  let r := lc.hypot (Dbl.ofInt y) (Dbl.ofInt x)
  let a := lc.atan2 (Dbl.ofInt x) (Dbl.ofInt (-y)) / (M_PI * 2)
  (if a < 0 then a + 1 else a, r)

/-- The joining loop of `duc_graph_xy_to_path` (lines 391-397): slots
`0 .. depth-1` of `part`, in order, each appended after a slash. -/
def join_parts (depth : Int) (part : part_log) (path : String) : String :=
  (List.range depth.toNat).foldl
    (fun p i =>
      match part.lookup i with
      | some s => p ++ "/" ++ s
      | none => p)
    path

/-- Function `duc_graph_xy_to_path` (lines 356-401): the returned flag and the
contents of `path`.  The buffer is taken large enough for every string written
to it.  The result is `none` when the behaviour of the C code is undefined: a
division by `depth + 1 = 0`, a variable-length array `part[depth]` with
`depth <= 0`, or a store `part[level]` with `level >= depth`. -/
def duc_graph_xy_to_path (lc : libc) (dir : duc_dir) (size depth x y : Int) :
    Option (Bool × String) :=
  if depth + 1 = 0 then none
  else
    let g := graph_init size depth
    let r := lc.hypot (Dbl.ofInt (x - size.tdiv 2)) (Dbl.ofInt (y - size.tdiv 2))
      / Dbl.ofInt g.ring_width
    if r < 2 then some (true, lc.dirname (duc_dirpath dir))
    else
      let p := car2pol lc g x y
      if depth ≤ 0 then none
      else
        let res := find_spot { g with spot_a := p.1, spot_r := p.2 } dir 1 0 1 []
        if res.2.any (fun w => decide (depth ≤ (w.1 : Int))) then none
        else some (res.1, if res.1 then join_parts depth res.2 (duc_dirpath dir)
                          else duc_dirpath dir)

/-! ## Colour and polar coordinates -/

/-- Function `hsv2rgb` (lines 62-85): the triple `(r, g, b)`.  The result is
`none` when `floor(h * 6)` is an infinity or `NaN`, whose conversion to `int`
is undefined. -/
def hsv2rgb (h s v : Dbl) : Option (Dbl × Dbl × Dbl) :=
  let h := h * 6
  match (Dbl.floor h).toInt with
  | none => none
  | some i =>
    let f := h - Dbl.ofInt i
    let f := if i % 2 = 0 then 1 - f else f
    let m := v * (1 - s)
    let n := v * (1 - s * f)
    let i := if i < 0 then 0 else i
    let i := if i > 6 then 6 else i
    some
      (if i = 6 ∨ i = 0 then (v, n, m)
       else if i = 1 then (n, v, m)
       else if i = 2 then (m, v, n)
       else if i = 3 then (m, n, v)
       else if i = 4 then (n, m, v)
       else if i = 5 then (v, m, n)
       else (1, 1, 1))

/-- The base colour `(r, g, b)` that `draw_section` (lines 133-141) computes
from `hue` and `brightness` before it paints the sector: grey when the
brightness is not positive, `hsv2rgb` otherwise.  The geometric arguments of
`draw_section` are handed to the drawing backend unchanged. -/
def draw_section (hue brightness : Dbl) : Option (Dbl × Dbl × Dbl) :=
  if brightness > 0 then
    hsv2rgb hue (1 - brightness) (brightness / 2 + Dbl.fin (1 / 2))
  else some (Dbl.fin (3 / 5), Dbl.fin (3 / 5), Dbl.fin (3 / 5))

/-- The functions `cos` and `sin` of `math.h`, called by `pol2car`; their code
is not part of the program. -/
structure libm_trig where
  cos : Dbl → Dbl
  sin : Dbl → Dbl

/-- Function `pol2car` (lines 45-49): the pixel `(x, y)`, each coordinate
converted from `double` to `int`; `none` when a conversion is undefined. -/
def pol2car (tr : libm_trig) (g : graph) (a r : Dbl) : Option (Int × Int) :=
  match (tr.cos a * r + Dbl.ofInt g.cx).toInt, (tr.sin a * r + Dbl.ofInt g.cy).toInt with
  | some x, some y => some (x, y)
  | _, _ => none

/-! ## Binary64 rounding

The arithmetic of `Dbl` above is exact.  The definitions below give the
IEEE-754 binary64 arithmetic of the C program: every operation returns the
exact result rounded to the nearest binary64 number, ties to even, with overflow
to an infinity.  The program is embedded a second time over a rounding function
`rnd`, in the namespace `fp`; with `rnd = Dbl.round64` this is the arithmetic of
the compiled program. -/

namespace Dbl

/-- The integer nearest to `q`, ties to the even one. -/
def rne (q : ℚ) : Int :=
  if q - Int.floor q < 1 / 2 then Int.floor q
  else if 1 / 2 < q - Int.floor q then Int.floor q + 1
  else if Int.floor q % 2 = 0 then Int.floor q
  else Int.floor q + 1

/-- Bit length minus one of a natural number, by repeated halving; `fuel`
bounds the number of halvings. -/
def log2_aux : Nat → Nat → Nat
  | 0, _ => 0
  | fuel + 1, n => if n < 2 then 0 else log2_aux fuel (n / 2) + 1

/-- The binary exponent of a natural number `n >= 1`: the `k` with
`2^k <= n < 2^(k+1)`. -/
def nat_log2 (n : Nat) : Nat := log2_aux n n

/-- The binary exponent of a rational `q` other than 0: the integer `k` with
`2^k <= |q| < 2^(k+1)`, found from the bit lengths of numerator and
denominator. -/
def ilog2 (q : ℚ) : Int :=
  if (2 : ℚ) ^ ((nat_log2 q.num.natAbs : Int) - (nat_log2 q.den : Int)) ≤ |q| then
    (nat_log2 q.num.natAbs : Int) - (nat_log2 q.den : Int)
  else (nat_log2 q.num.natAbs : Int) - (nat_log2 q.den : Int) - 1

/-- The exponent of the spacing of the binary64 numbers around `q`: 52 below the
binary exponent of `q`, and `-1074` in the subnormal range. -/
def ulp_exp (q : ℚ) : Int := max (ilog2 q - 52) (-1074)

/-- The multiple of the spacing nearest to `q`, ties to even: the binary64
rounding of `q` before the test for overflow. -/
def r64 (q : ℚ) : ℚ := (rne (q / 2 ^ ulp_exp q) : ℚ) * 2 ^ ulp_exp q

/-- Rounding of a rational to binary64: the nearest multiple of the spacing,
ties to even; an infinity when that is `2^1024` or more in absolute value. -/
def round64 (q : ℚ) : Dbl :=
  if 2 ^ 1024 ≤ r64 q then pinf
  else if r64 q ≤ -2 ^ 1024 then ninf
  else fin (r64 q)

/-- The rationals `m * 2^e` with `|m| <= 2^53` and `e >= -1074`: the binary64
numbers, without the upper limit on the exponent. -/
def representable (v : ℚ) : Prop :=
  ∃ m e : Int, |m| ≤ 2 ^ 53 ∧ -1074 ≤ e ∧ v = (m : ℚ) * 2 ^ e

/-- The result of an operation, rounded with `rnd` when it is finite. -/
def rounded (rnd : ℚ → Dbl) : Dbl → Dbl
  | fin q => rnd q
  | a => a

end Dbl

namespace fp

/-- Addition of doubles. -/
def add (rnd : ℚ → Dbl) (a b : Dbl) : Dbl := Dbl.rounded rnd (a + b)

/-- Subtraction of doubles. -/
def sub (rnd : ℚ → Dbl) (a b : Dbl) : Dbl := Dbl.rounded rnd (a - b)

/-- Multiplication of doubles. -/
def mul (rnd : ℚ → Dbl) (a b : Dbl) : Dbl := Dbl.rounded rnd (a * b)

/-- Division of doubles. -/
def div (rnd : ℚ → Dbl) (a b : Dbl) : Dbl := Dbl.rounded rnd (a / b)

/-- Conversion of a C integer to `double`. -/
def ofInt (rnd : ℚ → Dbl) (i : Int) : Dbl := rnd i

/-- A decimal constant of the source, such as `0.8`. -/
def lit (rnd : ℚ → Dbl) (q : ℚ) : Dbl := rnd q

/-- Function `ang`: `-M_PI * 0.5 + M_PI * 2 * a`. -/
def ang (rnd : ℚ → Dbl) (a : Dbl) : Dbl :=
  add rnd (mul rnd (-M_PI) (lit rnd (1 / 2))) (mul rnd (mul rnd M_PI 2) a)

/-- The angular increment `a_range * e->size / size_total` of lines 189 and 254. -/
def span_step (rnd : ℚ → Dbl) (a_range : Dbl) (size_total size : Nat) : Dbl :=
  div rnd (mul rnd a_range (ofInt rnd size)) (ofInt rnd size_total)

/-- The hue of line 199:
`0.8 - 0.8 * (double)(e->size - size_min + 1) / (size_max - size_min + 1)`. -/
def hue (rnd : ℚ → Dbl) (size_min size_max : Int) (size : Nat) : Dbl :=
  sub rnd (lit rnd (4 / 5))
    (div rnd (mul rnd (lit rnd (4 / 5)) (ofInt rnd (u64 (size - size_min + 1))))
      (ofInt rnd (u64 (size_max - size_min + 1))))

/-- The inner radius `(level+1) * ring_width` of a level, as a `double`. -/
def r_from (rnd : ℚ → Dbl) (g : graph) (level : Nat) : Dbl :=
  ofInt rnd ((level + 1) * g.ring_width)

/-- The outer radius `r_from + ring_width` of a level. -/
def r_to (rnd : ℚ → Dbl) (g : graph) (level : Nat) : Dbl :=
  add rnd (r_from rnd g level) (ofInt rnd g.ring_width)

mutual
/-- Function `draw_ring` (lines 163-238). -/
def draw_ring (rnd : ℚ → Dbl) (g : graph) (dir : duc_dir) (level : Nat) (a_min a_max : Dbl)
    (chain : List String) : List draw_op :=
  match dir with
  | .mk _ size_total ents =>
    draw_ring_loop rnd g level (sub rnd a_max a_min) size_total
      (size_scan size_total ents).1 (size_scan size_total ents).2 chain ents a_min a_min
/-- The second `while` loop of `draw_ring` (lines 187-237), from the loop state
`a_from`, `a_to`. -/
def draw_ring_loop (rnd : ℚ → Dbl) (g : graph) (level : Nat) (a_range : Dbl) (size_total : Nat)
    (size_min size_max : Int) (chain : List String) :
    List duc_dirent → Dbl → Dbl → List draw_op
  | [], _, _ => []
  | (.mk name size mode child) :: es, a_from, a_to =>
    let a_to := add rnd a_to (span_step rnd a_range size_total size)
    if mul rnd (mul rnd (mul rnd (r_to rnd g level) (sub rnd a_to a_from)) M_PI) 2 < 2 then []
    else if a_to ≤ a_from then []
    else
      let brightness := div rnd (mul rnd (lit rnd (4 / 5)) (r_from rnd g level)) (ofInt rnd g.cx)
      draw_op.ring (chain ++ [name]) a_from a_to (r_from rnd g level) (r_to rnd g level)
          (hue rnd size_min size_max size) brightness
        :: ((if mode = duc_mode.DUC_MODE_DIR then
              (if (level : Int) + 1 < g.depth then
                (match child with
                 | some dir_child =>
                   draw_ring rnd g dir_child (level + 1) a_from a_to (chain ++ [name])
                 | none => [])
               else
                 [draw_op.marker (chain ++ [name]) a_from a_to (r_to rnd g level)
                   (add rnd (r_to rnd g level) 5) (hue rnd size_min size_max size)
                   (lit rnd (1 / 2))])
             else [])
          ++ ((if mul rnd (r_from rnd g level) (sub rnd a_to a_from) > 5 then
                [draw_op.label (chain ++ [name]) (ang rnd (div rnd (add rnd a_from a_to) 2))
                  (div rnd (add rnd (r_from rnd g level) (r_to rnd g level)) 2) name size]
               else [])
              ++ draw_ring_loop rnd g level a_range size_total size_min size_max chain es
                  a_to a_to))
end

mutual
/-- Function `find_spot` (lines 241-288); the result is the returned flag and the
array `part` after the call. -/
def find_spot (rnd : ℚ → Dbl) (g : graph) (dir : duc_dir) (level : Nat) (a_min a_max : Dbl)
    (part : part_log) : Bool × part_log :=
  match dir with
  | .mk _ size_total ents =>
    find_spot_loop rnd g level (sub rnd a_max a_min) size_total ents a_min a_min part
/-- The `while` loop of `find_spot` (lines 252-285), from the loop state
`a_from`, `a_to`. -/
def find_spot_loop (rnd : ℚ → Dbl) (g : graph) (level : Nat) (a_range : Dbl)
    (size_total : Nat) : List duc_dirent → Dbl → Dbl → part_log → Bool × part_log
  | [], _, _, part => (false, part)
  | (.mk name size mode child) :: es, a_from, a_to, part =>
    let a_to := add rnd a_to (span_step rnd a_range size_total size)
    if a_to > a_from then
      if g.spot_a ≥ a_from ∧ g.spot_a ≤ a_to ∧ g.spot_r ≥ r_from rnd g level
          ∧ g.spot_r ≤ r_to rnd g level then
        (true, (level, name) :: part)
      else if mode = duc_mode.DUC_MODE_DIR ∧ (level : Int) + 1 < g.depth then
        match child with
        | some dir_child =>
          let res := find_spot rnd g dir_child (level + 1) a_from a_to part
          if res.1 then (true, (level, name) :: res.2)
          else find_spot_loop rnd g level a_range size_total es a_to a_to res.2
        | none => find_spot_loop rnd g level a_range size_total es a_to a_to part
      else find_spot_loop rnd g level a_range size_total es a_to a_to part
    else find_spot_loop rnd g level a_range size_total es a_to a_to part
end

/-- Function `car2pol` (lines 52-59): the pair `(a, r)`. -/
def car2pol (rnd : ℚ → Dbl) (lc : libc) (g : graph) (x y : Int) : Dbl × Dbl :=
  let x := x - g.cx
  let y := y - g.cy
  let r := lc.hypot (ofInt rnd y) (ofInt rnd x)
  let a := div rnd (lc.atan2 (ofInt rnd x) (ofInt rnd (-y))) (mul rnd M_PI 2)
  (if a < 0 then add rnd a 1 else a, r)

/-- Function `pol2car` (lines 45-49): the pixel `(x, y)`, each coordinate
converted from `double` to `int`; `none` when a conversion is undefined. -/
def pol2car (rnd : ℚ → Dbl) (tr : libm_trig) (g : graph) (a r : Dbl) : Option (Int × Int) :=
  match (add rnd (mul rnd (tr.cos a) r) (ofInt rnd g.cx)).toInt,
      (add rnd (mul rnd (tr.sin a) r) (ofInt rnd g.cy)).toInt with
  | some x, some y => some (x, y)
  | _, _ => none

end fp

/-! ## Specification-side definitions -/

/-- Sum of the sizes of a list of entries. -/
def sum_sizes (es : List duc_dirent) : Nat := (es.map duc_dirent.size).sum

mutual
/-- The child sizes of the directory sum to its total size, and so on in every
sub-directory that can be opened. -/
def sizes_consistent : duc_dir → Bool
  | .mk _ size_total ents => decide (sum_sizes ents = size_total) && ents_consistent ents
/-- Every sub-directory that can be opened from these entries is consistent. -/
def ents_consistent : List duc_dirent → Bool
  | [] => true
  | (.mk _ _ mode child) :: es =>
    (match child with
     | some d => (!decide (mode = duc_mode.DUC_MODE_DIR)) || sizes_consistent d
     | none => true) && ents_consistent es
end

/-- The stores `part[level] = n0`, `part[level+1] = n1`, ... for a chain of
names, as a log. -/
def path_log (level : Nat) : List String → part_log
  | [] => []
  | n :: ns => (level, n) :: path_log (level + 1) ns

/-- An entry tested by the hit-test: its chain of names relative to the
directory searched, its level and its angular span. -/
structure visit where
  chain : List String
  level : Nat
  a_from : Dbl
  a_to : Dbl
  deriving DecidableEq

/-- Add the name of the enclosing entry in front of a chain. -/
def visit.under (name : String) (v : visit) : visit := { v with chain := name :: v.chain }

mutual
/-- Specification of the entries `find_spot` visits, in depth-first pre-order:
each child with `a_to > a_from`, followed by the visits of its directory when
the child is a directory that can be opened and `level + 1 < depth`. -/
def find_visits (g : graph) (dir : duc_dir) (level : Nat) (a_min a_max : Dbl) : List visit :=
  match dir with
  | .mk _ size_total ents => find_visits_loop g level (a_max - a_min) size_total ents a_min a_min
/-- Visits of the entries of one directory from the loop state `a_from`, `a_to`. -/
def find_visits_loop (g : graph) (level : Nat) (a_range : Dbl) (size_total : Nat) :
    List duc_dirent → Dbl → Dbl → List visit
  | [], _, _ => []
  | (.mk name size mode child) :: es, a_from, a_to =>
    let a_to := a_to + a_range * Dbl.ofInt size / Dbl.ofInt size_total
    if a_to > a_from then
      { chain := [name], level := level, a_from := a_from, a_to := a_to }
        :: ((if mode = duc_mode.DUC_MODE_DIR ∧ (level : Int) + 1 < g.depth then
              (match child with
               | some dir_child =>
                 (find_visits g dir_child (level + 1) a_from a_to).map (visit.under name)
               | none => [])
             else [])
            ++ find_visits_loop g level a_range size_total es a_to a_to)
    else find_visits_loop g level a_range size_total es a_to a_to
end

/-- The match test of `find_spot` (line 263) for a visited entry: the probe
angle lies in the closed span and the probe radius in the closed band. -/
def hit (g : graph) (v : visit) : Bool :=
  decide (g.spot_a ≥ v.a_from ∧ g.spot_a ≤ v.a_to
    ∧ g.spot_r ≥ Dbl.ofInt ((v.level + 1) * g.ring_width)
    ∧ g.spot_r ≤ Dbl.ofInt ((v.level + 1) * g.ring_width) + Dbl.ofInt g.ring_width)

/-- The probe point of `g` lies strictly inside the angular span and the
radius band of a drawn ring sector. -/
def strictly_inside (g : graph) : draw_op → Prop
  | .ring _ a_from a_to r_from r_to _ _ =>
    a_from < g.spot_a ∧ g.spot_a < a_to ∧ r_from < g.spot_r ∧ g.spot_r < r_to
  | _ => False

/-- The chain of names of a ring sector. -/
def ring_chain : draw_op → Option (List String)
  | .ring chain _ _ _ _ _ _ => some chain
  | _ => none

/-- The break tests of `draw_ring` (lines 193-194) for a child with span
`a_from .. a_to` at `level`. -/
def culled (g : graph) (level : Nat) (a_from a_to : Dbl) : Prop :=
  (Dbl.ofInt ((level + 1) * g.ring_width) + Dbl.ofInt g.ring_width) * (a_to - a_from) * M_PI * 2 < 2
    ∨ a_to ≤ a_from

instance (g : graph) (level : Nat) (a_from a_to : Dbl) : Decidable (culled g level a_from a_to) :=
  inferInstanceAs (Decidable (_ ∨ _))

/-- The angular increment of line 189 and 254. -/
def span_step (a_range : Dbl) (size_total : Nat) (e : duc_dirent) : Dbl :=
  a_range * Dbl.ofInt e.size / Dbl.ofInt size_total

/-- The spans `(name, a_from, a_to)` that the accumulation of lines 189/236
assigns to the children, in order, when no child is culled. -/
def sibling_spans (a_range : Dbl) (size_total : Nat) :
    List duc_dirent → Dbl → List (String × Dbl × Dbl)
  | [], _ => []
  | e :: es, a =>
    (e.name, a, a + span_step a_range size_total e)
      :: sibling_spans a_range size_total es (a + span_step a_range size_total e)

/-- Number of leading children that pass the break tests of `draw_ring`. -/
def drawn_count (g : graph) (level : Nat) (a_range : Dbl) (size_total : Nat) :
    List duc_dirent → Dbl → Nat
  | [], _ => 0
  | e :: es, a =>
    if culled g level a (a + span_step a_range size_total e) then 0
    else 1 + drawn_count g level a_range size_total es (a + span_step a_range size_total e)

/-- The ring sectors of a draw trace whose chain has length `n`, i.e. the
sectors of one level, as `(name, a_from, a_to)`. -/
def level_rings (n : Nat) (ops : List draw_op) : List (String × Dbl × Dbl) :=
  ops.filterMap (fun op =>
    match op with
    | .ring chain a_from a_to _ _ _ _ =>
      if chain.length = n then some (chain.getLast?.getD "", a_from, a_to) else none
    | _ => none)

/-- Sum of the widths `a_to - a_from` of a list of spans. -/
def sum_widths : List (String × Dbl × Dbl) → Dbl
  | [] => 0
  | s :: ss => (s.2.2 - s.2.1) + sum_widths ss

/-- The sub-directory into which both traversals recurse for an entry: the
opened child when the entry is a directory and `level + 1 < depth`. -/
def eligible (g : graph) (level : Nat) (mode : duc_mode) (child : Option duc_dir) :
    Option duc_dir :=
  if mode = duc_mode.DUC_MODE_DIR ∧ (level : Int) + 1 < g.depth then child else none

/-- The hue of line 199 for an entry of size `size`. -/
def hue_of (size_min size_max : Int) (size : Nat) : Dbl :=
  Dbl.fin (4 / 5) - Dbl.fin (4 / 5) * Dbl.ofInt (u64 (size - size_min + 1))
    / Dbl.ofInt (u64 (size_max - size_min + 1))

/-- The `draw_section` call of line 204 for an entry with span `a_from .. a_to`. -/
def ring_of (g : graph) (level : Nat) (size_min size_max : Int) (chain : List String)
    (e : duc_dirent) (a_from a_to : Dbl) : draw_op :=
  draw_op.ring (chain ++ [e.name]) a_from a_to
    (Dbl.ofInt ((level + 1) * g.ring_width))
    (Dbl.ofInt ((level + 1) * g.ring_width) + Dbl.ofInt g.ring_width)
    (hue_of size_min size_max e.size)
    (Dbl.fin (4 / 5) * Dbl.ofInt ((level + 1) * g.ring_width) / Dbl.ofInt g.cx)

/-- What lines 208-218 produce for an entry: the recursion into the opened
sub-directory, or the depth-limit marker. -/
def sub_part (g : graph) (level : Nat) (size_min size_max : Int) (chain : List String)
    (e : duc_dirent) (a_from a_to : Dbl) : List draw_op :=
  if e.mode = duc_mode.DUC_MODE_DIR then
    (if (level : Int) + 1 < g.depth then
      (match e.child with
       | some dir_child => draw_ring g dir_child (level + 1) a_from a_to (chain ++ [e.name])
       | none => [])
     else
       [draw_op.marker (chain ++ [e.name]) a_from a_to
         (Dbl.ofInt ((level + 1) * g.ring_width) + Dbl.ofInt g.ring_width)
         (Dbl.ofInt ((level + 1) * g.ring_width) + Dbl.ofInt g.ring_width + 5)
         (hue_of size_min size_max e.size) (Dbl.fin (1 / 2))])
  else []

/-- What lines 222-234 produce for an entry: its label, when there is room. -/
def label_part (g : graph) (level : Nat) (chain : List String) (e : duc_dirent)
    (a_from a_to : Dbl) : List draw_op :=
  if Dbl.ofInt ((level + 1) * g.ring_width) * (a_to - a_from) > 5 then
    [draw_op.label (chain ++ [e.name]) (ang ((a_from + a_to) / 2))
      ((Dbl.ofInt ((level + 1) * g.ring_width)
        + (Dbl.ofInt ((level + 1) * g.ring_width) + Dbl.ofInt g.ring_width)) / 2)
      e.name e.size]
  else []

/-- The result of the hit-test according to the specification: found with the
names of the first visited entry that passes the match test stored from
`part[level]` on, or not found with `part` untouched. -/
def first_hit (g : graph) (level : Nat) (part : part_log) (vs : List visit) : Bool × part_log :=
  match vs.find? (hit g) with
  | some v => (true, path_log level v.chain ++ part)
  | none => (false, part)

/-- Loop invariant of the angular accumulation in a directory of total size
`size_total` whose span has width `w`: from the angle `x`, the spans of the
remaining entries `es` end at or before `hi`; in a directory of total size 0
the remaining entries have size 0. -/
def span_ok (size_total : Nat) (w : ℚ) (es : List duc_dirent) (x hi : ℚ) : Prop :=
  (size_total = 0 ∧ sum_sizes es = 0)
    ∨ (0 < size_total ∧ x + w * (sum_sizes es : ℚ) / (size_total : ℚ) ≤ hi)

/-- The ring sectors `(name, a_from, a_to)` that `draw_ring` draws for the
children of the directory itself, in drawing order. -/
def own_rings (g : graph) (d : duc_dir) (level : Nat) (a_min a_max : Dbl)
    (chain : List String) : List (String × Dbl × Dbl) :=
  level_rings (chain.length + 1) (draw_ring g d level a_min a_max chain)

/-- The colour of the specification for finite arguments: with `i` the sector
`floor(6 * hue)` and `f` the fractional part of `6 * hue`, inverted on even
sectors, `m = v (1 - s)` and `n = v (1 - s f)`, the triple that the table of
six sectors `(v,n,m)`, `(n,v,m)`, `(m,v,n)`, `(m,n,v)`, `(n,m,v)`, `(v,m,n)`
assigns to sector `i`, sector 6 being sector 0 again. -/
def hsv_table (h s v : ℚ) : ℚ × ℚ × ℚ :=
  let i := Int.floor (6 * h)
  let f := if i % 2 = 0 then 1 - (6 * h - i) else 6 * h - i
  let m := v * (1 - s)
  let n := v * (1 - s * f)
  [(v, n, m), (n, v, m), (m, v, n), (m, n, v), (n, m, v), (v, m, n)].getD (i % 6).toNat (1, 1, 1)

/-- The computation of `hsv2rgb` on finite values, for the sector index `i` and
the fractional part `f` of `6 * hue`: inversion of `f` on even sectors, `m`,
`n`, clamping of the index and the `switch`. -/
def hsv_sector (i : Int) (f s v : ℚ) : ℚ × ℚ × ℚ :=
  let f := if i % 2 = 0 then 1 - f else f
  let m := v * (1 - s)
  let n := v * (1 - s * f)
  let i := if i < 0 then 0 else i
  let i := if i > 6 then 6 else i
  if i = 6 ∨ i = 0 then (v, n, m)
  else if i = 1 then (n, v, m)
  else if i = 2 then (m, v, n)
  else if i = 3 then (m, n, v)
  else if i = 4 then (n, m, v)
  else if i = 5 then (v, m, n)
  else (1, 1, 1)

/-- A triple of finite doubles. -/
def fin3 (t : ℚ × ℚ × ℚ) : Dbl × Dbl × Dbl := (Dbl.fin t.1, Dbl.fin t.2.1, Dbl.fin t.2.2)

/-- The rational value of the constant `M_PI`. -/
def M_PI_q : ℚ := 884279719003555 / 281474976710656

/-- The part of the contract of `atan2` and `hypot` (C standard, annex F) that
`car2pol` relies on, for finite arguments: `atan2` returns a finite angle
between `-M_PI` and `M_PI`, `0` for a point on the positive x axis and
`M_PI / 2` for a point on the positive y axis; `hypot` returns a finite
non-negative value, the Euclidean norm itself whenever that norm is a
rational number. -/
def libm_ok (lc : libc) : Prop :=
  (∀ y x : ℚ, ∃ t : ℚ, lc.atan2 (Dbl.fin y) (Dbl.fin x) = Dbl.fin t ∧ -M_PI_q ≤ t ∧ t ≤ M_PI_q)
    ∧ (∀ x : ℚ, 0 < x → lc.atan2 (Dbl.fin 0) (Dbl.fin x) = Dbl.fin 0)
    ∧ (∀ y : ℚ, 0 < y → lc.atan2 (Dbl.fin y) (Dbl.fin 0) = Dbl.fin (M_PI_q / 2))
    ∧ (∀ a b : ℚ, ∃ h : ℚ, lc.hypot (Dbl.fin a) (Dbl.fin b) = Dbl.fin h ∧ 0 ≤ h)
    ∧ (∀ a b h : ℚ, 0 ≤ h → h * h = a * a + b * b → lc.hypot (Dbl.fin a) (Dbl.fin b) = Dbl.fin h)

mutual
/-- The directory cut off `k` levels below itself: the entries of the
directory and of its sub-directories down to `k` levels are kept, and no entry
`k` levels down can be opened. -/
def prune (k : Nat) : duc_dir → duc_dir
  | .mk path size_total ents => .mk path size_total (prune_ents k ents)
/-- The entries of a directory, their sub-directories cut off after `k - 1`
further levels (none can be opened when `k = 0`). -/
def prune_ents (k : Nat) : List duc_dirent → List duc_dirent
  | [] => []
  | (.mk name size mode child) :: es =>
    .mk name size mode
        (match k, child with
         | k + 1, some d => some (prune k d)
         | _, _ => none)
      :: prune_ents k es
end

mutual
/-- Number of levels of a directory tree: 1 for a directory none of whose
entries can be opened. -/
def dir_height : duc_dir → Nat
  | .mk _ _ ents => 1 + ents_height ents
/-- Largest number of levels among the sub-directories that can be opened from
a list of entries. -/
def ents_height : List duc_dirent → Nat
  | [] => 0
  | (.mk _ _ _ child) :: es =>
    max (match child with
         | some d => dir_height d
         | none => 0) (ents_height es)
end

/-- A draw effect carries the radii and the brightness that `draw_ring` uses
at `level`: for a ring sector the band of the level and the brightness
`0.8 * r_from / cx`, for a depth-limit marker the 5 pixels outside the band and
the brightness `0.5`. -/
def op_at_level (g : graph) (level : Nat) : draw_op → Prop
  | .ring _ _ _ r_from r_to _ brightness =>
    r_from = Dbl.ofInt ((level + 1) * g.ring_width)
      ∧ r_to = Dbl.ofInt ((level + 1) * g.ring_width) + Dbl.ofInt g.ring_width
      ∧ brightness = Dbl.fin (4 / 5) * Dbl.ofInt ((level + 1) * g.ring_width) / Dbl.ofInt g.cx
  | .marker _ _ _ r_from r_to _ brightness =>
    r_from = Dbl.ofInt ((level + 1) * g.ring_width) + Dbl.ofInt g.ring_width
      ∧ r_to = Dbl.ofInt ((level + 1) * g.ring_width) + Dbl.ofInt g.ring_width + 5
      ∧ brightness = Dbl.fin (1 / 2)
  | .label _ _ _ _ _ => True

/-- The hue and the brightness that `draw_ring` hands to `draw_section` for a
ring sector or a marker. -/
def op_colour : draw_op → Option (Dbl × Dbl)
  | .ring _ _ _ _ _ hue brightness => some (hue, brightness)
  | .marker _ _ _ _ _ hue brightness => some (hue, brightness)
  | .label _ _ _ _ _ => none

/-- Two colour triples differ by at most `eps` in each component. -/
def tri_close (t1 t2 : ℚ × ℚ × ℚ) (eps : ℚ) : Prop :=
  |t1.1 - t2.1| ≤ eps ∧ |t1.2.1 - t2.2.1| ≤ eps ∧ |t1.2.2 - t2.2.2| ≤ eps

/-- The colour of `hsv2rgb` for a finite hue, as a triple of rationals. -/
def hsv_colour (h s v : ℚ) : ℚ × ℚ × ℚ :=
  hsv_sector (Int.floor (h * 6)) (h * 6 - Int.floor (h * 6)) s v

/-! ## Specification-side definitions for the rounded arithmetic -/

namespace fp

/-- The break tests of `draw_ring` (lines 193-194) for a child with span
`a_from .. a_to` at `level`. -/
def culled (rnd : ℚ → Dbl) (g : graph) (level : Nat) (a_from a_to : Dbl) : Prop :=
  mul rnd (mul rnd (mul rnd (r_to rnd g level) (sub rnd a_to a_from)) M_PI) 2 < 2
    ∨ a_to ≤ a_from

instance (rnd : ℚ → Dbl) (g : graph) (level : Nat) (a_from a_to : Dbl) :
    Decidable (culled rnd g level a_from a_to) :=
  inferInstanceAs (Decidable (_ ∨ _))

/-- The spans `(name, a_from, a_to)` that the accumulation of lines 189/236
assigns to the children, in order, when no child is culled. -/
def sibling_spans (rnd : ℚ → Dbl) (a_range : Dbl) (size_total : Nat) :
    List duc_dirent → Dbl → List (String × Dbl × Dbl)
  | [], _ => []
  | e :: es, a =>
    (e.name, a, add rnd a (span_step rnd a_range size_total e.size))
      :: sibling_spans rnd a_range size_total es (add rnd a (span_step rnd a_range size_total e.size))

/-- Number of leading children that pass the break tests of `draw_ring`. -/
def drawn_count (rnd : ℚ → Dbl) (g : graph) (level : Nat) (a_range : Dbl) (size_total : Nat) :
    List duc_dirent → Dbl → Nat
  | [], _ => 0
  | e :: es, a =>
    if culled rnd g level a (add rnd a (span_step rnd a_range size_total e.size)) then 0
    else 1 + drawn_count rnd g level a_range size_total es
      (add rnd a (span_step rnd a_range size_total e.size))

/-- The `draw_section` call of line 204 for an entry with span `a_from .. a_to`. -/
def ring_of (rnd : ℚ → Dbl) (g : graph) (level : Nat) (size_min size_max : Int)
    (chain : List String) (e : duc_dirent) (a_from a_to : Dbl) : draw_op :=
  draw_op.ring (chain ++ [e.name]) a_from a_to (r_from rnd g level) (r_to rnd g level)
    (hue rnd size_min size_max e.size)
    (div rnd (mul rnd (lit rnd (4 / 5)) (r_from rnd g level)) (ofInt rnd g.cx))

/-- What lines 208-218 produce for an entry: the recursion into the opened
sub-directory, or the depth-limit marker. -/
def sub_part (rnd : ℚ → Dbl) (g : graph) (level : Nat) (size_min size_max : Int)
    (chain : List String) (e : duc_dirent) (a_from a_to : Dbl) : List draw_op :=
  if e.mode = duc_mode.DUC_MODE_DIR then
    (if (level : Int) + 1 < g.depth then
      (match e.child with
       | some dir_child => draw_ring rnd g dir_child (level + 1) a_from a_to (chain ++ [e.name])
       | none => [])
     else
       [draw_op.marker (chain ++ [e.name]) a_from a_to (r_to rnd g level)
         (add rnd (r_to rnd g level) 5) (hue rnd size_min size_max e.size) (lit rnd (1 / 2))])
  else []

/-- What lines 222-234 produce for an entry: its label, when there is room. -/
def label_part (rnd : ℚ → Dbl) (g : graph) (level : Nat) (chain : List String) (e : duc_dirent)
    (a_from a_to : Dbl) : List draw_op :=
  if mul rnd (r_from rnd g level) (sub rnd a_to a_from) > 5 then
    [draw_op.label (chain ++ [e.name]) (ang rnd (div rnd (add rnd a_from a_to) 2))
      (div rnd (add rnd (r_from rnd g level) (r_to rnd g level)) 2) e.name e.size]
  else []

mutual
/-- Specification of the entries `find_spot` visits, in depth-first pre-order:
each child with `a_to > a_from`, followed by the visits of its directory when
the child is a directory that can be opened and `level + 1 < depth`. -/
def find_visits (rnd : ℚ → Dbl) (g : graph) (dir : duc_dir) (level : Nat) (a_min a_max : Dbl) :
    List visit :=
  match dir with
  | .mk _ size_total ents =>
    find_visits_loop rnd g level (sub rnd a_max a_min) size_total ents a_min a_min
/-- Visits of the entries of one directory from the loop state `a_from`, `a_to`. -/
def find_visits_loop (rnd : ℚ → Dbl) (g : graph) (level : Nat) (a_range : Dbl)
    (size_total : Nat) : List duc_dirent → Dbl → Dbl → List visit
  | [], _, _ => []
  | (.mk name size mode child) :: es, a_from, a_to =>
    let a_to := add rnd a_to (span_step rnd a_range size_total size)
    if a_to > a_from then
      { chain := [name], level := level, a_from := a_from, a_to := a_to }
        :: ((if mode = duc_mode.DUC_MODE_DIR ∧ (level : Int) + 1 < g.depth then
              (match child with
               | some dir_child =>
                 (find_visits rnd g dir_child (level + 1) a_from a_to).map (visit.under name)
               | none => [])
             else [])
            ++ find_visits_loop rnd g level a_range size_total es a_to a_to)
    else find_visits_loop rnd g level a_range size_total es a_to a_to
end

/-- The match test of `find_spot` (line 263) for a visited entry: the probe
angle lies in the closed span and the probe radius in the closed band. -/
def hit (rnd : ℚ → Dbl) (g : graph) (v : visit) : Bool :=
  decide (g.spot_a ≥ v.a_from ∧ g.spot_a ≤ v.a_to
    ∧ g.spot_r ≥ r_from rnd g v.level ∧ g.spot_r ≤ r_to rnd g v.level)

/-- The result of the hit-test according to the specification: found with the
names of the first visited entry that passes the match test stored from
`part[level]` on, or not found with `part` untouched. -/
def first_hit (rnd : ℚ → Dbl) (g : graph) (level : Nat) (part : part_log) (vs : List visit) :
    Bool × part_log :=
  match vs.find? (hit rnd g) with
  | some v => (true, path_log level v.chain ++ part)
  | none => (false, part)

/-- The Cartesian round trip: the polar coordinates that `car2pol` gives for
the pixel `(x, y)`, converted back to a pixel with `pol2car` through `ang`. -/
def cartesian_round_trip (rnd : ℚ → Dbl) (tr : libm_trig) (lc : libc) (g : graph) (x y : Int) :
    Option (Int × Int) :=
  pol2car rnd tr g (ang rnd (car2pol rnd lc g x y).1) (car2pol rnd lc g x y).2

/-- The polar round trip: the pixel that `pol2car` gives for the angle `t` (in
turns, through `ang`) and the radius `r`, converted back with `car2pol`. -/
def polar_round_trip (rnd : ℚ → Dbl) (tr : libm_trig) (lc : libc) (g : graph) (t r : Dbl) :
    Option (Dbl × Dbl) :=
  (pol2car rnd tr g (ang rnd t) r).map (fun p => car2pol rnd lc g p.1 p.2)

end fp

/-- The binary64 number nearest to `0.8`: the value of the constant `0.8` of
the source. -/
def dbl_0_8 : ℚ := 3602879701896397 / 4503599627370496

/-- The unit roundoff `2^-53` of binary64. -/
def unit_roundoff : ℚ := 1 / 2 ^ 53

/-- The rational value of the quotient `0.8 * n / d` of line 199 in binary64
arithmetic, for integers `n` and `d` converted to `double`. -/
def hue_quot (n d : Int) : ℚ := Dbl.r64 (Dbl.r64 (dbl_0_8 * Dbl.r64 n) / Dbl.r64 d)

/-- Half the spacing `2^-1074` of the subnormal binary64 numbers: the largest
rounding error of a result in the subnormal range. -/
def underflow_unit : ℚ := 1 / 2 ^ 1075

/-- The rational value of the increment `a_range * size / size_total` of lines
189 and 254 in binary64 arithmetic, for a finite `a_range = R`. -/
def step_q (R : ℚ) (size_total size : Nat) : ℚ :=
  Dbl.r64 (Dbl.r64 (R * Dbl.r64 size) / Dbl.r64 size_total)

/-- The bound on the rounding error of the accumulated angle after `k` steps
that covered the exact width `Y`. -/
def acc_err (k : Nat) (Y : ℚ) : ℚ :=
  3 * k * unit_roundoff + 7 * unit_roundoff * Y + 7 * k * underflow_unit

mutual
/-- Every directory of the tree has a total size below `2^63` (an `off_t`) and
at most `n` entries. -/
def tree_bounded (n : Nat) : duc_dir → Bool
  | .mk _ size_total ents =>
    decide (size_total < 2 ^ 63) && decide (ents.length ≤ n) && ents_bounded n ents
/-- Every sub-directory that can be opened from these entries is bounded. -/
def ents_bounded (n : Nat) : List duc_dirent → Bool
  | [] => true
  | (.mk _ _ mode child) :: es =>
    (match child with
     | some d => (!decide (mode = duc_mode.DUC_MODE_DIR)) || tree_bounded n d
     | none => true) && ents_bounded n es
end

/-- The bound `(4 n + 14) * 2^-53` on the distance by which the accumulated
angle of a directory of at most `n` entries can pass the end of its span. -/
def span_slack (n : Nat) : ℚ := (4 * n + 14) * unit_roundoff

/-- Accuracy of the library at one call of `cos` and `sin`: at the argument
`a` both return finite values within `delta` of the cosine and the sine of
`a`. -/
def trig_accurate (tr : libm_trig) (delta : ℚ) (a : Dbl) : Prop :=
  ∃ th c s : ℚ, a = Dbl.fin th ∧ tr.cos a = Dbl.fin c ∧ tr.sin a = Dbl.fin s
    ∧ |(c : ℝ) - Real.cos (th : ℝ)| ≤ (delta : ℝ)
    ∧ |(s : ℝ) - Real.sin (th : ℝ)| ≤ (delta : ℝ)

/-- Accuracy of the library at the calls `hypot(dy, dx)` and `atan2(dx, -dy)`
that `car2pol` makes for the offset `(dx, dy)` from the centre: `hypot`
returns a finite value within the relative error `delta` of the Euclidean
norm, and `atan2` a finite value within `delta` of the angle of the point
`(-dy, dx)`, the argument in `(-pi, pi]` of the complex number `-dy + dx i`. -/
def polar_accurate (lc : libc) (delta : ℚ) (dx dy : Int) : Prop :=
  ∃ rho al : ℚ, lc.hypot (Dbl.fin dy) (Dbl.fin dx) = Dbl.fin rho
    ∧ lc.atan2 (Dbl.fin dx) (Dbl.fin (-dy)) = Dbl.fin al
    ∧ |(rho : ℝ) - Real.sqrt ((dx : ℝ) ^ 2 + (dy : ℝ) ^ 2)|
        ≤ (delta : ℝ) * Real.sqrt ((dx : ℝ) ^ 2 + (dy : ℝ) ^ 2)
    ∧ |(al : ℝ) - Complex.arg (Complex.mk (-(dy : ℝ)) (dx : ℝ))| ≤ (delta : ℝ)

/-! ## Concrete inputs -/

/-- The part of a path before its last slash, for a path that holds a slash
after its first character. -/
def dirname_tail : List Char → List Char
  | [] => []
  | c :: cs =>
    if cs.contains '/' then c :: dirname_tail cs
    else if c = '/' then [] else c :: cs

/-- Effect of `dirname` on a buffer holding a path with no trailing slash and no
doubled slash: the buffer is cut at the last slash, so `/data/sub` becomes
`/data`; when the last slash is the leading one it is kept, so `/data` becomes
`/`; a buffer with no slash is left as it is (`dirname` then returns a pointer
to a static `.`, which `graph.c` ignores). -/
def dirname_chars : List Char → List Char
  | [] => []
  | c :: cs =>
    if cs.contains '/' then c :: dirname_tail cs
    else if c = '/' then ['/'] else c :: cs

/-- A C library used for concrete inputs.  On the coordinate axes `hypot` and
`atan2` take their exact values (with `M_PI` for pi); elsewhere, where no
exact rational value exists, `hypot` is bracketed from below by the larger
leg and `atan2` by the nearest axis direction. -/
def libc_axes : libc :=
  { hypot := fun a b =>
      match a, b with
      | .fin x, .fin y => .fin (max |x| |y|)
      | .nan, _ => .nan
      | _, .nan => .nan
      | _, _ => .pinf
    atan2 := fun y x =>
      match y, x with
      | .fin y, .fin x =>
        if y = 0 then (if 0 ≤ x then 0 else M_PI)
        else if 0 < y then M_PI / 2 else -(M_PI / 2)
      | _, _ => .nan
    dirname := fun s => String.mk (dirname_chars s.data) }

/-- A C library like `libc_axes` whose `hypot` is the rational square root of
the sum of squares: exact whenever the Euclidean norm is rational. -/
def libc_exact : libc :=
  { hypot := fun a b =>
      match a, b with
      | .fin x, .fin y => .fin (Rat.sqrt (x * x + y * y))
      | .nan, _ => .nan
      | _, .nan => .nan
      | _, _ => .pinf
    atan2 := libc_axes.atan2
    dirname := libc_axes.dirname }

/-- Values of `cos` and `sin` in binary64: at the argument 0 the exact values
1 and 0, and at the argument `5 * M_PI / 4` (a binary64 number) the binary64
numbers nearest to the cosine and the sine of that argument; `NaN` at every
other argument. -/
def libm_table : libm_trig :=
  { cos := fun a =>
      match a with
      | .fin x =>
        if x = 0 then .fin 1
        else if x = 5 * M_PI_q / 4 then .fin (-3184525836262887 / 4503599627370496)
        else .nan
      | _ => .nan
    sin := fun a =>
      match a with
      | .fin x =>
        if x = 0 then .fin 0
        else if x = 5 * M_PI_q / 4 then .fin (-1592262918131443 / 2251799813685248)
        else .nan
      | _ => .nan }

/-- Values of `hypot` and `atan2` in binary64 on the axes and the diagonals
that the examples use: `hypot` is exact when an argument is 0 and the binary64
number nearest to `37 * sqrt 2` at `(+-37, +-37)`; `atan2` is the binary64
number nearest to the multiple of `pi / 4` on each axis and diagonal; `NaN`
at every other argument.  `dirname` cuts the last component off a path. -/
def libc_table : libc :=
  { hypot := fun a b =>
      match a, b with
      | .fin y, .fin x =>
        if y = 0 then .fin |x|
        else if x = 0 then .fin |y|
        else if |x| = 37 ∧ |y| = 37 then .fin (7364215996357925 / 140737488355328)
        else .nan
      | _, _ => .nan
    atan2 := fun y x =>
      match y, x with
      | .fin y, .fin x =>
        if y = 0 then (if 0 ≤ x then .fin 0 else .fin M_PI_q)
        else if x = 0 then (if 0 < y then .fin (M_PI_q / 2) else .fin (-(M_PI_q / 2)))
        else if x = y then (if 0 < x then .fin (M_PI_q / 4) else .fin (-(3 * M_PI_q / 4)))
        else if x = -y then (if 0 < y then .fin (3 * M_PI_q / 4) else .fin (-(M_PI_q / 4)))
        else .nan
      | _, _ => .nan
    dirname := fun s => String.mk (dirname_chars s.data) }

/-- A directory with two files of sizes 1 and 6. -/
def dir_pair : duc_dir :=
  .mk "/data" 7 [.mk "a" 1 .DUC_MODE_REG none, .mk "b" 6 .DUC_MODE_REG none]

/-- A directory with four files of sizes 4, 2, 3 and 1. -/
def dir_four : duc_dir :=
  .mk "/data" 10
    [.mk "a" 4 .DUC_MODE_REG none, .mk "b" 2 .DUC_MODE_REG none, .mk "c" 3 .DUC_MODE_REG none,
     .mk "d" 1 .DUC_MODE_REG none]

/-- A consistent tree of total size 120: five files of size 10, a directory
`e6` of size 10 holding files of sizes 7 and 3, a directory `e7` of size 10
holding one file of size 10, and five more files of size 10. -/
def dir_overlap : duc_dir :=
  .mk "/data" 120
    [.mk "f1" 10 .DUC_MODE_REG none, .mk "f2" 10 .DUC_MODE_REG none,
     .mk "f3" 10 .DUC_MODE_REG none, .mk "f4" 10 .DUC_MODE_REG none,
     .mk "f5" 10 .DUC_MODE_REG none,
     .mk "e6" 10 .DUC_MODE_DIR
       (some (.mk "/data/e6" 10 [.mk "c1" 7 .DUC_MODE_REG none, .mk "c2" 3 .DUC_MODE_REG none])),
     .mk "e7" 10 .DUC_MODE_DIR
       (some (.mk "/data/e7" 10 [.mk "x" 10 .DUC_MODE_REG none])),
     .mk "f8" 10 .DUC_MODE_REG none, .mk "f9" 10 .DUC_MODE_REG none,
     .mk "f10" 10 .DUC_MODE_REG none, .mk "f11" 10 .DUC_MODE_REG none,
     .mk "f12" 10 .DUC_MODE_REG none]

/-- The scenario of the specification: one directory with three files of
sizes 10, 20 and 70. -/
def dir_three : duc_dir :=
  .mk "/data" 100
    [.mk "a" 10 .DUC_MODE_REG none, .mk "b" 20 .DUC_MODE_REG none, .mk "c" 70 .DUC_MODE_REG none]

/-- A two-level tree: a file, a sub-directory holding two files, and a file. -/
def dir_nested : duc_dir :=
  .mk "/data" 100
    [.mk "a" 10 .DUC_MODE_REG none,
     .mk "sub" 20 .DUC_MODE_DIR
       (some (.mk "/data/sub" 20 [.mk "x" 5 .DUC_MODE_REG none, .mk "y" 15 .DUC_MODE_REG none])),
     .mk "c" 70 .DUC_MODE_REG none]

/-- A directory whose first entry is tiny: sizes 1 and 999. -/
def dir_tiny_first : duc_dir :=
  .mk "/data" 1000 [.mk "t" 1 .DUC_MODE_REG none, .mk "big" 999 .DUC_MODE_REG none]

/-- A directory whose last entry is tiny: sizes 600, 399 and 1. -/
def dir_tiny_last : duc_dir :=
  .mk "/data" 1000
    [.mk "p" 600 .DUC_MODE_REG none, .mk "q" 399 .DUC_MODE_REG none,
     .mk "t" 1 .DUC_MODE_REG none]

/-- A directory holding one empty file: total size 0. -/
def dir_empty_file : duc_dir :=
  .mk "/data" 0 [.mk "e" 0 .DUC_MODE_REG none]

/-- A directory recorded with total size 0 although it holds a file of size 5. -/
def dir_zero_total : duc_dir :=
  .mk "/data" 0 [.mk "f" 5 .DUC_MODE_REG none]

/-- A directory holding one file of size 1. -/
def dir_one : duc_dir :=
  .mk "/data" 1 [.mk "f" 1 .DUC_MODE_REG none]

/-! ## Arithmetic of doubles -/

namespace Dbl

@[simp] theorem fin_add (a b : ℚ) : fin a + fin b = fin (a + b) := rfl

@[simp] theorem fin_sub (a b : ℚ) : fin a - fin b = fin (a - b) := by
  show add (fin a) (neg (fin b)) = _
  simp [add, neg, sub_eq_add_neg]

@[simp] theorem fin_mul (a b : ℚ) : fin a * fin b = fin (a * b) := rfl

@[simp] theorem fin_neg (a : ℚ) : -fin a = fin (-a) := rfl

theorem fin_div (a b : ℚ) : fin a / fin b =
    if b = 0 then (if a = 0 then nan else if 0 < a then pinf else ninf) else fin (a / b) := rfl

@[simp] theorem fin_div_of_ne (a b : ℚ) (h : b ≠ 0) : fin a / fin b = fin (a / b) := by
  rw [fin_div, if_neg h]

@[simp] theorem fin_zero_div_zero : fin 0 / fin 0 = nan := by
  simp [fin_div]

@[simp] theorem fin_lt (a b : ℚ) : fin a < fin b ↔ a < b := by
  show lt (fin a) (fin b) = true ↔ _
  simp [lt]

@[simp] theorem fin_le (a b : ℚ) : fin a ≤ fin b ↔ a ≤ b := by
  show le (fin a) (fin b) = true ↔ _
  simp [le]

@[simp] theorem ofNat_eq (n : Nat) : (OfNat.ofNat n : Dbl) = fin n := rfl

@[simp] theorem ofInt_eq (i : Int) : ofInt i = fin i := rfl

@[simp] theorem nan_add (a : Dbl) : nan + a = nan := by
  cases a <;> rfl

@[simp] theorem add_nan (a : Dbl) : a + nan = nan := by
  cases a <;> rfl

@[simp] theorem nan_sub (a : Dbl) : nan - a = nan := by
  cases a <;> rfl

@[simp] theorem sub_nan (a : Dbl) : a - nan = nan := by
  cases a <;> rfl

@[simp] theorem nan_mul (a : Dbl) : nan * a = nan := by
  cases a <;> rfl

@[simp] theorem mul_nan (a : Dbl) : a * nan = nan := by
  cases a <;> rfl

@[simp] theorem nan_div (a : Dbl) : nan / a = nan := by
  cases a <;> rfl

@[simp] theorem div_nan (a : Dbl) : a / nan = nan := by
  cases a <;> rfl

@[simp] theorem not_nan_lt (a : Dbl) : ¬ nan < a := by
  show ¬ lt nan a = true
  simp [lt]

@[simp] theorem not_lt_nan (a : Dbl) : ¬ a < nan := by
  show ¬ lt a nan = true
  cases a <;> simp [lt]

@[simp] theorem not_nan_le (a : Dbl) : ¬ nan ≤ a := by
  show ¬ le nan a = true
  simp [le]

@[simp] theorem not_le_nan (a : Dbl) : ¬ a ≤ nan := by
  show ¬ le a nan = true
  cases a <;> simp [le]

end Dbl

/-! ## Concrete runs -/

theorem draw_ring_dir_tiny_first :
    draw_ring (graph_init 300 4) dir_tiny_first 1 0 1 [] = [] := by
  simp [draw_ring, draw_ring_loop, dir_tiny_first, graph_init, M_PI, Int.tdiv]
  norm_num

theorem find_spot_dir_tiny_first :
    find_spot { graph_init 300 4 with spot_a := Dbl.fin (1 / 2), spot_r := Dbl.fin 60 }
      dir_tiny_first 1 0 1 [] = (true, [(1, "big")]) := by
  simp [find_spot, find_spot_loop, dir_tiny_first, graph_init, Int.tdiv]
  norm_num


namespace Dbl

theorem lt_def (a b : Dbl) : a < b ↔ lt a b = true := Iff.rfl

theorem le_def (a b : Dbl) : a ≤ b ↔ le a b = true := Iff.rfl

theorem lt_trans {a b c : Dbl} (h1 : a < b) (h2 : b < c) : a < c := by
  cases a <;> cases b <;> cases c <;> simp_all [lt_def, lt]
  linarith

theorem lt_of_lt_of_le {a b c : Dbl} (h1 : a < b) (h2 : b ≤ c) : a < c := by
  cases a <;> cases b <;> cases c <;> simp_all [lt_def, le_def, lt, le]
  linarith

theorem lt_of_le_of_lt {a b c : Dbl} (h1 : a ≤ b) (h2 : b < c) : a < c := by
  cases a <;> cases b <;> cases c <;> simp_all [lt_def, le_def, lt, le]
  linarith

theorem le_trans {a b c : Dbl} (h1 : a ≤ b) (h2 : b ≤ c) : a ≤ c := by
  cases a <;> cases b <;> cases c <;> simp_all [le_def, le]
  linarith

theorem le_of_lt {a b : Dbl} (h : a < b) : a ≤ b := by
  cases a <;> cases b <;> simp_all [lt_def, le_def, lt, le]
  linarith

theorem not_le_of_lt {a b : Dbl} (h : a < b) : ¬ b ≤ a := by
  cases a <;> cases b <;> simp_all [lt_def, le_def, lt, le]

theorem not_lt_of_le {a b : Dbl} (h : a ≤ b) : ¬ b < a := by
  cases a <;> cases b <;> simp_all [lt_def, le_def, lt, le]

theorem lt_irrefl (a : Dbl) : ¬ a < a := by
  cases a <;> simp [lt_def, lt]

/-- Without `NaN` the order is total. -/
theorem lt_of_not_le {a b : Dbl} (ha : a ≠ nan) (hb : b ≠ nan) (h : ¬ b ≤ a) : a < b := by
  cases a <;> cases b <;> simp_all [lt_def, le_def, lt, le]

theorem ne_nan_of_lt_left {a b : Dbl} (h : a < b) : a ≠ nan := by
  rintro rfl
  exact not_nan_lt _ h

theorem ne_nan_of_lt_right {a b : Dbl} (h : a < b) : b ≠ nan := by
  rintro rfl
  exact not_lt_nan _ h

theorem ne_nan_of_add_left {a b : Dbl} (h : a + b ≠ nan) : a ≠ nan := by
  rintro rfl
  exact h (nan_add b)

end Dbl


/-! ## Induction on directory trees and unfolding of the loops -/

theorem duc_tree_induction {P : duc_dir → Prop} {Q : List duc_dirent → Prop}
    (hmk : ∀ path size_total es, Q es → P (.mk path size_total es))
    (hnil : Q [])
    (hcons : ∀ name size mode child es, (∀ d, child = some d → P d) → Q es →
      Q (.mk name size mode child :: es)) :
    (∀ d, P d) ∧ (∀ es, Q es) := by
  have key : ∀ d, P d :=
    @duc_dir.rec P (fun e => ∀ es, Q es → Q (e :: es)) Q (fun o => ∀ d, o = some d → P d)
      (fun path size_total es h => hmk path size_total es h)
      (fun name size mode child h es hes => hcons name size mode child es h hes)
      hnil
      (fun head tail hh ht => hh tail ht)
      (fun d h => by cases h)
      (fun val h d hd => by cases hd; exact h)
  refine ⟨key, ?_⟩
  intro es
  induction es with
  | nil => exact hnil
  | cons e es ih =>
    cases e with
    | mk name size mode child =>
      refine hcons name size mode child es ?_ ih
      intro d _
      exact key d

theorem find_spot_loop_cons (g : graph) (level : Nat) (a_range : Dbl) (size_total : Nat)
    (name : String) (size : Nat) (mode : duc_mode) (child : Option duc_dir)
    (es : List duc_dirent) (a_from a_to : Dbl) (part : part_log) :
    find_spot_loop g level a_range size_total (.mk name size mode child :: es) a_from a_to part =
      if a_to + span_step a_range size_total (.mk name size mode child) > a_from then
        if hit g ⟨[name], level, a_from, a_to + span_step a_range size_total (.mk name size mode child)⟩
        then (true, (level, name) :: part)
        else
          match eligible g level mode child with
          | some d =>
            if (find_spot g d (level + 1) a_from
                (a_to + span_step a_range size_total (.mk name size mode child)) part).1
            then (true, (level, name) :: (find_spot g d (level + 1) a_from
                (a_to + span_step a_range size_total (.mk name size mode child)) part).2)
            else find_spot_loop g level a_range size_total es
              (a_to + span_step a_range size_total (.mk name size mode child))
              (a_to + span_step a_range size_total (.mk name size mode child))
              (find_spot g d (level + 1) a_from
                (a_to + span_step a_range size_total (.mk name size mode child)) part).2
          | none => find_spot_loop g level a_range size_total es
              (a_to + span_step a_range size_total (.mk name size mode child))
              (a_to + span_step a_range size_total (.mk name size mode child)) part
      else find_spot_loop g level a_range size_total es
              (a_to + span_step a_range size_total (.mk name size mode child))
              (a_to + span_step a_range size_total (.mk name size mode child)) part := by
  cases child <;>
    simp only [find_spot_loop, span_step, duc_dirent.size, hit, eligible, decide_eq_true_eq] <;>
    split_ifs <;> simp_all

theorem draw_ring_loop_cons (g : graph) (level : Nat) (a_range : Dbl) (size_total : Nat)
    (size_min size_max : Int) (chain : List String) (e : duc_dirent)
    (es : List duc_dirent) (a_from a_to : Dbl) :
    draw_ring_loop g level a_range size_total size_min size_max chain (e :: es) a_from a_to =
      if culled g level a_from (a_to + span_step a_range size_total e) then []
      else
        ring_of g level size_min size_max chain e a_from (a_to + span_step a_range size_total e)
          :: (sub_part g level size_min size_max chain e a_from
                (a_to + span_step a_range size_total e)
              ++ (label_part g level chain e a_from (a_to + span_step a_range size_total e)
                  ++ draw_ring_loop g level a_range size_total size_min size_max chain es
                      (a_to + span_step a_range size_total e)
                      (a_to + span_step a_range size_total e))) := by
  cases e with
  | mk name size mode child =>
    by_cases h1 : (Dbl.ofInt ((level + 1) * g.ring_width) + Dbl.ofInt g.ring_width)
        * (a_to + a_range * Dbl.ofInt size / Dbl.ofInt size_total - a_from) * M_PI * 2 < 2
    · cases child <;>
        simp only [draw_ring_loop, span_step, duc_dirent.size, culled, h1, if_true, true_or]
    · by_cases h2 : a_to + a_range * Dbl.ofInt size / Dbl.ofInt size_total ≤ a_from
      · cases child <;>
          simp only [draw_ring_loop, span_step, duc_dirent.size, culled, h1, h2, if_true,
            if_false, or_true]
      · cases child <;>
          simp only [draw_ring_loop, span_step, duc_dirent.size, duc_dirent.name,
            duc_dirent.mode, duc_dirent.child, culled, ring_of, sub_part, label_part, hue_of,
            h1, h2, if_false, or_self]

theorem find_visits_loop_cons (g : graph) (level : Nat) (a_range : Dbl) (size_total : Nat)
    (name : String) (size : Nat) (mode : duc_mode) (child : Option duc_dir)
    (es : List duc_dirent) (a_from a_to : Dbl) :
    find_visits_loop g level a_range size_total (.mk name size mode child :: es) a_from a_to =
      if a_to + span_step a_range size_total (.mk name size mode child) > a_from then
        ⟨[name], level, a_from, a_to + span_step a_range size_total (.mk name size mode child)⟩
          :: ((match eligible g level mode child with
               | some d => (find_visits g d (level + 1) a_from
                    (a_to + span_step a_range size_total (.mk name size mode child))).map
                    (visit.under name)
               | none => [])
              ++ find_visits_loop g level a_range size_total es
                  (a_to + span_step a_range size_total (.mk name size mode child))
                  (a_to + span_step a_range size_total (.mk name size mode child)))
      else find_visits_loop g level a_range size_total es
              (a_to + span_step a_range size_total (.mk name size mode child))
              (a_to + span_step a_range size_total (.mk name size mode child)) := by
  cases child <;>
    simp only [find_visits_loop, span_step, duc_dirent.size, eligible] <;>
    split_ifs <;> simp_all


/-! ## The match rule of find_spot -/

theorem hit_under (g : graph) (name : String) (v : visit) : hit g (v.under name) = hit g v := rfl

theorem eligible_eq_some {g : graph} {level : Nat} {mode : duc_mode} {child : Option duc_dir}
    {d : duc_dir} (h : eligible g level mode child = some d) :
    mode = duc_mode.DUC_MODE_DIR ∧ (level : Int) + 1 < g.depth ∧ child = some d := by
  unfold eligible at h
  split_ifs at h with hc
  exact ⟨hc.1, hc.2, h⟩

theorem find_spot_first_hit (g : graph) :
    (∀ d level a_min a_max part,
      find_spot g d level a_min a_max part
        = first_hit g level part (find_visits g d level a_min a_max)) ∧
    (∀ es level a_range size_total a_from a_to part,
      find_spot_loop g level a_range size_total es a_from a_to part
        = first_hit g level part (find_visits_loop g level a_range size_total es a_from a_to)) := by
  apply duc_tree_induction
  · intro path size_total es ih level a_min a_max part
    simp only [find_spot, find_visits]
    exact ih _ _ _ _ _ _
  · intro level a_range size_total a_from a_to part
    simp [find_spot_loop, find_visits_loop, first_hit]
  · intro name size mode child es ihd ihes level a_range size_total a_from a_to part
    rw [find_spot_loop_cons, find_visits_loop_cons]
    by_cases h1 : a_to + span_step a_range size_total (.mk name size mode child) > a_from
    · simp only [h1, if_true]
      by_cases h2 : hit g ⟨[name], level, a_from,
          a_to + span_step a_range size_total (.mk name size mode child)⟩ = true
      · simp [h2, first_hit, path_log]
      · simp only [h2, if_false]
        have hf : ∀ rest, first_hit g level part
            ((⟨[name], level, a_from,
              a_to + span_step a_range size_total (.mk name size mode child)⟩ : visit) :: rest)
            = first_hit g level part rest := by
          intro rest
          simp [first_hit, List.find?_cons, h2]
        rw [hf]
        cases hel : eligible g level mode child with
        | none =>
          simp only [List.nil_append]
          exact ihes _ _ _ _ _ _
        | some d =>
          have hd := ihd d (eligible_eq_some hel).2.2 (level + 1) a_from
            (a_to + span_step a_range size_total (.mk name size mode child)) part
          simp only [hd]
          cases hfind : (find_visits g d (level + 1) a_from
              (a_to + span_step a_range size_total (.mk name size mode child))).find? (hit g) with
          | none =>
            have : first_hit g (level + 1) part (find_visits g d (level + 1) a_from
              (a_to + span_step a_range size_total (.mk name size mode child))) = (false, part) := by
              simp [first_hit, hfind]
            rw [this]
            simp only [Bool.false_eq_true, if_false]
            rw [ihes]
            simp only [first_hit, List.find?_append, List.find?_map]
            have hcomp : (hit g ∘ visit.under name) = hit g := by
              funext v
              rfl
            rw [hcomp, hfind]
            simp
          | some v =>
            have : first_hit g (level + 1) part (find_visits g d (level + 1) a_from
              (a_to + span_step a_range size_total (.mk name size mode child)))
                = (true, path_log (level + 1) v.chain ++ part) := by
              simp [first_hit, hfind]
            rw [this]
            simp only [if_true]
            simp only [first_hit, List.find?_append, List.find?_map]
            have hcomp : (hit g ∘ visit.under name) = hit g := by
              funext v
              rfl
            rw [hcomp, hfind]
            simp [visit.under, path_log]
    · simp only [h1, if_false]
      exact ihes _ _ _ _ _ _


/-! ## Probes that the hit-test cannot match -/

theorem not_hit_of_radius_lt {g : graph} {v : visit}
    (h : g.spot_r < Dbl.ofInt ((v.level + 1) * g.ring_width)) : hit g v = false := by
  simp only [hit, decide_eq_false_iff_not, ge_iff_le]
  rintro ⟨_, _, h3, _⟩
  exact Dbl.not_le_of_lt h h3

theorem not_hit_of_angle_gt {g : graph} {v : visit}
    (h : v.a_to < g.spot_a) : hit g v = false := by
  simp only [hit, decide_eq_false_iff_not, ge_iff_le]
  rintro ⟨_, h2, _, _⟩
  exact Dbl.not_le_of_lt h h2

theorem radius_lt_succ {g : graph} {level : Nat} (hw : 0 ≤ g.ring_width)
    (h : g.spot_r < Dbl.ofInt (((level : Int) + 1) * g.ring_width)) :
    g.spot_r < Dbl.ofInt ((((level + 1 : Nat) : Int) + 1) * g.ring_width) := by
  refine Dbl.lt_of_lt_of_le h ?_
  simp only [Dbl.ofInt_eq, Dbl.fin_le]
  have : (((level : Int) + 1) * g.ring_width : Int) ≤ (((level + 1 : Nat) : Int) + 1) * g.ring_width := by
    push_cast
    nlinarith
  exact_mod_cast this

/-- A probe whose radius lies below the band of `level` is matched neither at
`level` nor deeper. -/
theorem find_spot_radius_below (g : graph) (hw : 0 ≤ g.ring_width) :
    (∀ (d : duc_dir) (level : Nat) a_min a_max part,
      g.spot_r < Dbl.ofInt (((level : Int) + 1) * g.ring_width) →
      find_spot g d level a_min a_max part = (false, part)) ∧
    (∀ (es : List duc_dirent) (level : Nat) a_range size_total a_from a_to part,
      g.spot_r < Dbl.ofInt (((level : Int) + 1) * g.ring_width) →
      find_spot_loop g level a_range size_total es a_from a_to part = (false, part)) := by
  apply duc_tree_induction
  · intro path size_total es ih level a_min a_max part hr
    simp only [find_spot]
    exact ih _ _ _ _ _ _ hr
  · intro level a_range size_total a_from a_to part _
    simp [find_spot_loop]
  · intro name size mode child es ihd ihes level a_range size_total a_from a_to part hr
    rw [find_spot_loop_cons]
    have hh : ∀ af at', hit g ⟨[name], level, af, at'⟩ = false := by
      intro af at'
      exact not_hit_of_radius_lt hr
    simp only [hh, Bool.false_eq_true, if_false]
    cases hel : eligible g level mode child with
    | none => simp [ihes _ _ _ _ _ _ hr]
    | some d =>
      have hd := ihd d (eligible_eq_some hel).2.2 (level + 1) a_from
        (a_to + span_step a_range size_total (.mk name size mode child)) part
        (radius_lt_succ hw hr)
      simp [hd, ihes _ _ _ _ _ _ hr]

/-- Once the accumulated angle is `NaN` the loop of `find_spot` matches nothing. -/
theorem find_spot_loop_nan (g : graph) (level : Nat) (a_range : Dbl) (size_total : Nat)
    (es : List duc_dirent) : ∀ (a_from : Dbl) (part : part_log),
    find_spot_loop g level a_range size_total es a_from Dbl.nan part = (false, part) := by
  induction es with
  | nil =>
    intro a_from part
    simp [find_spot_loop]
  | cons e es ih =>
    intro a_from part
    cases e with
    | mk name size mode child =>
      rw [find_spot_loop_cons]
      simp [ih]


/-! ## The angular accumulation on finite spans -/

theorem sum_sizes_cons (e : duc_dirent) (es : List duc_dirent) :
    sum_sizes (e :: es) = e.size + sum_sizes es := by
  simp [sum_sizes]

theorem span_step_fin (r : ℚ) (size_total : Nat) (e : duc_dirent) (h : 0 < size_total) :
    span_step (Dbl.fin r) size_total e = Dbl.fin (r * (e.size : ℚ) / (size_total : ℚ)) := by
  have h0 : (size_total : ℚ) ≠ 0 := by positivity
  simp [span_step, h0]

theorem span_step_zero (a_range : Dbl) (e : duc_dirent) (h : e.size = 0) :
    span_step a_range 0 e = Dbl.nan := by
  cases a_range <;> simp [span_step, h, Dbl.fin_div] <;> rfl

theorem span_ok_zero {w : ℚ} {e : duc_dirent} {es : List duc_dirent} {x hi : ℚ}
    (h : span_ok 0 w (e :: es) x hi) : e.size = 0 := by
  rcases h with ⟨_, h⟩ | ⟨h, _⟩
  · rw [sum_sizes_cons] at h
    omega
  · omega

theorem span_ok_step {size_total : Nat} {w : ℚ} {e : duc_dirent} {es : List duc_dirent}
    {x hi : ℚ} (hw : 0 ≤ w) (ht : 0 < size_total) (h : span_ok size_total w (e :: es) x hi) :
    x ≤ x + w * (e.size : ℚ) / (size_total : ℚ)
      ∧ x + w * (e.size : ℚ) / (size_total : ℚ) ≤ hi
      ∧ span_ok size_total w es (x + w * (e.size : ℚ) / (size_total : ℚ)) hi := by
  rcases h with ⟨h, _⟩ | ⟨_, h⟩
  · omega
  · have ht' : (0 : ℚ) < size_total := by exact_mod_cast ht
    have h1 : (0 : ℚ) ≤ w * (e.size : ℚ) / (size_total : ℚ) := by positivity
    have h2 : (0 : ℚ) ≤ w * (sum_sizes es : ℚ) / (size_total : ℚ) := by positivity
    rw [sum_sizes_cons] at h
    push_cast at h
    have h3 : w * ((e.size : ℚ) + (sum_sizes es : ℚ)) / (size_total : ℚ)
        = w * (e.size : ℚ) / (size_total : ℚ) + w * (sum_sizes es : ℚ) / (size_total : ℚ) := by
      ring
    rw [h3] at h
    refine ⟨by linarith, by linarith, Or.inr ⟨ht, by linarith⟩⟩

theorem span_ok_init {size_total : Nat} {es : List duc_dirent} {p q : ℚ}
    (h : sum_sizes es = size_total) : span_ok size_total (q - p) es p q := by
  rcases Nat.eq_zero_or_pos size_total with h0 | h0
  · left
    exact ⟨h0, by omega⟩
  · right
    refine ⟨h0, ?_⟩
    rw [h]
    have : (size_total : ℚ) ≠ 0 := by positivity
    field_simp

theorem sizes_consistent_mk {path : String} {size_total : Nat} {es : List duc_dirent}
    (h : sizes_consistent (.mk path size_total es) = true) :
    sum_sizes es = size_total ∧ ents_consistent es = true := by
  simpa [sizes_consistent] using h

theorem ents_consistent_cons {name : String} {size : Nat} {mode : duc_mode}
    {child : Option duc_dir} {es : List duc_dirent}
    (h : ents_consistent (.mk name size mode child :: es) = true) :
    (∀ d, mode = duc_mode.DUC_MODE_DIR → child = some d → sizes_consistent d = true)
      ∧ ents_consistent es = true := by
  cases child with
  | none =>
    simp only [ents_consistent, Bool.true_and] at h
    exact ⟨fun d _ hd => (by cases hd), h⟩
  | some d0 =>
    simp only [ents_consistent, Bool.and_eq_true, Bool.or_eq_true, Bool.not_eq_true',
      decide_eq_false_iff_not, decide_eq_true_eq] at h
    refine ⟨fun d hm hd => ?_, h.2⟩
    cases hd
    rcases h.1 with h1 | h1
    · exact absurd hm h1
    · exact h1

/-- A probe whose angle lies above the span of a consistent directory is not
matched in it. -/
theorem find_spot_angle_above (g : graph) :
    (∀ (d : duc_dir) (level : Nat) (p q : ℚ) part,
      sizes_consistent d = true → p ≤ q → Dbl.fin q < g.spot_a →
      find_spot g d level (Dbl.fin p) (Dbl.fin q) part = (false, part)) ∧
    (∀ (es : List duc_dirent) (level : Nat) (w : ℚ) size_total (x hi : ℚ) part,
      ents_consistent es = true → 0 ≤ w → span_ok size_total w es x hi →
      Dbl.fin hi < g.spot_a →
      find_spot_loop g level (Dbl.fin w) size_total es (Dbl.fin x) (Dbl.fin x) part
        = (false, part)) := by
  apply duc_tree_induction
  · intro path size_total es ih level p q part hc hpq ha
    simp only [find_spot, Dbl.fin_sub]
    have hc' := sizes_consistent_mk hc
    exact ih level (q - p) size_total p q part hc'.2 (by linarith) (span_ok_init hc'.1) ha
  · intro level w size_total x hi part _ _ _ _
    simp [find_spot_loop]
  · intro name size mode child es ihd ihes level w size_total x hi part hc hw hok ha
    have hc' := ents_consistent_cons hc
    rw [find_spot_loop_cons]
    rcases Nat.eq_zero_or_pos size_total with h0 | h0
    · subst h0
      rw [span_step_zero _ _ (span_ok_zero hok)]
      simp [find_spot_loop_nan]
    · rw [span_step_fin _ _ _ h0]
      obtain ⟨h1, h2, h3⟩ := span_ok_step hw h0 hok
      simp only [Dbl.fin_add]
      have hlt : Dbl.fin (x + w * ((duc_dirent.mk name size mode child).size : ℚ)
          / (size_total : ℚ)) < g.spot_a :=
        Dbl.lt_of_le_of_lt ((Dbl.fin_le _ _).2 h2) ha
      have hh : hit g ⟨[name], level, Dbl.fin x,
          Dbl.fin (x + w * ((duc_dirent.mk name size mode child).size : ℚ)
            / (size_total : ℚ))⟩ = false :=
        not_hit_of_angle_gt hlt
      simp only [hh, Bool.false_eq_true, if_false]
      have hrest := ihes level w size_total _ hi part hc'.2 hw h3 ha
      cases hel : eligible g level mode child with
      | none => simp [hrest]
      | some d =>
        have hel' := eligible_eq_some hel
        have hd := ihd d hel'.2.2 (level + 1) x _ part (hc'.1 d hel'.1 hel'.2.2) h1 hlt
        simp [hd, hrest]


/-! ## Ring sectors that contain the probe -/

theorem not_inside_label_part {g : graph} {level : Nat} {chain : List String} {e : duc_dirent}
    {a_from a_to : Dbl} {op : draw_op} (h : op ∈ label_part g level chain e a_from a_to) :
    ¬ strictly_inside g op := by
  unfold label_part at h
  split_ifs at h
  · simp only [List.mem_singleton] at h
    subst h
    simp [strictly_inside]
  · simp at h

theorem inside_sub_part {g : graph} {level : Nat} {size_min size_max : Int}
    {chain : List String} {e : duc_dirent} {a_from a_to : Dbl} {op : draw_op}
    (h : op ∈ sub_part g level size_min size_max chain e a_from a_to)
    (hin : strictly_inside g op) :
    ∃ d, eligible g level e.mode e.child = some d
      ∧ op ∈ draw_ring g d (level + 1) a_from a_to (chain ++ [e.name]) := by
  unfold sub_part at h
  split_ifs at h with h1 h2
  · cases hc : e.child with
    | none => simp [hc] at h
    | some d =>
      simp only [hc] at h
      exact ⟨d, by simp [eligible, h1, h2], h⟩
  · simp only [List.mem_singleton] at h
    subst h
    simp [strictly_inside] at hin
  · simp at h

/-- Where a ring sector containing the probe can come from in one iteration of
the loop of `draw_ring`. -/
theorem inside_loop_cons {g : graph} {level : Nat} {a_range : Dbl} {size_total : Nat}
    {size_min size_max : Int} {chain : List String} {e : duc_dirent} {es : List duc_dirent}
    {a_from a_to : Dbl} {op : draw_op}
    (h : op ∈ draw_ring_loop g level a_range size_total size_min size_max chain (e :: es)
      a_from a_to)
    (hin : strictly_inside g op) :
    ¬ culled g level a_from (a_to + span_step a_range size_total e)
      ∧ (op = ring_of g level size_min size_max chain e a_from
              (a_to + span_step a_range size_total e)
         ∨ (∃ d, eligible g level e.mode e.child = some d
              ∧ op ∈ draw_ring g d (level + 1) a_from (a_to + span_step a_range size_total e)
                  (chain ++ [e.name]))
         ∨ op ∈ draw_ring_loop g level a_range size_total size_min size_max chain es
              (a_to + span_step a_range size_total e)
              (a_to + span_step a_range size_total e)) := by
  rw [draw_ring_loop_cons] at h
  split_ifs at h with hc
  · simp at h
  · refine ⟨hc, ?_⟩
    simp only [List.mem_cons, List.mem_append] at h
    rcases h with h | h | h | h
    · exact Or.inl h
    · exact Or.inr (Or.inl (inside_sub_part h hin))
    · exact absurd hin (not_inside_label_part h)
    · exact Or.inr (Or.inr h)

theorem inside_ring_of {g : graph} {level : Nat} {size_min size_max : Int}
    {chain : List String} {e : duc_dirent} {a_from a_to : Dbl} :
    strictly_inside g (ring_of g level size_min size_max chain e a_from a_to) ↔
      a_from < g.spot_a ∧ g.spot_a < a_to
        ∧ Dbl.ofInt (((level : Int) + 1) * g.ring_width) < g.spot_r
        ∧ g.spot_r < Dbl.ofInt (((level : Int) + 1) * g.ring_width) + Dbl.ofInt g.ring_width :=
  Iff.rfl

theorem span_step_nan (size_total : Nat) (e : duc_dirent) :
    span_step Dbl.nan size_total e = Dbl.nan := by
  simp [span_step]

/-- No probe lies inside a sector drawn from a `NaN` span. -/
theorem draw_ring_nan (g : graph) :
    (∀ (d : duc_dir) (level : Nat) (a_min a_max : Dbl) (chain : List String) (op : draw_op),
      a_max - a_min = Dbl.nan → op ∈ draw_ring g d level a_min a_max chain →
      ¬ strictly_inside g op) ∧
    (∀ (es : List duc_dirent) (level : Nat) (a_range : Dbl) (size_total : Nat)
      (size_min size_max : Int) (chain : List String) (a_from a_to : Dbl) (op : draw_op),
      a_range = Dbl.nan ∨ a_to = Dbl.nan →
      op ∈ draw_ring_loop g level a_range size_total size_min size_max chain es a_from a_to →
      ¬ strictly_inside g op) := by
  apply duc_tree_induction
  · intro path size_total es ih level a_min a_max chain op hn hop
    simp only [draw_ring] at hop
    exact ih _ _ _ _ _ _ _ _ _ (Or.inl hn) hop
  · intro level a_range size_total size_min size_max chain a_from a_to op _ hop
    simp [draw_ring_loop] at hop
  · intro name size mode child es ihd ihes level a_range size_total size_min size_max chain
      a_from a_to op hn hop hin
    have hnan : a_to + span_step a_range size_total (.mk name size mode child) = Dbl.nan := by
      rcases hn with hn | hn
      · rw [hn, span_step_nan, Dbl.add_nan]
      · rw [hn, Dbl.nan_add]
    obtain ⟨_, h | ⟨d, hel, h⟩ | h⟩ := inside_loop_cons hop hin
    · rw [h, hnan, inside_ring_of] at hin
      exact Dbl.not_lt_nan _ hin.2.1
    · rw [hnan] at h
      exact ihd d (eligible_eq_some hel).2.2 _ _ _ _ _ (Dbl.nan_sub _) h hin
    · rw [hnan] at h
      exact ihes _ _ _ _ _ _ _ _ _ (Or.inr rfl) h hin

theorem draw_ring_loop_cons_nan {g : graph} {level : Nat} {a_range : Dbl} {size_total : Nat}
    {size_min size_max : Int} {chain : List String} {e : duc_dirent} {es : List duc_dirent}
    {a_from a_to : Dbl} {op : draw_op}
    (hnan : a_to + span_step a_range size_total e = Dbl.nan)
    (h : op ∈ draw_ring_loop g level a_range size_total size_min size_max chain (e :: es)
      a_from a_to) :
    ¬ strictly_inside g op := by
  intro hin
  obtain ⟨_, h | ⟨d, _, h⟩ | h⟩ := inside_loop_cons h hin
  · rw [h, hnan, inside_ring_of] at hin
    exact Dbl.not_lt_nan _ hin.2.1
  · rw [hnan] at h
    exact (draw_ring_nan g).1 d _ _ _ _ _ (Dbl.nan_sub _) h hin
  · rw [hnan] at h
    exact (draw_ring_nan g).2 _ _ _ _ _ _ _ _ _ _ (Or.inr rfl) h hin

theorem level_mul_le_succ {w : Int} (level : Nat) (hw : 0 ≤ w) :
    ((level : Int) + 1) * w ≤ (((level + 1 : Nat) : Int) + 1) * w := by
  push_cast
  nlinarith

/-- A ring sector drawn from `level` on that contains the probe lies at a
radius above the inner radius of `level`, and the ring width is positive. -/
theorem draw_ring_inside_radius (g : graph) :
    (∀ (d : duc_dir) (level : Nat) (a_min a_max : Dbl) (chain : List String) (op : draw_op),
      op ∈ draw_ring g d level a_min a_max chain → strictly_inside g op →
      0 < g.ring_width ∧ Dbl.ofInt (((level : Int) + 1) * g.ring_width) < g.spot_r) ∧
    (∀ (es : List duc_dirent) (level : Nat) (a_range : Dbl) (size_total : Nat)
      (size_min size_max : Int) (chain : List String) (a_from a_to : Dbl) (op : draw_op),
      op ∈ draw_ring_loop g level a_range size_total size_min size_max chain es a_from a_to →
      strictly_inside g op →
      0 < g.ring_width ∧ Dbl.ofInt (((level : Int) + 1) * g.ring_width) < g.spot_r) := by
  apply duc_tree_induction
  · intro path size_total es ih level a_min a_max chain op hop hin
    simp only [draw_ring] at hop
    exact ih _ _ _ _ _ _ _ _ _ hop hin
  · intro level a_range size_total size_min size_max chain a_from a_to op hop
    simp [draw_ring_loop] at hop
  · intro name size mode child es ihd ihes level a_range size_total size_min size_max chain
      a_from a_to op hop hin
    obtain ⟨_, h | ⟨d, hel, h⟩ | h⟩ := inside_loop_cons hop hin
    · rw [h, inside_ring_of] at hin
      obtain ⟨_, _, h3, h4⟩ := hin
      refine ⟨?_, h3⟩
      have := Dbl.lt_trans h3 h4
      simp only [Dbl.ofInt_eq, Dbl.fin_add, Dbl.fin_lt] at this
      have h5 : (0 : ℚ) < (g.ring_width : ℚ) := by linarith
      exact_mod_cast h5
    · obtain ⟨hw, hr⟩ := ihd d (eligible_eq_some hel).2.2 _ _ _ _ _ h hin
      refine ⟨hw, Dbl.lt_of_le_of_lt ?_ hr⟩
      simp only [Dbl.ofInt_eq, Dbl.fin_le]
      exact_mod_cast level_mul_le_succ level hw.le
    · exact ihes _ _ _ _ _ _ _ _ _ h hin

/-- A ring sector drawn in a consistent directory that contains the probe
starts at or after the start of the span of the directory. -/
theorem draw_ring_inside_angle (g : graph) :
    (∀ (d : duc_dir) (level : Nat) (p q : ℚ) (chain : List String) (op : draw_op),
      sizes_consistent d = true → p ≤ q →
      op ∈ draw_ring g d level (Dbl.fin p) (Dbl.fin q) chain → strictly_inside g op →
      Dbl.fin p < g.spot_a) ∧
    (∀ (es : List duc_dirent) (level : Nat) (w : ℚ) (size_total : Nat)
      (size_min size_max : Int) (chain : List String) (x hi : ℚ) (op : draw_op),
      ents_consistent es = true → 0 ≤ w → span_ok size_total w es x hi →
      op ∈ draw_ring_loop g level (Dbl.fin w) size_total size_min size_max chain es
        (Dbl.fin x) (Dbl.fin x) →
      strictly_inside g op → Dbl.fin x < g.spot_a) := by
  apply duc_tree_induction
  · intro path size_total es ih level p q chain op hc hpq hop hin
    simp only [draw_ring, Dbl.fin_sub] at hop
    have hc' := sizes_consistent_mk hc
    exact ih level (q - p) size_total _ _ chain p q op hc'.2 (by linarith)
      (span_ok_init hc'.1) hop hin
  · intro level w size_total size_min size_max chain x hi op _ _ _ hop
    simp [draw_ring_loop] at hop
  · intro name size mode child es ihd ihes level w size_total size_min size_max chain x hi op
      hc hw hok hop hin
    have hc' := ents_consistent_cons hc
    rcases Nat.eq_zero_or_pos size_total with h0 | h0
    · subst h0
      refine absurd hin (draw_ring_loop_cons_nan ?_ hop)
      rw [span_step_zero _ _ (span_ok_zero hok), Dbl.add_nan]
    · obtain ⟨h1, h2, h3⟩ := span_ok_step hw h0 hok
      obtain ⟨_, h | ⟨d, hel, h⟩ | h⟩ := inside_loop_cons hop hin
      · rw [h, inside_ring_of] at hin
        exact hin.1
      · have hel' := eligible_eq_some hel
        rw [span_step_fin _ _ _ h0, Dbl.fin_add] at h
        exact ihd d hel'.2.2 _ _ _ _ _ (hc'.1 d hel'.1 hel'.2.2) h1 h hin
      · rw [span_step_fin _ _ _ h0, Dbl.fin_add] at h
        have := ihes level w size_total size_min size_max chain _ hi op hc'.2 hw h3 h hin
        exact Dbl.lt_of_le_of_lt ((Dbl.fin_le _ _).2 h1) this


/-! ## Drawn implies found -/

theorem hit_of_inside {g : graph} {level : Nat} {name : String} {a_from a_to : Dbl}
    (h : a_from < g.spot_a ∧ g.spot_a < a_to
        ∧ Dbl.ofInt (((level : Int) + 1) * g.ring_width) < g.spot_r
        ∧ g.spot_r < Dbl.ofInt (((level : Int) + 1) * g.ring_width) + Dbl.ofInt g.ring_width) :
    hit g ⟨[name], level, a_from, a_to⟩ = true := by
  simp only [hit, decide_eq_true_eq, ge_iff_le]
  exact ⟨Dbl.le_of_lt h.1, Dbl.le_of_lt h.2.1, Dbl.le_of_lt h.2.2.1, Dbl.le_of_lt h.2.2.2⟩

theorem not_hit_of_radius_gt {g : graph} {level : Nat} {name : String} {a_from a_to : Dbl}
    (h : Dbl.ofInt ((((level + 1 : Nat) : Int) + 1) * g.ring_width) < g.spot_r) :
    hit g ⟨[name], level, a_from, a_to⟩ = false := by
  simp only [hit, decide_eq_false_iff_not, ge_iff_le]
  rintro ⟨_, _, _, h4⟩
  refine Dbl.not_le_of_lt h ?_
  have e : Dbl.ofInt ((((level + 1 : Nat) : Int) + 1) * g.ring_width)
      = Dbl.ofInt (((level : Int) + 1) * g.ring_width) + Dbl.ofInt g.ring_width := by
    simp only [Dbl.ofInt_eq, Dbl.fin_add]
    congr 1
    push_cast
    ring
  rw [e]
  exact h4

theorem draw_ring_inside_found (g : graph) :
    (∀ (d : duc_dir) (level : Nat) (p q : ℚ) (chain : List String) (part : part_log)
      (op : draw_op),
      sizes_consistent d = true → p ≤ q →
      op ∈ draw_ring g d level (Dbl.fin p) (Dbl.fin q) chain → strictly_inside g op →
      ∃ names, ring_chain op = some (chain ++ names)
        ∧ find_spot g d level (Dbl.fin p) (Dbl.fin q) part
            = (true, path_log level names ++ part)) ∧
    (∀ (es : List duc_dirent) (level : Nat) (w : ℚ) (size_total : Nat)
      (size_min size_max : Int) (chain : List String) (x hi : ℚ) (part : part_log)
      (op : draw_op),
      ents_consistent es = true → 0 ≤ w → span_ok size_total w es x hi →
      op ∈ draw_ring_loop g level (Dbl.fin w) size_total size_min size_max chain es
        (Dbl.fin x) (Dbl.fin x) →
      strictly_inside g op →
      ∃ names, ring_chain op = some (chain ++ names)
        ∧ find_spot_loop g level (Dbl.fin w) size_total es (Dbl.fin x) (Dbl.fin x) part
            = (true, path_log level names ++ part)) := by
  apply duc_tree_induction
  · intro path size_total es ih level p q chain part op hc hpq hop hin
    simp only [draw_ring, Dbl.fin_sub] at hop
    simp only [find_spot, Dbl.fin_sub]
    have hc' := sizes_consistent_mk hc
    exact ih level (q - p) size_total _ _ chain p q part op hc'.2 (by linarith)
      (span_ok_init hc'.1) hop hin
  · intro level w size_total size_min size_max chain x hi part op _ _ _ hop
    simp [draw_ring_loop] at hop
  · intro name size mode child es ihd ihes level w size_total size_min size_max chain x hi
      part op hc hw hok hop hin
    have hc' := ents_consistent_cons hc
    rcases Nat.eq_zero_or_pos size_total with h0 | h0
    · subst h0
      refine absurd hin (draw_ring_loop_cons_nan ?_ hop)
      rw [span_step_zero _ _ (span_ok_zero hok), Dbl.add_nan]
    · obtain ⟨h1, h2, h3⟩ := span_ok_step hw h0 hok
      obtain ⟨hcull, hcase⟩ := inside_loop_cons hop hin
      rw [find_spot_loop_cons]
      rw [span_step_fin _ _ _ h0, Dbl.fin_add] at hcull hcase ⊢
      have hxy : Dbl.fin x < Dbl.fin (x + w * ((duc_dirent.mk name size mode child).size : ℚ)
          / (size_total : ℚ)) := by
        have hne : ¬ Dbl.fin (x + w * ((duc_dirent.mk name size mode child).size : ℚ)
            / (size_total : ℚ)) ≤ Dbl.fin x := fun hle => hcull (Or.inr hle)
        simp only [Dbl.fin_le, not_le] at hne
        exact (Dbl.fin_lt _ _).2 hne
      simp only [gt_iff_lt, hxy, if_true]
      rcases hcase with h | ⟨d, hel, h⟩ | h
      · -- the sector of this entry
        rw [h, inside_ring_of] at hin
        refine ⟨[name], ?_, ?_⟩
        · rw [h]
          rfl
        · rw [hit_of_inside hin]
          simp [path_log]
      · -- a sector drawn in the sub-directory of this entry
        have hel' := eligible_eq_some hel
        obtain ⟨names, hn1, hn2⟩ := ihd d hel'.2.2 (level + 1) x _ (chain ++ [name]) part op
          (hc'.1 d hel'.1 hel'.2.2) h1 h hin
        have hr := ((draw_ring_inside_radius g).1 d _ _ _ _ _ h hin).2
        refine ⟨name :: names, ?_, ?_⟩
        · rw [hn1]
          simp [duc_dirent.name]
        · rw [not_hit_of_radius_gt hr]
          simp only [Bool.false_eq_true, if_false]
          simp only [duc_dirent.mode, duc_dirent.child] at hel
          rw [hel]
          simp only [hn2, if_true]
          simp [path_log]
      · -- a sector of a later sibling
        obtain ⟨names, hn1, hn2⟩ := ihes level w size_total size_min size_max chain _ hi part op
          hc'.2 hw h3 h hin
        have ha := (draw_ring_inside_angle g).2 es level w size_total size_min size_max chain _ hi
          op hc'.2 hw h3 h hin
        refine ⟨names, hn1, ?_⟩
        rw [not_hit_of_angle_gt ha]
        simp only [Bool.false_eq_true, if_false]
        cases hel : eligible g level mode child with
        | none => exact hn2
        | some d =>
          have hel' := eligible_eq_some hel
          have hd := (find_spot_angle_above g).1 d (level + 1) x _ part
            (hc'.1 d hel'.1 hel'.2.2) h1 ha
          simp only [hd, Bool.false_eq_true, if_false]
          exact hn2


/-- The probe point plays no part in drawing. -/
theorem draw_ring_spot (g : graph) (a r : Dbl) :
    (∀ (d : duc_dir) (level : Nat) (a_min a_max : Dbl) (chain : List String),
      draw_ring { g with spot_a := a, spot_r := r } d level a_min a_max chain
        = draw_ring g d level a_min a_max chain) ∧
    (∀ (es : List duc_dirent) (level : Nat) (a_range : Dbl) (size_total : Nat)
      (size_min size_max : Int) (chain : List String) (a_from a_to : Dbl),
      draw_ring_loop { g with spot_a := a, spot_r := r } level a_range size_total size_min
          size_max chain es a_from a_to
        = draw_ring_loop g level a_range size_total size_min size_max chain es a_from a_to) := by
  apply duc_tree_induction
  · intro path size_total es ih level a_min a_max chain
    simp only [draw_ring]
    exact ih _ _ _ _ _ _ _ _
  · intro level a_range size_total size_min size_max chain a_from a_to
    simp [draw_ring_loop]
  · intro name size mode child es ihd ihes level a_range size_total size_min size_max chain
      a_from a_to
    rw [draw_ring_loop_cons, draw_ring_loop_cons, ihes]
    have hsub : ∀ a', sub_part { g with spot_a := a, spot_r := r } level size_min size_max chain
        (.mk name size mode child) a_from a'
        = sub_part g level size_min size_max chain (.mk name size mode child) a_from a' := by
      intro a'
      cases child with
      | none => rfl
      | some d =>
        simp only [sub_part, duc_dirent.child, ihd d rfl]
    rw [hsub]
    rfl

theorem draw_ring_dir_nested :
    draw_ring (graph_init 300 4) dir_nested 1 0 1 [] =
      [draw_op.ring ["a"] (Dbl.fin 0) (Dbl.fin (1 / 10)) (Dbl.fin 54) (Dbl.fin 81)
          (Dbl.fin (48 / 61)) (Dbl.fin (36 / 125)),
       draw_op.label ["a"] (ang (Dbl.fin (1 / 20))) (Dbl.fin (135 / 2)) "a" 10,
       draw_op.ring ["sub"] (Dbl.fin (1 / 10)) (Dbl.fin (3 / 10)) (Dbl.fin 54) (Dbl.fin 81)
          (Dbl.fin (40 / 61)) (Dbl.fin (36 / 125)),
       draw_op.ring ["sub", "x"] (Dbl.fin (1 / 10)) (Dbl.fin (3 / 20)) (Dbl.fin 81) (Dbl.fin 108)
          (Dbl.fin (8 / 11)) (Dbl.fin (54 / 125)),
       draw_op.ring ["sub", "y"] (Dbl.fin (3 / 20)) (Dbl.fin (3 / 10)) (Dbl.fin 81) (Dbl.fin 108)
          (Dbl.fin 0) (Dbl.fin (54 / 125)),
       draw_op.label ["sub", "y"] (ang (Dbl.fin (9 / 40))) (Dbl.fin (189 / 2)) "y" 15,
       draw_op.label ["sub"] (ang (Dbl.fin (1 / 5))) (Dbl.fin (135 / 2)) "sub" 20,
       draw_op.ring ["c"] (Dbl.fin (3 / 10)) (Dbl.fin 1) (Dbl.fin 54) (Dbl.fin 81)
          (Dbl.fin 0) (Dbl.fin (36 / 125)),
       draw_op.label ["c"] (ang (Dbl.fin (13 / 20))) (Dbl.fin (135 / 2)) "c" 70] := by
  simp [draw_ring, draw_ring_loop, dir_nested, graph_init, M_PI, Int.tdiv, size_scan, u64,
    duc_dirent.size]
  norm_num

/-! ## The sectors of one level -/

theorem level_rings_nil (n : Nat) : level_rings n [] = [] := rfl

theorem level_rings_append (n : Nat) (xs ys : List draw_op) :
    level_rings n (xs ++ ys) = level_rings n xs ++ level_rings n ys := by
  simp [level_rings, List.filterMap_append]

theorem level_rings_label_part (n : Nat) (g : graph) (level : Nat) (chain : List String)
    (e : duc_dirent) (a_from a_to : Dbl) :
    level_rings n (label_part g level chain e a_from a_to) = [] := by
  unfold label_part
  split_ifs <;> simp [level_rings]

theorem level_rings_ring_of (g : graph) (level : Nat) (size_min size_max : Int)
    (chain : List String) (e : duc_dirent) (a_from a_to : Dbl) (rest : List draw_op) :
    level_rings (chain.length + 1)
        (ring_of g level size_min size_max chain e a_from a_to :: rest)
      = (e.name, a_from, a_to) :: level_rings (chain.length + 1) rest := by
  simp [level_rings, ring_of, List.filterMap_cons]

theorem level_rings_ring_of_deep (n : Nat) (g : graph) (level : Nat) (size_min size_max : Int)
    (chain : List String) (e : duc_dirent) (a_from a_to : Dbl) (rest : List draw_op)
    (h : n ≤ chain.length) :
    level_rings n (ring_of g level size_min size_max chain e a_from a_to :: rest)
      = level_rings n rest := by
  have : ¬ chain.length + 1 = n := by omega
  simp [level_rings, ring_of, List.filterMap_cons, this]

/-- A directory drawn below a chain of `n` names or more contributes no sector
to the level of the chains of length `n`. -/
theorem level_rings_deep (g : graph) :
    (∀ (d : duc_dir) (level : Nat) (a_min a_max : Dbl) (chain : List String) (n : Nat),
      n ≤ chain.length → level_rings n (draw_ring g d level a_min a_max chain) = []) ∧
    (∀ (es : List duc_dirent) (level : Nat) (a_range : Dbl) (size_total : Nat)
      (size_min size_max : Int) (chain : List String) (a_from a_to : Dbl) (n : Nat),
      n ≤ chain.length →
      level_rings n (draw_ring_loop g level a_range size_total size_min size_max chain es
        a_from a_to) = []) := by
  apply duc_tree_induction
  · intro path size_total es ih level a_min a_max chain n hn
    simp only [draw_ring]
    exact ih _ _ _ _ _ _ _ _ _ hn
  · intro level a_range size_total size_min size_max chain a_from a_to n _
    simp [draw_ring_loop, level_rings]
  · intro name size mode child es ihd ihes level a_range size_total size_min size_max chain
      a_from a_to n hn
    rw [draw_ring_loop_cons]
    split_ifs
    · rfl
    · rw [level_rings_ring_of_deep n _ _ _ _ _ _ _ _ _ hn, level_rings_append,
        level_rings_append, level_rings_label_part, ihes _ _ _ _ _ _ _ _ _ hn]
      simp only [List.append_nil]
      unfold sub_part
      split_ifs
      · cases child with
        | none => rfl
        | some d =>
          simp only [duc_dirent.child]
          exact ihd d rfl _ _ _ _ _ (by simp; omega)
      · simp [level_rings]
      · rfl

theorem level_rings_sub_part (g : graph) (level : Nat) (size_min size_max : Int)
    (chain : List String) (e : duc_dirent) (a_from a_to : Dbl) :
    level_rings (chain.length + 1) (sub_part g level size_min size_max chain e a_from a_to)
      = [] := by
  unfold sub_part
  split_ifs
  · cases h : e.child with
    | none => rfl
    | some d =>
      simp only
      exact (level_rings_deep g).1 d _ _ _ _ _ (by simp)
  · simp [level_rings]
  · rfl

/-- The sectors that the loop of `draw_ring` draws at its own level are the
spans of the leading children that pass the break tests. -/
theorem level_rings_loop (g : graph) (level : Nat) (a_range : Dbl) (size_total : Nat)
    (size_min size_max : Int) (chain : List String) (es : List duc_dirent) :
    ∀ a : Dbl,
      level_rings (chain.length + 1)
          (draw_ring_loop g level a_range size_total size_min size_max chain es a a)
        = (sibling_spans a_range size_total es a).take
            (drawn_count g level a_range size_total es a) := by
  induction es with
  | nil =>
    intro a
    simp [draw_ring_loop, level_rings, sibling_spans]
  | cons e es ih =>
    intro a
    rw [draw_ring_loop_cons]
    by_cases hc : culled g level a (a + span_step a_range size_total e)
    · simp [hc, drawn_count, level_rings]
    · simp only [hc, if_false, drawn_count, sibling_spans]
      rw [level_rings_ring_of, level_rings_append, level_rings_append, level_rings_sub_part,
        level_rings_label_part, ih]
      simp [Nat.add_comm 1, List.take_succ_cons]

/-- The loop of `draw_ring` only looks at the leading children that pass the
break tests. -/
theorem draw_ring_loop_take (g : graph) (level : Nat) (a_range : Dbl) (size_total : Nat)
    (size_min size_max : Int) (chain : List String) (es : List duc_dirent) :
    ∀ a : Dbl,
      draw_ring_loop g level a_range size_total size_min size_max chain es a a
        = draw_ring_loop g level a_range size_total size_min size_max chain
            (es.take (drawn_count g level a_range size_total es a)) a a := by
  induction es with
  | nil =>
    intro a
    simp
  | cons e es ih =>
    intro a
    by_cases hc : culled g level a (a + span_step a_range size_total e)
    · simp [drawn_count, hc, draw_ring_loop_cons, draw_ring_loop]
    · simp only [drawn_count, hc, if_false, Nat.add_comm 1, List.take_succ_cons]
      rw [draw_ring_loop_cons, draw_ring_loop_cons]
      simp only [hc, if_false]
      rw [← ih]

theorem drawn_count_le (g : graph) (level : Nat) (a_range : Dbl) (size_total : Nat)
    (es : List duc_dirent) :
    ∀ a : Dbl, drawn_count g level a_range size_total es a ≤ es.length := by
  induction es with
  | nil =>
    intro a
    simp [drawn_count]
  | cons e es ih =>
    intro a
    simp only [drawn_count]
    split_ifs
    · simp
    · have := ih (a + span_step a_range size_total e)
      simp only [List.length_cons]
      omega

theorem sibling_spans_length (a_range : Dbl) (size_total : Nat) (es : List duc_dirent) :
    ∀ a : Dbl, (sibling_spans a_range size_total es a).length = es.length := by
  induction es with
  | nil =>
    intro a
    rfl
  | cons e es ih =>
    intro a
    simp [sibling_spans, ih]

/-- None of the leading children counted by `drawn_count` is culled. -/
theorem drawn_not_culled (g : graph) (level : Nat) (a_range : Dbl) (size_total : Nat)
    (es : List duc_dirent) :
    ∀ (a : Dbl) (s : String × Dbl × Dbl),
      s ∈ (sibling_spans a_range size_total es a).take
          (drawn_count g level a_range size_total es a) →
      ¬ culled g level s.2.1 s.2.2 := by
  induction es with
  | nil =>
    intro a s hs
    simp [sibling_spans] at hs
  | cons e es ih =>
    intro a s hs
    by_cases hc : culled g level a (a + span_step a_range size_total e)
    · simp [drawn_count, hc] at hs
    · simp only [drawn_count, hc, if_false, sibling_spans, Nat.add_comm 1,
        List.take_succ_cons, List.mem_cons] at hs
      rcases hs with hs | hs
      · subst hs
        exact hc
      · exact ih _ s hs

/-- The child that follows the leading children counted by `drawn_count`, if any,
is culled. -/
theorem first_culled (g : graph) (level : Nat) (a_range : Dbl) (size_total : Nat)
    (es : List duc_dirent) :
    ∀ (a : Dbl) (s : String × Dbl × Dbl),
      (sibling_spans a_range size_total es a)[drawn_count g level a_range size_total es a]?
        = some s →
      culled g level s.2.1 s.2.2 := by
  induction es with
  | nil =>
    intro a s hs
    simp [sibling_spans] at hs
  | cons e es ih =>
    intro a s hs
    by_cases hc : culled g level a (a + span_step a_range size_total e)
    · simp only [drawn_count, hc, if_true, sibling_spans, List.getElem?_cons_zero,
        Option.some.injEq] at hs
      subst hs
      exact hc
    · simp only [drawn_count, hc, if_false, sibling_spans, Nat.add_comm 1,
        List.getElem?_cons_succ] at hs
      exact ih _ s hs


/-! ## Culling is an early exit -/

theorem own_rings_mk (g : graph) (path : String) (size_total : Nat) (es : List duc_dirent)
    (level : Nat) (a_min a_max : Dbl) (chain : List String) :
    own_rings g (.mk path size_total es) level a_min a_max chain
      = (sibling_spans (a_max - a_min) size_total es a_min).take
          (drawn_count g level (a_max - a_min) size_total es a_min) := by
  simp only [own_rings, draw_ring]
  exact level_rings_loop _ _ _ _ _ _ _ _ _

/-- C3 (render culling is an early exit): in `draw_ring`, with `k` the number of
leading children that pass the break tests (`drawn_count`), the whole output is
the output of the loop run on the first `k` children alone, so the first child
for which `r_to * (a_to - a_from) * 2 pi < 2` or `a_to <= a_from` holds and every
later sibling produce no sector, no depth-limit marker, no label and no
recursion; the sectors drawn for the directory are those of the first `k`
children in iteration order, none of which is culled, and child `k`, when
there is one, is culled. -/
theorem C3_cull_is_early_exit (g : graph) (path : String) (size_total : Nat)
    (es : List duc_dirent) (level : Nat) (a_min a_max : Dbl) (chain : List String) :
    draw_ring g (.mk path size_total es) level a_min a_max chain
        = draw_ring_loop g level (a_max - a_min) size_total (size_scan size_total es).1
            (size_scan size_total es).2 chain
            (es.take (drawn_count g level (a_max - a_min) size_total es a_min)) a_min a_min
      ∧ own_rings g (.mk path size_total es) level a_min a_max chain
          = (sibling_spans (a_max - a_min) size_total es a_min).take
              (drawn_count g level (a_max - a_min) size_total es a_min)
      ∧ drawn_count g level (a_max - a_min) size_total es a_min ≤ es.length
      ∧ (∀ s ∈ (sibling_spans (a_max - a_min) size_total es a_min).take
              (drawn_count g level (a_max - a_min) size_total es a_min),
            ¬ culled g level s.2.1 s.2.2)
      ∧ (∀ s, (sibling_spans (a_max - a_min) size_total es a_min)[
              drawn_count g level (a_max - a_min) size_total es a_min]? = some s →
            culled g level s.2.1 s.2.2) := by
  refine ⟨?_, own_rings_mk _ _ _ _ _ _ _ _, drawn_count_le _ _ _ _ _ _,
    drawn_not_culled _ _ _ _ _ _, first_culled _ _ _ _ _ _⟩
  simp only [draw_ring]
  exact draw_ring_loop_take _ _ _ _ _ _ _ _ _

theorem drawn_count_dir_tiny_last :
    drawn_count (graph_init 300 4) 1 (1 - 0) 1000 dir_tiny_last.ents 0 = 2 := by
  simp [drawn_count, culled, span_step, dir_tiny_last, duc_dir.ents, graph_init, M_PI,
    Int.tdiv, duc_dirent.size]
  norm_num

theorem C3_cull_is_early_exit_witness :
    own_rings (graph_init 300 4) dir_tiny_last 1 0 1 []
        = [("p", Dbl.fin 0, Dbl.fin (3 / 5)), ("q", Dbl.fin (3 / 5), Dbl.fin (999 / 1000))]
      ∧ draw_ring (graph_init 300 4) dir_tiny_last 1 0 1 []
        = [draw_op.ring ["p"] (Dbl.fin 0) (Dbl.fin (3 / 5)) (Dbl.fin 54) (Dbl.fin 81)
              (Dbl.fin 0) (Dbl.fin (36 / 125)),
           draw_op.label ["p"] (ang (Dbl.fin (3 / 10))) (Dbl.fin (135 / 2)) "p" 600,
           draw_op.ring ["q"] (Dbl.fin (3 / 5)) (Dbl.fin (999 / 1000)) (Dbl.fin 54) (Dbl.fin 81)
              (Dbl.fin (67 / 250)) (Dbl.fin (36 / 125)),
           draw_op.label ["q"] (ang (Dbl.fin (1599 / 2000))) (Dbl.fin (135 / 2)) "q" 399] := by
  have h := C3_cull_is_early_exit (graph_init 300 4) "/data" 1000 dir_tiny_last.ents 1 0 1 []
  have hk := drawn_count_dir_tiny_last
  rw [hk] at h
  refine ⟨?_, ?_⟩
  · refine h.2.1.trans ?_
    simp [sibling_spans, span_step, dir_tiny_last, duc_dir.ents, duc_dirent.size,
      duc_dirent.name]
    norm_num
  · refine h.1.trans ?_
    simp [draw_ring_loop, dir_tiny_last, duc_dir.ents, size_scan, u64,
      duc_dirent.size, graph_init, M_PI, Int.tdiv]
    norm_num


/-! ## The claims on the hit-test -/

/-- C6 (hit-test match rule): `find_spot` returns found if and only if some
entry it visits (a child with `a_to > a_from`, reached through directories
with `level + 1 < depth`) has the probe angle in the closed interval
`[a_from, a_to]` and the probe radius in the closed interval
`[(level+1) * ring_width, (level+1) * ring_width + ring_width]`; and its result
is that of the first such entry in depth-first pre-order: found with the names
of that entry stored from `part[level]` on, or not found with `part`
unchanged when there is none. -/
theorem C6_find_spot_match_rule (g : graph) (d : duc_dir) (level : Nat) (a_min a_max : Dbl)
    (part : part_log) :
    ((find_spot g d level a_min a_max part).1 = true
        ↔ ∃ v ∈ find_visits g d level a_min a_max, hit g v = true)
      ∧ find_spot g d level a_min a_max part
          = first_hit g level part (find_visits g d level a_min a_max) := by
  have h := (find_spot_first_hit g).1 d level a_min a_max part
  refine ⟨?_, h⟩
  rw [h]
  unfold first_hit
  cases hf : (find_visits g d level a_min a_max).find? (hit g) with
  | none =>
    simp only [Bool.false_eq_true, false_iff, not_exists, not_and]
    intro v hv
    have := List.find?_eq_none.1 hf v hv
    simpa using this
  | some v =>
    simp only [true_iff]
    exact ⟨v, List.mem_of_find?_eq_some hf, List.find?_some hf⟩

/-- C2 (the hit-test does not mirror the culling rule), evaluated on a directory
with entries of sizes 1 and 999 in a 300-pixel chart of depth 4: the first entry
is culled by `draw_ring`, which therefore draws nothing at all, yet `find_spot`
matches the culled entry itself and the sibling after it. -/
theorem C2_hit_test_ignores_culling :
    culled (graph_init 300 4) 1 0 (Dbl.fin (1 / 1000))
      ∧ draw_ring (graph_init 300 4) dir_tiny_first 1 0 1 [] = []
      ∧ find_spot { graph_init 300 4 with spot_a := Dbl.fin (1 / 2000), spot_r := Dbl.fin 60 }
          dir_tiny_first 1 0 1 [] = (true, [(1, "t")])
      ∧ find_spot { graph_init 300 4 with spot_a := Dbl.fin (1 / 2), spot_r := Dbl.fin 60 }
          dir_tiny_first 1 0 1 [] = (true, [(1, "big")]) := by
  refine ⟨?_, draw_ring_dir_tiny_first, ?_, find_spot_dir_tiny_first⟩
  · simp [culled, graph_init, M_PI, Int.tdiv]
    norm_num
  · simp [find_spot, find_spot_loop, dir_tiny_first, graph_init, Int.tdiv]
    norm_num


/-! ## Contiguity and non-overlap of sibling sectors -/

theorem sibling_spans_nan (a_range : Dbl) (size_total : Nat) (es : List duc_dirent) :
    ∀ t ∈ sibling_spans a_range size_total es Dbl.nan, t.2.1 = Dbl.nan := by
  induction es with
  | nil =>
    intro t ht
    simp [sibling_spans] at ht
  | cons e es ih =>
    intro t ht
    simp only [sibling_spans, Dbl.nan_add, List.mem_cons] at ht
    rcases ht with ht | ht
    · subst ht
      rfl
    · exact ih t ht

/-- Every drawn sector starts at or after the angle at which the loop stands. -/
theorem drawn_spans_after (g : graph) (level : Nat) (a_range : Dbl) (size_total : Nat)
    (es : List duc_dirent) :
    ∀ (a : Dbl) (t : String × Dbl × Dbl),
      t ∈ (sibling_spans a_range size_total es a).take
          (drawn_count g level a_range size_total es a) →
      ∀ p : Dbl, t.2.1 < p → ¬ p < a := by
  induction es with
  | nil =>
    intro a t ht
    simp [sibling_spans] at ht
  | cons e es ih =>
    intro a t ht p htp hpa
    by_cases hc : culled g level a (a + span_step a_range size_total e)
    · simp [drawn_count, hc] at ht
    · simp only [drawn_count, hc, if_false, sibling_spans, Nat.add_comm 1,
        List.take_succ_cons, List.mem_cons] at ht
      rcases ht with ht | ht
      · subst ht
        exact Dbl.lt_irrefl _ (Dbl.lt_trans htp hpa)
      · have h1 := ih _ t ht p htp
        by_cases hn : a + span_step a_range size_total e = Dbl.nan
        · rw [hn] at ht
          have := sibling_spans_nan a_range size_total es t (List.mem_of_mem_take ht)
          rw [this] at htp
          exact Dbl.not_nan_lt _ htp
        · have h2 : ¬ a + span_step a_range size_total e ≤ a := fun h => hc (Or.inr h)
          have h3 := Dbl.lt_of_not_le (Dbl.ne_nan_of_lt_right hpa) hn h2
          exact h1 (Dbl.lt_trans hpa h3)

theorem drawn_spans_head (g : graph) (level : Nat) (a_range : Dbl) (size_total : Nat)
    (es : List duc_dirent) (a : Dbl) (s : String × Dbl × Dbl)
    (h : ((sibling_spans a_range size_total es a).take
        (drawn_count g level a_range size_total es a))[0]? = some s) :
    s.2.1 = a := by
  cases es with
  | nil => simp [sibling_spans] at h
  | cons e es =>
    by_cases hc : culled g level a (a + span_step a_range size_total e)
    · simp [drawn_count, hc] at h
    · simp only [drawn_count, hc, if_false, sibling_spans, Nat.add_comm 1,
        List.take_succ_cons, List.getElem?_cons_zero, Option.some.injEq] at h
      subst h
      rfl

theorem drawn_spans_contiguous (g : graph) (level : Nat) (a_range : Dbl) (size_total : Nat)
    (es : List duc_dirent) :
    ∀ (a : Dbl) (i : Nat) (s t : String × Dbl × Dbl),
      ((sibling_spans a_range size_total es a).take
          (drawn_count g level a_range size_total es a))[i]? = some s →
      ((sibling_spans a_range size_total es a).take
          (drawn_count g level a_range size_total es a))[i + 1]? = some t →
      s.2.2 = t.2.1 := by
  induction es with
  | nil =>
    intro a i s t hs
    simp [sibling_spans] at hs
  | cons e es ih =>
    intro a i s t hs ht
    by_cases hc : culled g level a (a + span_step a_range size_total e)
    · simp [drawn_count, hc] at hs
    · simp only [drawn_count, hc, if_false, sibling_spans, Nat.add_comm 1,
        List.take_succ_cons] at hs ht
      cases i with
      | zero =>
        simp only [List.getElem?_cons_zero, Option.some.injEq] at hs
        simp only [Nat.zero_add, List.getElem?_cons_succ] at ht
        subst hs
        exact (drawn_spans_head g level a_range size_total es _ t ht).symm
      | succ i =>
        simp only [List.getElem?_cons_succ] at hs ht
        exact ih _ i s t hs ht

theorem drawn_spans_disjoint (g : graph) (level : Nat) (a_range : Dbl) (size_total : Nat)
    (es : List duc_dirent) :
    ∀ (a : Dbl) (i j : Nat) (s t : String × Dbl × Dbl) (p : Dbl), i < j →
      ((sibling_spans a_range size_total es a).take
          (drawn_count g level a_range size_total es a))[i]? = some s →
      ((sibling_spans a_range size_total es a).take
          (drawn_count g level a_range size_total es a))[j]? = some t →
      ¬ (s.2.1 < p ∧ p < s.2.2 ∧ t.2.1 < p ∧ p < t.2.2) := by
  induction es with
  | nil =>
    intro a i j s t p _ hs
    simp [sibling_spans] at hs
  | cons e es ih =>
    intro a i j s t p hij hs ht
    by_cases hc : culled g level a (a + span_step a_range size_total e)
    · simp [drawn_count, hc] at hs
    · simp only [drawn_count, hc, if_false, sibling_spans, Nat.add_comm 1,
        List.take_succ_cons] at hs ht
      cases j with
      | zero => omega
      | succ j =>
        simp only [List.getElem?_cons_succ] at ht
        cases i with
        | zero =>
          simp only [List.getElem?_cons_zero, Option.some.injEq] at hs
          subst hs
          rintro ⟨_, h2, h3, _⟩
          exact drawn_spans_after g level a_range size_total es _ t
            (List.getElem?_mem ht) p h3 h2
        | succ i =>
          simp only [List.getElem?_cons_succ] at hs
          exact ih _ i j s t p (by omega) hs ht

/-- C5 (sibling spans are contiguous and non-overlapping): among the ring
sectors that `draw_ring` draws for the children of a directory, the first
starts at `a_min`, the end angle of each equals the start angle of the next,
and no angle lies strictly inside two of them. -/
theorem C5_sibling_sectors_contiguous (g : graph) (path : String) (size_total : Nat)
    (es : List duc_dirent) (level : Nat) (a_min a_max : Dbl) (chain : List String) :
    (∀ s, (own_rings g (.mk path size_total es) level a_min a_max chain)[0]? = some s →
        s.2.1 = a_min)
      ∧ (∀ i s t,
          (own_rings g (.mk path size_total es) level a_min a_max chain)[i]? = some s →
          (own_rings g (.mk path size_total es) level a_min a_max chain)[i + 1]? = some t →
          s.2.2 = t.2.1)
      ∧ (∀ (i j : Nat) (s t : String × Dbl × Dbl) (p : Dbl), i < j →
          (own_rings g (.mk path size_total es) level a_min a_max chain)[i]? = some s →
          (own_rings g (.mk path size_total es) level a_min a_max chain)[j]? = some t →
          ¬ (s.2.1 < p ∧ p < s.2.2 ∧ t.2.1 < p ∧ p < t.2.2)) := by
  rw [own_rings_mk]
  exact ⟨drawn_spans_head _ _ _ _ _ _, drawn_spans_contiguous _ _ _ _ _ _,
    drawn_spans_disjoint _ _ _ _ _ _⟩


/-! ## Partition of the span of a directory among its children -/

theorem sum_sizes_nil : sum_sizes [] = 0 := rfl

theorem sum_sizes_take_le (es : List duc_dirent) : ∀ k, sum_sizes (es.take k) ≤ sum_sizes es := by
  induction es with
  | nil =>
    intro k
    simp
  | cons e es ih =>
    intro k
    cases k with
    | zero => simp [sum_sizes_nil]
    | succ k =>
      simp only [List.take_succ_cons, sum_sizes_cons]
      have := ih k
      omega

theorem sibling_spans_fin (w : ℚ) (size_total : Nat) (ht : 0 < size_total)
    (es : List duc_dirent) :
    ∀ (x : ℚ) (i : Nat) (s : String × Dbl × Dbl),
      (sibling_spans (Dbl.fin w) size_total es (Dbl.fin x))[i]? = some s →
      ∃ e, es[i]? = some e
        ∧ s = (e.name, Dbl.fin (x + w * (sum_sizes (es.take i) : ℚ) / (size_total : ℚ)),
            Dbl.fin (x + w * (sum_sizes (es.take i) : ℚ) / (size_total : ℚ)
              + w * (e.size : ℚ) / (size_total : ℚ))) := by
  induction es with
  | nil =>
    intro x i s hs
    simp [sibling_spans] at hs
  | cons e es ih =>
    intro x i s hs
    simp only [sibling_spans, span_step_fin _ _ _ ht, Dbl.fin_add] at hs
    cases i with
    | zero =>
      simp only [List.getElem?_cons_zero, Option.some.injEq] at hs
      refine ⟨e, by simp, ?_⟩
      rw [← hs]
      simp [sum_sizes_nil]
    | succ i =>
      simp only [List.getElem?_cons_succ] at hs
      obtain ⟨e', he', hs'⟩ := ih _ i s hs
      refine ⟨e', by simpa using he', ?_⟩
      rw [hs']
      simp only [List.take_succ_cons, sum_sizes_cons, Nat.cast_add, Prod.mk.injEq,
        Dbl.fin.injEq, true_and]
      constructor <;> ring

theorem sum_widths_take_fin (w : ℚ) (size_total : Nat) (ht : 0 < size_total)
    (es : List duc_dirent) :
    ∀ (x : ℚ) (k : Nat),
      sum_widths ((sibling_spans (Dbl.fin w) size_total es (Dbl.fin x)).take k)
        = Dbl.fin (w * (sum_sizes (es.take k) : ℚ) / (size_total : ℚ)) := by
  induction es with
  | nil =>
    intro x k
    simp [sibling_spans, sum_widths, sum_sizes_nil]
  | cons e es ih =>
    intro x k
    cases k with
    | zero => simp [sum_widths, sum_sizes_nil]
    | succ k =>
      simp only [sibling_spans, span_step_fin _ _ _ ht, Dbl.fin_add, List.take_succ_cons,
        sum_widths, ih, Dbl.fin_sub, sum_sizes_cons, Nat.cast_add, Dbl.fin.injEq]
      ring

/-- In the loop of `find_spot`, a probe in the band of the level whose angle
lies in the span of child `i`, above its start, is matched to child `i`. -/
theorem find_spot_loop_own (g : graph) (level : Nat) (w : ℚ) (size_total : Nat)
    (ht : 0 < size_total) (hw : 0 ≤ w) (hrw : 0 < g.ring_width)
    (hr1 : Dbl.ofInt (((level : Int) + 1) * g.ring_width) ≤ g.spot_r)
    (hr2 : g.spot_r < Dbl.ofInt (((level : Int) + 1) * g.ring_width) + Dbl.ofInt g.ring_width)
    (es : List duc_dirent) :
    ∀ (x : ℚ) (i : Nat) (e : duc_dirent) (part : part_log), es[i]? = some e →
      Dbl.fin (x + w * (sum_sizes (es.take i) : ℚ) / (size_total : ℚ)) < g.spot_a →
      g.spot_a ≤ Dbl.fin (x + w * (sum_sizes (es.take i) : ℚ) / (size_total : ℚ)
        + w * (e.size : ℚ) / (size_total : ℚ)) →
      find_spot_loop g level (Dbl.fin w) size_total es (Dbl.fin x) (Dbl.fin x) part
        = (true, (level, e.name) :: part) := by
  have ht' : (0 : ℚ) < size_total := by exact_mod_cast ht
  induction es with
  | nil =>
    intro x i e part he
    simp at he
  | cons e0 es ih =>
    intro x i e part he ha1 ha2
    cases e0 with
    | mk name size mode child =>
      rw [find_spot_loop_cons, span_step_fin _ _ _ ht, Dbl.fin_add]
      cases i with
      | zero =>
        simp only [List.getElem?_cons_zero, Option.some.injEq] at he
        subst he
        simp only [List.take_zero, sum_sizes_nil, Nat.cast_zero, mul_zero, zero_div,
          add_zero] at ha1 ha2
        have hlt := Dbl.lt_of_lt_of_le ha1 ha2
        have hh : hit g ⟨[name], level, Dbl.fin x,
            Dbl.fin (x + w * ((duc_dirent.mk name size mode child).size : ℚ)
              / (size_total : ℚ))⟩ = true := by
          simp only [hit, decide_eq_true_eq, ge_iff_le]
          exact ⟨Dbl.le_of_lt ha1, ha2, hr1, Dbl.le_of_lt hr2⟩
        simp only [gt_iff_lt, hlt, if_true, hh]
        rfl
      | succ i =>
        simp only [List.getElem?_cons_succ] at he
        simp only [List.take_succ_cons, sum_sizes_cons, Nat.cast_add] at ha1 ha2
        have h0 : (0 : ℚ) ≤ w * (sum_sizes (es.take i) : ℚ) / (size_total : ℚ) := by positivity
        have e1 : x + w * (((duc_dirent.mk name size mode child).size : ℚ)
              + (sum_sizes (es.take i) : ℚ)) / (size_total : ℚ)
            = x + w * ((duc_dirent.mk name size mode child).size : ℚ) / (size_total : ℚ)
              + w * (sum_sizes (es.take i) : ℚ) / (size_total : ℚ) := by
          ring
        rw [e1] at ha1 ha2
        have hlt : Dbl.fin (x + w * ((duc_dirent.mk name size mode child).size : ℚ)
            / (size_total : ℚ)) < g.spot_a :=
          Dbl.lt_of_le_of_lt ((Dbl.fin_le _ _).2 (by linarith)) ha1
        have hrest := ih _ i e part he ha1 ha2
        have hh : hit g ⟨[name], level, Dbl.fin x,
            Dbl.fin (x + w * ((duc_dirent.mk name size mode child).size : ℚ)
              / (size_total : ℚ))⟩ = false :=
          not_hit_of_angle_gt hlt
        have hr3 : g.spot_r < Dbl.ofInt ((((level + 1 : Nat) : Int) + 1) * g.ring_width) := by
          have e2 : Dbl.ofInt ((((level + 1 : Nat) : Int) + 1) * g.ring_width)
              = Dbl.ofInt (((level : Int) + 1) * g.ring_width) + Dbl.ofInt g.ring_width := by
            simp only [Dbl.ofInt_eq, Dbl.fin_add]
            congr 1
            push_cast
            ring
          rw [e2]
          exact hr2
        have hsub : ∀ d a_min a_max, find_spot g d (level + 1) a_min a_max part = (false, part) :=
          fun d a_min a_max => (find_spot_radius_below g hrw.le).1 d (level + 1) a_min a_max
            part hr3
        simp only [hh, Bool.false_eq_true, if_false]
        cases hel : eligible g level mode child with
        | none => simp [hrest]
        | some d => simp [hsub, hrest]


theorem getElem?_take_some {α : Type} {l : List α} {k i : Nat} {s : α}
    (h : (l.take k)[i]? = some s) : l[i]? = some s := by
  rw [List.getElem?_take] at h
  split_ifs at h
  exact h

theorem own_rings_dir_three :
    own_rings (graph_init 300 1) dir_three 1 (Dbl.fin 0) (Dbl.fin 1) []
      = [("a", Dbl.fin 0, Dbl.fin (1 / 10)), ("b", Dbl.fin (1 / 10), Dbl.fin (3 / 10)),
         ("c", Dbl.fin (3 / 10), Dbl.fin 1)] := by
  simp [own_rings, level_rings, draw_ring, draw_ring_loop, dir_three, graph_init, M_PI,
    Int.tdiv, size_scan, u64, duc_dirent.size]
  norm_num
  rfl

/-! ## Arithmetic with infinities -/

namespace Dbl

@[simp] theorem fin_add_pinf (a : ℚ) : fin a + pinf = pinf := rfl

@[simp] theorem pinf_add_fin (a : ℚ) : pinf + fin a = pinf := rfl

@[simp] theorem pinf_sub_fin (a : ℚ) : pinf - fin a = pinf := rfl

@[simp] theorem fin_mul_pinf (a : ℚ) (h : 0 < a) : fin a * pinf = pinf := by
  show mul (fin a) pinf = pinf
  simp [mul, h, h.ne']

@[simp] theorem pinf_mul_fin (a : ℚ) (h : 0 < a) : pinf * fin a = pinf := by
  show mul pinf (fin a) = pinf
  simp [mul, h, h.ne']

@[simp] theorem pinf_div_fin (a : ℚ) (h : 0 ≤ a) : pinf / fin a = pinf := by
  show div pinf (fin a) = pinf
  simp [div, h]

@[simp] theorem fin_lt_pinf (a : ℚ) : fin a < pinf := by
  show lt (fin a) pinf = true
  rfl

@[simp] theorem fin_le_pinf (a : ℚ) : fin a ≤ pinf := by
  show le (fin a) pinf = true
  rfl

@[simp] theorem not_pinf_lt (a : Dbl) : ¬ pinf < a := by
  show ¬ lt pinf a = true
  simp [lt]

@[simp] theorem not_pinf_le_fin (a : ℚ) : ¬ pinf ≤ fin a := by
  show ¬ le pinf (fin a) = true
  simp [le]

end Dbl

/-! ## duc_graph_xy_to_path -/

theorem ring_width_pos_depth {size depth : Int} (h : 0 < (graph_init size depth).ring_width) :
    depth + 1 ≠ 0 := by
  intro h0
  simp [graph_init, h0] at h

/-- C8 (inner-ring short-circuit): for every click whose distance from the
chart centre, as `hypot` computes it, is less than `2 * ring_width`,
`duc_graph_xy_to_path` returns found with the parent of the path of the
directory (the effect of `dirname` on a copy of `duc_dirpath`), whatever the
entries of the directory: `find_spot` is not run and no child name is
appended. -/
theorem C8_inner_ring_short_circuit (lc : libc) (dir : duc_dir) (size depth x y : Int) (h : ℚ)
    (hh : lc.hypot (Dbl.ofInt (x - size.tdiv 2)) (Dbl.ofInt (y - size.tdiv 2)) = Dbl.fin h)
    (h0 : 0 ≤ h) (hlt : h < 2 * ((graph_init size depth).ring_width : ℚ)) :
    duc_graph_xy_to_path lc dir size depth x y = some (true, lc.dirname (duc_dirpath dir)) := by
  have hw : (0 : ℚ) < ((graph_init size depth).ring_width : ℚ) := by linarith
  have hw' : 0 < (graph_init size depth).ring_width := by exact_mod_cast hw
  have hd := ring_width_pos_depth hw'
  have hr : lc.hypot (Dbl.ofInt (x - size.tdiv 2)) (Dbl.ofInt (y - size.tdiv 2))
      / Dbl.ofInt (graph_init size depth).ring_width < 2 := by
    rw [hh, Dbl.ofInt_eq, Dbl.fin_div_of_ne _ _ hw.ne']
    simp only [Dbl.ofNat_eq, Dbl.fin_lt, Nat.cast_ofNat]
    rw [div_lt_iff₀ hw]
    linarith
  unfold duc_graph_xy_to_path
  simp only [hd, if_false]
  rw [if_pos hr]

theorem C8_inner_ring_short_circuit_witness :
    libc_axes.hypot (Dbl.ofInt (150 - (300 : Int).tdiv 2)) (Dbl.ofInt (120 - (300 : Int).tdiv 2))
        = Dbl.fin 30
      ∧ (0 : ℚ) ≤ 30 ∧ (30 : ℚ) < 2 * ((graph_init 300 4).ring_width : ℚ)
      ∧ duc_graph_xy_to_path libc_axes dir_nested 300 4 150 120
          = some (true, libc_axes.dirname (duc_dirpath dir_nested)) := by
  have h1 : libc_axes.hypot (Dbl.ofInt (150 - (300 : Int).tdiv 2))
      (Dbl.ofInt (120 - (300 : Int).tdiv 2)) = Dbl.fin 30 := by
    simp [libc_axes, Int.tdiv]
  have h3 : (30 : ℚ) < 2 * ((graph_init 300 4).ring_width : ℚ) := by
    simp [graph_init, Int.tdiv]
    norm_num
  exact ⟨h1, by norm_num, h3,
    C8_inner_ring_short_circuit libc_axes dir_nested 300 4 150 120 30 h1 (by norm_num) h3⟩

/-- C9 (centre click), evaluated on a chart of size 30 and depth 2, whose ring
width is 0, over a directory holding one file: the click at the centre `(15,
15)` is not short-circuited (`0 / 0` is `NaN`, and `NaN < 2` is false) and
`duc_graph_xy_to_path` returns the child `/data/f`, not the parent
directory. -/
theorem C9_centre_click_zero_ring_width :
    (graph_init 30 2).ring_width = 0
      ∧ duc_graph_xy_to_path libc_axes dir_one 30 2 15 15 = some (true, "/data/f") := by
  refine ⟨by simp [graph_init, Int.tdiv], ?_⟩
  simp [duc_graph_xy_to_path, graph_init, Int.tdiv, libc_axes, car2pol, M_PI, find_spot,
    find_spot_loop, dir_one, duc_dirpath, join_parts, List.range, List.range.loop, List.lookup]

theorem find_spot_dir_three_depth_one :
    find_spot { graph_init 300 1 with spot_a := Dbl.fin 0, spot_r := Dbl.fin 150 }
        dir_three 1 0 1 [] = (true, [(1, "a")]) := by
  simp [find_spot, find_spot_loop, dir_three, graph_init, Int.tdiv]
  norm_num

theorem car2pol_above_centre :
    car2pol libc_axes (graph_init 300 1) 150 0 = (Dbl.fin 0, Dbl.fin 150) := by
  simp [car2pol, libc_axes, graph_init, Int.tdiv, M_PI]

/-- C7 (path assembly), evaluated at depth 1 on the directory of three files in
a 300-pixel chart, for a click straight above the centre at distance 150:
`find_spot` reports found and stores the name in `part[1]`, outside the array
`part[1]`, so the behaviour of `duc_graph_xy_to_path` is undefined; and the
joining loop, which reads `part[0]` only, leaves the path of the directory
without the name of the child. -/
theorem C7_path_assembly_depth_one :
    find_spot { graph_init 300 1 with spot_a := Dbl.fin 0, spot_r := Dbl.fin 150 }
        dir_three 1 0 1 [] = (true, [(1, "a")])
      ∧ duc_graph_xy_to_path libc_axes dir_three 300 1 150 0 = none
      ∧ join_parts 1 [(1, "a")] "/data" = "/data" := by
  refine ⟨find_spot_dir_three_depth_one, ?_, ?_⟩
  · have hr : ¬ libc_axes.hypot (Dbl.ofInt (150 - (300 : Int).tdiv 2))
        (Dbl.ofInt (0 - (300 : Int).tdiv 2)) / Dbl.ofInt (graph_init 300 1).ring_width < 2 := by
      simp [libc_axes, graph_init, Int.tdiv]
      norm_num
    unfold duc_graph_xy_to_path
    simp only [hr, car2pol_above_centre, find_spot_dir_three_depth_one]
    simp
  · simp [join_parts, List.range, List.range.loop, List.lookup]

/-- C10 (zero total size), evaluated on a directory of total size 0 holding one
empty file: the increment `0 / 0` is `NaN`, neither break test of `draw_ring`
holds, and a sector is drawn for the child (with end angle `NaN`), while
`find_spot` matches nothing.  When the recorded total is 0 but a child has a
positive size the increment is `+inf`: a sector and a label are drawn and
`find_spot` matches the child. -/
theorem C10_zero_total_size_draws :
    draw_ring (graph_init 300 4) dir_empty_file 1 0 1 []
        = [draw_op.ring ["e"] (Dbl.fin 0) Dbl.nan (Dbl.fin 54) (Dbl.fin 81) (Dbl.fin 0)
            (Dbl.fin (36 / 125))]
      ∧ draw_ring (graph_init 300 4) dir_zero_total 1 0 1 []
        = [draw_op.ring ["f"] (Dbl.fin 0) Dbl.pinf (Dbl.fin 54) (Dbl.fin 81) (Dbl.fin 0)
            (Dbl.fin (36 / 125)),
           draw_op.label ["f"] (ang (Dbl.pinf / 2)) (Dbl.fin (135 / 2)) "f" 5]
      ∧ find_spot { graph_init 300 4 with spot_a := Dbl.fin (1 / 2), spot_r := Dbl.fin 60 }
          dir_zero_total 1 0 1 [] = (true, [(1, "f")]) := by
  refine ⟨?_, ?_, ?_⟩
  · simp [draw_ring, draw_ring_loop, dir_empty_file, graph_init, M_PI, Int.tdiv, size_scan, u64,
      duc_dirent.size]
    norm_num
  · simp [draw_ring, draw_ring_loop, dir_zero_total, graph_init, M_PI, Int.tdiv, size_scan, u64,
      duc_dirent.size, Dbl.fin_div]
    norm_num
  · simp [find_spot, find_spot_loop, dir_zero_total, graph_init, Int.tdiv, Dbl.fin_div]
    norm_num


/-! ## hsv2rgb -/

namespace Dbl

@[simp] theorem floor_fin (q : ℚ) : floor (fin q) = fin (Int.floor q) := rfl

theorem toInt_fin_int (i : Int) (hlo : -2147483648 ≤ i) (hhi : i ≤ 2147483647) :
    toInt (fin (i : ℚ)) = some i := by
  have e : (if (0 : ℚ) ≤ (i : ℚ) then Int.floor (i : ℚ) else Int.ceil (i : ℚ)) = i := by
    split_ifs <;> simp
  simp only [toInt, e]
  rw [if_pos ⟨hlo, hhi⟩]

end Dbl

/-- On finite arguments whose sector index `floor(h * 6)` fits in an `int`,
`hsv2rgb` returns the triple of that sector at the fractional part of `h * 6`. -/
theorem hsv2rgb_fin (h s v : ℚ) (hlo : -2147483648 ≤ Int.floor (h * 6))
    (hhi : Int.floor (h * 6) ≤ 2147483647) :
    hsv2rgb (Dbl.fin h) (Dbl.fin s) (Dbl.fin v)
      = some (fin3 (hsv_sector (Int.floor (h * 6)) (h * 6 - Int.floor (h * 6)) s v)) := by
  simp only [hsv2rgb, Dbl.ofNat_eq, Dbl.fin_mul, Dbl.floor_fin, Nat.cast_ofNat,
    Dbl.toInt_fin_int _ hlo hhi, Dbl.ofInt_eq, Dbl.fin_sub, hsv_sector, Nat.cast_one]
  generalize (if (if Int.floor (h * 6) < 0 then 0 else Int.floor (h * 6)) > 6 then 6
    else if Int.floor (h * 6) < 0 then 0 else Int.floor (h * 6)) = j
  by_cases hp : Int.floor (h * 6) % 2 = 0
  · simp only [hp, if_true, Dbl.fin_sub, Dbl.fin_mul]
    split_ifs <;> rfl
  · simp only [hp, if_false, Dbl.fin_sub, Dbl.fin_mul]
    split_ifs <;> rfl

theorem floor_hue_range {h : ℚ} (h0 : 0 ≤ h) (h1 : h ≤ 1) :
    0 ≤ Int.floor (h * 6) ∧ Int.floor (h * 6) ≤ 6 := by
  constructor
  · exact Int.floor_nonneg.2 (by linarith)
  · have : Int.floor (h * 6) ≤ Int.floor (6 : ℚ) := Int.floor_mono (by linarith)
    simpa using this

/-- On hues of `[0, 1]` and finite saturation and value `hsv2rgb` returns the
triple of the sector `floor(h * 6)` at the fractional part of `h * 6`. -/
theorem hsv2rgb_unit (s v : ℚ) {h : ℚ} (h0 : 0 ≤ h) (h1 : h ≤ 1) :
    hsv2rgb (Dbl.fin h) (Dbl.fin s) (Dbl.fin v)
      = some (fin3 (hsv_sector (Int.floor (h * 6)) (h * 6 - Int.floor (h * 6)) s v)) := by
  obtain ⟨a, b⟩ := floor_hue_range h0 h1
  exact hsv2rgb_fin h s v (by omega) (by omega)

theorem hsv_sector_range {i : Int} {f s v : ℚ} (hf0 : 0 ≤ f) (hf1 : f ≤ 1)
    (hs0 : 0 ≤ s) (hs1 : s ≤ 1) (hv0 : 0 ≤ v) (hv1 : v ≤ 1) :
    (0 ≤ (hsv_sector i f s v).1 ∧ (hsv_sector i f s v).1 ≤ 1)
      ∧ (0 ≤ (hsv_sector i f s v).2.1 ∧ (hsv_sector i f s v).2.1 ≤ 1)
      ∧ (0 ≤ (hsv_sector i f s v).2.2 ∧ (hsv_sector i f s v).2.2 ≤ 1) := by
  have hm0 : 0 ≤ v * (1 - s) := mul_nonneg hv0 (by linarith)
  have hm1 : v * (1 - s) ≤ 1 := by nlinarith
  have hn : ∀ f' : ℚ, 0 ≤ f' → f' ≤ 1 → 0 ≤ v * (1 - s * f') ∧ v * (1 - s * f') ≤ 1 := by
    intro f' h0 h1
    have h2 : 0 ≤ s * f' := mul_nonneg hs0 h0
    have h3 : s * f' ≤ 1 := by nlinarith
    constructor
    · exact mul_nonneg hv0 (by linarith)
    · nlinarith
  have hn1 := hn (1 - f) (by linarith) (by linarith)
  have hn2 := hn f hf0 hf1
  unfold hsv_sector
  simp only
  generalize (if (if i < 0 then 0 else i) > 6 then 6 else if i < 0 then 0 else i) = j
  by_cases hp : i % 2 = 0
  · simp only [hp, if_true]
    split_ifs
    · exact ⟨⟨hv0, hv1⟩, hn1, hm0, hm1⟩
    · exact ⟨hn1, ⟨hv0, hv1⟩, hm0, hm1⟩
    · exact ⟨⟨hm0, hm1⟩, ⟨hv0, hv1⟩, hn1⟩
    · exact ⟨⟨hm0, hm1⟩, hn1, hv0, hv1⟩
    · exact ⟨hn1, ⟨hm0, hm1⟩, hv0, hv1⟩
    · exact ⟨⟨hv0, hv1⟩, ⟨hm0, hm1⟩, hn1⟩
    · norm_num
  · simp only [hp, if_false]
    split_ifs
    · exact ⟨⟨hv0, hv1⟩, hn2, hm0, hm1⟩
    · exact ⟨hn2, ⟨hv0, hv1⟩, hm0, hm1⟩
    · exact ⟨⟨hm0, hm1⟩, ⟨hv0, hv1⟩, hn2⟩
    · exact ⟨⟨hm0, hm1⟩, hn2, hv0, hv1⟩
    · exact ⟨hn2, ⟨hm0, hm1⟩, hv0, hv1⟩
    · exact ⟨⟨hv0, hv1⟩, ⟨hm0, hm1⟩, hn2⟩
    · norm_num

theorem hsv_table_eq_sector {h : ℚ} (s v : ℚ) (h0 : 0 ≤ h) (h1 : h ≤ 1) :
    hsv_table h s v = hsv_sector (Int.floor (h * 6)) (h * 6 - Int.floor (h * 6)) s v := by
  obtain ⟨hi0, hi6⟩ := floor_hue_range h0 h1
  unfold hsv_table hsv_sector
  rw [mul_comm 6 h]
  generalize Int.floor (h * 6) = i at hi0 hi6 ⊢
  interval_cases i <;> simp

theorem fract_hue_range (h : ℚ) :
    0 ≤ h * 6 - (Int.floor (h * 6) : ℚ) ∧ h * 6 - (Int.floor (h * 6) : ℚ) ≤ 1 := by
  constructor
  · linarith [Int.floor_le (h * 6)]
  · linarith [Int.lt_floor_add_one (h * 6)]

/-- C14 (range of `hsv2rgb`): for hue, saturation and value in `[0, 1]`,
`hsv2rgb` returns a triple whose three components lie in `[0, 1]`, and the
triple is the one that the table of six sectors assigns to the sector
`floor(6 * hue)` with `m = v (1 - s)`, `n = v (1 - s f)` and `f` inverted on
even sectors (`hsv_table`). -/
theorem C14_hsv2rgb_range (h s v : ℚ) (h0 : 0 ≤ h) (h1 : h ≤ 1) (s0 : 0 ≤ s) (s1 : s ≤ 1)
    (v0 : 0 ≤ v) (v1 : v ≤ 1) :
    hsv2rgb (Dbl.fin h) (Dbl.fin s) (Dbl.fin v) = some (fin3 (hsv_table h s v))
      ∧ (0 ≤ (hsv_table h s v).1 ∧ (hsv_table h s v).1 ≤ 1)
      ∧ (0 ≤ (hsv_table h s v).2.1 ∧ (hsv_table h s v).2.1 ≤ 1)
      ∧ (0 ≤ (hsv_table h s v).2.2 ∧ (hsv_table h s v).2.2 ≤ 1) := by
  rw [hsv_table_eq_sector s v h0 h1]
  exact ⟨hsv2rgb_unit s v h0 h1,
    hsv_sector_range (fract_hue_range h).1 (fract_hue_range h).2 s0 s1 v0 v1⟩

theorem C14_hsv2rgb_range_witness :
    (0 : ℚ) ≤ 7 / 10 ∧ (7 / 10 : ℚ) ≤ 1 ∧ (0 : ℚ) ≤ 1 / 2 ∧ (1 / 2 : ℚ) ≤ 1
      ∧ (0 : ℚ) ≤ 3 / 4 ∧ (3 / 4 : ℚ) ≤ 1
      ∧ hsv2rgb (Dbl.fin (7 / 10)) (Dbl.fin (1 / 2)) (Dbl.fin (3 / 4))
          = some (fin3 (hsv_table (7 / 10) (1 / 2) (3 / 4))) :=
  ⟨by norm_num, by norm_num, by norm_num, by norm_num, by norm_num, by norm_num,
    (C14_hsv2rgb_range (7 / 10) (1 / 2) (3 / 4) (by norm_num) (by norm_num) (by norm_num)
      (by norm_num) (by norm_num) (by norm_num)).1⟩

theorem hsv2rgb_hue_zero (s v : Dbl) :
    hsv2rgb (Dbl.fin 0) s v = some (v, v * (1 - s * Dbl.fin 1), v * (1 - s)) := by
  have h0 : (Dbl.floor (Dbl.fin 0 * 6)).toInt = some 0 := by
    simp [Dbl.toInt]
  simp only [hsv2rgb, h0]
  simp

theorem hsv2rgb_hue_one (s v : Dbl) :
    hsv2rgb (Dbl.fin 1) s v = some (v, v * (1 - s * Dbl.fin 1), v * (1 - s)) := by
  have h6 : (Dbl.floor (Dbl.fin 1 * 6)).toInt = some 6 := by
    simp [Dbl.toInt]
  simp only [hsv2rgb, h6]
  simp

/-- C15 (hue wrap-around): for every saturation and value, also infinite or
`NaN`, `hsv2rgb` returns the same triple for the hues `0.0` and `1.0`. -/
theorem C15_hue_wrap_around (s v : Dbl) :
    hsv2rgb (Dbl.fin 0) s v = hsv2rgb (Dbl.fin 1) s v := by
  rw [hsv2rgb_hue_zero, hsv2rgb_hue_one]


/-! ## The hue of a sector -/

theorem u64_of_lt {i : Int} (h0 : 0 ≤ i) (h1 : i < 2 ^ 64) : u64 i = i :=
  Int.emod_eq_of_lt h0 h1

theorem u64_nonneg (i : Int) : 0 ≤ u64 i :=
  Int.emod_nonneg i (by norm_num)

/-- The scan of line 181-184 from the accumulators `a`, `b`: the minimum is
below `a` and every size, the maximum above `b` and every size, and both are
bracketed by every common bound. -/
theorem size_fold_bounds (es : List duc_dirent) :
    ∀ (a b : Int),
      (es.foldl
          (fun acc e =>
            (if u64 e.size < acc.1 then u64 e.size else acc.1,
             if u64 e.size > acc.2 then u64 e.size else acc.2))
          (a, b)).1 ≤ a
      ∧ b ≤ (es.foldl
          (fun acc e =>
            (if u64 e.size < acc.1 then u64 e.size else acc.1,
             if u64 e.size > acc.2 then u64 e.size else acc.2))
          (a, b)).2
      ∧ (∀ e ∈ es,
          (es.foldl
            (fun acc e =>
              (if u64 e.size < acc.1 then u64 e.size else acc.1,
               if u64 e.size > acc.2 then u64 e.size else acc.2))
            (a, b)).1 ≤ u64 e.size
          ∧ u64 e.size ≤ (es.foldl
            (fun acc e =>
              (if u64 e.size < acc.1 then u64 e.size else acc.1,
               if u64 e.size > acc.2 then u64 e.size else acc.2))
            (a, b)).2)
      ∧ (∀ A : Int, A ≤ a → (∀ e ∈ es, A ≤ u64 e.size) →
          A ≤ (es.foldl
            (fun acc e =>
              (if u64 e.size < acc.1 then u64 e.size else acc.1,
               if u64 e.size > acc.2 then u64 e.size else acc.2))
            (a, b)).1)
      ∧ (∀ B : Int, b ≤ B → (∀ e ∈ es, u64 e.size ≤ B) →
          (es.foldl
            (fun acc e =>
              (if u64 e.size < acc.1 then u64 e.size else acc.1,
               if u64 e.size > acc.2 then u64 e.size else acc.2))
            (a, b)).2 ≤ B) := by
  induction es with
  | nil =>
    intro a b
    simp
  | cons e0 es ih =>
    intro a b
    simp only [List.foldl_cons]
    obtain ⟨i1, i2, i3, i4, i5⟩ := ih (if u64 e0.size < a then u64 e0.size else a)
      (if u64 e0.size > b then u64 e0.size else b)
    have ha : (if u64 e0.size < a then u64 e0.size else a) ≤ a := by
      split_ifs <;> omega
    have ha' : (if u64 e0.size < a then u64 e0.size else a) ≤ u64 e0.size := by
      split_ifs <;> omega
    have hb : b ≤ (if u64 e0.size > b then u64 e0.size else b) := by
      split_ifs <;> omega
    have hb' : u64 e0.size ≤ (if u64 e0.size > b then u64 e0.size else b) := by
      split_ifs <;> omega
    refine ⟨by omega, by omega, ?_, ?_, ?_⟩
    · intro e he
      rcases List.mem_cons.1 he with rfl | he
      · exact ⟨by omega, by omega⟩
      · exact i3 e he
    · intro A hA hall
      refine i4 A ?_ (fun e he => hall e (List.mem_cons_of_mem _ he))
      have := hall e0 (List.mem_cons_self _ _)
      split_ifs <;> omega
    · intro B hB hall
      refine i5 B ?_ (fun e he => hall e (List.mem_cons_of_mem _ he))
      have := hall e0 (List.mem_cons_self _ _)
      split_ifs <;> omega

theorem size_scan_facts (size_total : Nat) (es : List duc_dirent)
    (hle : ∀ e ∈ es, e.size ≤ size_total) (hoff : size_total < 2 ^ 63) :
    0 ≤ (size_scan size_total es).1
      ∧ (size_scan size_total es).2 ≤ size_total
      ∧ (∀ e ∈ es, (size_scan size_total es).1 ≤ (e.size : Int)
          ∧ (e.size : Int) ≤ (size_scan size_total es).2)
      ∧ (∀ B : Int, 0 ≤ B → (∀ e ∈ es, (e.size : Int) ≤ B) → (size_scan size_total es).2 ≤ B) := by
  have hu : ∀ n : Nat, n ≤ size_total → u64 (n : Int) = n := by
    intro n hn
    apply u64_of_lt (by omega)
    have : (size_total : Int) < 2 ^ 63 := by exact_mod_cast hoff
    have h2 : (2 : Int) ^ 63 < 2 ^ 64 := by norm_num
    omega
  obtain ⟨_, _, i3, i4, i5⟩ := size_fold_bounds es (u64 size_total) 0
  unfold size_scan
  refine ⟨i4 0 (u64_nonneg _) (fun e _ => u64_nonneg _), ?_, ?_, ?_⟩
  · refine i5 size_total (by omega) (fun e he => ?_)
    rw [hu e.size (hle e he)]
    exact_mod_cast hle e he
  · intro e he
    have := i3 e he
    rw [hu e.size (hle e he)] at this
    exact this
  · intro B hB hall
    refine i5 B hB (fun e he => ?_)
    rw [hu e.size (hle e he)]
    exact hall e he

/-- The hue of line 199 without wrap-around, as a rational. -/
theorem hue_of_fin {size_min size_max : Int} {size : Nat} (h1 : size_min ≤ size)
    (h2 : (size : Int) ≤ size_max) (h0 : 0 ≤ size_min) (h3 : size_max < 2 ^ 63) :
    u64 (size_max - size_min + 1) = size_max - size_min + 1
      ∧ hue_of size_min size_max size
        = Dbl.fin (4 / 5 - 4 / 5 * (((size : Int) - size_min + 1 : Int) : ℚ)
            / ((size_max - size_min + 1 : Int) : ℚ)) := by
  have h64 : (2 : Int) ^ 63 < 2 ^ 64 := by norm_num
  have e1 : u64 ((size : Int) - size_min + 1) = (size : Int) - size_min + 1 :=
    u64_of_lt (by omega) (by omega)
  have e2 : u64 (size_max - size_min + 1) = size_max - size_min + 1 :=
    u64_of_lt (by omega) (by omega)
  refine ⟨e2, ?_⟩
  have hY : ((size_max - size_min + 1 : Int) : ℚ) ≠ 0 := by
    have : (0 : Int) < size_max - size_min + 1 := by omega
    exact_mod_cast this.ne'
  rw [hue_of, e1, e2]
  simp only [Dbl.ofInt_eq, Dbl.fin_mul, Dbl.fin_div_of_ne _ _ hY, Dbl.fin_sub]

/-! ## car2pol -/

theorem M_PI_eq : M_PI = Dbl.fin M_PI_q := rfl

theorem M_PI_q_pos : 0 < M_PI_q := by
  unfold M_PI_q
  norm_num

theorem libm_ok_libc_exact : libm_ok libc_exact := by
  refine ⟨?_, ?_, ?_, ?_, ?_⟩
  · intro y x
    have hp := M_PI_q_pos
    simp only [libc_exact, libc_axes, M_PI_eq]
    by_cases hy : y = 0
    · by_cases hx : 0 ≤ x
      · exact ⟨0, by simp [hy, hx], by linarith, by linarith⟩
      · exact ⟨M_PI_q, by simp [hy, hx], by linarith, by linarith⟩
    · by_cases hy' : 0 < y
      · refine ⟨M_PI_q / 2, by simp [hy, hy'], by linarith, by linarith⟩
      · refine ⟨-(M_PI_q / 2), by simp [hy, hy'], by linarith, by linarith⟩
  · intro x hx
    simp [libc_exact, libc_axes, hx.le]
  · intro y hy
    simp [libc_exact, libc_axes, hy, hy.ne', M_PI_eq]
  · intro a b
    exact ⟨Rat.sqrt (a * a + b * b), rfl, Rat.sqrt_nonneg _⟩
  · intro a b h h0 hh
    simp only [libc_exact]
    rw [← hh, Rat.sqrt_eq, abs_of_nonneg h0]

/-- C13 (normalisation of `car2pol`): with `atan2` and `hypot` meeting their
contract, for every chart centre and every pixel `car2pol` returns a finite
angle in `[0, 1)` turns and a finite radius `>= 0`, which is the value of
`hypot` for the offsets from the centre and hence the Euclidean distance
whenever that distance is rational; a pixel directly above the centre has
angle `0` and a pixel directly to its right has angle `1/4`. -/
theorem C13_car2pol_normalised (lc : libc) (g : graph) (x y : Int) (hok : libm_ok lc) :
    ∃ a r : ℚ, car2pol lc g x y = (Dbl.fin a, Dbl.fin r)
      ∧ 0 ≤ a ∧ a < 1 ∧ 0 ≤ r
      ∧ lc.hypot (Dbl.ofInt (y - g.cy)) (Dbl.ofInt (x - g.cx)) = Dbl.fin r
      ∧ (∀ h : ℚ, 0 ≤ h →
          h * h = ((x - g.cx : Int) : ℚ) * ((x - g.cx : Int) : ℚ)
            + ((y - g.cy : Int) : ℚ) * ((y - g.cy : Int) : ℚ) → r = h)
      ∧ (x = g.cx → y < g.cy → a = 0)
      ∧ (y = g.cy → g.cx < x → a = 1 / 4) := by
  obtain ⟨k1, k2, k3, k4, k5⟩ := hok
  obtain ⟨t, ht, ht1, ht2⟩ := k1 ((x - g.cx : Int) : ℚ) ((-(y - g.cy) : Int) : ℚ)
  obtain ⟨r, hr, hr0⟩ := k4 ((y - g.cy : Int) : ℚ) ((x - g.cx : Int) : ℚ)
  have hp := M_PI_q_pos
  have h2p : M_PI_q * 2 ≠ 0 := by linarith
  have hcar : car2pol lc g x y
      = (if Dbl.fin (t / (M_PI_q * 2)) < 0 then Dbl.fin (t / (M_PI_q * 2)) + 1
          else Dbl.fin (t / (M_PI_q * 2)), Dbl.fin r) := by
    simp only [car2pol, Dbl.ofInt_eq, ht, hr, M_PI_eq, Dbl.ofNat_eq, Dbl.fin_mul,
      Nat.cast_ofNat, Dbl.fin_div_of_ne _ _ h2p]
  have hlo : -(1 / 2) ≤ t / (M_PI_q * 2) := by
    rw [le_div_iff₀ (by linarith)]
    linarith
  have hhi : t / (M_PI_q * 2) ≤ 1 / 2 := by
    rw [div_le_iff₀ (by linarith)]
    linarith
  have hexact : ∀ h : ℚ, 0 ≤ h →
      h * h = ((x - g.cx : Int) : ℚ) * ((x - g.cx : Int) : ℚ)
        + ((y - g.cy : Int) : ℚ) * ((y - g.cy : Int) : ℚ) → r = h := by
    intro h h0 hh
    have := k5 ((y - g.cy : Int) : ℚ) ((x - g.cx : Int) : ℚ) h h0 (by rw [hh]; ring)
    rw [hr] at this
    exact Dbl.fin.inj this
  by_cases hneg : t / (M_PI_q * 2) < 0
  · refine ⟨t / (M_PI_q * 2) + 1, r, ?_, by linarith, by linarith, hr0, hr, hexact, ?_, ?_⟩
    · rw [hcar]
      simp [hneg]
    · intro hx hy
      exfalso
      have h0 : lc.atan2 (Dbl.fin ((x - g.cx : Int) : ℚ)) (Dbl.fin ((-(y - g.cy) : Int) : ℚ))
          = Dbl.fin 0 := by
        have hpos : (0 : ℚ) < ((-(y - g.cy) : Int) : ℚ) := by
          have : (0 : Int) < -(y - g.cy) := by omega
          exact_mod_cast this
        have := k2 _ hpos
        rw [hx]
        simpa using this
      rw [ht] at h0
      have := Dbl.fin.inj h0
      rw [this] at hneg
      simp at hneg
    · intro hy hx
      exfalso
      have h0 : lc.atan2 (Dbl.fin ((x - g.cx : Int) : ℚ)) (Dbl.fin ((-(y - g.cy) : Int) : ℚ))
          = Dbl.fin (M_PI_q / 2) := by
        have hpos : (0 : ℚ) < ((x - g.cx : Int) : ℚ) := by
          have : (0 : Int) < x - g.cx := by omega
          exact_mod_cast this
        have := k3 _ hpos
        rw [hy]
        simpa using this
      rw [ht] at h0
      have := Dbl.fin.inj h0
      rw [this] at hneg
      have : 0 < M_PI_q / 2 / (M_PI_q * 2) := by positivity
      linarith
  · refine ⟨t / (M_PI_q * 2), r, ?_, by linarith, by linarith, hr0, hr, hexact, ?_, ?_⟩
    · rw [hcar]
      simp [hneg]
    · intro hx hy
      have h0 : lc.atan2 (Dbl.fin ((x - g.cx : Int) : ℚ)) (Dbl.fin ((-(y - g.cy) : Int) : ℚ))
          = Dbl.fin 0 := by
        have hpos : (0 : ℚ) < ((-(y - g.cy) : Int) : ℚ) := by
          have : (0 : Int) < -(y - g.cy) := by omega
          exact_mod_cast this
        have := k2 _ hpos
        rw [hx]
        simpa using this
      rw [ht] at h0
      have := Dbl.fin.inj h0
      rw [this]
      simp
    · intro hy hx
      have h0 : lc.atan2 (Dbl.fin ((x - g.cx : Int) : ℚ)) (Dbl.fin ((-(y - g.cy) : Int) : ℚ))
          = Dbl.fin (M_PI_q / 2) := by
        have hpos : (0 : ℚ) < ((x - g.cx : Int) : ℚ) := by
          have : (0 : Int) < x - g.cx := by omega
          exact_mod_cast this
        have := k3 _ hpos
        rw [hy]
        simpa using this
      rw [ht] at h0
      have := Dbl.fin.inj h0
      rw [this]
      field_simp
      ring

theorem C13_car2pol_normalised_witness :
    libm_ok libc_exact
      ∧ ∃ a r : ℚ, car2pol libc_exact (graph_init 300 4) 153 146 = (Dbl.fin a, Dbl.fin r)
          ∧ 0 ≤ a ∧ a < 1 ∧ r = 5 := by
  obtain ⟨a, r, h1, h2, h3, _, _, h6, _, _⟩ :=
    C13_car2pol_normalised libc_exact (graph_init 300 4) 153 146 libm_ok_libc_exact
  refine ⟨libm_ok_libc_exact, a, r, h1, h2, h3, h6 5 (by norm_num) ?_⟩
  simp [graph_init, Int.tdiv]
  norm_num


/-! ## Recursion is bounded by the depth -/

theorem depth_budget_zero {g : graph} {level : Nat} (h : ¬ (level : Int) + 1 < g.depth) :
    (g.depth - 1 - (level : Int)).toNat = 0 := by
  omega

theorem mem_loop_cons {g : graph} {level : Nat} {a_range : Dbl} {size_total : Nat}
    {size_min size_max : Int} {chain : List String} {e : duc_dirent} {es : List duc_dirent}
    {a_from a_to : Dbl} {op : draw_op}
    (h : op ∈ draw_ring_loop g level a_range size_total size_min size_max chain (e :: es)
      a_from a_to) :
    op = ring_of g level size_min size_max chain e a_from (a_to + span_step a_range size_total e)
      ∨ op ∈ sub_part g level size_min size_max chain e a_from
          (a_to + span_step a_range size_total e)
      ∨ op ∈ label_part g level chain e a_from (a_to + span_step a_range size_total e)
      ∨ op ∈ draw_ring_loop g level a_range size_total size_min size_max chain es
          (a_to + span_step a_range size_total e) (a_to + span_step a_range size_total e) := by
  rw [draw_ring_loop_cons] at h
  split_ifs at h
  · simp at h
  · simpa only [List.mem_cons, List.mem_append] using h

/-- Every effect of `draw_ring` started at `level` is drawn at a level `l` with
`level <= l`, and `l < depth` unless `l = level`. -/
theorem draw_ring_levels (g : graph) :
    (∀ (d : duc_dir) (level : Nat) (a_min a_max : Dbl) (chain : List String) (op : draw_op),
      op ∈ draw_ring g d level a_min a_max chain →
      ∃ l : Nat, level ≤ l ∧ (l = level ∨ (l : Int) < g.depth) ∧ op_at_level g l op) ∧
    (∀ (es : List duc_dirent) (level : Nat) (a_range : Dbl) (size_total : Nat)
      (size_min size_max : Int) (chain : List String) (a_from a_to : Dbl) (op : draw_op),
      op ∈ draw_ring_loop g level a_range size_total size_min size_max chain es a_from a_to →
      ∃ l : Nat, level ≤ l ∧ (l = level ∨ (l : Int) < g.depth) ∧ op_at_level g l op) := by
  apply duc_tree_induction
  · intro path size_total es ih level a_min a_max chain op hop
    simp only [draw_ring] at hop
    exact ih _ _ _ _ _ _ _ _ _ hop
  · intro level a_range size_total size_min size_max chain a_from a_to op hop
    simp [draw_ring_loop] at hop
  · intro name size mode child es ihd ihes level a_range size_total size_min size_max chain
      a_from a_to op hop
    rcases mem_loop_cons hop with h | h | h | h
    · refine ⟨level, le_refl _, Or.inl rfl, ?_⟩
      rw [h]
      exact ⟨rfl, rfl, rfl⟩
    · unfold sub_part at h
      split_ifs at h with h1 h2
      · cases child with
        | none => simp [duc_dirent.child] at h
        | some d =>
          simp only [duc_dirent.child] at h
          obtain ⟨l, hl1, hl2, hl3⟩ := ihd d rfl _ _ _ _ _ h
          refine ⟨l, by omega, Or.inr ?_, hl3⟩
          rcases hl2 with hl2 | hl2
          · rw [hl2]
            exact_mod_cast h2
          · exact hl2
      · simp only [List.mem_singleton] at h
        refine ⟨level, le_refl _, Or.inl rfl, ?_⟩
        rw [h]
        exact ⟨rfl, rfl, rfl⟩
      · simp at h
    · unfold label_part at h
      split_ifs at h
      · simp only [List.mem_singleton] at h
        refine ⟨level, le_refl _, Or.inl rfl, ?_⟩
        rw [h]
        trivial
      · simp at h
    · exact ihes _ _ _ _ _ _ _ _ _ h

/-- Every entry visited by the hit-test started at `level` lies at a level `l`
with `level <= l`, and `l < depth` unless `l = level`; its chain of names has
one name per level from `level` to `l`. -/
theorem find_visits_levels (g : graph) :
    (∀ (d : duc_dir) (level : Nat) (a_min a_max : Dbl) (v : visit),
      v ∈ find_visits g d level a_min a_max →
      level ≤ v.level ∧ (v.level = level ∨ (v.level : Int) < g.depth)
        ∧ v.level + 1 = level + v.chain.length) ∧
    (∀ (es : List duc_dirent) (level : Nat) (a_range : Dbl) (size_total : Nat)
      (a_from a_to : Dbl) (v : visit),
      v ∈ find_visits_loop g level a_range size_total es a_from a_to →
      level ≤ v.level ∧ (v.level = level ∨ (v.level : Int) < g.depth)
        ∧ v.level + 1 = level + v.chain.length) := by
  apply duc_tree_induction
  · intro path size_total es ih level a_min a_max v hv
    simp only [find_visits] at hv
    exact ih _ _ _ _ _ _ hv
  · intro level a_range size_total a_from a_to v hv
    simp [find_visits_loop] at hv
  · intro name size mode child es ihd ihes level a_range size_total a_from a_to v hv
    rw [find_visits_loop_cons] at hv
    split_ifs at hv
    · simp only [List.mem_cons, List.mem_append] at hv
      rcases hv with hv | hv | hv
      · rw [hv]
        exact ⟨le_refl _, Or.inl rfl, rfl⟩
      · cases hel : eligible g level mode child with
        | none => simp [hel] at hv
        | some d =>
          have hel' := eligible_eq_some hel
          simp only [hel, List.mem_map] at hv
          obtain ⟨v', hv', rfl⟩ := hv
          obtain ⟨h1, h2, h3⟩ := ihd d hel'.2.2 _ _ _ _ hv'
          refine ⟨by simp only [visit.under]; omega, Or.inr ?_, ?_⟩
          · simp only [visit.under]
            rcases h2 with h2 | h2
            · rw [h2]
              exact_mod_cast hel'.2.1
            · exact h2
          · simp only [visit.under, List.length_cons]
            omega
      · exact ihes _ _ _ _ _ _ hv
    · exact ihes _ _ _ _ _ _ hv

theorem mem_path_log {w : Nat × String} (names : List String) :
    ∀ level : Nat, w ∈ path_log level names → level ≤ w.1 ∧ w.1 < level + names.length := by
  induction names with
  | nil =>
    intro level hw
    simp [path_log] at hw
  | cons n ns ih =>
    intro level hw
    simp only [path_log, List.mem_cons] at hw
    rcases hw with rfl | hw
    · simp
    · have := ih (level + 1) hw
      simp only [List.length_cons]
      omega

/-- Every store of `find_spot` started at `level` is made at an index `i` with
`level <= i`, and `i < depth` unless `i = level`. -/
theorem find_spot_stores (g : graph) (d : duc_dir) (level : Nat) (a_min a_max : Dbl)
    (part : part_log) (w : Nat × String)
    (hw : w ∈ (find_spot g d level a_min a_max part).2) :
    w ∈ part ∨ (level ≤ w.1 ∧ (w.1 = level ∨ (w.1 : Int) < g.depth)) := by
  rw [(find_spot_first_hit g).1] at hw
  unfold first_hit at hw
  cases hf : (find_visits g d level a_min a_max).find? (hit g) with
  | none =>
    rw [hf] at hw
    exact Or.inl hw
  | some v =>
    rw [hf] at hw
    simp only [List.mem_append] at hw
    rcases hw with hw | hw
    · right
      obtain ⟨h1, h2, h3⟩ := (find_visits_levels g).1 d level a_min a_max v
        (List.mem_of_find?_eq_some hf)
      obtain ⟨m1, m2⟩ := mem_path_log v.chain level hw
      refine ⟨m1, ?_⟩
      by_cases hc : w.1 = level
      · exact Or.inl hc
      · right
        rcases h2 with h2 | h2
        · omega
        · have : (w.1 : Int) ≤ (v.level : Int) := by
            have : w.1 ≤ v.level := by omega
            exact_mod_cast this
          omega
    · exact Or.inl hw


/-- With `depth >= 2` every store `part[level]` of `find_spot` started at level
1 is in bounds. -/
theorem find_spot_stores_in_bounds (g : graph) (d : duc_dir) (a_min a_max : Dbl)
    (hd : 2 ≤ g.depth) (w : Nat × String) (hw : w ∈ (find_spot g d 1 a_min a_max []).2) :
    1 ≤ w.1 ∧ (w.1 : Int) < g.depth := by
  rcases find_spot_stores g d 1 a_min a_max [] w hw with h | ⟨h1, h2⟩
  · simp at h
  · refine ⟨h1, ?_⟩
    rcases h2 with h2 | h2
    · rw [h2]
      push_cast
      omega
    · exact h2

/-- C18 (path-slot indexing), evaluated at depth 1 on the directory of three
files in a 300-pixel chart, for the probe straight above the centre at
distance 150: `find_spot`, started at level 1, stores the name of the child in
`part[1]`, an index that is not below the length 1 of the array `part`, and
that the joining loop, which reads the slots `0 .. depth - 1 = 0`, never
reads. -/
theorem C18_store_out_of_bounds_depth_one :
    1 ≤ (graph_init 300 1).depth
      ∧ (find_spot { graph_init 300 1 with spot_a := Dbl.fin 0, spot_r := Dbl.fin 150 }
          dir_three 1 0 1 []).2 = [(1, "a")]
      ∧ ¬ ((1 : Nat) : Int) < (graph_init 300 1).depth
      ∧ List.range (graph_init 300 1).depth.toNat = [0] := by
  refine ⟨by simp [graph_init], ?_, by simp [graph_init], ?_⟩
  · rw [find_spot_dir_three_depth_one]
  · simp [graph_init, List.range, List.range.loop]


/-! ## The colour arguments of the sectors -/

/-- The geometry of the chart for an image of at least 30 pixels and a depth
of at least 1: the ring width is not negative, and `depth + 1` rings fit
strictly inside the half-width of the image. -/
theorem graph_init_geometry {size depth : Int} (hs : 30 ≤ size) (hd : 1 ≤ depth) :
    0 ≤ (graph_init size depth).ring_width
      ∧ (depth + 1) * (graph_init size depth).ring_width < (graph_init size depth).cx
      ∧ 0 < (graph_init size depth).cx := by
  have h1 : (size - 30).tdiv 2 = (size - 30) / 2 := Int.tdiv_eq_ediv (by omega) (by norm_num)
  have h2 : size.tdiv 2 = size / 2 := Int.tdiv_eq_ediv (by omega) (by norm_num)
  have h3 : ((size - 30) / 2).tdiv (depth + 1) = ((size - 30) / 2) / (depth + 1) :=
    Int.tdiv_eq_ediv (by omega) (by omega)
  have h4 : ((size - 30) / 2) / (depth + 1) * (depth + 1) ≤ (size - 30) / 2 :=
    Int.ediv_mul_le _ (by omega)
  have h5 : 0 ≤ ((size - 30) / 2) / (depth + 1) :=
    Int.ediv_nonneg (by omega) (by omega)
  simp only [graph_init, h1, h2, h3]
  refine ⟨h5, ?_, by omega⟩
  rw [mul_comm]
  omega

theorem level_radius_lt {size depth : Int} (hs : 30 ≤ size) (hd : 1 ≤ depth) {l : Nat}
    (hl : (l : Int) ≤ max 1 (depth - 1)) :
    ((l : Int) + 1) * (graph_init size depth).ring_width < (graph_init size depth).cx := by
  obtain ⟨g1, g2, _⟩ := graph_init_geometry hs hd
  have h : (l : Int) + 1 ≤ depth + 1 := by
    rcases le_max_iff.1 (le_of_eq (rfl : max 1 (depth - 1) = max 1 (depth - 1))) with _ | _ <;>
      omega
  have : ((l : Int) + 1) * (graph_init size depth).ring_width
      ≤ (depth + 1) * (graph_init size depth).ring_width :=
    mul_le_mul_of_nonneg_right h g1
  omega

theorem draw_section_fin (hue : Dbl) (b : ℚ) :
    draw_section hue (Dbl.fin b)
      = if 0 < b then hsv2rgb hue (Dbl.fin (1 - b)) (Dbl.fin (b / 2 + 1 / 2))
        else some (Dbl.fin (3 / 5), Dbl.fin (3 / 5), Dbl.fin (3 / 5)) := by
  have h2 : (2 : ℚ) ≠ 0 := by norm_num
  simp only [draw_section, gt_iff_lt, Dbl.ofNat_eq, Dbl.fin_lt, Nat.cast_zero, Nat.cast_one,
    Dbl.fin_sub, Nat.cast_ofNat, Dbl.fin_div_of_ne _ _ h2, Dbl.fin_add]

/-- C20 (the colour function is called inside its domain): for an image size of
at least 30 and a depth of at least 1, every ring sector and depth-limit marker
that `draw_ring` draws from level 1 lies at a level `l` between 1 and
`max(1, depth - 1)`, whose inner radius `(l + 1) * ring_width` is strictly less
than `cx`; the brightness `b` handed to `draw_section` is finite with
`0 <= b < 0.8` (for a ring sector `b = 0.8 * (l + 1) * ring_width / cx`, which
increases strictly with the level when the ring width is positive); the
saturation `1 - b` and the value `b / 2 + 0.5` that `draw_section` passes to
`hsv2rgb` lie in `[0, 1]`; and the grey fallback is taken only when the ring
width is 0. -/
theorem C20_colour_domain (size depth : Int) (d : duc_dir) (hs : 30 ≤ size) (hd : 1 ≤ depth)
    (op : draw_op) (hue br : Dbl)
    (hop : op ∈ draw_ring (graph_init size depth) d 1 0 1 [])
    (hc : op_colour op = some (hue, br)) :
    ∃ (l : Nat) (b : ℚ),
      1 ≤ l ∧ (l : Int) ≤ max 1 (depth - 1)
        ∧ op_at_level (graph_init size depth) l op
        ∧ ((l : Int) + 1) * (graph_init size depth).ring_width < (graph_init size depth).cx
        ∧ br = Dbl.fin b ∧ 0 ≤ b ∧ b < 4 / 5
        ∧ (0 ≤ 1 - b ∧ 1 - b ≤ 1) ∧ (0 ≤ b / 2 + 1 / 2 ∧ b / 2 + 1 / 2 ≤ 1)
        ∧ draw_section hue br
            = (if 0 < b then hsv2rgb hue (Dbl.fin (1 - b)) (Dbl.fin (b / 2 + 1 / 2))
               else some (Dbl.fin (3 / 5), Dbl.fin (3 / 5), Dbl.fin (3 / 5)))
        ∧ (b ≤ 0 → (graph_init size depth).ring_width = 0)
        ∧ (ring_chain op ≠ none →
            b = 4 / 5 * ((((l : Int) + 1) * (graph_init size depth).ring_width : Int) : ℚ)
              / ((graph_init size depth).cx : ℚ))
        ∧ (∀ l1 l2 : Nat, l1 < l2 → 0 < (graph_init size depth).ring_width →
            4 / 5 * ((((l1 : Int) + 1) * (graph_init size depth).ring_width : Int) : ℚ)
                / ((graph_init size depth).cx : ℚ)
              < 4 / 5 * ((((l2 : Int) + 1) * (graph_init size depth).ring_width : Int) : ℚ)
                / ((graph_init size depth).cx : ℚ)) := by
  obtain ⟨g1, _, g3⟩ := graph_init_geometry hs hd
  have hdep : (graph_init size depth).depth = depth := rfl
  obtain ⟨l, h1, h2, h3⟩ := (draw_ring_levels (graph_init size depth)).1 d 1 0 1 [] op hop
  have hl : (l : Int) ≤ max 1 (depth - 1) := by
    rcases h2 with h2 | h2
    · rw [h2]
      simp
    · rw [hdep] at h2
      omega
  have hrad := level_radius_lt hs hd hl
  have hcx : (0 : ℚ) < ((graph_init size depth).cx : ℚ) := by exact_mod_cast g3
  have hR0 : (0 : ℚ) ≤ ((((l : Int) + 1) * (graph_init size depth).ring_width : Int) : ℚ) := by
    have : (0 : Int) ≤ ((l : Int) + 1) * (graph_init size depth).ring_width :=
      mul_nonneg (by omega) g1
    exact_mod_cast this
  have hR1 : ((((l : Int) + 1) * (graph_init size depth).ring_width : Int) : ℚ)
      < ((graph_init size depth).cx : ℚ) := by exact_mod_cast hrad
  have hmono : ∀ l1 l2 : Nat, l1 < l2 → 0 < (graph_init size depth).ring_width →
      4 / 5 * ((((l1 : Int) + 1) * (graph_init size depth).ring_width : Int) : ℚ)
          / ((graph_init size depth).cx : ℚ)
        < 4 / 5 * ((((l2 : Int) + 1) * (graph_init size depth).ring_width : Int) : ℚ)
          / ((graph_init size depth).cx : ℚ) := by
    intro l1 l2 h12 hw
    have : ((l1 : Int) + 1) * (graph_init size depth).ring_width
        < ((l2 : Int) + 1) * (graph_init size depth).ring_width :=
      mul_lt_mul_of_pos_right (by omega) hw
    have h' : ((((l1 : Int) + 1) * (graph_init size depth).ring_width : Int) : ℚ)
        < ((((l2 : Int) + 1) * (graph_init size depth).ring_width : Int) : ℚ) := by
      exact_mod_cast this
    apply div_lt_div_of_pos_right _ hcx
    linarith
  cases op with
  | ring c af at' rf rt h b' =>
    simp only [op_colour, Option.some.injEq, Prod.mk.injEq] at hc
    obtain ⟨rfl, rfl⟩ := hc
    have hb : b' = Dbl.fin (4 / 5
        * ((((l : Int) + 1) * (graph_init size depth).ring_width : Int) : ℚ)
        / ((graph_init size depth).cx : ℚ)) := by
      rw [h3.2.2]
      simp only [Dbl.ofInt_eq, Dbl.fin_mul, Dbl.fin_div_of_ne _ _ hcx.ne']
    have hb0 : 0 ≤ 4 / 5 * ((((l : Int) + 1) * (graph_init size depth).ring_width : Int) : ℚ)
        / ((graph_init size depth).cx : ℚ) := by positivity
    have hb1 : 4 / 5 * ((((l : Int) + 1) * (graph_init size depth).ring_width : Int) : ℚ)
        / ((graph_init size depth).cx : ℚ) < 4 / 5 := by
      rw [div_lt_iff₀ hcx]
      nlinarith
    refine ⟨l, _, h1, hl, h3, hrad, hb, hb0, hb1, ⟨by linarith, by linarith⟩,
      ⟨by linarith, by linarith⟩, ?_, ?_, fun _ => rfl, hmono⟩
    · rw [hb]
      exact draw_section_fin _ _
    · intro hle
      have hz : 4 / 5 * ((((l : Int) + 1) * (graph_init size depth).ring_width : Int) : ℚ)
          / ((graph_init size depth).cx : ℚ) = 0 := le_antisymm hle hb0
      have hz' : ((((l : Int) + 1) * (graph_init size depth).ring_width : Int) : ℚ) = 0 := by
        rcases div_eq_zero_iff.1 hz with h | h
        · rcases mul_eq_zero.1 h with h | h
          · norm_num at h
          · exact h
        · exact absurd h hcx.ne'
      have hz'' : ((l : Int) + 1) * (graph_init size depth).ring_width = 0 := by
        exact_mod_cast hz'
      rcases mul_eq_zero.1 hz'' with h | h
      · omega
      · exact h
  | marker c af at' rf rt h b' =>
    simp only [op_colour, Option.some.injEq, Prod.mk.injEq] at hc
    obtain ⟨rfl, rfl⟩ := hc
    have hb : b' = Dbl.fin (1 / 2) := h3.2.2
    refine ⟨l, 1 / 2, h1, hl, h3, hrad, hb, by norm_num, by norm_num, ⟨by norm_num, by norm_num⟩,
      ⟨by norm_num, by norm_num⟩, ?_, ?_, ?_, hmono⟩
    · rw [hb]
      exact draw_section_fin _ _
    · intro hle
      norm_num at hle
    · intro hne
      simp [ring_chain] at hne
  | label c a r n s =>
    simp [op_colour] at hc

theorem C20_colour_domain_witness :
    (30 : Int) ≤ 300 ∧ (1 : Int) ≤ 4
      ∧ draw_op.ring ["a"] (Dbl.fin 0) (Dbl.fin (1 / 10)) (Dbl.fin 54) (Dbl.fin 81)
          (Dbl.fin (48 / 61)) (Dbl.fin (36 / 125))
        ∈ draw_ring (graph_init 300 4) dir_nested 1 0 1 []
      ∧ ∃ (l : Nat) (b : ℚ), 1 ≤ l ∧ (l : Int) ≤ max 1 (4 - 1)
          ∧ Dbl.fin (36 / 125) = Dbl.fin b ∧ 0 ≤ b ∧ b < 4 / 5
          ∧ draw_section (Dbl.fin (48 / 61)) (Dbl.fin (36 / 125))
              = (if 0 < b then hsv2rgb (Dbl.fin (48 / 61)) (Dbl.fin (1 - b))
                    (Dbl.fin (b / 2 + 1 / 2))
                 else some (Dbl.fin (3 / 5), Dbl.fin (3 / 5), Dbl.fin (3 / 5))) := by
  have hmem : draw_op.ring ["a"] (Dbl.fin 0) (Dbl.fin (1 / 10)) (Dbl.fin 54) (Dbl.fin 81)
      (Dbl.fin (48 / 61)) (Dbl.fin (36 / 125))
      ∈ draw_ring (graph_init 300 4) dir_nested 1 0 1 [] := by
    rw [draw_ring_dir_nested]
    simp
  obtain ⟨l, b, h1, h2, _, _, h5, h6, h7, _, _, h10, _⟩ :=
    C20_colour_domain 300 4 dir_nested (by norm_num) (by norm_num) _ _ _ hmem rfl
  exact ⟨by norm_num, by norm_num, hmem, l, b, h1, h2, h5, h6, h7, h10⟩


/-! ## Continuity of hsv2rgb in the hue -/

theorem tri_close_refl (t : ℚ × ℚ × ℚ) {eps : ℚ} (h : 0 ≤ eps) : tri_close t t eps := by
  simp [tri_close, h]

theorem tri_close_trans {t1 t2 t3 : ℚ × ℚ × ℚ} {e1 e2 : ℚ} (h12 : tri_close t1 t2 e1)
    (h23 : tri_close t2 t3 e2) : tri_close t1 t3 (e1 + e2) := by
  obtain ⟨a1, a2, a3⟩ := h12
  obtain ⟨b1, b2, b3⟩ := h23
  refine ⟨?_, ?_, ?_⟩
  · calc |t1.1 - t3.1| = |(t1.1 - t2.1) + (t2.1 - t3.1)| := by ring_nf
      _ ≤ |t1.1 - t2.1| + |t2.1 - t3.1| := abs_add _ _
      _ ≤ e1 + e2 := add_le_add a1 b1
  · calc |t1.2.1 - t3.2.1| = |(t1.2.1 - t2.2.1) + (t2.2.1 - t3.2.1)| := by ring_nf
      _ ≤ |t1.2.1 - t2.2.1| + |t2.2.1 - t3.2.1| := abs_add _ _
      _ ≤ e1 + e2 := add_le_add a2 b2
  · calc |t1.2.2 - t3.2.2| = |(t1.2.2 - t2.2.2) + (t2.2.2 - t3.2.2)| := by ring_nf
      _ ≤ |t1.2.2 - t2.2.2| + |t2.2.2 - t3.2.2| := abs_add _ _
      _ ≤ e1 + e2 := add_le_add a3 b3

/-- Within one sector every component moves by at most the change of the
fractional part. -/
theorem hsv_sector_lipschitz (i : Int) (f1 f2 : ℚ) {s v : ℚ} (hs0 : 0 ≤ s) (hs1 : s ≤ 1)
    (hv0 : 0 ≤ v) (hv1 : v ≤ 1) :
    tri_close (hsv_sector i f1 s v) (hsv_sector i f2 s v) |f1 - f2| := by
  have hvs0 : 0 ≤ v * s := mul_nonneg hv0 hs0
  have hvs1 : v * s ≤ 1 := by nlinarith
  have hc : ∀ c : ℚ, |c - c| ≤ |f1 - f2| := by
    intro c
    simp
  have hn : |v * (1 - s * f1) - v * (1 - s * f2)| ≤ |f1 - f2| := by
    have e : v * (1 - s * f1) - v * (1 - s * f2) = -(v * s) * (f1 - f2) := by ring
    rw [e, abs_mul, abs_neg, abs_of_nonneg hvs0]
    exact mul_le_of_le_one_left (abs_nonneg _) hvs1
  have hn' : |v * (1 - s * (1 - f1)) - v * (1 - s * (1 - f2))| ≤ |f1 - f2| := by
    have e : v * (1 - s * (1 - f1)) - v * (1 - s * (1 - f2)) = (v * s) * (f1 - f2) := by ring
    rw [e, abs_mul, abs_of_nonneg hvs0]
    exact mul_le_of_le_one_left (abs_nonneg _) hvs1
  unfold hsv_sector tri_close
  simp only
  generalize (if (if i < 0 then 0 else i) > 6 then 6 else if i < 0 then 0 else i) = j
  by_cases hp : i % 2 = 0
  · simp only [hp, if_true]
    split_ifs
    · exact ⟨hc _, hn', hc _⟩
    · exact ⟨hn', hc _, hc _⟩
    · exact ⟨hc _, hc _, hn'⟩
    · exact ⟨hc _, hn', hc _⟩
    · exact ⟨hn', hc _, hc _⟩
    · exact ⟨hc _, hc _, hn'⟩
    · exact ⟨hc _, hc _, hc _⟩
  · simp only [hp, if_false]
    split_ifs
    · exact ⟨hc _, hn, hc _⟩
    · exact ⟨hn, hc _, hc _⟩
    · exact ⟨hc _, hc _, hn⟩
    · exact ⟨hc _, hn, hc _⟩
    · exact ⟨hn, hc _, hc _⟩
    · exact ⟨hc _, hc _, hn⟩
    · exact ⟨hc _, hc _, hc _⟩

/-- At each sector boundary the triple of the next sector at fractional part 0
is the triple of the sector at fractional part 1. -/
theorem hsv_sector_boundary (k : Int) (hk0 : 0 ≤ k) (hk5 : k ≤ 5) (s v : ℚ) :
    hsv_sector (k + 1) 0 s v = hsv_sector k 1 s v := by
  unfold hsv_sector
  interval_cases k <;> simp

/-- On the closed sector `k / 6 <= h <= (k + 1) / 6` the colour is the triple of
sector `k` at the fractional part `6 h - k`. -/
theorem hsv_colour_closed_sector {h : ℚ} {k : Int} (hk0 : 0 ≤ k) (hk5 : k ≤ 5)
    (h1 : (k : ℚ) ≤ h * 6) (h2 : h * 6 ≤ (k : ℚ) + 1) (s v : ℚ) :
    hsv_colour h s v = hsv_sector k (h * 6 - k) s v := by
  unfold hsv_colour
  rcases lt_or_eq_of_le h2 with h2 | h2
  · have : Int.floor (h * 6) = k := Int.floor_eq_iff.2 ⟨h1, h2⟩
    rw [this]
  · have : Int.floor (h * 6) = k + 1 := by
      rw [h2]
      have : ((k : ℚ) + 1) = ((k + 1 : Int) : ℚ) := by push_cast; ring
      rw [this, Int.floor_intCast]
    rw [this, h2]
    have e1 : (k : ℚ) + 1 - ((k + 1 : Int) : ℚ) = 0 := by push_cast; ring
    have e2 : (k : ℚ) + 1 - (k : ℚ) = 1 := by ring
    rw [e1, e2]
    exact hsv_sector_boundary k hk0 hk5 s v

theorem tri_close_symm {t1 t2 : ℚ × ℚ × ℚ} {eps : ℚ} (h : tri_close t1 t2 eps) :
    tri_close t2 t1 eps := by
  obtain ⟨a1, a2, a3⟩ := h
  exact ⟨by rwa [abs_sub_comm], by rwa [abs_sub_comm], by rwa [abs_sub_comm]⟩

theorem hsv_colour_same_sector {h1 h2 : ℚ} {k : Int} (hk0 : 0 ≤ k) (hk5 : k ≤ 5)
    (a1 : (k : ℚ) ≤ h1 * 6) (a2 : h1 * 6 ≤ (k : ℚ) + 1)
    (b1 : (k : ℚ) ≤ h2 * 6) (b2 : h2 * 6 ≤ (k : ℚ) + 1)
    {s v : ℚ} (hs0 : 0 ≤ s) (hs1 : s ≤ 1) (hv0 : 0 ≤ v) (hv1 : v ≤ 1) :
    tri_close (hsv_colour h1 s v) (hsv_colour h2 s v) (6 * |h1 - h2|) := by
  rw [hsv_colour_closed_sector hk0 hk5 a1 a2, hsv_colour_closed_sector hk0 hk5 b1 b2]
  have e : 6 * |h1 - h2| = |(h1 * 6 - k) - (h2 * 6 - k)| := by
    have : (h1 * 6 - k) - (h2 * 6 - k) = 6 * (h1 - h2) := by ring
    rw [this, abs_mul]
    norm_num
  rw [e]
  exact hsv_sector_lipschitz k _ _ hs0 hs1 hv0 hv1

theorem hsv_colour_chain {s v : ℚ} (hs0 : 0 ≤ s) (hs1 : s ≤ 1) (hv0 : 0 ≤ v) (hv1 : v ≤ 1) :
    ∀ (n : Nat) (h1 h2 : ℚ), 0 ≤ h1 → h1 ≤ h2 → h2 ≤ 1 →
      Int.floor (h2 * 6) - Int.floor (h1 * 6) ≤ n →
      tri_close (hsv_colour h1 s v) (hsv_colour h2 s v) (6 * (h2 - h1)) := by
  intro n
  induction n with
  | zero =>
    intro h1 h2 p0 p12 p1 hn
    obtain ⟨k0, k6⟩ := floor_hue_range p0 (le_trans p12 p1)
    have hmono : Int.floor (h1 * 6) ≤ Int.floor (h2 * 6) := Int.floor_mono (by linarith)
    have heq : Int.floor (h2 * 6) = Int.floor (h1 * 6) := by
      push_cast at hn
      omega
    have a1 := Int.floor_le (h1 * 6)
    have a2 := Int.lt_floor_add_one (h1 * 6)
    have b1 := Int.floor_le (h2 * 6)
    have b2 := Int.lt_floor_add_one (h2 * 6)
    rw [heq] at b1 b2
    rcases lt_or_eq_of_le k6 with k5 | k6'
    · have := hsv_colour_same_sector k0 (by omega) a1 a2.le b1 b2.le hs0 hs1 hv0 hv1
        (s := s) (v := v)
      rwa [abs_sub_comm, abs_of_nonneg (by linarith)] at this
    · have e1 : h1 = 1 := by
        rw [k6'] at a1
        push_cast at a1
        linarith
      have e2 : h2 = 1 := by linarith
      rw [e1, e2]
      exact tri_close_refl _ (by norm_num)
  | succ n ih =>
    intro h1 h2 p0 p12 p1 hn
    obtain ⟨k0, k6⟩ := floor_hue_range p0 (le_trans p12 p1)
    have a1 := Int.floor_le (h1 * 6)
    have a2 := Int.lt_floor_add_one (h1 * 6)
    rcases lt_or_eq_of_le k6 with k5 | k6'
    · by_cases hsame : h2 * 6 ≤ (Int.floor (h1 * 6) : ℚ) + 1
      · have := hsv_colour_same_sector k0 (by omega) a1 a2.le (by linarith) hsame hs0 hs1 hv0 hv1
          (s := s) (v := v)
        rwa [abs_sub_comm, abs_of_nonneg (by linarith)] at this
      · push_neg at hsame
        have hb6 : ((Int.floor (h1 * 6) : ℚ) + 1) / 6 * 6 = (Int.floor (h1 * 6) : ℚ) + 1 := by
          field_simp
        have hb0 : 0 ≤ ((Int.floor (h1 * 6) : ℚ) + 1) / 6 := by
          have : (0 : ℚ) ≤ (Int.floor (h1 * 6) : ℚ) := by exact_mod_cast k0
          positivity
        have hb1 : h1 ≤ ((Int.floor (h1 * 6) : ℚ) + 1) / 6 := by
          rw [le_div_iff₀ (by norm_num)]
          linarith
        have hb2 : ((Int.floor (h1 * 6) : ℚ) + 1) / 6 ≤ h2 := by
          rw [div_le_iff₀ (by norm_num)]
          linarith
        have c1 := @hsv_colour_same_sector h1 (((Int.floor (h1 * 6) : ℚ) + 1) / 6)
          (Int.floor (h1 * 6)) k0 (by omega) a1 a2.le (by rw [hb6]; linarith) (by rw [hb6])
          s v hs0 hs1 hv0 hv1
        rw [abs_sub_comm, abs_of_nonneg (by linarith)] at c1
        have hfl : Int.floor (((Int.floor (h1 * 6) : ℚ) + 1) / 6 * 6) = Int.floor (h1 * 6) + 1 := by
          rw [hb6]
          have : ((Int.floor (h1 * 6) : ℚ) + 1) = ((Int.floor (h1 * 6) + 1 : Int) : ℚ) := by
            push_cast
            ring
          rw [this, Int.floor_intCast]
        have c2 := ih (((Int.floor (h1 * 6) : ℚ) + 1) / 6) h2 hb0 hb2 p1 (by
          rw [hfl]
          push_cast at hn ⊢
          omega)
        have := tri_close_trans c1 c2
        have e : 6 * (((Int.floor (h1 * 6) : ℚ) + 1) / 6 - h1)
            + 6 * (h2 - ((Int.floor (h1 * 6) : ℚ) + 1) / 6) = 6 * (h2 - h1) := by ring
        rwa [e] at this
    · have e1 : h1 = 1 := by
        rw [k6'] at a1
        push_cast at a1
        linarith
      have e2 : h2 = 1 := by linarith
      rw [e1, e2]
      exact tri_close_refl _ (by norm_num)

/-- The colour is a Lipschitz function of the hue on `[0, 1]`, with constant 6. -/
theorem hsv_colour_lipschitz {s v : ℚ} (hs0 : 0 ≤ s) (hs1 : s ≤ 1) (hv0 : 0 ≤ v) (hv1 : v ≤ 1)
    {h1 h2 : ℚ} (p0 : 0 ≤ h1) (p1 : h1 ≤ 1) (q0 : 0 ≤ h2) (q1 : h2 ≤ 1) :
    tri_close (hsv_colour h1 s v) (hsv_colour h2 s v) (6 * |h1 - h2|) := by
  rcases le_total h1 h2 with h | h
  · have := hsv_colour_chain hs0 hs1 hv0 hv1
      (Int.floor (h2 * 6) - Int.floor (h1 * 6)).toNat h1 h2 p0 h q1 (Int.self_le_toNat _)
    rwa [abs_sub_comm, abs_of_nonneg (by linarith)]
  · have := hsv_colour_chain hs0 hs1 hv0 hv1
      (Int.floor (h1 * 6) - Int.floor (h2 * 6)).toNat h2 h1 q0 h p1 (Int.self_le_toNat _)
    rw [abs_of_nonneg (by linarith)]
    exact tri_close_symm this


/-- C19 (hsv2rgb is continuous in the hue). For a saturation and a value in
`[0, 1]`: on hues of `[0, 1]` the function `hsv2rgb` returns a colour, and the
colours of two hues `h1`, `h2` differ by at most `6 * |h1 - h2|` in each
channel, so that for every `eps > 0` hues closer than `eps / 6` give colours
closer than `eps`; and at every sector boundary `k / 6` (`k = 1..6`) the
triple of sector `k` at fractional part `0` is the triple of sector `k - 1` at
fractional part `1`, which the triples of sector `k - 1` at fractional part `f`
approach within `|1 - f|`. -/
theorem C19_hsv2rgb_continuous_in_hue (s v : ℚ) (hs0 : 0 ≤ s) (hs1 : s ≤ 1) (hv0 : 0 ≤ v)
    (hv1 : v ≤ 1) :
    (∀ h1 h2 : ℚ, 0 ≤ h1 → h1 ≤ 1 → 0 ≤ h2 → h2 ≤ 1 →
      ∃ c1 c2 : ℚ × ℚ × ℚ,
        hsv2rgb (Dbl.fin h1) (Dbl.fin s) (Dbl.fin v) = some (fin3 c1)
        ∧ hsv2rgb (Dbl.fin h2) (Dbl.fin s) (Dbl.fin v) = some (fin3 c2)
        ∧ tri_close c1 c2 (6 * |h1 - h2|))
    ∧ (∀ eps : ℚ, 0 < eps → ∃ delta : ℚ, 0 < delta ∧
        ∀ h1 h2 : ℚ, 0 ≤ h1 → h1 ≤ 1 → 0 ≤ h2 → h2 ≤ 1 → |h1 - h2| < delta →
          ∃ c1 c2 : ℚ × ℚ × ℚ,
            hsv2rgb (Dbl.fin h1) (Dbl.fin s) (Dbl.fin v) = some (fin3 c1)
            ∧ hsv2rgb (Dbl.fin h2) (Dbl.fin s) (Dbl.fin v) = some (fin3 c2)
            ∧ tri_close c1 c2 eps)
    ∧ (∀ k : Int, 1 ≤ k → k ≤ 6 →
        hsv_sector k 0 s v = hsv_sector (k - 1) 1 s v
        ∧ ∀ f : ℚ, tri_close (hsv_sector (k - 1) f s v) (hsv_sector k 0 s v) |1 - f|) := by
  refine ⟨?_, ?_, ?_⟩
  · intro h1 h2 p0 p1 q0 q1
    exact ⟨hsv_colour h1 s v, hsv_colour h2 s v, hsv2rgb_unit s v p0 p1, hsv2rgb_unit s v q0 q1,
      hsv_colour_lipschitz hs0 hs1 hv0 hv1 p0 p1 q0 q1⟩
  · intro eps heps
    refine ⟨eps / 6, by positivity, ?_⟩
    intro h1 h2 p0 p1 q0 q1 hd
    refine ⟨hsv_colour h1 s v, hsv_colour h2 s v, hsv2rgb_unit s v p0 p1, hsv2rgb_unit s v q0 q1, ?_⟩
    obtain ⟨a1, a2, a3⟩ := hsv_colour_lipschitz hs0 hs1 hv0 hv1 p0 p1 q0 q1 (s := s) (v := v)
    have hle : 6 * |h1 - h2| ≤ eps := by
      rw [lt_div_iff₀ (by norm_num)] at hd
      linarith
    exact ⟨le_trans a1 hle, le_trans a2 hle, le_trans a3 hle⟩
  · intro k k1 k6
    have hb : hsv_sector k 0 s v = hsv_sector (k - 1) 1 s v := by
      have := hsv_sector_boundary (k - 1) (by omega) (by omega) s v
      rwa [sub_add_cancel] at this
    refine ⟨hb, ?_⟩
    intro f
    rw [hb, abs_sub_comm]
    exact hsv_sector_lipschitz (k - 1) f 1 hs0 hs1 hv0 hv1

theorem C19_hsv2rgb_continuous_in_hue_witness :
    ((0 : ℚ) ≤ 1 / 2 ∧ (1 / 2 : ℚ) ≤ 1 ∧ (0 : ℚ) ≤ 3 / 4 ∧ (3 / 4 : ℚ) ≤ 1)
    ∧ (∃ c1 c2 : ℚ × ℚ × ℚ,
        hsv2rgb (Dbl.fin (1 / 6)) (Dbl.fin (1 / 2)) (Dbl.fin (3 / 4)) = some (fin3 c1)
        ∧ hsv2rgb (Dbl.fin (1 / 5)) (Dbl.fin (1 / 2)) (Dbl.fin (3 / 4)) = some (fin3 c2)
        ∧ tri_close c1 c2 (6 * |(1 / 6 : ℚ) - 1 / 5|))
    ∧ hsv_sector 1 0 (1 / 2) (3 / 4) = hsv_sector (1 - 1) 1 (1 / 2) (3 / 4) :=
  ⟨⟨by norm_num, by norm_num, by norm_num, by norm_num⟩,
    (C19_hsv2rgb_continuous_in_hue (1 / 2) (3 / 4) (by norm_num) (by norm_num) (by norm_num)
      (by norm_num)).1 (1 / 6) (1 / 5) (by norm_num) (by norm_num) (by norm_num) (by norm_num),
    ((C19_hsv2rgb_continuous_in_hue (1 / 2) (3 / 4) (by norm_num) (by norm_num) (by norm_num)
      (by norm_num)).2.2 1 (by norm_num) (by norm_num)).1⟩


/-! ## The polar round trip -/

/-- Conversion to `int` of a finite value inside the range of `int`: the
result exists, is less than 1 away from the value, is no larger in absolute
value, and is the value itself when that is a whole number. -/
theorem Dbl.toInt_fin_trunc (q : ℚ) (hlo : -2147483648 ≤ q) (hhi : q ≤ 2147483647) :
    ∃ z : Int, Dbl.toInt (Dbl.fin q) = some z ∧ |(z : ℚ) - q| < 1 ∧ |(z : ℚ)| ≤ |q|
      ∧ ∀ n : Int, q = n → z = n := by
  by_cases h0 : 0 ≤ q
  · have f1 := Int.floor_le q
    have f2 := Int.lt_floor_add_one q
    have f0 : 0 ≤ Int.floor q := Int.floor_nonneg.2 h0
    have f0q : (0 : ℚ) ≤ (Int.floor q : ℚ) := by exact_mod_cast f0
    have fhi : Int.floor q ≤ 2147483647 := by
      have : (Int.floor q : ℚ) ≤ 2147483647 := by linarith
      exact_mod_cast this
    refine ⟨Int.floor q, ?_, ?_, ?_, ?_⟩
    · simp only [Dbl.toInt, if_pos h0]
      rw [if_pos ⟨by omega, fhi⟩]
    · rw [abs_lt]
      constructor <;> linarith
    · rw [abs_of_nonneg f0q, abs_of_nonneg h0]
      exact f1
    · intro n hn
      rw [hn]
      exact Int.floor_intCast n
  · push_neg at h0
    have c1 := Int.le_ceil q
    have c2 := Int.ceil_lt_add_one q
    have c0 : Int.ceil q ≤ 0 := Int.ceil_le.2 (by exact_mod_cast h0.le)
    have c0q : (Int.ceil q : ℚ) ≤ 0 := by exact_mod_cast c0
    have clo : -2147483648 ≤ Int.ceil q := by
      have : (-2147483648 : ℚ) ≤ (Int.ceil q : ℚ) := by linarith
      exact_mod_cast this
    refine ⟨Int.ceil q, ?_, ?_, ?_, ?_⟩
    · simp only [Dbl.toInt, if_neg (not_le.2 h0)]
      rw [if_pos ⟨clo, by omega⟩]
    · rw [abs_lt]
      constructor <;> linarith
    · rw [abs_of_nonpos c0q, abs_of_neg h0]
      linarith
    · intro n hn
      rw [hn]
      exact Int.ceil_intCast n

/-! ## Binary64 rounding -/

namespace Dbl

theorem log2_aux_spec : ∀ (fuel n : Nat), n ≤ fuel → 1 ≤ n →
    2 ^ log2_aux fuel n ≤ n ∧ n < 2 ^ (log2_aux fuel n + 1) := by
  intro fuel
  induction fuel with
  | zero =>
    intro n h1 h2
    omega
  | succ f ih =>
    intro n h1 h2
    simp only [log2_aux]
    by_cases h : n < 2
    · rw [if_pos h]
      constructor
      · simpa using h2
      · simpa using h
    · rw [if_neg h]
      have hn : n / 2 ≤ f := by omega
      have hn1 : 1 ≤ n / 2 := by omega
      obtain ⟨a, b⟩ := ih (n / 2) hn hn1
      constructor
      · rw [pow_succ]
        omega
      · rw [pow_succ]
        omega

theorem nat_log2_spec {n : Nat} (h : 1 ≤ n) :
    2 ^ nat_log2 n ≤ n ∧ n < 2 ^ (nat_log2 n + 1) :=
  log2_aux_spec n n le_rfl h

theorem two_zpow_pos (e : Int) : (0 : ℚ) < 2 ^ e := zpow_pos (by norm_num) e

/-- The binary exponent brackets the absolute value. -/
theorem ilog2_spec {q : ℚ} (hq : q ≠ 0) :
    (2 : ℚ) ^ ilog2 q ≤ |q| ∧ |q| < 2 ^ (ilog2 q + 1) := by
  have hn : 1 ≤ q.num.natAbs := by
    have : q.num ≠ 0 := Rat.num_ne_zero.2 hq
    omega
  have hd : 1 ≤ q.den := q.den_pos
  obtain ⟨n1, n2⟩ := nat_log2_spec hn
  obtain ⟨d1, d2⟩ := nat_log2_spec hd
  have habs : |q| = (q.num.natAbs : ℚ) / (q.den : ℚ) := by
    conv_lhs => rw [← Rat.num_div_den q]
    rw [abs_div, Nat.abs_cast]
    congr 1
    rw [Nat.cast_natAbs, Int.cast_abs]
  have hdq : (0 : ℚ) < (q.den : ℚ) := by exact_mod_cast hd
  have n1q : (2 : ℚ) ^ (nat_log2 q.num.natAbs) ≤ (q.num.natAbs : ℚ) := by exact_mod_cast n1
  have n2q : (q.num.natAbs : ℚ) < 2 ^ (nat_log2 q.num.natAbs + 1) := by exact_mod_cast n2
  have d1q : (2 : ℚ) ^ (nat_log2 q.den) ≤ (q.den : ℚ) := by exact_mod_cast d1
  have d2q : (q.den : ℚ) < 2 ^ (nat_log2 q.den + 1) := by exact_mod_cast d2
  have h2 : (2 : ℚ) ≠ 0 := by norm_num
  -- lower and upper bounds with k = ln - ld
  have hlow : (2 : ℚ) ^ ((nat_log2 q.num.natAbs : Int) - (nat_log2 q.den : Int) - 1) ≤ |q| := by
    rw [habs, le_div_iff₀ hdq]
    have e : (2 : ℚ) ^ ((nat_log2 q.num.natAbs : Int) - (nat_log2 q.den : Int) - 1)
        * 2 ^ (nat_log2 q.den + 1) = 2 ^ (nat_log2 q.num.natAbs) := by
      rw [← zpow_natCast, ← zpow_natCast, ← zpow_add₀ h2]
      congr 1
      push_cast
      ring
    calc (2 : ℚ) ^ ((nat_log2 q.num.natAbs : Int) - (nat_log2 q.den : Int) - 1) * (q.den : ℚ)
        ≤ (2 : ℚ) ^ ((nat_log2 q.num.natAbs : Int) - (nat_log2 q.den : Int) - 1)
            * 2 ^ (nat_log2 q.den + 1) :=
          mul_le_mul_of_nonneg_left d2q.le (two_zpow_pos _).le
      _ = 2 ^ (nat_log2 q.num.natAbs) := e
      _ ≤ _ := n1q
  have hup : |q| < (2 : ℚ) ^ ((nat_log2 q.num.natAbs : Int) - (nat_log2 q.den : Int) + 1) := by
    rw [habs, div_lt_iff₀ hdq]
    have e : (2 : ℚ) ^ ((nat_log2 q.num.natAbs : Int) - (nat_log2 q.den : Int) + 1)
        * 2 ^ (nat_log2 q.den) = 2 ^ (nat_log2 q.num.natAbs + 1) := by
      rw [← zpow_natCast, ← zpow_natCast, ← zpow_add₀ h2]
      congr 1
      push_cast
      ring
    calc (q.num.natAbs : ℚ) < 2 ^ (nat_log2 q.num.natAbs + 1) := n2q
      _ = (2 : ℚ) ^ ((nat_log2 q.num.natAbs : Int) - (nat_log2 q.den : Int) + 1)
            * 2 ^ (nat_log2 q.den) := e.symm
      _ ≤ _ := mul_le_mul_of_nonneg_left d1q (two_zpow_pos _).le
  unfold ilog2
  split_ifs with h
  · exact ⟨h, hup⟩
  · push_neg at h
    refine ⟨hlow, ?_⟩
    have : (nat_log2 q.num.natAbs : Int) - (nat_log2 q.den : Int) - 1 + 1
        = (nat_log2 q.num.natAbs : Int) - (nat_log2 q.den : Int) := by ring
    rw [this]
    exact h

end Dbl


namespace Dbl

theorem rne_cases (q : ℚ) :
    (rne q = Int.floor q ∧ q - Int.floor q ≤ 1 / 2)
      ∨ (rne q = Int.floor q + 1 ∧ 1 / 2 ≤ q - Int.floor q) := by
  unfold rne
  split_ifs with h1 h2 h3
  · exact Or.inl ⟨rfl, h1.le⟩
  · exact Or.inr ⟨rfl, h2.le⟩
  · left
    refine ⟨rfl, ?_⟩
    push_neg at h1 h2
    exact h2
  · right
    refine ⟨rfl, ?_⟩
    push_neg at h1 h2
    exact h1

/-- The integer `rne q` is at least as near to `q` as any other integer. -/
theorem rne_nearest (q : ℚ) (k : Int) : |(rne q : ℚ) - q| ≤ |(k : ℚ) - q| := by
  have f1 := Int.floor_le q
  have f2 := Int.lt_floor_add_one q
  rcases le_or_lt k (Int.floor q) with hk | hk
  · have hkq : (k : ℚ) ≤ (Int.floor q : ℚ) := by exact_mod_cast hk
    rw [abs_sub_comm (k : ℚ) q, abs_of_nonneg (by linarith : (0 : ℚ) ≤ q - k)]
    rcases rne_cases q with ⟨h, hh⟩ | ⟨h, hh⟩
    · rw [h, abs_sub_comm, abs_of_nonneg (by linarith)]
      linarith
    · rw [h]
      push_cast
      rw [abs_of_nonneg (by linarith)]
      linarith
  · have hkq : (Int.floor q : ℚ) + 1 ≤ (k : ℚ) := by exact_mod_cast hk
    rw [abs_of_nonneg (by linarith : (0 : ℚ) ≤ k - q)]
    rcases rne_cases q with ⟨h, hh⟩ | ⟨h, hh⟩
    · rw [h, abs_sub_comm, abs_of_nonneg (by linarith)]
      linarith
    · rw [h]
      push_cast
      rw [abs_of_nonneg (by linarith)]
      linarith

theorem rne_err (q : ℚ) : |(rne q : ℚ) - q| ≤ 1 / 2 := by
  have f1 := Int.floor_le q
  have f2 := Int.lt_floor_add_one q
  rcases rne_cases q with ⟨h, hh⟩ | ⟨h, hh⟩
  · rw [h, abs_sub_comm, abs_of_nonneg (by linarith)]
    exact hh
  · rw [h]
    push_cast
    rw [abs_of_nonneg (by linarith)]
    linarith

theorem rne_intCast (k : Int) : rne (k : ℚ) = k := by
  have h := rne_nearest (k : ℚ) k
  rw [sub_self, abs_zero] at h
  have h0 : (rne (k : ℚ) : ℚ) - k = 0 := abs_eq_zero.1 (le_antisymm h (abs_nonneg _))
  have : (rne (k : ℚ) : ℚ) = k := by linarith
  exact_mod_cast this

/-- Rounding to the nearest integer does not cross an integer. -/
theorem rne_le_of_le {q : ℚ} {k : Int} (h : q ≤ k) : rne q ≤ k := by
  have f1 := Int.floor_le q
  have hf : Int.floor q ≤ k := by
    have : (Int.floor q : ℚ) ≤ k := by linarith
    exact_mod_cast this
  rcases rne_cases q with ⟨hr, hh⟩ | ⟨hr, hh⟩
  · rw [hr]
    exact hf
  · rw [hr]
    have : (Int.floor q : ℚ) < k := by linarith
    have : Int.floor q < k := by exact_mod_cast this
    omega

theorem le_rne_of_le {q : ℚ} {k : Int} (h : (k : ℚ) ≤ q) : k ≤ rne q := by
  have hf : k ≤ Int.floor q := Int.le_floor.2 h
  rcases rne_cases q with ⟨hr, hh⟩ | ⟨hr, hh⟩
  · rw [hr]
    exact hf
  · rw [hr]
    omega

theorem ulp_exp_ge (q : ℚ) : -1074 ≤ ulp_exp q := le_max_right _ _

theorem lt_ulp_exp {q : ℚ} (hq : q ≠ 0) : |q| < 2 ^ (ulp_exp q + 53) := by
  have h := (ilog2_spec hq).2
  have hle : ilog2 q + 1 ≤ ulp_exp q + 53 := by
    have : ilog2 q - 52 ≤ ulp_exp q := le_max_left _ _
    omega
  exact h.trans_le (zpow_le_zpow_right₀ (by norm_num : (1 : ℚ) ≤ 2) hle)

theorem ulp_exp_le {q : ℚ} (hq : q ≠ 0) (he : -1074 < ulp_exp q) :
    (2 : ℚ) ^ (ulp_exp q + 52) ≤ |q| := by
  have h := (ilog2_spec hq).1
  have heq : ulp_exp q = ilog2 q - 52 := by
    unfold ulp_exp at he ⊢
    rcases max_cases (ilog2 q - 52) (-1074) with ⟨h1, _⟩ | ⟨h1, _⟩
    · exact h1
    · rw [h1] at he
      omega
  have : ulp_exp q + 52 = ilog2 q := by omega
  rw [this]
  exact h

end Dbl


theorem r64_zero : Dbl.r64 0 = 0 := by
  unfold Dbl.r64
  rw [zero_div]
  have : Dbl.rne 0 = 0 := by
    have := Dbl.rne_intCast 0
    simpa using this
  rw [this]
  simp

theorem r64_err (q : ℚ) : |Dbl.r64 q - q| ≤ 2 ^ Dbl.ulp_exp q / 2 := by
  have hp := Dbl.two_zpow_pos (Dbl.ulp_exp q)
  have h := Dbl.rne_err (q / 2 ^ Dbl.ulp_exp q)
  have e : Dbl.r64 q - q
      = ((Dbl.rne (q / 2 ^ Dbl.ulp_exp q) : ℚ) - q / 2 ^ Dbl.ulp_exp q) * 2 ^ Dbl.ulp_exp q := by
    unfold Dbl.r64
    field_simp
  rw [e, abs_mul, abs_of_pos hp]
  calc |(Dbl.rne (q / 2 ^ Dbl.ulp_exp q) : ℚ) - q / 2 ^ Dbl.ulp_exp q| * 2 ^ Dbl.ulp_exp q
      ≤ 1 / 2 * 2 ^ Dbl.ulp_exp q := mul_le_mul_of_nonneg_right h hp.le
    _ = 2 ^ Dbl.ulp_exp q / 2 := by ring

/-- The rounded value is at least as near as any multiple of the spacing. -/
theorem r64_nearest_grid (q : ℚ) (k : Int) :
    |Dbl.r64 q - q| ≤ |(k : ℚ) * 2 ^ Dbl.ulp_exp q - q| := by
  have hp := Dbl.two_zpow_pos (Dbl.ulp_exp q)
  have h := Dbl.rne_nearest (q / 2 ^ Dbl.ulp_exp q) k
  have e1 : Dbl.r64 q - q
      = ((Dbl.rne (q / 2 ^ Dbl.ulp_exp q) : ℚ) - q / 2 ^ Dbl.ulp_exp q) * 2 ^ Dbl.ulp_exp q := by
    unfold Dbl.r64
    field_simp
  have e2 : (k : ℚ) * 2 ^ Dbl.ulp_exp q - q
      = ((k : ℚ) - q / 2 ^ Dbl.ulp_exp q) * 2 ^ Dbl.ulp_exp q := by
    field_simp
  rw [e1, e2, abs_mul, abs_mul, abs_of_pos hp]
  exact mul_le_mul_of_nonneg_right h hp.le

theorem r64_representable (q : ℚ) : Dbl.representable (Dbl.r64 q) := by
  refine ⟨Dbl.rne (q / 2 ^ Dbl.ulp_exp q), Dbl.ulp_exp q, ?_, Dbl.ulp_exp_ge q, rfl⟩
  have hp := Dbl.two_zpow_pos (Dbl.ulp_exp q)
  by_cases hq : q = 0
  · rw [hq, zero_div]
    have : Dbl.rne 0 = 0 := by
      have := Dbl.rne_intCast 0
      simpa using this
    rw [this]
    norm_num
  · have hlt := Dbl.lt_ulp_exp hq
    have hx : |q / 2 ^ Dbl.ulp_exp q| < 2 ^ 53 := by
      rw [abs_div, abs_of_pos hp, div_lt_iff₀ hp]
      have : (2 : ℚ) ^ (53 : Nat) * 2 ^ Dbl.ulp_exp q = 2 ^ (Dbl.ulp_exp q + 53) := by
        rw [← zpow_natCast, ← zpow_add₀ (by norm_num : (2 : ℚ) ≠ 0)]
        congr 1
        push_cast
        ring
      rw [this]
      exact hlt
    rw [abs_lt] at hx
    rw [abs_le]
    constructor
    · have : ((-(2 ^ 53) : Int) : ℚ) ≤ q / 2 ^ Dbl.ulp_exp q := by
        push_cast
        linarith [hx.1]
      exact Dbl.le_rne_of_le this
    · have : q / 2 ^ Dbl.ulp_exp q ≤ ((2 ^ 53 : Int) : ℚ) := by
        push_cast
        linarith [hx.2]
      exact Dbl.rne_le_of_le this


/-- The rounded value is at least as near as any binary64 number. -/
theorem r64_nearest (q : ℚ) {f : ℚ} (hf : Dbl.representable f) :
    |Dbl.r64 q - q| ≤ |f - q| := by
  obtain ⟨m, e', hm, he', rfl⟩ := hf
  have h2 : (2 : ℚ) ≠ 0 := by norm_num
  by_cases hq : q = 0
  · rw [hq, r64_zero, sub_zero, abs_zero]
    exact abs_nonneg _
  by_cases hee : Dbl.ulp_exp q ≤ e'
  · have hk : (m : ℚ) * 2 ^ e'
        = ((m * 2 ^ (e' - Dbl.ulp_exp q).toNat : Int) : ℚ) * 2 ^ Dbl.ulp_exp q := by
      push_cast
      rw [mul_assoc, ← zpow_natCast, ← zpow_add₀ h2]
      congr 2
      rw [Int.toNat_of_nonneg (by omega)]
      ring
    rw [hk]
    exact r64_nearest_grid q _
  · push_neg at hee
    have hlow := Dbl.ulp_exp_le hq (by omega)
    have hfabs : |(m : ℚ) * 2 ^ e'| ≤ 2 ^ (Dbl.ulp_exp q + 52) := by
      rw [abs_mul, abs_of_pos (Dbl.two_zpow_pos e')]
      have hmq : |(m : ℚ)| ≤ 2 ^ (53 : Int) := by
        have : ((|m| : Int) : ℚ) ≤ ((2 ^ 53 : Int) : ℚ) := by exact_mod_cast hm
        rw [Int.cast_abs] at this
        refine this.trans (le_of_eq ?_)
        norm_num
      calc |(m : ℚ)| * 2 ^ e' ≤ 2 ^ (53 : Int) * 2 ^ e' :=
            mul_le_mul_of_nonneg_right hmq (Dbl.two_zpow_pos e').le
        _ = 2 ^ (53 + e') := by rw [← zpow_add₀ h2]
        _ ≤ 2 ^ (Dbl.ulp_exp q + 52) :=
            zpow_le_zpow_right₀ (by norm_num : (1 : ℚ) ≤ 2) (by omega)
    have hg : (2 : ℚ) ^ (Dbl.ulp_exp q + 52) = ((2 ^ 52 : Int) : ℚ) * 2 ^ Dbl.ulp_exp q := by
      push_cast
      rw [zpow_add₀ h2, mul_comm]
      norm_num
    rcases lt_or_gt_of_ne hq with hneg | hpos
    · have hqa : |q| = -q := abs_of_neg hneg
      have h1 := r64_nearest_grid q (-(2 ^ 52))
      have e1 : ((-(2 ^ 52) : Int) : ℚ) * 2 ^ Dbl.ulp_exp q = -(2 : ℚ) ^ (Dbl.ulp_exp q + 52) := by
        rw [hg]
        push_cast
        ring
      rw [e1] at h1
      rw [hqa] at hlow
      have h3 : |-(2 : ℚ) ^ (Dbl.ulp_exp q + 52) - q| = -q - 2 ^ (Dbl.ulp_exp q + 52) := by
        rw [abs_of_nonneg (by linarith)]
        ring
      rw [h3] at h1
      have h4 : -q - 2 ^ (Dbl.ulp_exp q + 52) ≤ |(m : ℚ) * 2 ^ e' - q| := by
        have := neg_abs_le ((m : ℚ) * 2 ^ e')
        have := le_abs_self ((m : ℚ) * 2 ^ e' - q)
        linarith
      linarith
    · have hqa : |q| = q := abs_of_pos hpos
      have h1 := r64_nearest_grid q (2 ^ 52)
      rw [← hg] at h1
      rw [hqa] at hlow
      have h3 : |(2 : ℚ) ^ (Dbl.ulp_exp q + 52) - q| = q - 2 ^ (Dbl.ulp_exp q + 52) := by
        rw [abs_sub_comm, abs_of_nonneg (by linarith)]
      rw [h3] at h1
      have h4 : q - 2 ^ (Dbl.ulp_exp q + 52) ≤ |(m : ℚ) * 2 ^ e' - q| := by
        have := le_abs_self ((m : ℚ) * 2 ^ e')
        have := neg_abs_le ((m : ℚ) * 2 ^ e' - q)
        linarith
      linarith

/-- A binary64 number is rounded to itself. -/
theorem r64_fix {f : ℚ} (hf : Dbl.representable f) : Dbl.r64 f = f := by
  have h := r64_nearest f hf
  rw [sub_self, abs_zero] at h
  have := abs_eq_zero.1 (le_antisymm h (abs_nonneg _))
  linarith

/-- Rounding is monotone. -/
theorem r64_mono {q1 q2 : ℚ} (h : q1 ≤ q2) : Dbl.r64 q1 ≤ Dbl.r64 q2 := by
  by_contra hc
  push_neg at hc
  have n1 := r64_nearest q1 (r64_representable q2)
  have n2 := r64_nearest q2 (r64_representable q1)
  have hmid1 : Dbl.r64 q1 + Dbl.r64 q2 ≤ 2 * q1 := by
    rcases abs_cases (Dbl.r64 q1 - q1) with ⟨a, _⟩ | ⟨a, _⟩ <;>
      rcases abs_cases (Dbl.r64 q2 - q1) with ⟨b, _⟩ | ⟨b, _⟩ <;> linarith
  have hmid2 : 2 * q2 ≤ Dbl.r64 q1 + Dbl.r64 q2 := by
    rcases abs_cases (Dbl.r64 q2 - q2) with ⟨a, _⟩ | ⟨a, _⟩ <;>
      rcases abs_cases (Dbl.r64 q1 - q2) with ⟨b, _⟩ | ⟨b, _⟩ <;> linarith
  have : q1 = q2 := by linarith
  rw [this] at hc
  exact lt_irrefl _ hc


theorem r64_rel_err {q : ℚ} (hq : 2 ^ (-1022 : Int) ≤ |q|) :
    |Dbl.r64 q - q| ≤ |q| / 2 ^ 53 := by
  have h2 : (2 : ℚ) ≠ 0 := by norm_num
  have hq0 : q ≠ 0 := by
    intro h
    rw [h, abs_zero] at hq
    exact absurd hq (not_le.2 (Dbl.two_zpow_pos _))
  have hlow : (2 : ℚ) ^ (Dbl.ulp_exp q + 52) ≤ |q| := by
    rcases eq_or_lt_of_le (Dbl.ulp_exp_ge q) with h | h
    · rw [← h]
      exact hq
    · exact Dbl.ulp_exp_le hq0 h
  have herr := r64_err q
  have e : (2 : ℚ) ^ Dbl.ulp_exp q / 2 = 2 ^ (Dbl.ulp_exp q + 52) / 2 ^ 53 := by
    rw [zpow_add₀ h2]
    have : (2 : ℚ) ^ (52 : Int) = 2 ^ 52 := by norm_num
    rw [this]
    field_simp
    ring
  rw [e] at herr
  exact herr.trans (div_le_div_of_nonneg_right hlow (by positivity))

theorem representable_int {n : Int} (h : |n| ≤ 2 ^ 53) : Dbl.representable (n : ℚ) :=
  ⟨n, 0, h, by norm_num, by simp⟩

theorem representable_neg {f : ℚ} (h : Dbl.representable f) : Dbl.representable (-f) := by
  obtain ⟨m, e, hm, he, rfl⟩ := h
  exact ⟨-m, e, by rwa [abs_neg], he, by push_cast; ring⟩

theorem round64_eq_fin {q : ℚ} (h1 : -2 ^ 1024 < Dbl.r64 q) (h2 : Dbl.r64 q < 2 ^ 1024) :
    Dbl.round64 q = Dbl.fin (Dbl.r64 q) := by
  unfold Dbl.round64
  rw [if_neg (not_le.2 h2), if_neg (not_le.2 h1)]

/-- A binary64 number below the overflow threshold is rounded to itself. -/
theorem round64_fix {f : ℚ} (hf : Dbl.representable f) (h1 : -2 ^ 1024 < f) (h2 : f < 2 ^ 1024) :
    Dbl.round64 f = Dbl.fin f := by
  have := r64_fix hf
  rw [round64_eq_fin (by rw [this]; exact h1) (by rw [this]; exact h2), this]

/-- A rational between two binary64 numbers is rounded to a finite value between
them. -/
theorem round64_between {lo hi q : ℚ} (hlo : Dbl.representable lo) (hhi : Dbl.representable hi)
    (h1 : -2 ^ 1024 < lo) (h2 : hi < 2 ^ 1024) (hq1 : lo ≤ q) (hq2 : q ≤ hi) :
    Dbl.round64 q = Dbl.fin (Dbl.r64 q) ∧ lo ≤ Dbl.r64 q ∧ Dbl.r64 q ≤ hi := by
  have a := r64_mono hq1
  have b := r64_mono hq2
  rw [r64_fix hlo] at a
  rw [r64_fix hhi] at b
  exact ⟨round64_eq_fin (by linarith) (by linarith), a, b⟩

theorem round64_int {n : Int} (h : |n| ≤ 2 ^ 53) : Dbl.round64 (n : ℚ) = Dbl.fin n := by
  have hq : |(n : ℚ)| ≤ 2 ^ 53 := by
    have : ((|n| : Int) : ℚ) ≤ ((2 ^ 53 : Int) : ℚ) := by exact_mod_cast h
    rw [Int.cast_abs] at this
    refine this.trans (le_of_eq ?_)
    norm_num
  rw [abs_le] at hq
  refine round64_fix (representable_int h) ?_ ?_
  · have : (-(2 : ℚ) ^ 1024) < -2 ^ 53 := by norm_num
    linarith [hq.1]
  · have : (2 : ℚ) ^ 53 < 2 ^ 1024 := by norm_num
    linarith [hq.2]

/-- Rounding to binary64 is monotone, infinities included. -/
theorem round64_mono {q1 q2 : ℚ} (h : q1 ≤ q2) : Dbl.round64 q1 ≤ Dbl.round64 q2 := by
  have hm := r64_mono h
  unfold Dbl.round64
  by_cases a1 : (2 : ℚ) ^ 1024 ≤ Dbl.r64 q1
  · rw [if_pos a1, if_pos (a1.trans hm)]
    decide
  · rw [if_neg a1]
    by_cases b1 : Dbl.r64 q1 ≤ -2 ^ 1024
    · rw [if_pos b1]
      by_cases a2 : (2 : ℚ) ^ 1024 ≤ Dbl.r64 q2
      · rw [if_pos a2]
        decide
      · rw [if_neg a2]
        by_cases b2 : Dbl.r64 q2 ≤ -2 ^ 1024
        · rw [if_pos b2]
          decide
        · rw [if_neg b2]
          rfl
    · rw [if_neg b1]
      by_cases a2 : (2 : ℚ) ^ 1024 ≤ Dbl.r64 q2
      · rw [if_pos a2]
        rfl
      · rw [if_neg a2]
        have b2 : ¬ Dbl.r64 q2 ≤ -2 ^ 1024 := by
          push_neg at b1 ⊢
          linarith
        rw [if_neg b2, Dbl.fin_le]
        exact hm


/-! ## The hue in binary64 arithmetic -/

theorem representable_dbl_0_8 : Dbl.representable dbl_0_8 :=
  ⟨3602879701896397, -52, by norm_num, by norm_num, by unfold dbl_0_8; norm_num⟩

theorem representable_roundoff : Dbl.representable unit_roundoff :=
  ⟨1, -53, by norm_num, by norm_num, by unfold unit_roundoff; norm_num⟩

theorem representable_0_8_up : Dbl.representable (dbl_0_8 + unit_roundoff) :=
  ⟨7205759403792795, -53, by norm_num, by norm_num, by unfold dbl_0_8 unit_roundoff; norm_num⟩

theorem representable_0_8_down : Dbl.representable (dbl_0_8 - unit_roundoff) :=
  ⟨7205759403792793, -53, by norm_num, by norm_num, by unfold dbl_0_8 unit_roundoff; norm_num⟩

theorem representable_zero : Dbl.representable 0 :=
  ⟨0, 0, by norm_num, by norm_num, by norm_num⟩

theorem representable_two_pow_64 : Dbl.representable (2 ^ 64) :=
  ⟨1, 64, by norm_num, by norm_num, by norm_num⟩

theorem representable_half : Dbl.representable (1 / 2) :=
  ⟨1, -1, by norm_num, by norm_num, by norm_num⟩

theorem lit_0_8 : fp.lit Dbl.round64 (4 / 5) = Dbl.fin dbl_0_8 := by decide!

theorem r64_0_8_up : Dbl.r64 (dbl_0_8 * (1 + 1 / 2 ^ 53)) = dbl_0_8 + unit_roundoff := by decide!

theorem r64_0_8_down : Dbl.r64 (dbl_0_8 * (1 - 1 / 2 ^ 53)) = dbl_0_8 - unit_roundoff := by
  decide!

/-- Conversion to `double` of a positive integer below `2^64`. -/
theorem ofInt_round64 {n : Int} (h1 : 1 ≤ n) (h3 : n < 2 ^ 64) :
    fp.ofInt Dbl.round64 n = Dbl.fin (Dbl.r64 n) ∧ 1 ≤ Dbl.r64 n ∧ Dbl.r64 n ≤ 2 ^ 64 := by
  have hone : Dbl.representable (1 : ℚ) := by
    have := representable_int (n := 1) (by norm_num)
    simpa using this
  have hq1 : (1 : ℚ) ≤ (n : ℚ) := by exact_mod_cast h1
  have hq2 : (n : ℚ) ≤ 2 ^ 64 := by
    have : n ≤ 2 ^ 64 := h3.le
    exact_mod_cast this
  exact round64_between hone representable_two_pow_64 (by norm_num) (by norm_num) hq1 hq2

/-- The quotient `0.8 * n / d` of line 199 for integers `1 <= n <= d < 2^64`. -/
theorem hue_quot_spec {n d : Int} (h1 : 1 ≤ n) (h2 : n ≤ d) (h3 : d < 2 ^ 64) :
    fp.div Dbl.round64 (fp.mul Dbl.round64 (fp.lit Dbl.round64 (4 / 5)) (fp.ofInt Dbl.round64 n))
        (fp.ofInt Dbl.round64 d) = Dbl.fin (hue_quot n d)
      ∧ 0 ≤ hue_quot n d ∧ hue_quot n d ≤ dbl_0_8 + unit_roundoff
      ∧ (n = d → dbl_0_8 - unit_roundoff ≤ hue_quot n d) := by
  obtain ⟨n1, n2, n3⟩ := ofInt_round64 h1 (lt_of_le_of_lt h2 h3)
  obtain ⟨d1, d2, d3⟩ := ofInt_round64 (le_trans h1 h2) h3
  have hND : Dbl.r64 n ≤ Dbl.r64 d := r64_mono (by exact_mod_cast h2)
  have hc : (0 : ℚ) < dbl_0_8 := by unfold dbl_0_8; norm_num
  have hc1 : dbl_0_8 ≤ 1 := by unfold dbl_0_8; norm_num
  have hchalf : (1 : ℚ) / 2 ≤ dbl_0_8 := by unfold dbl_0_8; norm_num
  -- the product
  have hP := round64_between (q := dbl_0_8 * Dbl.r64 n) representable_half
    representable_two_pow_64 (by norm_num) (by norm_num) (by nlinarith) (by nlinarith)
  obtain ⟨p1, p2, p3⟩ := hP
  have hPerr : |Dbl.r64 (dbl_0_8 * Dbl.r64 n) - dbl_0_8 * Dbl.r64 n|
      ≤ |dbl_0_8 * Dbl.r64 n| / 2 ^ 53 := by
    apply r64_rel_err
    rw [abs_of_pos (by positivity)]
    have : (2 : ℚ) ^ (-1022 : Int) ≤ 1 / 2 := by
      rw [show (1 : ℚ) / 2 = 2 ^ (-1 : Int) by norm_num]
      exact zpow_le_zpow_right₀ (by norm_num) (by norm_num)
    have hprod : (1 : ℚ) / 2 ≤ dbl_0_8 * Dbl.r64 n := by nlinarith
    exact this.trans hprod
  rw [abs_of_pos (by positivity : (0 : ℚ) < dbl_0_8 * Dbl.r64 n)] at hPerr
  rw [abs_le] at hPerr
  have hD0 : (0 : ℚ) < Dbl.r64 d := by linarith
  -- the quotient
  have hquot_le : Dbl.r64 (dbl_0_8 * Dbl.r64 n) / Dbl.r64 d ≤ dbl_0_8 * (1 + 1 / 2 ^ 53) := by
    rw [div_le_iff₀ hD0]
    have : dbl_0_8 * Dbl.r64 n * (1 + 1 / 2 ^ 53) ≤ dbl_0_8 * (1 + 1 / 2 ^ 53) * Dbl.r64 d := by
      have : dbl_0_8 * Dbl.r64 n ≤ dbl_0_8 * Dbl.r64 d := by nlinarith
      nlinarith
    linarith [hPerr.2]
  have hquot_nonneg : 0 ≤ Dbl.r64 (dbl_0_8 * Dbl.r64 n) / Dbl.r64 d :=
    div_nonneg (by linarith) hD0.le
  have hup : dbl_0_8 * (1 + 1 / 2 ^ 53) ≤ dbl_0_8 + unit_roundoff := by
    unfold dbl_0_8 unit_roundoff
    norm_num
  have hQ := round64_between (q := Dbl.r64 (dbl_0_8 * Dbl.r64 n) / Dbl.r64 d) representable_zero
    representable_0_8_up (by norm_num) (by unfold dbl_0_8 unit_roundoff; norm_num)
    hquot_nonneg (hquot_le.trans hup)
  obtain ⟨q1, q2, q3⟩ := hQ
  refine ⟨?_, q2, q3, ?_⟩
  · rw [lit_0_8, n1, d1]
    simp only [fp.mul, fp.div, Dbl.fin_mul, Dbl.rounded, p1, Dbl.fin_div_of_ne _ _ hD0.ne', q1]
    rfl
  · intro hnd
    have hge : dbl_0_8 * (1 - 1 / 2 ^ 53) ≤ Dbl.r64 (dbl_0_8 * Dbl.r64 n) / Dbl.r64 d := by
      rw [le_div_iff₀ hD0, ← hnd]
      linarith [hPerr.1]
    have := r64_mono hge
    rw [r64_0_8_down] at this
    exact this


theorem hue_quot_mono {n n' d : Int} (h : n ≤ n') (hd : 1 ≤ d) (h3 : d < 2 ^ 64) :
    hue_quot n d ≤ hue_quot n' d := by
  obtain ⟨_, d2, _⟩ := ofInt_round64 hd h3
  have hc : (0 : ℚ) < dbl_0_8 := by unfold dbl_0_8; norm_num
  have a : Dbl.r64 n ≤ Dbl.r64 n' := r64_mono (by exact_mod_cast h)
  have b : Dbl.r64 (dbl_0_8 * Dbl.r64 n) ≤ Dbl.r64 (dbl_0_8 * Dbl.r64 n') :=
    r64_mono (mul_le_mul_of_nonneg_left a hc.le)
  exact r64_mono (div_le_div_of_nonneg_right b (by linarith))

/-- The hue of line 199 in binary64 arithmetic, for `n = size - size_min + 1`
and `d = size_max - size_min + 1` with `1 <= n <= d < 2^64`. -/
theorem hue_round64 {size_min size_max : Int} {size : Nat} (h1 : size_min ≤ size)
    (h2 : (size : Int) ≤ size_max) (h0 : 0 ≤ size_min) (h3 : size_max < 2 ^ 63) :
    fp.hue Dbl.round64 size_min size_max size
        = Dbl.fin (Dbl.r64 (dbl_0_8 - hue_quot (size - size_min + 1) (size_max - size_min + 1)))
      ∧ -unit_roundoff
          ≤ Dbl.r64 (dbl_0_8 - hue_quot (size - size_min + 1) (size_max - size_min + 1))
      ∧ Dbl.r64 (dbl_0_8 - hue_quot (size - size_min + 1) (size_max - size_min + 1)) ≤ dbl_0_8
      ∧ ((size : Int) = size_max →
          |Dbl.r64 (dbl_0_8 - hue_quot (size - size_min + 1) (size_max - size_min + 1))|
            ≤ unit_roundoff) := by
  have h64 : (2 : Int) ^ 63 < 2 ^ 64 := by norm_num
  have e1 : u64 ((size : Int) - size_min + 1) = (size : Int) - size_min + 1 :=
    u64_of_lt (by omega) (by omega)
  have e2 : u64 (size_max - size_min + 1) = size_max - size_min + 1 :=
    u64_of_lt (by omega) (by omega)
  obtain ⟨q1, q2, q3, q4⟩ := hue_quot_spec (n := (size : Int) - size_min + 1)
    (d := size_max - size_min + 1) (by omega) (by omega) (by omega)
  have hu : (0 : ℚ) < unit_roundoff := by unfold unit_roundoff; norm_num
  have hc : dbl_0_8 < 2 ^ 1024 := by unfold dbl_0_8; norm_num
  have hb := round64_between
    (q := dbl_0_8 - hue_quot (size - size_min + 1) (size_max - size_min + 1))
    (representable_neg representable_roundoff) representable_dbl_0_8
    (by unfold unit_roundoff; norm_num) hc (by linarith) (by linarith)
  obtain ⟨b1, b2, b3⟩ := hb
  refine ⟨?_, b2, b3, ?_⟩
  · unfold fp.hue
    rw [e1, e2, q1, lit_0_8]
    simp only [fp.sub, Dbl.fin_sub, Dbl.rounded, b1]
  · intro hmax
    have hq := q4 (by omega)
    have lo := @r64_mono (-unit_roundoff)
      (dbl_0_8 - hue_quot (size - size_min + 1) (size_max - size_min + 1)) (by linarith)
    have hi := @r64_mono
      (dbl_0_8 - hue_quot (size - size_min + 1) (size_max - size_min + 1))
      unit_roundoff (by linarith)
    rw [r64_fix (representable_neg representable_roundoff)] at lo
    rw [r64_fix representable_roundoff] at hi
    exact abs_le.2 ⟨lo, hi⟩

/-- Counterexample to C16 as stated: in the directory with two files of sizes 1
and 6 the first pass gives `size_min = 1`, `size_max = 6`, and the hue that
line 199 computes in binary64 arithmetic for the larger file is `-2^-53`: it is
negative, not `0`, and it is the hue of the sector that `draw_ring` draws for
that file. -/
theorem C16_hue_of_largest_is_negative :
    size_scan 7 dir_pair.ents = (1, 6)
      ∧ fp.hue Dbl.round64 1 6 6 = Dbl.fin (-(1 / 2 ^ 53))
      ∧ ¬ ((0 : Dbl) ≤ fp.hue Dbl.round64 1 6 6)
      ∧ (fp.draw_ring Dbl.round64 (graph_init 300 1) dir_pair 1 0 1 []).filterMap op_colour
        = [(Dbl.fin (3002399751580331 / 4503599627370496),
              Dbl.fin (6437145067388229 / 9007199254740992)),
           (Dbl.fin (-(1 / 2 ^ 53)), Dbl.fin (6437145067388229 / 9007199254740992))] := by
  refine ⟨by decide!, by decide!, by decide!, by decide!⟩

/-- The loop of `draw_ring` on a non-empty list of entries draws nothing, or
starts with the sector of the first entry, whose hue is that of line 199. -/
theorem fp_draw_ring_loop_head (rnd : ℚ → Dbl) (g : graph) (level : Nat) (a_range : Dbl)
    (size_total : Nat) (size_min size_max : Int) (chain : List String) (e : duc_dirent)
    (rest : List duc_dirent) (a_from a_to : Dbl) :
    fp.draw_ring_loop rnd g level a_range size_total size_min size_max chain (e :: rest)
        a_from a_to = []
      ∨ ∃ (a_end brightness : Dbl) (ops : List draw_op),
          fp.draw_ring_loop rnd g level a_range size_total size_min size_max chain (e :: rest)
              a_from a_to
            = draw_op.ring (chain ++ [e.name]) a_from a_end (fp.r_from rnd g level)
                (fp.r_to rnd g level) (fp.hue rnd size_min size_max e.size) brightness :: ops := by
  cases e with
  | mk name size mode child =>
    by_cases c1 : fp.mul rnd (fp.mul rnd (fp.mul rnd (fp.r_to rnd g level)
        (fp.sub rnd (fp.add rnd a_to (fp.span_step rnd a_range size_total size)) a_from)) M_PI) 2
        < 2
    · left
      cases child <;> simp only [fp.draw_ring_loop, c1, if_true]
    · by_cases c2 : fp.add rnd a_to (fp.span_step rnd a_range size_total size) ≤ a_from
      · left
        cases child <;> simp only [fp.draw_ring_loop, c1, c2, if_true, if_false]
      · right
        cases child <;>
          simp only [fp.draw_ring_loop, c1, c2, if_false, duc_dirent.name, duc_dirent.size] <;>
          exact ⟨_, _, _, rfl⟩

/-- C16 (hue policy, amended to binary64 arithmetic): in a directory whose sizes
fit the type `off_t`, for a child `e` among children whose sizes are at most the
total size, with `size_min` and `size_max` as computed by the first pass of
`draw_ring`: the denominator `size_max - size_min + 1` is at least 1; the hue
that line 199 computes in binary64 arithmetic is finite and lies between
`-2^-53` and the double `0.8`; for a child of the largest size it is `0` up to
one rounding error, `|hue| <= 2^-53`; it does not increase with the size of the
child; and it is the hue of the sector that the loop of `draw_ring` draws for
the child when the child is not culled. -/
theorem C16_hue_policy_rounded (size_total : Nat) (es : List duc_dirent) (e : duc_dirent)
    (he : e ∈ es) (hle : ∀ e' ∈ es, e'.size ≤ size_total) (hoff : size_total < 2 ^ 63) :
    1 ≤ u64 ((size_scan size_total es).2 - (size_scan size_total es).1 + 1)
      ∧ (∃ q : ℚ,
          fp.hue Dbl.round64 (size_scan size_total es).1 (size_scan size_total es).2 e.size
            = Dbl.fin q
          ∧ -unit_roundoff ≤ q ∧ q ≤ dbl_0_8
          ∧ ((∀ e' ∈ es, e'.size ≤ e.size) → |q| ≤ unit_roundoff))
      ∧ (∀ e' ∈ es, e.size ≤ e'.size →
          fp.hue Dbl.round64 (size_scan size_total es).1 (size_scan size_total es).2 e'.size
            ≤ fp.hue Dbl.round64 (size_scan size_total es).1 (size_scan size_total es).2 e.size)
      ∧ (∀ (g : graph) (level : Nat) (a_range : Dbl) (chain : List String)
          (rest : List duc_dirent) (a_from a_to : Dbl),
          fp.draw_ring_loop Dbl.round64 g level a_range size_total (size_scan size_total es).1
              (size_scan size_total es).2 chain (e :: rest) a_from a_to = []
            ∨ ∃ (a_end brightness : Dbl) (ops : List draw_op),
                fp.draw_ring_loop Dbl.round64 g level a_range size_total
                    (size_scan size_total es).1 (size_scan size_total es).2 chain (e :: rest)
                    a_from a_to
                  = draw_op.ring (chain ++ [e.name]) a_from a_end (fp.r_from Dbl.round64 g level)
                      (fp.r_to Dbl.round64 g level)
                      (fp.hue Dbl.round64 (size_scan size_total es).1
                        (size_scan size_total es).2 e.size) brightness :: ops) := by
  obtain ⟨f0, f1, f2, f3⟩ := size_scan_facts size_total es hle hoff
  have hmax : (size_scan size_total es).2 < 2 ^ 63 := by
    have : (size_total : Int) < 2 ^ 63 := by exact_mod_cast hoff
    omega
  have h64 : (2 : Int) ^ 63 < 2 ^ 64 := by norm_num
  obtain ⟨g1, g2⟩ := f2 e he
  obtain ⟨d1, d2, d3, d4⟩ := hue_round64 g1 g2 f0 hmax
  refine ⟨?_, ⟨_, d1, d2, d3, ?_⟩, ?_, ?_⟩
  · rw [u64_of_lt (by omega) (by omega)]
    omega
  · intro hall
    apply d4
    have := f3 e.size (by omega) (fun e' he' => by exact_mod_cast hall e' he')
    omega
  · intro e' he' hsz
    obtain ⟨g1', g2'⟩ := f2 e' he'
    obtain ⟨d1', _, _, _⟩ := hue_round64 g1' g2' f0 hmax
    rw [d1, d1', Dbl.fin_le]
    apply r64_mono
    have hsz' : (e.size : Int) ≤ (e'.size : Int) := by exact_mod_cast hsz
    have := @hue_quot_mono
      ((e.size : Int) - (size_scan size_total es).1 + 1)
      ((e'.size : Int) - (size_scan size_total es).1 + 1)
      ((size_scan size_total es).2 - (size_scan size_total es).1 + 1)
      (by omega) (by omega) (by omega)
    linarith
  · intro g level a_range chain rest a_from a_to
    exact fp_draw_ring_loop_head _ g level a_range size_total _ _ chain e rest a_from a_to

theorem C16_hue_policy_rounded_witness :
    1 ≤ u64 ((size_scan 7 dir_pair.ents).2 - (size_scan 7 dir_pair.ents).1 + 1)
      ∧ ∃ q : ℚ,
          fp.hue Dbl.round64 (size_scan 7 dir_pair.ents).1 (size_scan 7 dir_pair.ents).2 6
            = Dbl.fin q
          ∧ -unit_roundoff ≤ q ∧ q ≤ dbl_0_8 ∧ |q| ≤ unit_roundoff := by
  have h := C16_hue_policy_rounded 7 dir_pair.ents (.mk "b" 6 .DUC_MODE_REG none)
    (by simp [dir_pair, duc_dir.ents])
    (by
      intro e' he'
      simp only [dir_pair, duc_dir.ents, List.mem_cons, List.mem_singleton,
        List.not_mem_nil, or_false] at he'
      rcases he' with rfl | rfl <;> simp [duc_dirent.size])
    (by norm_num)
  obtain ⟨h1, ⟨q, hq, hq1, hq2, hq3⟩, _, _⟩ := h
  refine ⟨h1, q, hq, hq1, hq2, hq3 ?_⟩
  intro e' he'
  simp only [dir_pair, duc_dir.ents, List.mem_cons, List.mem_singleton,
    List.not_mem_nil, or_false] at he'
  rcases he' with rfl | rfl <;> simp [duc_dirent.size]


/-! ## The match rule of find_spot in rounded arithmetic -/

theorem fp_find_spot_loop_cons (rnd : ℚ → Dbl) (g : graph) (level : Nat) (a_range : Dbl) (size_total : Nat)
    (name : String) (size : Nat) (mode : duc_mode) (child : Option duc_dir)
    (es : List duc_dirent) (a_from a_to : Dbl) (part : part_log) :
    fp.find_spot_loop rnd g level a_range size_total (.mk name size mode child :: es) a_from a_to part =
      if fp.add rnd a_to (fp.span_step rnd a_range size_total size) > a_from then
        if fp.hit rnd g ⟨[name], level, a_from, fp.add rnd a_to (fp.span_step rnd a_range size_total size)⟩
        then (true, (level, name) :: part)
        else
          match eligible g level mode child with
          | some d =>
            if (fp.find_spot rnd g d (level + 1) a_from
                (fp.add rnd a_to (fp.span_step rnd a_range size_total size)) part).1
            then (true, (level, name) :: (fp.find_spot rnd g d (level + 1) a_from
                (fp.add rnd a_to (fp.span_step rnd a_range size_total size)) part).2)
            else fp.find_spot_loop rnd g level a_range size_total es
              (fp.add rnd a_to (fp.span_step rnd a_range size_total size))
              (fp.add rnd a_to (fp.span_step rnd a_range size_total size))
              (fp.find_spot rnd g d (level + 1) a_from
                (fp.add rnd a_to (fp.span_step rnd a_range size_total size)) part).2
          | none => fp.find_spot_loop rnd g level a_range size_total es
              (fp.add rnd a_to (fp.span_step rnd a_range size_total size))
              (fp.add rnd a_to (fp.span_step rnd a_range size_total size)) part
      else fp.find_spot_loop rnd g level a_range size_total es
              (fp.add rnd a_to (fp.span_step rnd a_range size_total size))
              (fp.add rnd a_to (fp.span_step rnd a_range size_total size)) part := by
  cases child <;>
    simp only [fp.find_spot_loop, fp.hit, eligible, decide_eq_true_eq] <;>
    split_ifs <;> simp_all

theorem fp_find_visits_loop_cons (rnd : ℚ → Dbl) (g : graph) (level : Nat) (a_range : Dbl) (size_total : Nat)
    (name : String) (size : Nat) (mode : duc_mode) (child : Option duc_dir)
    (es : List duc_dirent) (a_from a_to : Dbl) :
    fp.find_visits_loop rnd g level a_range size_total (.mk name size mode child :: es) a_from a_to =
      if fp.add rnd a_to (fp.span_step rnd a_range size_total size) > a_from then
        ⟨[name], level, a_from, fp.add rnd a_to (fp.span_step rnd a_range size_total size)⟩
          :: ((match eligible g level mode child with
               | some d => (fp.find_visits rnd g d (level + 1) a_from
                    (fp.add rnd a_to (fp.span_step rnd a_range size_total size))).map
                    (visit.under name)
               | none => [])
              ++ fp.find_visits_loop rnd g level a_range size_total es
                  (fp.add rnd a_to (fp.span_step rnd a_range size_total size))
                  (fp.add rnd a_to (fp.span_step rnd a_range size_total size)))
      else fp.find_visits_loop rnd g level a_range size_total es
              (fp.add rnd a_to (fp.span_step rnd a_range size_total size))
              (fp.add rnd a_to (fp.span_step rnd a_range size_total size)) := by
  cases child <;>
    simp only [fp.find_visits_loop, eligible] <;>
    split_ifs <;> simp_all

theorem fp_find_spot_first_hit (rnd : ℚ → Dbl) (g : graph) :
    (∀ d level a_min a_max part,
      fp.find_spot rnd g d level a_min a_max part
        = fp.first_hit rnd g level part (fp.find_visits rnd g d level a_min a_max)) ∧
    (∀ es level a_range size_total a_from a_to part,
      fp.find_spot_loop rnd g level a_range size_total es a_from a_to part
        = fp.first_hit rnd g level part (fp.find_visits_loop rnd g level a_range size_total es a_from a_to)) := by
  apply duc_tree_induction
  · intro path size_total es ih level a_min a_max part
    simp only [fp.find_spot, fp.find_visits]
    exact ih _ _ _ _ _ _
  · intro level a_range size_total a_from a_to part
    simp [fp.find_spot_loop, fp.find_visits_loop, fp.first_hit]
  · intro name size mode child es ihd ihes level a_range size_total a_from a_to part
    rw [fp_find_spot_loop_cons, fp_find_visits_loop_cons]
    by_cases h1 : fp.add rnd a_to (fp.span_step rnd a_range size_total size) > a_from
    · simp only [h1, if_true]
      by_cases h2 : fp.hit rnd g ⟨[name], level, a_from,
          fp.add rnd a_to (fp.span_step rnd a_range size_total size)⟩ = true
      · simp [h2, fp.first_hit, path_log]
      · simp only [h2, if_false]
        have hf : ∀ rest, fp.first_hit rnd g level part
            ((⟨[name], level, a_from,
              fp.add rnd a_to (fp.span_step rnd a_range size_total size)⟩ : visit) :: rest)
            = fp.first_hit rnd g level part rest := by
          intro rest
          simp [fp.first_hit, List.find?_cons, h2]
        rw [hf]
        cases hel : eligible g level mode child with
        | none =>
          simp only [List.nil_append]
          exact ihes _ _ _ _ _ _
        | some d =>
          have hd := ihd d (eligible_eq_some hel).2.2 (level + 1) a_from
            (fp.add rnd a_to (fp.span_step rnd a_range size_total size)) part
          simp only [hd]
          cases hfind : (fp.find_visits rnd g d (level + 1) a_from
              (fp.add rnd a_to (fp.span_step rnd a_range size_total size))).find? (fp.hit rnd g) with
          | none =>
            have : fp.first_hit rnd g (level + 1) part (fp.find_visits rnd g d (level + 1) a_from
              (fp.add rnd a_to (fp.span_step rnd a_range size_total size))) = (false, part) := by
              simp [fp.first_hit, hfind]
            rw [this]
            simp only [Bool.false_eq_true, if_false]
            rw [ihes]
            simp only [fp.first_hit, List.find?_append, List.find?_map]
            have hcomp : (fp.hit rnd g ∘ visit.under name) = fp.hit rnd g := by
              funext v
              rfl
            rw [hcomp, hfind]
            simp
          | some v =>
            have : fp.first_hit rnd g (level + 1) part (fp.find_visits rnd g d (level + 1) a_from
              (fp.add rnd a_to (fp.span_step rnd a_range size_total size)))
                = (true, path_log (level + 1) v.chain ++ part) := by
              simp [fp.first_hit, hfind]
            rw [this]
            simp only [if_true]
            simp only [fp.first_hit, List.find?_append, List.find?_map]
            have hcomp : (fp.hit rnd g ∘ visit.under name) = fp.hit rnd g := by
              funext v
              rfl
            rw [hcomp, hfind]
            simp [visit.under, path_log]
    · simp only [h1, if_false]
      exact ihes _ _ _ _ _ _


/-! ## The sectors of one level in rounded arithmetic -/

theorem fp_draw_ring_loop_cons (rnd : ℚ → Dbl) (g : graph) (level : Nat) (a_range : Dbl)
    (size_total : Nat) (size_min size_max : Int) (chain : List String) (e : duc_dirent)
    (es : List duc_dirent) (a_from a_to : Dbl) :
    fp.draw_ring_loop rnd g level a_range size_total size_min size_max chain (e :: es) a_from a_to =
      if fp.culled rnd g level a_from (fp.add rnd a_to (fp.span_step rnd a_range size_total e.size))
      then []
      else
        fp.ring_of rnd g level size_min size_max chain e a_from
            (fp.add rnd a_to (fp.span_step rnd a_range size_total e.size))
          :: (fp.sub_part rnd g level size_min size_max chain e a_from
                (fp.add rnd a_to (fp.span_step rnd a_range size_total e.size))
              ++ (fp.label_part rnd g level chain e a_from
                    (fp.add rnd a_to (fp.span_step rnd a_range size_total e.size))
                  ++ fp.draw_ring_loop rnd g level a_range size_total size_min size_max chain es
                      (fp.add rnd a_to (fp.span_step rnd a_range size_total e.size))
                      (fp.add rnd a_to (fp.span_step rnd a_range size_total e.size)))) := by
  cases e with
  | mk name size mode child =>
    by_cases h1 : fp.mul rnd (fp.mul rnd (fp.mul rnd (fp.r_to rnd g level)
        (fp.sub rnd (fp.add rnd a_to (fp.span_step rnd a_range size_total size)) a_from)) M_PI) 2
        < 2
    · cases child <;>
        simp only [fp.draw_ring_loop, duc_dirent.size, fp.culled, h1, if_true, true_or]
    · by_cases h2 : fp.add rnd a_to (fp.span_step rnd a_range size_total size) ≤ a_from
      · cases child <;>
          simp only [fp.draw_ring_loop, duc_dirent.size, fp.culled, h1, h2, if_true,
            if_false, or_true]
      · cases child <;>
          simp only [fp.draw_ring_loop, duc_dirent.size, duc_dirent.name,
            duc_dirent.mode, duc_dirent.child, fp.culled, fp.ring_of, fp.sub_part,
            fp.label_part, h1, h2, if_false, or_self]

theorem fp_level_rings_label_part (rnd : ℚ → Dbl) (n : Nat) (g : graph) (level : Nat) (chain : List String)
    (e : duc_dirent) (a_from a_to : Dbl) :
    level_rings n (fp.label_part rnd g level chain e a_from a_to) = [] := by
  unfold fp.label_part
  split_ifs <;> simp [level_rings]

theorem fp_level_rings_ring_of (rnd : ℚ → Dbl) (g : graph) (level : Nat) (size_min size_max : Int)
    (chain : List String) (e : duc_dirent) (a_from a_to : Dbl) (rest : List draw_op) :
    level_rings (chain.length + 1)
        (fp.ring_of rnd g level size_min size_max chain e a_from a_to :: rest)
      = (e.name, a_from, a_to) :: level_rings (chain.length + 1) rest := by
  simp [level_rings, fp.ring_of, List.filterMap_cons]

theorem fp_level_rings_ring_of_deep (rnd : ℚ → Dbl) (n : Nat) (g : graph) (level : Nat) (size_min size_max : Int)
    (chain : List String) (e : duc_dirent) (a_from a_to : Dbl) (rest : List draw_op)
    (h : n ≤ chain.length) :
    level_rings n (fp.ring_of rnd g level size_min size_max chain e a_from a_to :: rest)
      = level_rings n rest := by
  have : ¬ chain.length + 1 = n := by omega
  simp [level_rings, fp.ring_of, List.filterMap_cons, this]

/-- A directory drawn below a chain of `n` names or more contributes no sector
to the level of the chains of length `n`. -/
theorem fp_level_rings_deep (rnd : ℚ → Dbl) (g : graph) :
    (∀ (d : duc_dir) (level : Nat) (a_min a_max : Dbl) (chain : List String) (n : Nat),
      n ≤ chain.length → level_rings n (fp.draw_ring rnd g d level a_min a_max chain) = []) ∧
    (∀ (es : List duc_dirent) (level : Nat) (a_range : Dbl) (size_total : Nat)
      (size_min size_max : Int) (chain : List String) (a_from a_to : Dbl) (n : Nat),
      n ≤ chain.length →
      level_rings n (fp.draw_ring_loop rnd g level a_range size_total size_min size_max chain es
        a_from a_to) = []) := by
  apply duc_tree_induction
  · intro path size_total es ih level a_min a_max chain n hn
    simp only [fp.draw_ring]
    exact ih _ _ _ _ _ _ _ _ _ hn
  · intro level a_range size_total size_min size_max chain a_from a_to n _
    simp [fp.draw_ring_loop, level_rings]
  · intro name size mode child es ihd ihes level a_range size_total size_min size_max chain
      a_from a_to n hn
    rw [fp_draw_ring_loop_cons]
    split_ifs
    · rfl
    · rw [fp_level_rings_ring_of_deep rnd n _ _ _ _ _ _ _ _ _ hn, level_rings_append,
        level_rings_append, fp_level_rings_label_part, ihes _ _ _ _ _ _ _ _ _ hn]
      simp only [List.append_nil]
      unfold fp.sub_part
      split_ifs
      · cases child with
        | none => rfl
        | some d =>
          simp only [duc_dirent.child]
          exact ihd d rfl _ _ _ _ _ (by simp; omega)
      · simp [level_rings]
      · rfl

theorem fp_level_rings_sub_part (rnd : ℚ → Dbl) (g : graph) (level : Nat) (size_min size_max : Int)
    (chain : List String) (e : duc_dirent) (a_from a_to : Dbl) :
    level_rings (chain.length + 1) (fp.sub_part rnd g level size_min size_max chain e a_from a_to)
      = [] := by
  unfold fp.sub_part
  split_ifs
  · cases h : e.child with
    | none => rfl
    | some d =>
      simp only
      exact (fp_level_rings_deep rnd g).1 d _ _ _ _ _ (by simp)
  · simp [level_rings]
  · rfl

/-- The sectors that the loop of `draw_ring` draws at its own level are the
spans of the leading children that pass the break tests. -/
theorem fp_level_rings_loop (rnd : ℚ → Dbl) (g : graph) (level : Nat) (a_range : Dbl) (size_total : Nat)
    (size_min size_max : Int) (chain : List String) (es : List duc_dirent) :
    ∀ a : Dbl,
      level_rings (chain.length + 1)
          (fp.draw_ring_loop rnd g level a_range size_total size_min size_max chain es a a)
        = (fp.sibling_spans rnd a_range size_total es a).take
            (fp.drawn_count rnd g level a_range size_total es a) := by
  induction es with
  | nil =>
    intro a
    simp [fp.draw_ring_loop, level_rings, fp.sibling_spans]
  | cons e es ih =>
    intro a
    rw [fp_draw_ring_loop_cons]
    by_cases hc : fp.culled rnd g level a (fp.add rnd a (fp.span_step rnd a_range size_total e.size))
    · simp [hc, fp.drawn_count, level_rings]
    · simp only [hc, if_false, fp.drawn_count, fp.sibling_spans]
      rw [fp_level_rings_ring_of, level_rings_append, level_rings_append, fp_level_rings_sub_part,
        fp_level_rings_label_part, ih]
      simp [Nat.add_comm 1, List.take_succ_cons]

theorem fp_drawn_count_le (rnd : ℚ → Dbl) (g : graph) (level : Nat) (a_range : Dbl) (size_total : Nat)
    (es : List duc_dirent) :
    ∀ a : Dbl, fp.drawn_count rnd g level a_range size_total es a ≤ es.length := by
  induction es with
  | nil =>
    intro a
    simp [fp.drawn_count]
  | cons e es ih =>
    intro a
    simp only [fp.drawn_count]
    split_ifs
    · simp
    · have := ih (fp.add rnd a (fp.span_step rnd a_range size_total e.size))
      simp only [List.length_cons]
      omega

theorem fp_sibling_spans_length (rnd : ℚ → Dbl) (a_range : Dbl) (size_total : Nat) (es : List duc_dirent) :
    ∀ a : Dbl, (fp.sibling_spans rnd a_range size_total es a).length = es.length := by
  induction es with
  | nil =>
    intro a
    rfl
  | cons e es ih =>
    intro a
    simp [fp.sibling_spans, ih]


/-! ## Probes that the hit-test cannot match, in rounded arithmetic -/

theorem fp_not_hit_of_radius_lt {rnd : ℚ → Dbl} {g : graph} {v : visit}
    (h : g.spot_r < fp.r_from rnd g v.level) : fp.hit rnd g v = false := by
  simp only [fp.hit, decide_eq_false_iff_not, ge_iff_le]
  rintro ⟨_, _, h3, _⟩
  exact Dbl.not_le_of_lt h h3

theorem fp_not_hit_of_angle_gt {rnd : ℚ → Dbl} {g : graph} {v : visit}
    (h : v.a_to < g.spot_a) : fp.hit rnd g v = false := by
  simp only [fp.hit, decide_eq_false_iff_not, ge_iff_le]
  rintro ⟨_, h2, _, _⟩
  exact Dbl.not_le_of_lt h h2

/-- A probe whose radius lies below the bands of `level` and of all deeper
levels is matched neither at `level` nor deeper. -/
theorem fp_find_spot_radius_below (rnd : ℚ → Dbl) (g : graph) :
    (∀ (d : duc_dir) (level : Nat) a_min a_max part,
      (∀ l : Nat, level ≤ l → g.spot_r < fp.r_from rnd g l) →
      fp.find_spot rnd g d level a_min a_max part = (false, part)) ∧
    (∀ (es : List duc_dirent) (level : Nat) a_range size_total a_from a_to part,
      (∀ l : Nat, level ≤ l → g.spot_r < fp.r_from rnd g l) →
      fp.find_spot_loop rnd g level a_range size_total es a_from a_to part = (false, part)) := by
  apply duc_tree_induction
  · intro path size_total es ih level a_min a_max part hr
    simp only [fp.find_spot]
    exact ih _ _ _ _ _ _ hr
  · intro level a_range size_total a_from a_to part _
    simp [fp.find_spot_loop]
  · intro name size mode child es ihd ihes level a_range size_total a_from a_to part hr
    rw [fp_find_spot_loop_cons]
    have hh : ∀ af at', fp.hit rnd g ⟨[name], level, af, at'⟩ = false := by
      intro af at'
      exact fp_not_hit_of_radius_lt (hr level le_rfl)
    simp only [hh, Bool.false_eq_true, if_false]
    cases hel : eligible g level mode child with
    | none => simp [ihes _ _ _ _ _ _ hr]
    | some d =>
      have hd := ihd d (eligible_eq_some hel).2.2 (level + 1) a_from
        (fp.add rnd a_to (fp.span_step rnd a_range size_total size)) part
        (fun l hl => hr l (by omega))
      simp [hd, ihes _ _ _ _ _ _ hr]

/-- The loop of `find_spot` assigns a child its span: a probe in the band of the
level alone, above the start of the span of child `i` and not above its end, and
above the ends of the spans of the children before it, is matched to child
`i`. -/
theorem fp_find_spot_loop_own (rnd : ℚ → Dbl) (g : graph) (level : Nat) (a_range : Dbl)
    (size_total : Nat)
    (hr1 : fp.r_from rnd g level ≤ g.spot_r) (hr2 : g.spot_r ≤ fp.r_to rnd g level)
    (hr3 : ∀ l : Nat, level + 1 ≤ l → g.spot_r < fp.r_from rnd g l)
    (es : List duc_dirent) :
    ∀ (a : Dbl) (i : Nat) (s : String × Dbl × Dbl) (part : part_log),
      (fp.sibling_spans rnd a_range size_total es a)[i]? = some s →
      (∀ (j : Nat) (t : String × Dbl × Dbl), j < i →
        (fp.sibling_spans rnd a_range size_total es a)[j]? = some t → t.2.2 < g.spot_a) →
      s.2.1 < g.spot_a → g.spot_a ≤ s.2.2 →
      fp.find_spot_loop rnd g level a_range size_total es a a part
        = (true, (level, s.1) :: part) := by
  induction es with
  | nil =>
    intro a i s part hs
    simp [fp.sibling_spans] at hs
  | cons e0 es ih =>
    intro a i s part hs hbefore ha1 ha2
    cases e0 with
    | mk name size mode child =>
      rw [fp_find_spot_loop_cons]
      cases i with
      | zero =>
        simp only [fp.sibling_spans, List.getElem?_cons_zero, Option.some.injEq,
          duc_dirent.name, duc_dirent.size] at hs
        subst hs
        simp only at ha1 ha2
        have hlt := Dbl.lt_of_lt_of_le ha1 ha2
        have hh : fp.hit rnd g ⟨[name], level, a,
            fp.add rnd a (fp.span_step rnd a_range size_total size)⟩ = true := by
          simp only [fp.hit, decide_eq_true_eq, ge_iff_le]
          exact ⟨Dbl.le_of_lt ha1, ha2, hr1, hr2⟩
        simp only [gt_iff_lt, hlt, if_true, hh]
      | succ i =>
        simp only [fp.sibling_spans, List.getElem?_cons_succ, duc_dirent.size] at hs
        have h0 := hbefore 0 (name, a, fp.add rnd a (fp.span_step rnd a_range size_total size))
          (by omega) (by simp [fp.sibling_spans, duc_dirent.name, duc_dirent.size])
        simp only at h0
        have hrest := ih (fp.add rnd a (fp.span_step rnd a_range size_total size)) i s part hs
          (by
            intro j t hj ht
            exact hbefore (j + 1) t (by omega)
              (by simpa [fp.sibling_spans, duc_dirent.size] using ht))
          ha1 ha2
        have hh : fp.hit rnd g ⟨[name], level, a,
            fp.add rnd a (fp.span_step rnd a_range size_total size)⟩ = false :=
          fp_not_hit_of_angle_gt h0
        have hsub : ∀ d a_min a_max,
            fp.find_spot rnd g d (level + 1) a_min a_max part = (false, part) :=
          fun d a_min a_max => (fp_find_spot_radius_below rnd g).1 d (level + 1) a_min a_max
            part hr3
        simp only [hh, Bool.false_eq_true, if_false]
        cases hel : eligible g level mode child with
        | none => simp [hrest]
        | some d => simp [hsub, hrest]


/-! ## Rounding errors of the angular accumulation -/

theorem unit_roundoff_pos : 0 < unit_roundoff := by unfold unit_roundoff; norm_num

theorem underflow_unit_pos : 0 < underflow_unit := by unfold underflow_unit; norm_num

theorem underflow_le_roundoff : underflow_unit ≤ unit_roundoff / 2 ^ 1000 := by
  unfold underflow_unit unit_roundoff
  norm_num

/-- The error of a rounding: relative `2^-53`, or absolute `2^-1075` in the
subnormal range. -/
theorem r64_abs_err (q : ℚ) : |Dbl.r64 q - q| ≤ |q| * unit_roundoff + underflow_unit := by
  have hu := unit_roundoff_pos
  have he := underflow_unit_pos
  by_cases hq : (2 : ℚ) ^ (-1022 : Int) ≤ |q|
  · have := r64_rel_err hq
    have e : |q| / 2 ^ 53 = |q| * unit_roundoff := by
      unfold unit_roundoff
      ring
    rw [e] at this
    linarith
  · push_neg at hq
    by_cases hq0 : q = 0
    · rw [hq0, r64_zero]
      simp only [sub_zero, abs_zero, zero_mul, zero_add]
      exact he.le
    have hexp : Dbl.ulp_exp q = -1074 := by
      have h1 := (Dbl.ilog2_spec hq0).1
      have hlt : (2 : ℚ) ^ Dbl.ilog2 q < 2 ^ (-1022 : Int) := lt_of_le_of_lt h1 hq
      have : Dbl.ilog2 q < -1022 := (zpow_lt_zpow_iff_right₀ (by norm_num : (1 : ℚ) < 2)).1 hlt
      unfold Dbl.ulp_exp
      rw [max_eq_right (by omega)]
    have herr := r64_err q
    rw [hexp] at herr
    have e : (2 : ℚ) ^ (-1074 : Int) / 2 = underflow_unit := by
      unfold underflow_unit
      rw [zpow_neg]
      norm_num
    rw [e] at herr
    have := mul_nonneg (abs_nonneg q) hu.le
    linarith

/-- Rounding of a non-negative rational: bounds on the result. -/
theorem r64_nonneg_bounds {q : ℚ} (hq : 0 ≤ q) :
    0 ≤ Dbl.r64 q ∧ Dbl.r64 q ≤ q * (1 + unit_roundoff) + underflow_unit
      ∧ q * (1 - unit_roundoff) - underflow_unit ≤ Dbl.r64 q := by
  have h0 := r64_mono hq
  rw [r64_zero] at h0
  have h := r64_abs_err q
  rw [abs_of_nonneg hq, abs_le] at h
  refine ⟨h0, ?_, ?_⟩
  · linarith [h.2]
  · linarith [h.1]

/-- Conversion of a size below `2^63` to `double`. -/
theorem r64_size_bounds {s : Nat} (hs : s < 2 ^ 63) :
    fp.ofInt Dbl.round64 (s : Int) = Dbl.fin (Dbl.r64 s)
      ∧ 0 ≤ Dbl.r64 (s : ℚ)
      ∧ Dbl.r64 (s : ℚ) ≤ s * (1 + unit_roundoff)
      ∧ (s : ℚ) * (1 - unit_roundoff) ≤ Dbl.r64 s
      ∧ (1 ≤ s → 1 ≤ Dbl.r64 (s : ℚ)) := by
  have hu := unit_roundoff_pos
  have hs0 : (0 : ℚ) ≤ (s : ℚ) := by positivity
  have hsq : (s : ℚ) ≤ 2 ^ 64 := by
    have : s ≤ 2 ^ 64 := by
      have : (2 : Nat) ^ 63 < 2 ^ 64 := by norm_num
      omega
    exact_mod_cast this
  obtain ⟨b1, b2, b3⟩ := round64_between representable_zero representable_two_pow_64
    (by norm_num) (by norm_num) hs0 hsq
  have hfin : fp.ofInt Dbl.round64 (s : Int) = Dbl.fin (Dbl.r64 s) := by
    unfold fp.ofInt
    push_cast
    exact b1
  rcases Nat.eq_zero_or_pos s with h0 | hpos
  · subst h0
    refine ⟨hfin, ?_, ?_, ?_, ?_⟩
    · simpa using b2
    · simp [r64_zero]
    · simp [r64_zero]
    · intro h
      omega
  · have h1 : (1 : ℚ) ≤ (s : ℚ) := by exact_mod_cast hpos
    have hrel := r64_rel_err (q := (s : ℚ)) (by
      rw [abs_of_nonneg hs0]
      have : (2 : ℚ) ^ (-1022 : Int) ≤ 1 := by
        rw [show (1 : ℚ) = 2 ^ (0 : Int) by norm_num]
        exact zpow_le_zpow_right₀ (by norm_num) (by norm_num)
      linarith)
    rw [abs_of_nonneg hs0, abs_le] at hrel
    have e : (s : ℚ) / 2 ^ 53 = s * unit_roundoff := by
      unfold unit_roundoff
      ring
    rw [e] at hrel
    have hone : Dbl.representable (1 : ℚ) := by
      have := representable_int (n := 1) (by norm_num)
      simpa using this
    have hge := r64_mono h1
    rw [r64_fix hone] at hge
    refine ⟨hfin, b2, ?_, ?_, fun _ => hge⟩
    · linarith [hrel.2]
    · linarith [hrel.1]


theorem representable_two_pow_66 : Dbl.representable (2 ^ 66) :=
  ⟨1, 66, by norm_num, by norm_num, by norm_num⟩

/-- Upper bound of a product, a quotient and their roundings, each with relative
error `u` and absolute error `h`. -/
theorem step_upper_chain {D s T R S T' M w u h : ℚ} (hD0 : 0 ≤ D) (hs0 : 0 ≤ s) (hsT : s ≤ T)
    (hT : 1 ≤ T) (hR1 : R ≤ D * (1 + u) + h) (hS0 : 0 ≤ S)
    (hS1 : S ≤ s * (1 + u)) (hT1 : T * (1 - u) ≤ T') (hT'pos : 0 < T') (hM0 : 0 ≤ M)
    (hM1 : M ≤ R * S * (1 + u) + h) (hw : w ≤ M / T' * (1 + u) + h)
    (hu0 : 0 < u) (hu1 : u < 1) (hh : 0 ≤ h)
    (c1 : (1 + u) ^ 4 ≤ (1 + 6 * u) * (1 - u))
    (c2 : ((1 + u) ^ 2 + 1) * (1 + u) + (1 - u) ≤ 5 * (1 - u)) :
    w ≤ D * s / T + 6 * u * (D * s / T) + 5 * h := by
  have hU : 0 < 1 + u := by linarith
  have hL : 0 < 1 - u := by linarith
  have hTpos : 0 < T := by linarith
  have hDu : 0 ≤ D * (1 + u) + h := by
    have := mul_nonneg hD0 hU.le
    linarith
  have hRS : R * S ≤ D * s * (1 + u) ^ 2 + h * s * (1 + u) := by
    have h1 : R * S ≤ (D * (1 + u) + h) * S := mul_le_mul_of_nonneg_right hR1 hS0
    have h2 : (D * (1 + u) + h) * S ≤ (D * (1 + u) + h) * (s * (1 + u)) :=
      mul_le_mul_of_nonneg_left hS1 hDu
    calc R * S ≤ _ := h1
      _ ≤ _ := h2
      _ = _ := by ring
  have hM : M ≤ D * s * (1 + u) ^ 3 + h * T * ((1 + u) ^ 2 + 1) := by
    have h3 : h * s * (1 + u) ^ 2 ≤ h * T * (1 + u) ^ 2 :=
      mul_le_mul_of_nonneg_right (mul_le_mul_of_nonneg_left hsT hh) (by positivity)
    have h4 : h ≤ h * T := by nlinarith
    have h5 : R * S * (1 + u) ≤ (D * s * (1 + u) ^ 2 + h * s * (1 + u)) * (1 + u) :=
      mul_le_mul_of_nonneg_right hRS hU.le
    have e : (D * s * (1 + u) ^ 2 + h * s * (1 + u)) * (1 + u)
        = D * s * (1 + u) ^ 3 + h * s * (1 + u) ^ 2 := by ring
    have e2 : h * T * ((1 + u) ^ 2 + 1) = h * T * (1 + u) ^ 2 + h * T := by ring
    linarith
  have hQ0 : 0 ≤ M / T' := div_nonneg hM0 hT'pos.le
  have hQT : M / T' * (T * (1 - u)) ≤ M := by
    have : M / T' * (T * (1 - u)) ≤ M / T' * T' := mul_le_mul_of_nonneg_left hT1 hQ0
    rwa [div_mul_cancel₀ _ hT'pos.ne'] at this
  have hW : D * s / T * T = D * s := div_mul_cancel₀ _ hTpos.ne'
  -- everything multiplied by T * (1 - u)
  have key : w * (T * (1 - u))
      ≤ (D * s / T + 6 * u * (D * s / T) + 5 * h) * (T * (1 - u)) := by
    have hTL : 0 ≤ T * (1 - u) := by positivity
    have h8 : w * (T * (1 - u)) ≤ (M / T' * (1 + u) + h) * (T * (1 - u)) :=
      mul_le_mul_of_nonneg_right hw hTL
    have h9 : M / T' * (T * (1 - u)) * (1 + u)
        ≤ (D * s * (1 + u) ^ 3 + h * T * ((1 + u) ^ 2 + 1)) * (1 + u) :=
      mul_le_mul_of_nonneg_right (hQT.trans hM) hU.le
    have hDs : 0 ≤ D * s := mul_nonneg hD0 hs0
    have c1' := mul_le_mul_of_nonneg_left c1 hDs
    have c2' := mul_le_mul_of_nonneg_left c2 (mul_nonneg hh hTpos.le)
    have e1 : (D * s / T + 6 * u * (D * s / T) + 5 * h) * (T * (1 - u))
        = D * s * ((1 + 6 * u) * (1 - u)) + h * T * (5 * (1 - u)) := by
      have : (D * s / T + 6 * u * (D * s / T) + 5 * h) * (T * (1 - u))
          = (D * s / T * T) * ((1 + 6 * u) * (1 - u)) + h * T * (5 * (1 - u)) := by ring
      rw [this, hW]
    rw [e1]
    have e2 : (M / T' * (1 + u) + h) * (T * (1 - u))
        = M / T' * (T * (1 - u)) * (1 + u) + h * T * (1 - u) := by ring
    have e3 : (D * s * (1 + u) ^ 3 + h * T * ((1 + u) ^ 2 + 1)) * (1 + u)
        = D * s * (1 + u) ^ 4 + h * T * (((1 + u) ^ 2 + 1) * (1 + u)) := by ring
    have e4 : h * T * (((1 + u) ^ 2 + 1) * (1 + u) + (1 - u))
        = h * T * (((1 + u) ^ 2 + 1) * (1 + u)) + h * T * (1 - u) := by ring
    linarith
  exact le_of_mul_le_mul_right key (by positivity)

/-- Lower bound of a product, a quotient and their roundings, each with relative
error `u` and absolute error `h`. -/
theorem step_lower_chain {D s T R S T' M w u h : ℚ} (hD0 : 0 ≤ D) (hs0 : 0 ≤ s) (hsT : s ≤ T)
    (hT : 1 ≤ T) (hR2 : D * (1 - u) - h ≤ R) (hS0 : 0 ≤ S)
    (hS1 : S ≤ s * (1 + u)) (hS2 : s * (1 - u) ≤ S) (hT1 : T' ≤ T * (1 + u)) (hT'pos : 0 < T')
    (hM0 : 0 ≤ M) (hM1 : R * S * (1 - u) - h ≤ M) (hw : M / T' * (1 - u) - h ≤ w)
    (hu0 : 0 < u) (hu1 : u < 1) (hh : 0 ≤ h)
    (c1 : (1 - 6 * u) * (1 + u) ≤ (1 - u) ^ 4)
    (c2 : ((1 + u) * (1 - u) + 1) * (1 - u) + (1 + u) ≤ 5 * (1 + u)) :
    D * s / T - 6 * u * (D * s / T) - 5 * h ≤ w := by
  have hU : 0 < 1 + u := by linarith
  have hL : 0 < 1 - u := by linarith
  have hTpos : 0 < T := by linarith
  have hRS : D * s * (1 - u) ^ 2 - h * s * (1 + u) ≤ R * S := by
    have h1 : (D * (1 - u) - h) * S ≤ R * S := mul_le_mul_of_nonneg_right hR2 hS0
    have h2 : D * (1 - u) * (s * (1 - u)) ≤ D * (1 - u) * S :=
      mul_le_mul_of_nonneg_left hS2 (mul_nonneg hD0 hL.le)
    have h3 : h * S ≤ h * (s * (1 + u)) := mul_le_mul_of_nonneg_left hS1 hh
    have e1 : (D * (1 - u) - h) * S = D * (1 - u) * S - h * S := by ring
    have e2 : D * (1 - u) * (s * (1 - u)) = D * s * (1 - u) ^ 2 := by ring
    have e3 : h * (s * (1 + u)) = h * s * (1 + u) := by ring
    linarith
  have hM : D * s * (1 - u) ^ 3 - h * T * ((1 + u) * (1 - u) + 1) ≤ M := by
    have h3 : h * s * ((1 + u) * (1 - u)) ≤ h * T * ((1 + u) * (1 - u)) :=
      mul_le_mul_of_nonneg_right (mul_le_mul_of_nonneg_left hsT hh) (by positivity)
    have h4 : h ≤ h * T := by nlinarith
    have h5 : (D * s * (1 - u) ^ 2 - h * s * (1 + u)) * (1 - u) ≤ R * S * (1 - u) :=
      mul_le_mul_of_nonneg_right hRS hL.le
    have e : (D * s * (1 - u) ^ 2 - h * s * (1 + u)) * (1 - u)
        = D * s * (1 - u) ^ 3 - h * s * ((1 + u) * (1 - u)) := by ring
    have e2 : h * T * ((1 + u) * (1 - u) + 1) = h * T * ((1 + u) * (1 - u)) + h * T := by ring
    linarith
  have hQ0 : 0 ≤ M / T' := div_nonneg hM0 hT'pos.le
  have hQT : M ≤ M / T' * (T * (1 + u)) := by
    have : M / T' * T' ≤ M / T' * (T * (1 + u)) := mul_le_mul_of_nonneg_left hT1 hQ0
    rwa [div_mul_cancel₀ _ hT'pos.ne'] at this
  have hW : D * s / T * T = D * s := div_mul_cancel₀ _ hTpos.ne'
  have key : (D * s / T - 6 * u * (D * s / T) - 5 * h) * (T * (1 + u))
      ≤ w * (T * (1 + u)) := by
    have hTU : 0 ≤ T * (1 + u) := by positivity
    have h8 : (M / T' * (1 - u) - h) * (T * (1 + u)) ≤ w * (T * (1 + u)) :=
      mul_le_mul_of_nonneg_right hw hTU
    have h9 : (D * s * (1 - u) ^ 3 - h * T * ((1 + u) * (1 - u) + 1)) * (1 - u)
        ≤ M / T' * (T * (1 + u)) * (1 - u) :=
      mul_le_mul_of_nonneg_right (hM.trans hQT) hL.le
    have hDs : 0 ≤ D * s := mul_nonneg hD0 hs0
    have c1' := mul_le_mul_of_nonneg_left c1 hDs
    have c2' := mul_le_mul_of_nonneg_left c2 (mul_nonneg hh hTpos.le)
    have e1 : (D * s / T - 6 * u * (D * s / T) - 5 * h) * (T * (1 + u))
        = D * s * ((1 - 6 * u) * (1 + u)) - h * T * (5 * (1 + u)) := by
      have : (D * s / T - 6 * u * (D * s / T) - 5 * h) * (T * (1 + u))
          = (D * s / T * T) * ((1 - 6 * u) * (1 + u)) - h * T * (5 * (1 + u)) := by ring
      rw [this, hW]
    rw [e1]
    have e2 : (M / T' * (1 - u) - h) * (T * (1 + u))
        = M / T' * (T * (1 + u)) * (1 - u) - h * T * (1 + u) := by ring
    have e3 : (D * s * (1 - u) ^ 3 - h * T * ((1 + u) * (1 - u) + 1)) * (1 - u)
        = D * s * (1 - u) ^ 4 - h * T * (((1 + u) * (1 - u) + 1) * (1 - u)) := by ring
    have e4 : h * T * (((1 + u) * (1 - u) + 1) * (1 - u) + (1 + u))
        = h * T * (((1 + u) * (1 - u) + 1) * (1 - u)) + h * T * (1 + u) := by ring
    linarith
  exact le_of_mul_le_mul_right key (by positivity)

/-- The increment `a_range * size / size_total` in binary64 arithmetic: for a
rounded range `R` of an exact range `D` in `[0, 2]` and a size `s <= T < 2^63`,
the increment is finite, not negative, and within `6 * 2^-53 * W + 5 * 2^-1075`
of the exact increment `W = D * s / T`. -/
theorem step_q_spec {R D : ℚ} {T s : Nat} (hD0 : 0 ≤ D) (hD2 : D ≤ 2) (hR0 : 0 ≤ R)
    (hR1 : R ≤ D * (1 + unit_roundoff) + underflow_unit)
    (hR2 : D * (1 - unit_roundoff) - underflow_unit ≤ R)
    (hT : 1 ≤ T) (hsT : s ≤ T) (hT63 : T < 2 ^ 63) :
    fp.span_step Dbl.round64 (Dbl.fin R) T s = Dbl.fin (step_q R T s)
      ∧ 0 ≤ step_q R T s
      ∧ step_q R T s ≤ D * s / T + 6 * unit_roundoff * (D * s / T) + 5 * underflow_unit
      ∧ D * s / T - 6 * unit_roundoff * (D * s / T) - 5 * underflow_unit ≤ step_q R T s := by
  have hu := unit_roundoff_pos
  have he := underflow_unit_pos
  have hu1 : unit_roundoff < 1 := by unfold unit_roundoff; norm_num
  obtain ⟨s1, s2, s3, s4, _⟩ := r64_size_bounds (lt_of_le_of_lt hsT hT63)
  obtain ⟨t1, t2, t3, t4, t5⟩ := r64_size_bounds hT63
  have ht5 := t5 hT
  have hTq : (1 : ℚ) ≤ (T : ℚ) := by exact_mod_cast hT
  have hsq : (s : ℚ) ≤ (T : ℚ) := by exact_mod_cast hsT
  have hs0 : (0 : ℚ) ≤ (s : ℚ) := Nat.cast_nonneg s
  have hT'pos : (0 : ℚ) < Dbl.r64 (T : ℚ) := by linarith
  have hRS0 : 0 ≤ R * Dbl.r64 s := mul_nonneg hR0 s2
  have hRS66 : R * Dbl.r64 s ≤ 2 ^ 66 := by
    have hT64 : (T : ℚ) ≤ 2 ^ 63 := by
      have : T ≤ 2 ^ 63 := hT63.le
      exact_mod_cast this
    have hS : Dbl.r64 (s : ℚ) ≤ 2 ^ 64 := by nlinarith
    have hR3 : R ≤ 4 := by
      have h1 : underflow_unit ≤ 1 := by unfold underflow_unit; norm_num
      have h2 : unit_roundoff ≤ 1 / 2 := by unfold unit_roundoff; norm_num
      have h3 : D * (1 + unit_roundoff) ≤ 2 * (1 + 1 / 2) :=
        mul_le_mul hD2 (by linarith) (by linarith) (by norm_num)
      linarith
    calc R * Dbl.r64 s ≤ 4 * 2 ^ 64 := mul_le_mul hR3 hS s2 (by norm_num)
      _ = 2 ^ 66 := by norm_num
  obtain ⟨m1, m2, m3⟩ := round64_between representable_zero representable_two_pow_66
    (by norm_num) (by norm_num) hRS0 hRS66
  obtain ⟨_, mU, mL⟩ := r64_nonneg_bounds hRS0
  have hQ0 : 0 ≤ Dbl.r64 (R * Dbl.r64 s) / Dbl.r64 T := div_nonneg m2 hT'pos.le
  have hQ66 : Dbl.r64 (R * Dbl.r64 s) / Dbl.r64 T ≤ 2 ^ 66 := by
    rw [div_le_iff₀ hT'pos]
    calc Dbl.r64 (R * Dbl.r64 s) ≤ 2 ^ 66 := m3
      _ = 2 ^ 66 * 1 := by ring
      _ ≤ 2 ^ 66 * Dbl.r64 T := mul_le_mul_of_nonneg_left ht5 (by norm_num)
  obtain ⟨q1, q2, q3⟩ := round64_between representable_zero representable_two_pow_66
    (by norm_num) (by norm_num) hQ0 hQ66
  obtain ⟨_, qU, qL⟩ := r64_nonneg_bounds hQ0
  have hval : fp.span_step Dbl.round64 (Dbl.fin R) T s = Dbl.fin (step_q R T s) := by
    unfold fp.span_step step_q
    rw [s1, t1]
    simp only [fp.mul, fp.div, Dbl.fin_mul, Dbl.rounded, m1, Dbl.fin_div_of_ne _ _ hT'pos.ne', q1]
  have c1 : (1 + unit_roundoff) ^ 4 ≤ (1 + 6 * unit_roundoff) * (1 - unit_roundoff) := by
    unfold unit_roundoff
    norm_num
  have c2 : ((1 + unit_roundoff) ^ 2 + 1) * (1 + unit_roundoff) + (1 - unit_roundoff)
      ≤ 5 * (1 - unit_roundoff) := by
    unfold unit_roundoff
    norm_num
  have c3 : (1 - 6 * unit_roundoff) * (1 + unit_roundoff) ≤ (1 - unit_roundoff) ^ 4 := by
    unfold unit_roundoff
    norm_num
  have c4 : ((1 + unit_roundoff) * (1 - unit_roundoff) + 1) * (1 - unit_roundoff)
      + (1 + unit_roundoff) ≤ 5 * (1 + unit_roundoff) := by
    unfold unit_roundoff
    norm_num
  refine ⟨hval, q2, ?_, ?_⟩
  · exact step_upper_chain hD0 hs0 hsq hTq hR1 s2 s3 t4 hT'pos m2 mU qU hu hu1 he.le c1 c2
  · exact step_lower_chain hD0 hs0 hsq hTq hR2 s2 s3 s4 t3 hT'pos m2 mL qL hu hu1 he.le c3 c4


theorem representable_four : Dbl.representable 4 :=
  ⟨1, 2, by norm_num, by norm_num, by norm_num⟩

/-- One step of the accumulation `a_to += increment` in binary64 arithmetic. -/
theorem acc_step {x X w W E F : ℚ} (hx : |x - X| ≤ E) (hw : |w - W| ≤ F) (hX : 0 ≤ X)
    (hW : 0 ≤ W) (hXW : X + W ≤ 2) (hEF : E + F ≤ 1) :
    Dbl.round64 (x + w) = Dbl.fin (Dbl.r64 (x + w))
      ∧ |Dbl.r64 (x + w) - (X + W)|
          ≤ (E + F) * (1 + unit_roundoff) + 2 * unit_roundoff + underflow_unit := by
  have hu := unit_roundoff_pos
  rw [abs_le] at hx hw
  have h1 : -4 ≤ x + w := by linarith [hx.1, hw.1]
  have h2 : x + w ≤ 4 := by linarith [hx.2, hw.2]
  obtain ⟨b1, _, _⟩ := round64_between (representable_neg representable_four) representable_four
    (by norm_num) (by norm_num) h1 h2
  refine ⟨b1, ?_⟩
  have herr := r64_abs_err (x + w)
  have habs : |x + w| ≤ 2 + (E + F) := by
    rw [abs_le]
    constructor <;> linarith [hx.1, hw.1, hx.2, hw.2]
  have hmul : |x + w| * unit_roundoff ≤ (2 + (E + F)) * unit_roundoff :=
    mul_le_mul_of_nonneg_right habs hu.le
  rw [abs_le] at herr ⊢
  constructor
  · linarith [herr.1, hx.1, hw.1]
  · linarith [herr.2, hx.2, hw.2]

/-- The error bound carried along the accumulation: after `k` steps that
covered the exact width `Y`. -/
theorem acc_bound_step {B F W Y u h : ℚ} {k : Nat} (hB : B ≤ 3 * k * u + 7 * u * Y + 7 * k * h)
    (hF : F ≤ 6 * u * W + 5 * h) (hB1 : 3 * k * u + 7 * u * Y + 7 * k * h ≤ 1)
    (hW : 0 ≤ W) (hu0 : 0 < u) (hu1 : 6 * u ≤ 1) (hh : 0 ≤ h) :
    (B + F) * (1 + u) + 2 * u + h
      ≤ 3 * ((k + 1 : Nat) : ℚ) * u + 7 * u * (Y + W) + 7 * ((k + 1 : Nat) : ℚ) * h := by
  push_cast
  have h1 : B * u ≤ 1 * u := mul_le_mul_of_nonneg_right (hB.trans hB1) hu0.le
  have h2 : F * u ≤ (6 * u * W + 5 * h) * u := mul_le_mul_of_nonneg_right hF hu0.le
  have h3 : 6 * u * (u * W) ≤ 1 * (u * W) :=
    mul_le_mul_of_nonneg_right hu1 (mul_nonneg hu0.le hW)
  have h4 : 5 * u * h ≤ 1 * h := mul_le_mul_of_nonneg_right (by linarith) hh
  nlinarith


theorem acc_err_le_half {k : Nat} {Y : ℚ} (hk : k ≤ 2 ^ 32) (hY0 : 0 ≤ Y) (hY : Y ≤ 2) :
    0 ≤ acc_err k Y ∧ acc_err k Y ≤ 1 / 2 ^ 19 := by
  have hkq : (k : ℚ) ≤ 2 ^ 32 := by exact_mod_cast hk
  have hk0 : (0 : ℚ) ≤ (k : ℚ) := Nat.cast_nonneg k
  have hu := unit_roundoff_pos
  have he := underflow_unit_pos
  unfold acc_err
  constructor
  · have a1 : 0 ≤ 3 * (k : ℚ) * unit_roundoff := mul_nonneg (by linarith) hu.le
    have a2 : 0 ≤ 7 * unit_roundoff * Y := mul_nonneg (by linarith) hY0
    have a3 : 0 ≤ 7 * (k : ℚ) * underflow_unit := mul_nonneg (by linarith) he.le
    linarith
  · have h1 : 3 * (k : ℚ) * unit_roundoff ≤ 3 * 2 ^ 32 * unit_roundoff := by
      apply mul_le_mul_of_nonneg_right _ hu.le
      linarith
    have h2 : 7 * unit_roundoff * Y ≤ 7 * unit_roundoff * 2 :=
      mul_le_mul_of_nonneg_left hY (by linarith)
    have h3 : 7 * (k : ℚ) * underflow_unit ≤ 7 * 2 ^ 32 * underflow_unit := by
      apply mul_le_mul_of_nonneg_right _ he.le
      linarith
    have h4 : 3 * 2 ^ 32 * unit_roundoff + 7 * unit_roundoff * 2 + 7 * 2 ^ 32 * underflow_unit
        ≤ 1 / 2 ^ 19 := by
      unfold unit_roundoff underflow_unit
      norm_num
    linarith

theorem sum_sizes_take_succ (e : duc_dirent) (es : List duc_dirent) (i : Nat) :
    sum_sizes ((e :: es).take (i + 1)) = e.size + sum_sizes (es.take i) := by
  simp [List.take_succ_cons, sum_sizes_cons]

/-- The spans that the accumulation of lines 189/236 assigns in binary64
arithmetic: each is finite, and its ends are within `acc_err` of the exact
partial sums. -/
theorem sibling_spans_round64 {R D : ℚ} {T : Nat} (hD0 : 0 ≤ D) (hD2 : D ≤ 2) (hR0 : 0 ≤ R)
    (hR1 : R ≤ D * (1 + unit_roundoff) + underflow_unit)
    (hR2 : D * (1 - unit_roundoff) - underflow_unit ≤ R)
    (hT : 1 ≤ T) (hT63 : T < 2 ^ 63) :
    ∀ (es : List duc_dirent) (x X Y : ℚ) (k : Nat),
      |x - X| ≤ acc_err k Y → 0 ≤ Y → 0 ≤ X →
      X + D * (sum_sizes es : ℚ) / T ≤ 2 → Y + D * (sum_sizes es : ℚ) / T ≤ 2 →
      k + es.length ≤ 2 ^ 32 → sum_sizes es ≤ T →
      ∀ (i : Nat) (s : String × Dbl × Dbl),
        (fp.sibling_spans Dbl.round64 (Dbl.fin R) T es (Dbl.fin x))[i]? = some s →
        ∃ (e : duc_dirent) (xi yi : ℚ), es[i]? = some e ∧ s = (e.name, Dbl.fin xi, Dbl.fin yi)
          ∧ |xi - (X + D * (sum_sizes (es.take i) : ℚ) / T)|
              ≤ acc_err (k + i) (Y + D * (sum_sizes (es.take i) : ℚ) / T)
          ∧ |yi - (X + D * ((sum_sizes (es.take i) : ℚ) + e.size) / T)|
              ≤ acc_err (k + i + 1) (Y + D * ((sum_sizes (es.take i) : ℚ) + e.size) / T)
          ∧ Dbl.representable yi
          ∧ ((i = 0 → Dbl.representable x) → xi ≤ yi)
          ∧ (i = 0 → xi = x)
          ∧ (Dbl.representable x → x ≤ xi)
          ∧ (∀ (j : Nat) (t : String × Dbl × Dbl), j < i →
              (fp.sibling_spans Dbl.round64 (Dbl.fin R) T es (Dbl.fin x))[j]? = some t →
              ∃ yj : ℚ, t.2.2 = Dbl.fin yj ∧ yj ≤ xi) := by
  have hu := unit_roundoff_pos
  have he := underflow_unit_pos
  have hTq : (0 : ℚ) < (T : ℚ) := by exact_mod_cast hT
  intro es
  induction es with
  | nil =>
    intro x X Y k _ _ _ _ _ _ _ i s hs
    simp [fp.sibling_spans] at hs
  | cons e es ih =>
    intro x X Y k hx hY0 hX0 hX2 hY2 hk hsum i s hs
    rw [sum_sizes_cons] at hX2 hY2 hsum
    have hes : e.size ≤ T := by omega
    have hsz0 : (0 : ℚ) ≤ (e.size : ℚ) := Nat.cast_nonneg _
    have hrest0 : (0 : ℚ) ≤ (sum_sizes es : ℚ) := Nat.cast_nonneg _
    have hW0 : 0 ≤ D * (e.size : ℚ) / T := by positivity
    have hWr0 : 0 ≤ D * (sum_sizes es : ℚ) / T := by positivity
    have hsplit : D * ((e.size + sum_sizes es : Nat) : ℚ) / T
        = D * (e.size : ℚ) / T + D * (sum_sizes es : ℚ) / T := by
      push_cast
      ring
    rw [hsplit] at hX2 hY2
    obtain ⟨w1, w2, w3, w4⟩ := step_q_spec hD0 hD2 hR0 hR1 hR2 hT hes hT63
    have hklen : k ≤ 2 ^ 32 := by
      simp only [List.length_cons] at hk
      omega
    obtain ⟨hE0, hE1⟩ := acc_err_le_half hklen hY0 (by linarith)
    have hW2 : D * (e.size : ℚ) / T ≤ 2 := by linarith
    have hF : |step_q R T e.size - D * (e.size : ℚ) / T|
        ≤ 6 * unit_roundoff * (D * (e.size : ℚ) / T) + 5 * underflow_unit := by
      rw [abs_le]
      constructor <;> linarith
    have hF1 : 6 * unit_roundoff * (D * (e.size : ℚ) / T) + 5 * underflow_unit ≤ 1 / 2 := by
      have h1 : 6 * unit_roundoff * (D * (e.size : ℚ) / T) ≤ 6 * unit_roundoff * 2 :=
        mul_le_mul_of_nonneg_left hW2 (by linarith)
      have h2 : 6 * unit_roundoff * 2 + 5 * underflow_unit ≤ 1 / 2 := by
        unfold unit_roundoff underflow_unit
        norm_num
      linarith
    have hEF : acc_err k Y + (6 * unit_roundoff * (D * (e.size : ℚ) / T) + 5 * underflow_unit)
        ≤ 1 := by
      have : (1 : ℚ) / 2 ^ 20 ≤ 1 / 2 := by norm_num
      linarith
    obtain ⟨a1, a2⟩ := acc_step hx hF hX0 hW0 (by linarith) hEF
    have hB1 : 3 * (k : ℚ) * unit_roundoff + 7 * unit_roundoff * Y + 7 * k * underflow_unit
        ≤ 1 := by
      have : acc_err k Y ≤ 1 := by
        have : (1 : ℚ) / 2 ^ 20 ≤ 1 := by norm_num
        linarith
      simpa [acc_err] using this
    have hstep := acc_bound_step (B := acc_err k Y) (k := k) (Y := Y)
      (W := D * (e.size : ℚ) / T) (le_of_eq rfl) (le_refl _) hB1 hW0 hu
      (by unfold unit_roundoff; norm_num) he.le
    have hy0 : |Dbl.r64 (x + step_q R T e.size) - (X + D * (e.size : ℚ) / T)|
        ≤ acc_err (k + 1) (Y + D * (e.size : ℚ) / T) := by
      unfold acc_err at hstep ⊢
      exact a2.trans hstep
    have hval : fp.add Dbl.round64 (Dbl.fin x) (fp.span_step Dbl.round64 (Dbl.fin R) T e.size)
        = Dbl.fin (Dbl.r64 (x + step_q R T e.size)) := by
      rw [w1]
      simp only [fp.add, Dbl.fin_add, Dbl.rounded, a1]
    cases i with
    | zero =>
      simp only [fp.sibling_spans, List.getElem?_cons_zero, Option.some.injEq] at hs
      refine ⟨e, x, Dbl.r64 (x + step_q R T e.size), by simp, ?_, ?_, ?_,
        r64_representable _, ?_, fun _ => rfl, fun _ => le_refl _, ?_⟩
      · rw [← hs, hval]
      · simpa [sum_sizes_nil] using hx
      · simpa [sum_sizes_nil] using hy0
      · intro hrep
        have := @r64_mono x (x + step_q R T e.size) (by linarith)
        rwa [r64_fix (hrep rfl)] at this
      · intro j t hj
        omega
    | succ i =>
      simp only [fp.sibling_spans, List.getElem?_cons_succ] at hs
      rw [hval] at hs
      have hlen : (k + 1) + es.length ≤ 2 ^ 32 := by
        simp only [List.length_cons] at hk
        omega
      obtain ⟨e', xi, yi, h1, h2, h3, h4, h5, h6, h7, h8, h9⟩ :=
        ih (Dbl.r64 (x + step_q R T e.size))
        (X + D * (e.size : ℚ) / T) (Y + D * (e.size : ℚ) / T) (k + 1) hy0 (by linarith)
        (by linarith) (by linarith) (by linarith) hlen (by omega) i s hs
      have hcast : ((sum_sizes ((e :: es).take (i + 1)) : Nat) : ℚ)
          = (e.size : ℚ) + (sum_sizes (es.take i) : ℚ) := by
        rw [sum_sizes_take_succ]
        push_cast
        ring
      have eX : X + D * (e.size : ℚ) / T + D * (sum_sizes (es.take i) : ℚ) / T
          = X + D * ((sum_sizes ((e :: es).take (i + 1)) : Nat) : ℚ) / T := by
        rw [hcast]
        ring
      have eY : Y + D * (e.size : ℚ) / T + D * (sum_sizes (es.take i) : ℚ) / T
          = Y + D * ((sum_sizes ((e :: es).take (i + 1)) : Nat) : ℚ) / T := by
        rw [hcast]
        ring
      have eX2 : X + D * (e.size : ℚ) / T + D * ((sum_sizes (es.take i) : ℚ) + e'.size) / T
          = X + D * (((sum_sizes ((e :: es).take (i + 1)) : Nat) : ℚ) + e'.size) / T := by
        rw [hcast]
        ring
      have eY2 : Y + D * (e.size : ℚ) / T + D * ((sum_sizes (es.take i) : ℚ) + e'.size) / T
          = Y + D * (((sum_sizes ((e :: es).take (i + 1)) : Nat) : ℚ) + e'.size) / T := by
        rw [hcast]
        ring
      have ek : k + 1 + i = k + (i + 1) := by omega
      rw [eX, eY, ek] at h3
      rw [eX2, eY2, ek] at h4
      have hx'xi : Dbl.r64 (x + step_q R T e.size) ≤ xi := h8 (r64_representable _)
      refine ⟨e', xi, yi, by simpa using h1, h2, h3, h4, h5, ?_, ?_, ?_, ?_⟩
      · intro _
        exact h6 (fun _ => r64_representable _)
      · intro h
        omega
      · intro hrep
        have := @r64_mono x (x + step_q R T e.size) (by linarith)
        rw [r64_fix hrep] at this
        linarith
      · intro j t hj ht
        cases j with
        | zero =>
          simp only [fp.sibling_spans, List.getElem?_cons_zero, Option.some.injEq] at ht
          refine ⟨Dbl.r64 (x + step_q R T e.size), ?_, hx'xi⟩
          rw [← ht, hval]
        | succ j =>
          simp only [fp.sibling_spans, List.getElem?_cons_succ] at ht
          rw [hval] at ht
          exact h9 j t (by omega) ht


/-! ## Partition of the span of a directory in binary64 arithmetic -/

theorem representable_two : Dbl.representable 2 :=
  ⟨1, 1, by norm_num, by norm_num, by norm_num⟩

/-- The range `a_max - a_min` of a span inside `[0, 2]`. -/
theorem range_round64 {p q : ℚ} (hpq : p ≤ q) (hp : 0 ≤ p) (hq : q ≤ 2) :
    fp.sub Dbl.round64 (Dbl.fin q) (Dbl.fin p) = Dbl.fin (Dbl.r64 (q - p))
      ∧ 0 ≤ Dbl.r64 (q - p)
      ∧ Dbl.r64 (q - p) ≤ (q - p) * (1 + unit_roundoff) + underflow_unit
      ∧ (q - p) * (1 - unit_roundoff) - underflow_unit ≤ Dbl.r64 (q - p) := by
  obtain ⟨b1, _, _⟩ := round64_between representable_zero representable_two
    (by norm_num) (by norm_num) (by linarith : (0 : ℚ) ≤ q - p) (by linarith)
  obtain ⟨c1, c2, c3⟩ := r64_nonneg_bounds (by linarith : (0 : ℚ) ≤ q - p)
  refine ⟨?_, c1, c2, c3⟩
  simp only [fp.sub, Dbl.fin_sub, Dbl.rounded, b1]

theorem acc_err_le {j : Nat} {Y : ℚ} (hY : Y ≤ 2) :
    acc_err j Y ≤ (4 * j + 14) * unit_roundoff := by
  have hu := unit_roundoff_pos
  have hj : (0 : ℚ) ≤ (j : ℚ) := Nat.cast_nonneg j
  have h1 : 7 * underflow_unit ≤ unit_roundoff := by
    unfold underflow_unit unit_roundoff
    norm_num
  have h2 : 7 * unit_roundoff * Y ≤ 7 * unit_roundoff * 2 :=
    mul_le_mul_of_nonneg_left hY (by linarith)
  have h3 : (j : ℚ) * (7 * underflow_unit) ≤ j * unit_roundoff :=
    mul_le_mul_of_nonneg_left h1 hj
  unfold acc_err
  linarith

/-- The widths of the first `k` spans of the accumulation telescope: they sum to
the end of the last of them minus the start. -/
theorem sum_widths_telescope (rnd : ℚ → Dbl) (a_range : Dbl) (size_total : Nat) :
    ∀ (es : List duc_dirent) (x : ℚ) (k : Nat), k ≤ es.length →
      (∀ (i : Nat) (s : String × Dbl × Dbl), i < k →
        (fp.sibling_spans rnd a_range size_total es (Dbl.fin x))[i]? = some s →
        ∃ yi : ℚ, s.2.2 = Dbl.fin yi) →
      ∃ z : ℚ,
        sum_widths ((fp.sibling_spans rnd a_range size_total es (Dbl.fin x)).take k)
          = Dbl.fin (z - x)
        ∧ (k = 0 → z = x)
        ∧ (0 < k → ∃ s, (fp.sibling_spans rnd a_range size_total es (Dbl.fin x))[k - 1]? = some s
            ∧ s.2.2 = Dbl.fin z) := by
  intro es
  induction es with
  | nil =>
    intro x k hk _
    simp only [List.length_nil, Nat.le_zero] at hk
    subst hk
    refine ⟨x, ?_, fun _ => rfl, fun h => absurd h (lt_irrefl 0)⟩
    simp [fp.sibling_spans, sum_widths]
  | cons e es ih =>
    intro x k hk hfin
    cases k with
    | zero =>
      refine ⟨x, ?_, fun _ => rfl, fun h => absurd h (lt_irrefl 0)⟩
      simp [sum_widths]
    | succ k =>
      obtain ⟨y0, hy0⟩ := hfin 0
        (e.name, Dbl.fin x, fp.add rnd (Dbl.fin x) (fp.span_step rnd a_range size_total e.size))
        (by omega) (by simp only [fp.sibling_spans, List.getElem?_cons_zero])
      simp only at hy0
      have hlen : k ≤ es.length := by
        simp only [List.length_cons] at hk
        omega
      obtain ⟨z, hz1, hz2, hz3⟩ := ih y0 k hlen (by
        intro i s hi hs
        apply hfin (i + 1) s (by omega)
        simp only [fp.sibling_spans, List.getElem?_cons_succ]
        rw [hy0]
        exact hs)
      refine ⟨z, ?_, fun h => by omega, ?_⟩
      · simp only [fp.sibling_spans, List.take_succ_cons, sum_widths]
        rw [hy0, hz1]
        simp only [Dbl.fin_sub, Dbl.fin_add, Dbl.fin.injEq]
        ring
      · intro _
        rcases Nat.eq_zero_or_pos k with h0 | hpos
        · subst h0
          refine ⟨(e.name, Dbl.fin x,
            fp.add rnd (Dbl.fin x) (fp.span_step rnd a_range size_total e.size)),
            by simp only [fp.sibling_spans, Nat.zero_add, Nat.sub_self,
              List.getElem?_cons_zero], ?_⟩
          simp only
          rw [hy0, hz2 rfl]
        · obtain ⟨s, hs1, hs2⟩ := hz3 hpos
          refine ⟨s, ?_, hs2⟩
          have : k + 1 - 1 = (k - 1) + 1 := by omega
          rw [this]
          simp only [fp.sibling_spans, List.getElem?_cons_succ]
          rw [hy0]
          exact hs1

/-- The inner radius of the levels does not decrease with the level, for a ring
width that is not negative. -/
theorem r_from_round64_mono (g : graph) (hw : 0 ≤ g.ring_width) {l1 l2 : Nat} (h : l1 ≤ l2) :
    fp.r_from Dbl.round64 g l1 ≤ fp.r_from Dbl.round64 g l2 := by
  unfold fp.r_from fp.ofInt
  apply round64_mono
  have : ((l1 : Int) + 1) * g.ring_width ≤ ((l2 : Int) + 1) * g.ring_width := by
    have h' : (l1 : Int) ≤ (l2 : Int) := by exact_mod_cast h
    nlinarith
  exact_mod_cast this


theorem sum_sizes_take_get (es : List duc_dirent) :
    ∀ (i : Nat) (e : duc_dirent), es[i]? = some e →
      sum_sizes (es.take (i + 1)) = sum_sizes (es.take i) + e.size := by
  induction es with
  | nil =>
    intro i e h
    simp at h
  | cons e0 es ih =>
    intro i e h
    cases i with
    | zero =>
      simp only [List.getElem?_cons_zero, Option.some.injEq] at h
      subst h
      simp [sum_sizes_cons, sum_sizes_nil]
    | succ i =>
      simp only [List.getElem?_cons_succ] at h
      rw [sum_sizes_take_succ, sum_sizes_take_succ, ih i e h]
      omega

/-- The spans of the children of a directory in binary64 arithmetic, for a
parent span `[p, q]` inside `[0, 2]`: span `i` is finite, its start and its end
are within `(4 i + 14) * 2^-53` and `(4 i + 18) * 2^-53` of the exact partial
sums, and the ends of the spans before it are not above its start. -/
theorem partition_spans_round64 {p q : ℚ} {size_total : Nat} {es : List duc_dirent}
    (hp : 0 ≤ p) (hpq : p ≤ q) (hq : q ≤ 2) (ht : 0 < size_total)
    (hsum : sum_sizes es = size_total) (hoff : size_total < 2 ^ 63)
    (hlen : es.length ≤ 2 ^ 32) (i : Nat) (s : String × Dbl × Dbl)
    (hs : (fp.sibling_spans Dbl.round64 (fp.sub Dbl.round64 (Dbl.fin q) (Dbl.fin p)) size_total
      es (Dbl.fin p))[i]? = some s) :
    ∃ (e : duc_dirent) (xi yi : ℚ), es[i]? = some e ∧ s = (e.name, Dbl.fin xi, Dbl.fin yi)
      ∧ |xi - (p + (q - p) * (sum_sizes (es.take i) : ℚ) / size_total)|
          ≤ (4 * i + 14) * unit_roundoff
      ∧ |yi - (p + (q - p) * (sum_sizes (es.take (i + 1)) : ℚ) / size_total)|
          ≤ (4 * (i + 1) + 14) * unit_roundoff
      ∧ (∀ (j : Nat) (t : String × Dbl × Dbl), j < i →
          (fp.sibling_spans Dbl.round64 (fp.sub Dbl.round64 (Dbl.fin q) (Dbl.fin p)) size_total
            es (Dbl.fin p))[j]? = some t →
          ∃ yj : ℚ, t.2.2 = Dbl.fin yj ∧ yj ≤ xi) := by
  obtain ⟨r1, r2, r3, r4⟩ := range_round64 hpq hp hq
  rw [r1] at hs ⊢
  have hTq : (0 : ℚ) < (size_total : ℚ) := by exact_mod_cast ht
  have hfull : (q - p) * (sum_sizes es : ℚ) / size_total = q - p := by
    rw [hsum]
    field_simp
  obtain ⟨e, xi, yi, h1, h2, h3, h4, _, _, _, _, h9⟩ :=
    sibling_spans_round64 (by linarith : (0 : ℚ) ≤ q - p) (by linarith) r2 r3 r4 ht hoff
      es p p 0 0 (by simp [acc_err]) le_rfl hp (by rw [hfull]; linarith)
      (by rw [hfull]; linarith) (by omega) (by omega) i s hs
  have hD0 : (0 : ℚ) ≤ q - p := by linarith
  have htake : ∀ n : Nat, (q - p) * (sum_sizes (es.take n) : ℚ) / size_total ≤ q - p := by
    intro n
    have hle : (sum_sizes (es.take n) : ℚ) ≤ (size_total : ℚ) := by
      have := sum_sizes_take_le es n
      rw [hsum] at this
      exact_mod_cast this
    rw [div_le_iff₀ hTq]
    exact mul_le_mul_of_nonneg_left hle hD0
  have hcast : ((sum_sizes (es.take (i + 1)) : Nat) : ℚ)
      = (sum_sizes (es.take i) : ℚ) + (e.size : ℚ) := by
    rw [sum_sizes_take_get es i e h1]
    push_cast
    ring
  refine ⟨e, xi, yi, h1, h2, ?_, ?_, h9⟩
  · have hb := @acc_err_le (0 + i) (0 + (q - p) * (sum_sizes (es.take i) : ℚ) / size_total)
      (by linarith [htake i])
    have e1 : ((0 + i : Nat) : ℚ) = (i : ℚ) := by push_cast; ring
    rw [e1] at hb
    exact h3.trans hb
  · rw [hcast]
    have hY : 0 + (q - p) * ((sum_sizes (es.take i) : ℚ) + e.size) / size_total ≤ 2 := by
      have := htake (i + 1)
      rw [hcast] at this
      linarith
    have hb := @acc_err_le (0 + i + 1)
      (0 + (q - p) * ((sum_sizes (es.take i) : ℚ) + e.size) / size_total) hY
    have e1 : ((0 + i + 1 : Nat) : ℚ) = (i : ℚ) + 1 := by push_cast; ring
    rw [e1] at hb
    exact h4.trans hb


/-- Counterexample to C4 as stated: for the directory with files of sizes 4, 2,
3 and 1 drawn in the span `[0, 1]`, the four sectors that `draw_ring` draws
in binary64 arithmetic end at `0.4`, `0.6 + 2^-53`, `0.9 + 2^-53` and
`1 + 2^-52`; their widths sum to `1 + 2^-52`, which is more than `a_max - a_min
= 1`, and the width of the second sector is not `(a_max - a_min) * 2 / 10`. -/
theorem C4_widths_exceed_span :
    level_rings 1 (fp.draw_ring Dbl.round64 (graph_init 300 1) dir_four 1 0 1 [])
        = [("a", 0, Dbl.fin (3602879701896397 / 9007199254740992)),
           ("b", Dbl.fin (3602879701896397 / 9007199254740992),
             Dbl.fin (1351079888211149 / 2251799813685248)),
           ("c", Dbl.fin (1351079888211149 / 2251799813685248),
             Dbl.fin (4053239664633447 / 4503599627370496)),
           ("d", Dbl.fin (4053239664633447 / 4503599627370496),
             Dbl.fin (4503599627370497 / 4503599627370496))]
      ∧ sum_widths (level_rings 1
          (fp.draw_ring Dbl.round64 (graph_init 300 1) dir_four 1 0 1 []))
        = Dbl.fin (1 + 1 / 2 ^ 52)
      ∧ ¬ (sum_widths (level_rings 1
          (fp.draw_ring Dbl.round64 (graph_init 300 1) dir_four 1 0 1 [])) ≤ Dbl.fin (1 - 0))
      ∧ (1351079888211149 / 2251799813685248 - 3602879701896397 / 9007199254740992 : ℚ)
        ≠ (1 - 0) * 2 / 10 := by
  refine ⟨by decide!, by decide!, by decide!, by norm_num⟩

/-- C4 (partition completeness, amended to binary64 arithmetic): in a directory
of at most `2^32` children whose sizes `s_1 .. s_n` sum to `size_total`, with
`0 < size_total < 2^63`, drawn in a span `[p, q]` with `0 <= p <= q <= 2`: the
sectors that `draw_ring` draws for the children are the first `k` spans of the
accumulation `a_to += a_range * size / size_total`; span `i` (counted from 0) is
finite, starts within `(4 i + 14) * 2^-53` of `p + (q - p) * (s_1 + .. + s_i) /
size_total`, ends within `(4 i + 18) * 2^-53` of `p + (q - p) * (s_1 + .. +
s_(i+1)) / size_total`, so that its width is within `(8 i + 32) * 2^-53` of
`(q - p) * s_(i+1) / size_total`; the widths of the `k` sectors drawn sum to at
most `q - p + (4 k + 14) * 2^-53`, and to at least `q - p - (4 k + 14) * 2^-53`
when no child is culled; and `find_spot` assigns child `i` the same span: a
probe in the radius band of the level alone whose angle lies in that span,
above its start, is matched to child `i`. -/
theorem C4_partition_rounded (g : graph) (path : String) (size_total : Nat)
    (es : List duc_dirent) (level : Nat) (p q : ℚ) (chain : List String)
    (hp : 0 ≤ p) (hpq : p ≤ q) (hq : q ≤ 2) (ht : 0 < size_total)
    (hsum : sum_sizes es = size_total) (hoff : size_total < 2 ^ 63)
    (hlen : es.length ≤ 2 ^ 32) :
    level_rings (chain.length + 1)
        (fp.draw_ring Dbl.round64 g (.mk path size_total es) level (Dbl.fin p) (Dbl.fin q) chain)
      = (fp.sibling_spans Dbl.round64 (fp.sub Dbl.round64 (Dbl.fin q) (Dbl.fin p)) size_total
          es (Dbl.fin p)).take
          (fp.drawn_count Dbl.round64 g level (fp.sub Dbl.round64 (Dbl.fin q) (Dbl.fin p))
            size_total es (Dbl.fin p))
    ∧ (∀ (i : Nat) (s : String × Dbl × Dbl),
        (fp.sibling_spans Dbl.round64 (fp.sub Dbl.round64 (Dbl.fin q) (Dbl.fin p)) size_total
          es (Dbl.fin p))[i]? = some s →
        ∃ (e : duc_dirent) (xi yi : ℚ), es[i]? = some e ∧ s = (e.name, Dbl.fin xi, Dbl.fin yi)
          ∧ |xi - (p + (q - p) * (sum_sizes (es.take i) : ℚ) / size_total)|
              ≤ (4 * i + 14) * unit_roundoff
          ∧ |yi - (p + (q - p) * ((sum_sizes (es.take i) : ℚ) + e.size) / size_total)|
              ≤ (4 * i + 18) * unit_roundoff
          ∧ |(yi - xi) - (q - p) * e.size / size_total| ≤ (8 * i + 32) * unit_roundoff)
    ∧ (∃ W : ℚ,
        sum_widths (level_rings (chain.length + 1)
          (fp.draw_ring Dbl.round64 g (.mk path size_total es) level (Dbl.fin p) (Dbl.fin q)
            chain)) = Dbl.fin W
        ∧ W ≤ q - p + (4 * (fp.drawn_count Dbl.round64 g level
            (fp.sub Dbl.round64 (Dbl.fin q) (Dbl.fin p)) size_total es (Dbl.fin p) : Nat) + 14)
              * unit_roundoff
        ∧ (fp.drawn_count Dbl.round64 g level (fp.sub Dbl.round64 (Dbl.fin q) (Dbl.fin p))
              size_total es (Dbl.fin p) = es.length →
            q - p - (4 * (es.length : Nat) + 14) * unit_roundoff ≤ W))
    ∧ (∀ (i : Nat) (s : String × Dbl × Dbl) (part : part_log),
        (fp.sibling_spans Dbl.round64 (fp.sub Dbl.round64 (Dbl.fin q) (Dbl.fin p)) size_total
          es (Dbl.fin p))[i]? = some s →
        0 ≤ g.ring_width →
        fp.r_from Dbl.round64 g level ≤ g.spot_r → g.spot_r ≤ fp.r_to Dbl.round64 g level →
        g.spot_r < fp.r_from Dbl.round64 g (level + 1) →
        s.2.1 < g.spot_a → g.spot_a ≤ s.2.2 →
        fp.find_spot Dbl.round64 g (.mk path size_total es) level (Dbl.fin p) (Dbl.fin q) part
          = (true, (level, s.1) :: part)) := by
  have hu := unit_roundoff_pos
  have hTq : (0 : ℚ) < (size_total : ℚ) := by exact_mod_cast ht
  have hD0 : (0 : ℚ) ≤ q - p := by linarith
  have hrings : level_rings (chain.length + 1)
        (fp.draw_ring Dbl.round64 g (.mk path size_total es) level (Dbl.fin p) (Dbl.fin q) chain)
      = (fp.sibling_spans Dbl.round64 (fp.sub Dbl.round64 (Dbl.fin q) (Dbl.fin p)) size_total
          es (Dbl.fin p)).take
          (fp.drawn_count Dbl.round64 g level (fp.sub Dbl.round64 (Dbl.fin q) (Dbl.fin p))
            size_total es (Dbl.fin p)) := by
    simp only [fp.draw_ring]
    exact fp_level_rings_loop _ _ _ _ _ _ _ _ _ _
  have hspan := fun i s hs =>
    @partition_spans_round64 p q size_total es hp hpq hq ht hsum hoff hlen i s hs
  refine ⟨hrings, ?_, ?_, ?_⟩
  · intro i s hs
    obtain ⟨e, xi, yi, h1, h2, h3, h4, _⟩ := hspan i s hs
    have hcast : ((sum_sizes (es.take (i + 1)) : Nat) : ℚ)
        = (sum_sizes (es.take i) : ℚ) + (e.size : ℚ) := by
      rw [sum_sizes_take_get es i e h1]
      push_cast
      ring
    rw [hcast] at h4
    have e18 : (4 * ((i : ℚ) + 1) + 14) * unit_roundoff = (4 * i + 18) * unit_roundoff := by ring
    rw [e18] at h4
    refine ⟨e, xi, yi, h1, h2, h3, h4, ?_⟩
    have e1 : (yi - xi) - (q - p) * e.size / size_total
        = (yi - (p + (q - p) * ((sum_sizes (es.take i) : ℚ) + e.size) / size_total))
          - (xi - (p + (q - p) * (sum_sizes (es.take i) : ℚ) / size_total)) := by
      field_simp
      ring
    rw [e1]
    have := abs_sub (yi - (p + (q - p) * ((sum_sizes (es.take i) : ℚ) + e.size) / size_total))
      (xi - (p + (q - p) * (sum_sizes (es.take i) : ℚ) / size_total))
    have e2 : (4 * (i : ℚ) + 18) * unit_roundoff + (4 * i + 14) * unit_roundoff
        = (8 * i + 32) * unit_roundoff := by ring
    linarith
  · rw [hrings]
    have hk := fp_drawn_count_le Dbl.round64 g level
      (fp.sub Dbl.round64 (Dbl.fin q) (Dbl.fin p)) size_total es (Dbl.fin p)
    obtain ⟨z, hz1, hz2, hz3⟩ := sum_widths_telescope Dbl.round64
      (fp.sub Dbl.round64 (Dbl.fin q) (Dbl.fin p)) size_total es p _ hk (by
        intro i s _ hs
        obtain ⟨e, xi, yi, _, h2, _⟩ := hspan i s hs
        exact ⟨yi, by rw [h2]⟩)
    refine ⟨z - p, hz1, ?_, ?_⟩
    · rcases Nat.eq_zero_or_pos (fp.drawn_count Dbl.round64 g level
          (fp.sub Dbl.round64 (Dbl.fin q) (Dbl.fin p)) size_total es (Dbl.fin p)) with h0 | hpos
      · rw [h0, hz2 h0]
        have : (0 : ℚ) ≤ (4 * ((0 : Nat) : ℚ) + 14) * unit_roundoff := by
          push_cast
          linarith
        linarith
      · obtain ⟨s, hs1, hs2⟩ := hz3 hpos
        obtain ⟨e, xi, yi, h1, h2, _, h4, _⟩ := hspan _ s hs1
        have hy : yi = z := by
          rw [h2] at hs2
          exact Dbl.fin.inj hs2
        rw [hy] at h4
        have hidx : fp.drawn_count Dbl.round64 g level
            (fp.sub Dbl.round64 (Dbl.fin q) (Dbl.fin p)) size_total es (Dbl.fin p) - 1 + 1
            = fp.drawn_count Dbl.round64 g level
              (fp.sub Dbl.round64 (Dbl.fin q) (Dbl.fin p)) size_total es (Dbl.fin p) := by
          omega
        rw [hidx] at h4
        have hle : (sum_sizes (es.take (fp.drawn_count Dbl.round64 g level
            (fp.sub Dbl.round64 (Dbl.fin q) (Dbl.fin p)) size_total es (Dbl.fin p))) : ℚ)
            ≤ (size_total : ℚ) := by
          have := sum_sizes_take_le es (fp.drawn_count Dbl.round64 g level
            (fp.sub Dbl.round64 (Dbl.fin q) (Dbl.fin p)) size_total es (Dbl.fin p))
          rw [hsum] at this
          exact_mod_cast this
        have hfrac : (q - p) * (sum_sizes (es.take (fp.drawn_count Dbl.round64 g level
            (fp.sub Dbl.round64 (Dbl.fin q) (Dbl.fin p)) size_total es (Dbl.fin p))) : ℚ)
            / size_total ≤ q - p := by
          rw [div_le_iff₀ hTq]
          exact mul_le_mul_of_nonneg_left hle hD0
        have hcastk : ((fp.drawn_count Dbl.round64 g level
            (fp.sub Dbl.round64 (Dbl.fin q) (Dbl.fin p)) size_total es (Dbl.fin p) - 1 : Nat) : ℚ)
            + 1 = (fp.drawn_count Dbl.round64 g level
              (fp.sub Dbl.round64 (Dbl.fin q) (Dbl.fin p)) size_total es (Dbl.fin p) : Nat) := by
          have : ((fp.drawn_count Dbl.round64 g level
            (fp.sub Dbl.round64 (Dbl.fin q) (Dbl.fin p)) size_total es (Dbl.fin p) - 1 + 1 : Nat)
              : ℚ) = (fp.drawn_count Dbl.round64 g level
              (fp.sub Dbl.round64 (Dbl.fin q) (Dbl.fin p)) size_total es (Dbl.fin p) : Nat) := by
            rw [hidx]
          rw [← this]
          push_cast
          ring
        rw [hcastk] at h4
        rw [abs_le] at h4
        linarith [h4.2]
    · intro hall
      rcases Nat.eq_zero_or_pos es.length with h0 | hpos
      · have : es = [] := List.length_eq_zero.1 h0
        rw [this, sum_sizes_nil] at hsum
        omega
      · rw [← hall] at hpos
        obtain ⟨s, hs1, hs2⟩ := hz3 hpos
        obtain ⟨e, xi, yi, h1, h2, _, h4, _⟩ := hspan _ s hs1
        have hy : yi = z := by
          rw [h2] at hs2
          exact Dbl.fin.inj hs2
        rw [hy] at h4
        have hidx : fp.drawn_count Dbl.round64 g level
            (fp.sub Dbl.round64 (Dbl.fin q) (Dbl.fin p)) size_total es (Dbl.fin p) - 1 + 1
            = es.length := by
          omega
        rw [hidx, List.take_length, hsum] at h4
        have hcastk : ((fp.drawn_count Dbl.round64 g level
            (fp.sub Dbl.round64 (Dbl.fin q) (Dbl.fin p)) size_total es (Dbl.fin p) - 1 : Nat) : ℚ)
            + 1 = (es.length : Nat) := by
          have : ((fp.drawn_count Dbl.round64 g level
            (fp.sub Dbl.round64 (Dbl.fin q) (Dbl.fin p)) size_total es (Dbl.fin p) - 1 + 1 : Nat)
              : ℚ) = (es.length : Nat) := by
            rw [hidx]
          rw [← this]
          push_cast
          ring
        rw [hcastk] at h4
        have hone : (q - p) * (size_total : ℚ) / size_total = q - p := by
          field_simp
        rw [hone, abs_le] at h4
        linarith [h4.1]
  · intro i s part hs hw hr1 hr2 hr3 ha1 ha2
    obtain ⟨e, xi, yi, h1, h2, _, _, h9⟩ := hspan i s hs
    simp only [fp.find_spot]
    apply fp_find_spot_loop_own Dbl.round64 g level _ size_total hr1 hr2 ?_ es _ i s part hs ?_
      ha1 ha2
    · intro l hl
      exact Dbl.lt_of_lt_of_le hr3 (r_from_round64_mono g hw hl)
    · intro j t hj ht'
      obtain ⟨yj, hyj, hle⟩ := h9 j t hj ht'
      rw [hyj]
      rw [h2] at ha1
      exact Dbl.lt_of_le_of_lt ((Dbl.fin_le _ _).2 hle) ha1

theorem C4_partition_rounded_witness :
    sum_sizes dir_three.ents = 100
      ∧ level_rings 1
          (fp.draw_ring Dbl.round64 (graph_init 300 1) dir_three 1 (Dbl.fin 0) (Dbl.fin 1) [])
        = [("a", Dbl.fin 0, Dbl.fin (3602879701896397 / 36028797018963968)),
           ("b", Dbl.fin (3602879701896397 / 36028797018963968),
             Dbl.fin (1351079888211149 / 4503599627370496)),
           ("c", Dbl.fin (1351079888211149 / 4503599627370496), Dbl.fin 1)]
      ∧ ∃ W : ℚ,
          sum_widths (level_rings 1
            (fp.draw_ring Dbl.round64 (graph_init 300 1) dir_three 1 (Dbl.fin 0) (Dbl.fin 1) []))
            = Dbl.fin W
          ∧ W ≤ 1 - 0 + (4 * (fp.drawn_count Dbl.round64 (graph_init 300 1) 1
              (fp.sub Dbl.round64 (Dbl.fin 1) (Dbl.fin 0)) 100 dir_three.ents (Dbl.fin 0) : Nat)
                + 14) * unit_roundoff := by
  have hs : sum_sizes dir_three.ents = 100 := by decide
  obtain ⟨_, _, ⟨W, h1, h2, _⟩, _⟩ := C4_partition_rounded (graph_init 300 1) "/data" 100
    dir_three.ents 1 0 1 [] le_rfl (by norm_num) (by norm_num) (by norm_num) hs (by norm_num)
    (by simp [dir_three, duc_dir.ents])
  exact ⟨hs, by decide!, W, h1, h2⟩


/-! ## Drawn sectors and the hit-test in rounded arithmetic -/

theorem fp_add_nan_left (rnd : ℚ → Dbl) (a : Dbl) : fp.add rnd Dbl.nan a = Dbl.nan := by
  simp [fp.add, Dbl.rounded]

theorem fp_add_nan_right (rnd : ℚ → Dbl) (a : Dbl) : fp.add rnd a Dbl.nan = Dbl.nan := by
  simp [fp.add, Dbl.rounded]

theorem fp_sub_nan_left (rnd : ℚ → Dbl) (a : Dbl) : fp.sub rnd Dbl.nan a = Dbl.nan := by
  simp [fp.sub, Dbl.rounded]

theorem fp_sub_nan_right (rnd : ℚ → Dbl) (a : Dbl) : fp.sub rnd a Dbl.nan = Dbl.nan := by
  simp [fp.sub, Dbl.rounded]

theorem fp_span_step_nan (rnd : ℚ → Dbl) (size_total size : Nat) :
    fp.span_step rnd Dbl.nan size_total size = Dbl.nan := by
  simp [fp.span_step, fp.mul, fp.div, Dbl.rounded]

theorem fp_not_inside_label_part {rnd : ℚ → Dbl} {g : graph} {level : Nat}
    {chain : List String} {e : duc_dirent} {a_from a_to : Dbl} {op : draw_op}
    (h : op ∈ fp.label_part rnd g level chain e a_from a_to) :
    ¬ strictly_inside g op := by
  unfold fp.label_part at h
  split_ifs at h
  · simp only [List.mem_singleton] at h
    subst h
    simp [strictly_inside]
  · simp at h

theorem fp_inside_sub_part {rnd : ℚ → Dbl} {g : graph} {level : Nat} {size_min size_max : Int}
    {chain : List String} {e : duc_dirent} {a_from a_to : Dbl} {op : draw_op}
    (h : op ∈ fp.sub_part rnd g level size_min size_max chain e a_from a_to)
    (hin : strictly_inside g op) :
    ∃ d, eligible g level e.mode e.child = some d
      ∧ op ∈ fp.draw_ring rnd g d (level + 1) a_from a_to (chain ++ [e.name]) := by
  unfold fp.sub_part at h
  split_ifs at h with h1 h2
  · cases hc : e.child with
    | none => simp [hc] at h
    | some d =>
      simp only [hc] at h
      exact ⟨d, by simp [eligible, h1, h2], h⟩
  · simp only [List.mem_singleton] at h
    subst h
    simp [strictly_inside] at hin
  · simp at h

/-- Where a ring sector containing the probe can come from in one iteration of
the loop of `draw_ring`. -/
theorem fp_inside_loop_cons {rnd : ℚ → Dbl} {g : graph} {level : Nat} {a_range : Dbl}
    {size_total : Nat} {size_min size_max : Int} {chain : List String} {e : duc_dirent}
    {es : List duc_dirent} {a_from a_to : Dbl} {op : draw_op}
    (h : op ∈ fp.draw_ring_loop rnd g level a_range size_total size_min size_max chain (e :: es)
      a_from a_to)
    (hin : strictly_inside g op) :
    ¬ fp.culled rnd g level a_from (fp.add rnd a_to (fp.span_step rnd a_range size_total e.size))
      ∧ (op = fp.ring_of rnd g level size_min size_max chain e a_from
              (fp.add rnd a_to (fp.span_step rnd a_range size_total e.size))
         ∨ (∃ d, eligible g level e.mode e.child = some d
              ∧ op ∈ fp.draw_ring rnd g d (level + 1) a_from
                  (fp.add rnd a_to (fp.span_step rnd a_range size_total e.size))
                  (chain ++ [e.name]))
         ∨ op ∈ fp.draw_ring_loop rnd g level a_range size_total size_min size_max chain es
              (fp.add rnd a_to (fp.span_step rnd a_range size_total e.size))
              (fp.add rnd a_to (fp.span_step rnd a_range size_total e.size))) := by
  rw [fp_draw_ring_loop_cons] at h
  split_ifs at h with hc
  · simp at h
  · refine ⟨hc, ?_⟩
    simp only [List.mem_cons, List.mem_append] at h
    rcases h with h | h | h | h
    · exact Or.inl h
    · exact Or.inr (Or.inl (fp_inside_sub_part h hin))
    · exact absurd hin (fp_not_inside_label_part h)
    · exact Or.inr (Or.inr h)

theorem fp_inside_ring_of {rnd : ℚ → Dbl} {g : graph} {level : Nat} {size_min size_max : Int}
    {chain : List String} {e : duc_dirent} {a_from a_to : Dbl} :
    strictly_inside g (fp.ring_of rnd g level size_min size_max chain e a_from a_to) ↔
      a_from < g.spot_a ∧ g.spot_a < a_to
        ∧ fp.r_from rnd g level < g.spot_r ∧ g.spot_r < fp.r_to rnd g level :=
  Iff.rfl

/-- No probe lies inside a sector drawn from a `NaN` span. -/
theorem fp_draw_ring_nan (rnd : ℚ → Dbl) (g : graph) :
    (∀ (d : duc_dir) (level : Nat) (a_min a_max : Dbl) (chain : List String) (op : draw_op),
      fp.sub rnd a_max a_min = Dbl.nan ∨ a_min = Dbl.nan →
      op ∈ fp.draw_ring rnd g d level a_min a_max chain →
      ¬ strictly_inside g op) ∧
    (∀ (es : List duc_dirent) (level : Nat) (a_range : Dbl) (size_total : Nat)
      (size_min size_max : Int) (chain : List String) (a_from a_to : Dbl) (op : draw_op),
      a_range = Dbl.nan ∨ a_to = Dbl.nan →
      op ∈ fp.draw_ring_loop rnd g level a_range size_total size_min size_max chain es
        a_from a_to →
      ¬ strictly_inside g op) := by
  apply duc_tree_induction
  · intro path size_total es ih level a_min a_max chain op hn hop
    simp only [fp.draw_ring] at hop
    exact ih _ _ _ _ _ _ _ _ _ hn hop
  · intro level a_range size_total size_min size_max chain a_from a_to op _ hop
    simp [fp.draw_ring_loop] at hop
  · intro name size mode child es ihd ihes level a_range size_total size_min size_max chain
      a_from a_to op hn hop hin
    have hnan : fp.add rnd a_to (fp.span_step rnd a_range size_total
        (duc_dirent.mk name size mode child).size) = Dbl.nan := by
      rcases hn with hn | hn
      · rw [hn, fp_span_step_nan, fp_add_nan_right]
      · rw [hn, fp_add_nan_left]
    obtain ⟨_, h | ⟨d, hel, h⟩ | h⟩ := fp_inside_loop_cons hop hin
    · rw [h, hnan, fp_inside_ring_of] at hin
      exact Dbl.not_lt_nan _ hin.2.1
    · rw [hnan] at h
      exact ihd d (eligible_eq_some hel).2.2 _ _ _ _ _ (Or.inl (fp_sub_nan_left rnd _)) h hin
    · rw [hnan] at h
      exact ihes _ _ _ _ _ _ _ _ _ (Or.inr rfl) h hin

theorem fp_hit_under (rnd : ℚ → Dbl) (g : graph) (name : String) (v : visit) :
    fp.hit rnd g (v.under name) = fp.hit rnd g v := rfl

/-- Every ring sector that `draw_ring` draws and that contains the probe
strictly belongs to an entry that `find_spot` visits with the same span and
level, and the probe passes the match test of that entry. -/
theorem fp_drawn_visited (rnd : ℚ → Dbl) (g : graph) :
    (∀ (d : duc_dir) (level : Nat) (a_min a_max : Dbl) (chain : List String) (op : draw_op),
      op ∈ fp.draw_ring rnd g d level a_min a_max chain → strictly_inside g op →
      ∃ v ∈ fp.find_visits rnd g d level a_min a_max,
        fp.hit rnd g v = true ∧ ring_chain op = some (chain ++ v.chain)) ∧
    (∀ (es : List duc_dirent) (level : Nat) (a_range : Dbl) (size_total : Nat)
      (size_min size_max : Int) (chain : List String) (a_from a_to : Dbl) (op : draw_op),
      op ∈ fp.draw_ring_loop rnd g level a_range size_total size_min size_max chain es
        a_from a_to →
      strictly_inside g op →
      ∃ v ∈ fp.find_visits_loop rnd g level a_range size_total es a_from a_to,
        fp.hit rnd g v = true ∧ ring_chain op = some (chain ++ v.chain)) := by
  apply duc_tree_induction
  · intro path size_total es ih level a_min a_max chain op hop hin
    simp only [fp.draw_ring] at hop
    simp only [fp.find_visits]
    exact ih _ _ _ _ _ _ _ _ _ hop hin
  · intro level a_range size_total size_min size_max chain a_from a_to op hop
    simp [fp.draw_ring_loop] at hop
  · intro name size mode child es ihd ihes level a_range size_total size_min size_max chain
      a_from a_to op hop hin
    obtain ⟨hcull, hcase⟩ := fp_inside_loop_cons hop hin
    rw [fp_find_visits_loop_cons]
    simp only [duc_dirent.size, duc_dirent.mode, duc_dirent.child, duc_dirent.name] at hcull hcase
    rcases hcase with h | ⟨d, hel, h⟩ | h
    · have hin' := hin
      rw [h, fp_inside_ring_of] at hin'
      have hlt : fp.add rnd a_to (fp.span_step rnd a_range size_total size) > a_from :=
        Dbl.lt_trans hin'.1 hin'.2.1
      simp only [hlt, if_true]
      refine ⟨_, List.mem_cons_self _ _, ?_, ?_⟩
      · simp only [fp.hit, decide_eq_true_eq, ge_iff_le]
        exact ⟨Dbl.le_of_lt hin'.1, Dbl.le_of_lt hin'.2.1, Dbl.le_of_lt hin'.2.2.1,
          Dbl.le_of_lt hin'.2.2.2⟩
      · rw [h]
        rfl
    · by_cases hlt : fp.add rnd a_to (fp.span_step rnd a_range size_total size) > a_from
      · simp only [hlt, if_true, hel]
        obtain ⟨v, hv, hh, hch⟩ := ihd d (eligible_eq_some hel).2.2 _ _ _ _ _ h hin
        refine ⟨v.under name, ?_, ?_, ?_⟩
        · exact List.mem_cons_of_mem _ (List.mem_append_left _ (List.mem_map_of_mem _ hv))
        · rw [fp_hit_under]
          exact hh
        · rw [hch]
          simp [visit.under]
      · exfalso
        have hne : ¬ fp.add rnd a_to (fp.span_step rnd a_range size_total size) ≤ a_from :=
          fun hle => hcull (Or.inr hle)
        have hn : fp.sub rnd (fp.add rnd a_to (fp.span_step rnd a_range size_total size)) a_from
            = Dbl.nan ∨ a_from = Dbl.nan := by
          by_cases ha : a_from = Dbl.nan
          · exact Or.inr ha
          · by_cases hb : fp.add rnd a_to (fp.span_step rnd a_range size_total size) = Dbl.nan
            · left
              rw [hb, fp_sub_nan_left]
            · exact absurd (Dbl.lt_of_not_le ha hb hne) hlt
        exact (fp_draw_ring_nan rnd g).1 d _ _ _ _ _ hn h hin
    · obtain ⟨v, hv, hh, hch⟩ := ihes _ _ _ _ _ _ _ _ _ h hin
      refine ⟨v, ?_, hh, hch⟩
      split_ifs
      · exact List.mem_cons_of_mem _ (List.mem_append_right _ hv)
      · exact hv


/-- While `(level + 2) * ring_width` is at most `2^53`, the radii of the levels
are exact in binary64 and the outer radius of a level is the inner radius of
the next. -/
theorem r_to_round64_eq (g : graph) (level : Nat) (hw : 0 ≤ g.ring_width)
    (hb : ((level : Int) + 2) * g.ring_width ≤ 2 ^ 53) :
    fp.r_to Dbl.round64 g level = fp.r_from Dbl.round64 g (level + 1) := by
  have h1 : |((level : Int) + 1) * g.ring_width| ≤ 2 ^ 53 := by
    rw [abs_of_nonneg (by positivity)]
    nlinarith
  have h2 : |g.ring_width| ≤ 2 ^ 53 := by
    rw [abs_of_nonneg hw]
    nlinarith
  have h3 : |(((level + 1 : Nat) : Int) + 1) * g.ring_width| ≤ 2 ^ 53 := by
    rw [abs_of_nonneg (by positivity)]
    push_cast
    linarith
  unfold fp.r_to fp.r_from fp.ofInt fp.add
  rw [round64_int h1, round64_int h2, round64_int h3]
  simp only [Dbl.fin_add, Dbl.rounded]
  have e : (((((level : Int) + 1) * g.ring_width : Int) : ℚ) + (g.ring_width : ℚ))
      = (((((level + 1 : Nat) : Int) + 1) * g.ring_width : Int) : ℚ) := by
    push_cast
    ring
  rw [e, round64_int h3]

/-- A ring sector drawn from `level` on that contains the probe lies at a
radius above the inner radius of `level`. -/
theorem fp_draw_ring_inside_radius (g : graph) (hw : 0 ≤ g.ring_width) :
    (∀ (d : duc_dir) (level : Nat) (a_min a_max : Dbl) (chain : List String) (op : draw_op),
      op ∈ fp.draw_ring Dbl.round64 g d level a_min a_max chain → strictly_inside g op →
      fp.r_from Dbl.round64 g level < g.spot_r) ∧
    (∀ (es : List duc_dirent) (level : Nat) (a_range : Dbl) (size_total : Nat)
      (size_min size_max : Int) (chain : List String) (a_from a_to : Dbl) (op : draw_op),
      op ∈ fp.draw_ring_loop Dbl.round64 g level a_range size_total size_min size_max chain es
        a_from a_to →
      strictly_inside g op →
      fp.r_from Dbl.round64 g level < g.spot_r) := by
  apply duc_tree_induction
  · intro path size_total es ih level a_min a_max chain op hop hin
    simp only [fp.draw_ring] at hop
    exact ih _ _ _ _ _ _ _ _ _ hop hin
  · intro level a_range size_total size_min size_max chain a_from a_to op hop
    simp [fp.draw_ring_loop] at hop
  · intro name size mode child es ihd ihes level a_range size_total size_min size_max chain
      a_from a_to op hop hin
    obtain ⟨_, h | ⟨d, hel, h⟩ | h⟩ := fp_inside_loop_cons hop hin
    · rw [h, fp_inside_ring_of] at hin
      exact hin.2.2.1
    · have hr := ihd d (eligible_eq_some hel).2.2 _ _ _ _ _ h hin
      exact Dbl.lt_of_le_of_lt (r_from_round64_mono g hw (Nat.le_succ level)) hr
    · exact ihes _ _ _ _ _ _ _ _ _ h hin

theorem Dbl.le_refl_of_ne_nan {a : Dbl} (h : a ≠ Dbl.nan) : a ≤ a := by
  cases a <;> first | exact absurd rfl h | simp [Dbl.le_def, Dbl.le]

theorem Dbl.ne_nan_of_le_left {a b : Dbl} (h : a ≤ b) : a ≠ Dbl.nan := by
  rintro rfl
  exact Dbl.not_nan_le _ h

/-- A ring sector that contains the probe and is drawn by the loop of
`draw_ring` from the accumulated angle `a` on starts at or after `a`. -/
theorem fp_draw_ring_inside_start (rnd : ℚ → Dbl) (g : graph) :
    (∀ (d : duc_dir) (level : Nat) (a_min a_max : Dbl) (chain : List String) (op : draw_op),
      op ∈ fp.draw_ring rnd g d level a_min a_max chain → strictly_inside g op →
      ∃ c a1 a2 r1 r2 h b, op = draw_op.ring c a1 a2 r1 r2 h b ∧ a_min ≤ a1) ∧
    (∀ (es : List duc_dirent) (level : Nat) (a_range : Dbl) (size_total : Nat)
      (size_min size_max : Int) (chain : List String) (a : Dbl) (op : draw_op),
      op ∈ fp.draw_ring_loop rnd g level a_range size_total size_min size_max chain es a a →
      strictly_inside g op →
      ∃ c a1 a2 r1 r2 h b, op = draw_op.ring c a1 a2 r1 r2 h b ∧ a ≤ a1) := by
  apply duc_tree_induction
  · intro path size_total es ih level a_min a_max chain op hop hin
    simp only [fp.draw_ring] at hop
    exact ih _ _ _ _ _ _ _ _ hop hin
  · intro level a_range size_total size_min size_max chain a op hop
    simp [fp.draw_ring_loop] at hop
  · intro name size mode child es ihd ihes level a_range size_total size_min size_max chain
      a op hop hin
    obtain ⟨hcull, h | ⟨d, hel, h⟩ | h⟩ := fp_inside_loop_cons hop hin
    · have hin' := hin
      rw [h, fp_inside_ring_of] at hin'
      exact ⟨_, _, _, _, _, _, _, h, Dbl.le_refl_of_ne_nan (Dbl.ne_nan_of_lt_left hin'.1)⟩
    · exact ihd d (eligible_eq_some hel).2.2 _ _ _ _ _ h hin
    · obtain ⟨c, a1, a2, r1, r2, hh, b, e, hle⟩ := ihes _ _ _ _ _ _ _ _ h hin
      refine ⟨c, a1, a2, r1, r2, hh, b, e, ?_⟩
      have hA := Dbl.ne_nan_of_le_left hle
      have ha : a ≠ Dbl.nan := by
        rintro rfl
        rw [fp_add_nan_left] at hA
        exact hA rfl
      have hne : ¬ fp.add rnd a (fp.span_step rnd a_range size_total
          (duc_dirent.mk name size mode child).size) ≤ a := fun hle => hcull (Or.inr hle)
      exact Dbl.le_trans (Dbl.le_of_lt (Dbl.lt_of_not_le ha hA hne)) hle

/-- Every entry visited by the hit-test started at `level` lies at a level `l`
with `level <= l`, and `l < depth` unless `l = level`; its chain of names has
one name per level from `level` to `l`. -/
theorem fp_find_visits_levels (rnd : ℚ → Dbl) (g : graph) :
    (∀ (d : duc_dir) (level : Nat) (a_min a_max : Dbl) (v : visit),
      v ∈ fp.find_visits rnd g d level a_min a_max →
      level ≤ v.level ∧ (v.level = level ∨ (v.level : Int) < g.depth)
        ∧ v.level + 1 = level + v.chain.length) ∧
    (∀ (es : List duc_dirent) (level : Nat) (a_range : Dbl) (size_total : Nat)
      (a_from a_to : Dbl) (v : visit),
      v ∈ fp.find_visits_loop rnd g level a_range size_total es a_from a_to →
      level ≤ v.level ∧ (v.level = level ∨ (v.level : Int) < g.depth)
        ∧ v.level + 1 = level + v.chain.length) := by
  apply duc_tree_induction
  · intro path size_total es ih level a_min a_max v hv
    simp only [fp.find_visits] at hv
    exact ih _ _ _ _ _ _ hv
  · intro level a_range size_total a_from a_to v hv
    simp [fp.find_visits_loop] at hv
  · intro name size mode child es ihd ihes level a_range size_total a_from a_to v hv
    rw [fp_find_visits_loop_cons] at hv
    split_ifs at hv
    · simp only [List.mem_cons, List.mem_append] at hv
      rcases hv with hv | hv | hv
      · rw [hv]
        exact ⟨le_refl _, Or.inl rfl, rfl⟩
      · cases hel : eligible g level mode child with
        | none => simp [hel] at hv
        | some d =>
          have hel' := eligible_eq_some hel
          simp only [hel, List.mem_map] at hv
          obtain ⟨v', hv', rfl⟩ := hv
          obtain ⟨h1, h2, h3⟩ := ihd d hel'.2.2 _ _ _ _ hv'
          refine ⟨by simp only [visit.under]; omega, Or.inr ?_, ?_⟩
          · simp only [visit.under]
            rcases h2 with h2 | h2
            · rw [h2]
              exact_mod_cast hel'.2.1
            · exact h2
          · simp only [visit.under, List.length_cons]
            omega
      · exact ihes _ _ _ _ _ _ hv
    · exact ihes _ _ _ _ _ _ hv


/-- Each span of the accumulation starts where the span before it ends. -/
theorem fp_sibling_spans_succ (rnd : ℚ → Dbl) (a_range : Dbl) (size_total : Nat)
    (es : List duc_dirent) :
    ∀ (a : Dbl) (i : Nat) (s : String × Dbl × Dbl),
      (fp.sibling_spans rnd a_range size_total es a)[i + 1]? = some s →
      ∃ t, (fp.sibling_spans rnd a_range size_total es a)[i]? = some t ∧ s.2.1 = t.2.2 := by
  induction es with
  | nil =>
    intro a i s hs
    simp [fp.sibling_spans] at hs
  | cons e es ih =>
    intro a i s hs
    simp only [fp.sibling_spans, List.getElem?_cons_succ] at hs
    cases i with
    | zero =>
      cases es with
      | nil => simp [fp.sibling_spans] at hs
      | cons e' es' =>
        simp only [fp.sibling_spans, List.getElem?_cons_zero, Option.some.injEq] at hs
        refine ⟨(e.name, a, fp.add rnd a (fp.span_step rnd a_range size_total e.size)), ?_, ?_⟩
        · simp only [fp.sibling_spans, List.getElem?_cons_zero]
        · rw [← hs]
    | succ j =>
      obtain ⟨t, ht, hst⟩ := ih _ j s hs
      exact ⟨t, by simpa only [fp.sibling_spans, List.getElem?_cons_succ] using ht, hst⟩

theorem span_slack_nonneg (n : Nat) : 0 ≤ span_slack n := by
  have hu := unit_roundoff_pos
  have hn : (0 : ℚ) ≤ (n : ℚ) := Nat.cast_nonneg n
  unfold span_slack
  exact mul_nonneg (by linarith) hu.le

/-- In binary64 arithmetic the spans that the accumulation assigns to the
children of a consistent directory of at most `n` entries, drawn in a span
`[p, q]` inside `[0, 2]` that starts at a binary64 number, are finite, start
at binary64 numbers not below `p`, and end at most `span_slack n` above `q`. -/
theorem partition_spans_within {p q : ℚ} {size_total n : Nat} {es : List duc_dirent}
    (hp : 0 ≤ p) (hpq : p ≤ q) (hq : q ≤ 2) (hrep : Dbl.representable p)
    (ht : 0 < size_total) (hsum : sum_sizes es = size_total) (hoff : size_total < 2 ^ 63)
    (hlen : es.length ≤ n) (hn : n ≤ 2 ^ 32) :
    ∀ (i : Nat) (s : String × Dbl × Dbl),
      (fp.sibling_spans Dbl.round64 (fp.sub Dbl.round64 (Dbl.fin q) (Dbl.fin p)) size_total
        es (Dbl.fin p))[i]? = some s →
      ∃ xi yi : ℚ, s.2.1 = Dbl.fin xi ∧ s.2.2 = Dbl.fin yi ∧ Dbl.representable xi
        ∧ 0 ≤ xi ∧ yi ≤ q + span_slack n := by
  obtain ⟨r1, r2, r3, r4⟩ := range_round64 hpq hp hq
  rw [r1]
  have hu := unit_roundoff_pos
  have hTq : (0 : ℚ) < (size_total : ℚ) := by exact_mod_cast ht
  have hD0 : (0 : ℚ) ≤ q - p := by linarith
  have hfull : (q - p) * (sum_sizes es : ℚ) / size_total = q - p := by
    rw [hsum]
    field_simp
  have hlen32 : es.length ≤ 2 ^ 32 := hlen.trans hn
  have hall := fun i s hs =>
    sibling_spans_round64 (by linarith : (0 : ℚ) ≤ q - p) (by linarith) r2 r3 r4 ht hoff
      es p p 0 0 (by simp [acc_err]) le_rfl hp (by rw [hfull]; linarith)
      (by rw [hfull]; linarith) (by omega) (by omega) i s hs
  have htake : ∀ m : Nat, (q - p) * (sum_sizes (es.take m) : ℚ) / size_total ≤ q - p := by
    intro m
    have hle : (sum_sizes (es.take m) : ℚ) ≤ (size_total : ℚ) := by
      have := sum_sizes_take_le es m
      rw [hsum] at this
      exact_mod_cast this
    rw [div_le_iff₀ hTq]
    exact mul_le_mul_of_nonneg_left hle hD0
  intro i s hs
  obtain ⟨e, xi, yi, h1, h2, h3, h4, h5, h6, h7, h8, h9⟩ := hall i s hs
  have hi : i < es.length := by
    by_contra hc
    rw [List.getElem?_eq_none (not_lt.1 hc)] at h1
    exact Option.noConfusion h1
  refine ⟨xi, yi, by rw [h2], by rw [h2], ?_, hp.trans (h8 hrep), ?_⟩
  · cases i with
    | zero =>
      rw [h7 rfl]
      exact hrep
    | succ j =>
      obtain ⟨t, ht1, ht2⟩ := fp_sibling_spans_succ _ _ _ _ _ j s hs
      obtain ⟨e', xj, yj, _, g2, _, _, g5, _⟩ := hall j t ht1
      rw [h2, g2] at ht2
      simp only [Dbl.fin.injEq] at ht2
      rw [ht2]
      exact g5
  · have hcast : ((sum_sizes (es.take (i + 1)) : Nat) : ℚ)
        = (sum_sizes (es.take i) : ℚ) + (e.size : ℚ) := by
      rw [sum_sizes_take_get es i e h1]
      push_cast
      ring
    have hY : 0 + (q - p) * ((sum_sizes (es.take i) : ℚ) + e.size) / size_total ≤ 2 := by
      have := htake (i + 1)
      rw [hcast] at this
      linarith
    have hb := @acc_err_le (0 + i + 1)
      (0 + (q - p) * ((sum_sizes (es.take i) : ℚ) + e.size) / size_total) hY
    have e1 : ((0 + i + 1 : Nat) : ℚ) = (i : ℚ) + 1 := by push_cast; ring
    rw [e1] at hb
    have hab := (abs_le.1 (h4.trans hb)).2
    have hex := htake (i + 1)
    rw [hcast] at hex
    have hin : ((i : ℚ) + 1) ≤ (n : ℚ) := by
      have : i + 1 ≤ n := by omega
      exact_mod_cast this
    have hsl : (4 * ((i : ℚ) + 1) + 14) * unit_roundoff ≤ span_slack n := by
      unfold span_slack
      exact mul_le_mul_of_nonneg_right (by linarith) hu.le
    linarith


theorem round64_zero : Dbl.round64 0 = Dbl.fin 0 := by
  have := round64_int (n := 0) (by norm_num)
  simpa using this

/-- In a directory of total size 0 the increment of an entry of size 0 is
`0 / 0 = NaN`. -/
theorem span_step_round64_zero (a_range : Dbl) :
    fp.span_step Dbl.round64 a_range 0 0 = Dbl.nan := by
  have h0 : fp.ofInt Dbl.round64 ((0 : Nat) : Int) = Dbl.fin 0 := by
    simp [fp.ofInt, round64_zero]
  unfold fp.span_step
  rw [h0]
  cases a_range with
  | fin r =>
    have : fp.mul Dbl.round64 (Dbl.fin r) (Dbl.fin 0) = Dbl.fin 0 := by
      simp [fp.mul, Dbl.rounded, Dbl.fin_mul, round64_zero]
    rw [this]
    simp [fp.div, Dbl.rounded, Dbl.fin_div]
  | pinf =>
    have : fp.mul Dbl.round64 Dbl.pinf (Dbl.fin 0) = Dbl.nan := by
      simp [fp.mul, Dbl.rounded, HMul.hMul, Mul.mul, Dbl.mul]
    rw [this]
    simp [fp.div, Dbl.rounded]
  | ninf =>
    have : fp.mul Dbl.round64 Dbl.ninf (Dbl.fin 0) = Dbl.nan := by
      simp [fp.mul, Dbl.rounded, HMul.hMul, Mul.mul, Dbl.mul]
    rw [this]
    simp [fp.div, Dbl.rounded]
  | nan =>
    simp [fp.mul, fp.div, Dbl.rounded]

theorem fp_find_spot_loop_nan (rnd : ℚ → Dbl) (g : graph) (level : Nat) (a_range : Dbl)
    (size_total : Nat) (es : List duc_dirent) : ∀ (a_from : Dbl) (part : part_log),
    fp.find_spot_loop rnd g level a_range size_total es a_from Dbl.nan part = (false, part) := by
  induction es with
  | nil =>
    intro a_from part
    simp [fp.find_spot_loop]
  | cons e es ih =>
    intro a_from part
    cases e with
    | mk name size mode child =>
      rw [fp_find_spot_loop_cons]
      simp [fp_add_nan_left, ih]

theorem tree_bounded_mk {n : Nat} {path : String} {size_total : Nat} {es : List duc_dirent}
    (h : tree_bounded n (.mk path size_total es) = true) :
    size_total < 2 ^ 63 ∧ es.length ≤ n ∧ ents_bounded n es = true := by
  simpa [tree_bounded, and_assoc] using h

theorem ents_bounded_cons {n : Nat} {name : String} {size : Nat} {mode : duc_mode}
    {child : Option duc_dir} {es : List duc_dirent}
    (h : ents_bounded n (.mk name size mode child :: es) = true) :
    (∀ d, mode = duc_mode.DUC_MODE_DIR → child = some d → tree_bounded n d = true)
      ∧ ents_bounded n es = true := by
  cases child with
  | none =>
    simp only [ents_bounded, Bool.true_and] at h
    exact ⟨fun d _ hd => (by cases hd), h⟩
  | some d0 =>
    simp only [ents_bounded, Bool.and_eq_true, Bool.or_eq_true, Bool.not_eq_true',
      decide_eq_false_iff_not, decide_eq_true_eq] at h
    refine ⟨fun d hm hd => ?_, h.2⟩
    cases hd
    rcases h.1 with h1 | h1
    · exact absurd hm h1
    · exact h1

/-- In a consistent directory of total size 0 the hit-test matches nothing:
every accumulated angle is `NaN`. -/
theorem fp_find_spot_zero_total (g : graph) (level : Nat) (a_range : Dbl)
    (es : List duc_dirent) (hsum : sum_sizes es = 0) (a : Dbl) (part : part_log) :
    fp.find_spot_loop Dbl.round64 g level a_range 0 es a a part = (false, part) := by
  cases es with
  | nil => simp [fp.find_spot_loop]
  | cons e es =>
    cases e with
    | mk name size mode child =>
      rw [sum_sizes_cons] at hsum
      have hs : size = 0 := by
        simp only [duc_dirent.size] at hsum
        omega
      subst hs
      rw [fp_find_spot_loop_cons, span_step_round64_zero, fp_add_nan_right]
      simp [fp_find_spot_loop_nan]

/-- A probe whose angle lies more than `(j + 1) * span_slack n` above the span
of a consistent directory, where at most `j + 1` levels can be visited from the
level of the directory on, is not matched in it. -/
theorem find_spot_angle_above_round64 (g : graph) (n : Nat) (hn : n ≤ 2 ^ 32) :
    (∀ (d : duc_dir) (level j : Nat) (p q : ℚ) (part : part_log),
      sizes_consistent d = true → tree_bounded n d = true →
      0 ≤ p → p ≤ q → Dbl.representable p →
      g.depth - (level : Int) ≤ (j : Int) + 1 →
      q + ((j : ℚ) + 1) * span_slack n ≤ 2 →
      Dbl.fin (q + ((j : ℚ) + 1) * span_slack n) < g.spot_a →
      fp.find_spot Dbl.round64 g d level (Dbl.fin p) (Dbl.fin q) part = (false, part)) ∧
    (∀ (es : List duc_dirent) (level j : Nat) (a_range : Dbl) (size_total : Nat) (a : Dbl)
      (hi : ℚ) (part : part_log),
      ents_consistent es = true → ents_bounded n es = true →
      (∀ (i : Nat) (s : String × Dbl × Dbl),
        (fp.sibling_spans Dbl.round64 a_range size_total es a)[i]? = some s →
        ∃ xi yi : ℚ, s.2.1 = Dbl.fin xi ∧ s.2.2 = Dbl.fin yi ∧ Dbl.representable xi
          ∧ 0 ≤ xi ∧ yi ≤ hi) →
      g.depth - (level : Int) ≤ (j : Int) + 1 →
      hi + (j : ℚ) * span_slack n ≤ 2 →
      Dbl.fin (hi + (j : ℚ) * span_slack n) < g.spot_a →
      fp.find_spot_loop Dbl.round64 g level a_range size_total es a a part = (false, part)) := by
  have hsl := span_slack_nonneg n
  apply duc_tree_induction
  · intro path size_total es ih level j p q part hc hb hp hpq hrep hd h2 ha
    simp only [fp.find_spot]
    obtain ⟨hsum, hce⟩ := sizes_consistent_mk hc
    obtain ⟨hoff, hlen, hbe⟩ := tree_bounded_mk hb
    have hj : (0 : ℚ) ≤ (j : ℚ) := Nat.cast_nonneg j
    have hjs : 0 ≤ (j : ℚ) * span_slack n := mul_nonneg hj hsl
    rcases Nat.eq_zero_or_pos size_total with h0 | h0
    · subst h0
      exact fp_find_spot_zero_total g level _ es hsum _ part
    · have e1 : q + span_slack n + (j : ℚ) * span_slack n = q + ((j : ℚ) + 1) * span_slack n := by
        ring
      refine ih level j _ size_total _ (q + span_slack n) part hce hbe
        (partition_spans_within hp hpq (by linarith) hrep h0 hsum hoff hlen hn) hd ?_ ?_
      · rw [e1]
        exact h2
      · rw [e1]
        exact ha
  · intro level j a_range size_total a hi part _ _ _ _ _ _
    simp [fp.find_spot_loop]
  · intro name size mode child es ihd ihes level j a_range size_total a hi part hc hb hsp hd h2 ha
    obtain ⟨hcd, hce⟩ := ents_consistent_cons hc
    obtain ⟨hbd, hbe⟩ := ents_bounded_cons hb
    have hj : (0 : ℚ) ≤ (j : ℚ) := Nat.cast_nonneg j
    have hjs : 0 ≤ (j : ℚ) * span_slack n := mul_nonneg hj hsl
    obtain ⟨x0, y0, hx, hy, hrep, hx0, hyhi⟩ := hsp 0
      (name, a, fp.add Dbl.round64 a (fp.span_step Dbl.round64 a_range size_total size)) (by
      simp only [fp.sibling_spans, List.getElem?_cons_zero, duc_dirent.size, duc_dirent.name])
    simp only at hx hy
    subst hx
    have hrest : ∀ (i : Nat) (s : String × Dbl × Dbl),
        (fp.sibling_spans Dbl.round64 a_range size_total es
          (fp.add Dbl.round64 (Dbl.fin x0)
            (fp.span_step Dbl.round64 a_range size_total size)))[i]? = some s →
        ∃ xi yi : ℚ, s.2.1 = Dbl.fin xi ∧ s.2.2 = Dbl.fin yi ∧ Dbl.representable xi
          ∧ 0 ≤ xi ∧ yi ≤ hi := by
      intro i s hs
      exact hsp (i + 1) s (by
        simpa only [fp.sibling_spans, List.getElem?_cons_succ, duc_dirent.size] using hs)
    have hnext := fun part' => ihes level j a_range size_total
      (fp.add Dbl.round64 (Dbl.fin x0) (fp.span_step Dbl.round64 a_range size_total size)) hi part'
      hce hbe hrest hd h2 ha
    rw [fp_find_spot_loop_cons]
    rw [hy] at hnext ⊢
    have hab : Dbl.fin y0 < g.spot_a :=
      Dbl.lt_of_le_of_lt ((Dbl.fin_le _ _).2 (by linarith)) ha
    by_cases hlt : Dbl.fin y0 > Dbl.fin x0
    · simp only [hlt, if_true]
      have hnh : fp.hit Dbl.round64 g ⟨[name], level, Dbl.fin x0, Dbl.fin y0⟩ = false :=
        fp_not_hit_of_angle_gt hab
      simp only [hnh, Bool.false_eq_true, if_false]
      cases hel : eligible g level mode child with
      | none => exact hnext part
      | some d =>
        obtain ⟨hm, hlev, hch⟩ := eligible_eq_some hel
        have hxy : x0 ≤ y0 := ((Dbl.fin_lt _ _).1 hlt).le
        cases j with
        | zero =>
          exfalso
          simp only [Nat.cast_zero] at hd
          omega
        | succ j' =>
          have hjc : ((j' + 1 : Nat) : ℚ) = (j' : ℚ) + 1 := by push_cast; ring
          rw [hjc] at h2 ha
          have hres := ihd d hch (level + 1) j' x0 y0 part (hcd d hm hch) (hbd d hm hch) hx0 hxy
            hrep (by push_cast at hd ⊢; omega)
            (by nlinarith)
            (Dbl.lt_of_le_of_lt ((Dbl.fin_le _ _).2 (by nlinarith)) ha)
          simp only [hres, Bool.false_eq_true, if_false]
          exact hnext part
    · simp only [hlt, if_false]
      exact hnext part


theorem fp_not_hit_of_radius_gt {rnd : ℚ → Dbl} {g : graph} {v : visit}
    (h : fp.r_to rnd g v.level < g.spot_r) : fp.hit rnd g v = false := by
  simp only [fp.hit, decide_eq_false_iff_not, ge_iff_le]
  rintro ⟨_, _, _, h4⟩
  exact Dbl.not_le_of_lt h h4

/-- In a consistent directory of total size 0 no drawn sector contains a
probe: every accumulated angle is `NaN`. -/
theorem fp_draw_ring_zero_total (g : graph) (level : Nat) (a_range : Dbl)
    (size_min size_max : Int) (chain : List String)
    (es : List duc_dirent) (hsum : sum_sizes es = 0) (a : Dbl) (op : draw_op)
    (hop : op ∈ fp.draw_ring_loop Dbl.round64 g level a_range 0 size_min size_max chain es a a) :
    ¬ strictly_inside g op := by
  cases es with
  | nil => simp [fp.draw_ring_loop] at hop
  | cons e es =>
    cases e with
    | mk name size mode child =>
      rw [sum_sizes_cons] at hsum
      have hs : size = 0 := by
        simp only [duc_dirent.size] at hsum
        omega
      subst hs
      intro hin
      obtain ⟨_, h | ⟨d, _, h⟩ | h⟩ := fp_inside_loop_cons hop hin
      · simp only [duc_dirent.size, span_step_round64_zero, fp_add_nan_right] at h
        rw [h, fp_inside_ring_of] at hin
        exact Dbl.not_lt_nan _ hin.2.1
      · simp only [duc_dirent.size, span_step_round64_zero, fp_add_nan_right] at h
        exact (fp_draw_ring_nan _ g).1 d _ _ _ _ _ (Or.inl (fp_sub_nan_left _ _)) h hin
      · simp only [duc_dirent.size, span_step_round64_zero, fp_add_nan_right] at h
        exact (fp_draw_ring_nan _ g).2 _ _ _ _ _ _ _ _ _ _ (Or.inr rfl) h hin

/-- Drawn implies found in binary64 arithmetic: a probe strictly inside a ring
sector drawn in a consistent, bounded directory is matched to the entry of that
sector, when the sector belongs to the level of the directory (the probe radius
is below the outer radius of the level) or the probe angle exceeds the start of
the sector by more than `j * span_slack n`, where at most `j + 1` levels can be
visited. -/
theorem draw_ring_inside_found_round64 (g : graph) (n : Nat) (hn : n ≤ 2 ^ 32)
    (hw : 0 ≤ g.ring_width) (hrad : g.depth * g.ring_width ≤ 2 ^ 53) :
    (∀ (d : duc_dir) (level j : Nat) (p q : ℚ) (chain : List String) (part : part_log)
      (op : draw_op),
      sizes_consistent d = true → tree_bounded n d = true →
      0 ≤ p → p ≤ q → Dbl.representable p →
      g.depth - (level : Int) ≤ (j : Int) + 1 →
      q + ((j : ℚ) + 1) * span_slack n ≤ 2 →
      op ∈ fp.draw_ring Dbl.round64 g d level (Dbl.fin p) (Dbl.fin q) chain →
      strictly_inside g op →
      (g.spot_r < fp.r_to Dbl.round64 g level
        ∨ ∃ c x a2 r1 r2 h b, op = draw_op.ring c (Dbl.fin x) a2 r1 r2 h b
            ∧ Dbl.fin (x + (j : ℚ) * span_slack n) < g.spot_a) →
      ∃ names, ring_chain op = some (chain ++ names)
        ∧ fp.find_spot Dbl.round64 g d level (Dbl.fin p) (Dbl.fin q) part
            = (true, path_log level names ++ part)) ∧
    (∀ (es : List duc_dirent) (level j : Nat) (a_range : Dbl) (size_total : Nat)
      (size_min size_max : Int) (chain : List String) (a : Dbl) (hi : ℚ) (part : part_log)
      (op : draw_op),
      ents_consistent es = true → ents_bounded n es = true →
      (∀ (i : Nat) (s : String × Dbl × Dbl),
        (fp.sibling_spans Dbl.round64 a_range size_total es a)[i]? = some s →
        ∃ xi yi : ℚ, s.2.1 = Dbl.fin xi ∧ s.2.2 = Dbl.fin yi ∧ Dbl.representable xi
          ∧ 0 ≤ xi ∧ yi ≤ hi) →
      g.depth - (level : Int) ≤ (j : Int) + 1 →
      hi + (j : ℚ) * span_slack n ≤ 2 →
      op ∈ fp.draw_ring_loop Dbl.round64 g level a_range size_total size_min size_max chain es
        a a →
      strictly_inside g op →
      (g.spot_r < fp.r_to Dbl.round64 g level
        ∨ ∃ c x a2 r1 r2 h b, op = draw_op.ring c (Dbl.fin x) a2 r1 r2 h b
            ∧ Dbl.fin (x + (j : ℚ) * span_slack n) < g.spot_a) →
      ∃ names, ring_chain op = some (chain ++ names)
        ∧ fp.find_spot_loop Dbl.round64 g level a_range size_total es a a part
            = (true, path_log level names ++ part)) := by
  have hsl := span_slack_nonneg n
  apply duc_tree_induction
  · intro path size_total es ih level j p q chain part op hc hb hp hpq hrep hd h2 hop hin hm
    simp only [fp.draw_ring] at hop
    simp only [fp.find_spot]
    obtain ⟨hsum, hce⟩ := sizes_consistent_mk hc
    obtain ⟨hoff, hlen, hbe⟩ := tree_bounded_mk hb
    have hj : (0 : ℚ) ≤ (j : ℚ) := Nat.cast_nonneg j
    have hjs : 0 ≤ (j : ℚ) * span_slack n := mul_nonneg hj hsl
    rcases Nat.eq_zero_or_pos size_total with h0 | h0
    · subst h0
      exact absurd hin (fp_draw_ring_zero_total g level _ _ _ chain es hsum _ op hop)
    · refine ih level j _ size_total _ _ chain _ (q + span_slack n) part op hce hbe
        (partition_spans_within hp hpq (by linarith) hrep h0 hsum hoff hlen hn) hd ?_ hop hin hm
      linarith
  · intro level j a_range size_total size_min size_max chain a hi part op _ _ _ _ _ hop
    simp [fp.draw_ring_loop] at hop
  · intro name size mode child es ihd ihes level j a_range size_total size_min size_max chain
      a hi part op hc hb hsp hd h2 hop hin hm
    obtain ⟨hcd, hce⟩ := ents_consistent_cons hc
    obtain ⟨hbd, hbe⟩ := ents_bounded_cons hb
    have hj : (0 : ℚ) ≤ (j : ℚ) := Nat.cast_nonneg j
    have hjs : 0 ≤ (j : ℚ) * span_slack n := mul_nonneg hj hsl
    obtain ⟨x0, y0, hx, hy, hrep, hx0, hyhi⟩ := hsp 0
      (name, a, fp.add Dbl.round64 a (fp.span_step Dbl.round64 a_range size_total size)) (by
      simp only [fp.sibling_spans, List.getElem?_cons_zero, duc_dirent.size, duc_dirent.name])
    simp only at hx hy
    subst hx
    have hrest : ∀ (i : Nat) (s : String × Dbl × Dbl),
        (fp.sibling_spans Dbl.round64 a_range size_total es
          (fp.add Dbl.round64 (Dbl.fin x0)
            (fp.span_step Dbl.round64 a_range size_total size)))[i]? = some s →
        ∃ xi yi : ℚ, s.2.1 = Dbl.fin xi ∧ s.2.2 = Dbl.fin yi ∧ Dbl.representable xi
          ∧ 0 ≤ xi ∧ yi ≤ hi := by
      intro i s hs
      exact hsp (i + 1) s (by
        simpa only [fp.sibling_spans, List.getElem?_cons_succ, duc_dirent.size] using hs)
    obtain ⟨hcull, hcase⟩ := fp_inside_loop_cons hop hin
    simp only [duc_dirent.size, duc_dirent.mode, duc_dirent.child, duc_dirent.name] at hcull hcase
    rw [fp_find_spot_loop_cons]
    rw [hy] at hcull hcase hrest ⊢
    have hlt : Dbl.fin y0 > Dbl.fin x0 := by
      have hne : ¬ Dbl.fin y0 ≤ Dbl.fin x0 := fun hle => hcull (Or.inr hle)
      simp only [Dbl.fin_le, not_le] at hne
      exact (Dbl.fin_lt _ _).2 hne
    have hxy : x0 ≤ y0 := ((Dbl.fin_lt _ _).1 hlt).le
    simp only [hlt, if_true]
    rcases hcase with h | ⟨d, hel, h⟩ | h
    · -- the sector of this entry
      have hin' := hin
      rw [h, fp_inside_ring_of] at hin'
      refine ⟨[name], ?_, ?_⟩
      · rw [h]
        rfl
      · have hh : fp.hit Dbl.round64 g ⟨[name], level, Dbl.fin x0, Dbl.fin y0⟩ = true := by
          simp only [fp.hit, decide_eq_true_eq, ge_iff_le]
          exact ⟨Dbl.le_of_lt hin'.1, Dbl.le_of_lt hin'.2.1, Dbl.le_of_lt hin'.2.2.1,
            Dbl.le_of_lt hin'.2.2.2⟩
        rw [hh]
        simp [path_log]
    · -- a sector drawn in the sub-directory of this entry
      obtain ⟨hmode, hlev, hch⟩ := eligible_eq_some hel
      have hr := (fp_draw_ring_inside_radius g hw).1 d _ _ _ _ _ h hin
      have hbnd : ((level : Int) + 2) * g.ring_width ≤ 2 ^ 53 := by
        have : (level : Int) + 2 ≤ g.depth := by omega
        nlinarith
      have hreq := r_to_round64_eq g level hw hbnd
      have hgt : fp.r_to Dbl.round64 g level < g.spot_r := by
        rw [hreq]
        exact hr
      cases j with
      | zero =>
        exfalso
        simp only [Nat.cast_zero] at hd
        omega
      | succ j' =>
        have hjc : ((j' + 1 : Nat) : ℚ) = (j' : ℚ) + 1 := by push_cast; ring
        rw [hjc] at h2 hm
        have hj' : (0 : ℚ) ≤ (j' : ℚ) := Nat.cast_nonneg j'
        have hm' : g.spot_r < fp.r_to Dbl.round64 g (level + 1)
            ∨ ∃ c x a2 r1 r2 h b, op = draw_op.ring c (Dbl.fin x) a2 r1 r2 h b
                ∧ Dbl.fin (x + (j' : ℚ) * span_slack n) < g.spot_a := by
          rcases hm with hm | ⟨c, x, a2, r1, r2, hh, b, e1, e2⟩
          · exact absurd (Dbl.lt_trans hm hgt) (Dbl.lt_irrefl _)
          · exact Or.inr ⟨c, x, a2, r1, r2, hh, b, e1,
              Dbl.lt_of_le_of_lt ((Dbl.fin_le _ _).2 (by nlinarith)) e2⟩
        obtain ⟨names, hn1, hn2⟩ := ihd d hch (level + 1) j' x0 y0 (chain ++ [name]) part op
          (hcd d hmode hch) (hbd d hmode hch) hx0 hxy hrep (by push_cast at hd ⊢; omega)
          (by nlinarith) h hin hm'
        refine ⟨name :: names, ?_, ?_⟩
        · rw [hn1]
          simp
        · have hnh : fp.hit Dbl.round64 g ⟨[name], level, Dbl.fin x0, Dbl.fin y0⟩ = false :=
            fp_not_hit_of_radius_gt hgt
          simp only [hnh, Bool.false_eq_true, if_false, hel, hn2, if_true]
          simp [path_log]
    · -- a sector of a later sibling
      obtain ⟨names, hn1, hn2⟩ := ihes level j a_range size_total size_min size_max chain _ hi
        part op hce hbe hrest hd h2 h hin hm
      obtain ⟨c, a1, a2, r1, r2, hh, b, e1, hle⟩ :=
        (fp_draw_ring_inside_start Dbl.round64 g).2 _ _ _ _ _ _ _ _ _ h hin
      have hin' := hin
      rw [e1] at hin'
      have ha : Dbl.fin y0 < g.spot_a := Dbl.lt_of_le_of_lt hle hin'.1
      refine ⟨names, hn1, ?_⟩
      have hnh : fp.hit Dbl.round64 g ⟨[name], level, Dbl.fin x0, Dbl.fin y0⟩ = false :=
        fp_not_hit_of_angle_gt ha
      simp only [hnh, Bool.false_eq_true, if_false]
      cases hel : eligible g level mode child with
      | none => exact hn2
      | some d =>
        obtain ⟨hmode, hlev, hch⟩ := eligible_eq_some hel
        have hd0 : fp.find_spot Dbl.round64 g d (level + 1) (Dbl.fin x0) (Dbl.fin y0) part
            = (false, part) := by
          rcases hm with hm | ⟨c', x, a2', r1', r2', hh', b', e1', e2'⟩
          · have hbnd : ((level : Int) + 2) * g.ring_width ≤ 2 ^ 53 := by
              have : (level : Int) + 2 ≤ g.depth := by omega
              nlinarith
            rw [r_to_round64_eq g level hw hbnd] at hm
            exact (fp_find_spot_radius_below Dbl.round64 g).1 d _ _ _ _ (fun l hl =>
              Dbl.lt_of_lt_of_le hm (r_from_round64_mono g hw hl))
          · rw [e1] at e1'
            simp only [draw_op.ring.injEq] at e1'
            have hax : a1 = Dbl.fin x := e1'.2.1
            rw [hax] at hle
            have hyx : y0 ≤ x := (Dbl.fin_le _ _).1 hle
            cases j with
            | zero =>
              exfalso
              simp only [Nat.cast_zero] at hd
              omega
            | succ j' =>
              have hjc : ((j' + 1 : Nat) : ℚ) = (j' : ℚ) + 1 := by push_cast; ring
              rw [hjc] at h2 e2'
              exact (find_spot_angle_above_round64 g n hn).1 d (level + 1) j' x0 y0 part
                (hcd d hmode hch) (hbd d hmode hch) hx0 hxy hrep (by push_cast at hd ⊢; omega)
                (by nlinarith)
                (Dbl.lt_of_le_of_lt ((Dbl.fin_le _ _).2 (by nlinarith)) e2')
        simp only [hd0, Bool.false_eq_true, if_false]
        exact hn2


/-- Counterexample to C1 as stated: in the consistent tree `dir_overlap` drawn
with image size 300 and depth 4 in binary64 arithmetic, the accumulated angle
after the sixth entry is `1/2 - 2^-54`, so the sector of `e7/x` is drawn from
`1/2 - 2^-54` to about `0.583` in the band `81 .. 108`; the span of `e6`
re-divided among its children ends at `1/2`, so the probe `(1/2, 90)`, which
lies strictly inside the sector of `e7/x`, passes the closed match test of
`e6/c2` first and `find_spot` records `e6`, `c2`. -/
theorem C1_probe_in_sector_finds_neighbour :
    sizes_consistent dir_overlap = true
      ∧ draw_op.ring ["e7", "x"] (Dbl.fin (9007199254740991 / 18014398509481984))
          (Dbl.fin (2627099782632789 / 4503599627370496)) 81 108 0
          (Dbl.fin (7782220156096217 / 18014398509481984))
        ∈ fp.draw_ring Dbl.round64
          { graph_init 300 4 with spot_a := Dbl.fin (1 / 2), spot_r := Dbl.fin 90 }
          dir_overlap 1 0 1 []
      ∧ strictly_inside
          { graph_init 300 4 with spot_a := Dbl.fin (1 / 2), spot_r := Dbl.fin 90 }
          (draw_op.ring ["e7", "x"] (Dbl.fin (9007199254740991 / 18014398509481984))
            (Dbl.fin (2627099782632789 / 4503599627370496)) 81 108 0
            (Dbl.fin (7782220156096217 / 18014398509481984)))
      ∧ fp.find_spot Dbl.round64
          { graph_init 300 4 with spot_a := Dbl.fin (1 / 2), spot_r := Dbl.fin 90 }
          dir_overlap 1 0 1 [] = (true, [(1, "e6"), (2, "c2")]) := by
  refine ⟨by decide, by decide!, ?_, by decide!⟩
  simp only [strictly_inside]
  decide!


/-- C1 (render/hit-test consistency, drawn implies found; amended to binary64
arithmetic): let the probe of `g` lie strictly inside the angular span and the
radius band of a ring sector that `draw_ring` draws from level 1 with span
0..1, and let `depth >= 2`.  Then (1) `find_spot` visits the entry of that
sector, with the chain of names of the sector, and the probe passes its match
test; (2) `find_spot` started the same way returns found, and the names it
stores are the chain of the first visited entry whose match test the probe
passes; (3) every store is made at an index from 1 to `depth - 1`.  (4) When
moreover the sizes of the tree are consistent, every directory has a total
size below `2^63` and at most `n <= 2^32` entries, `0 <= ring_width`,
`depth * ring_width <= 2^53` and `(depth - 1) * span_slack n <= 1`, the names
stored are exactly the chain of the sector, provided the sector lies in the
ring of level 1 or the probe angle exceeds the start angle of the sector by
more than `(depth - 2) * span_slack n = (depth - 2) * (4 n + 14) * 2^-53`
turns. -/
theorem C1_drawn_found_rounded (g : graph) (d : duc_dir) (n : Nat) (op : draw_op)
    (hop : op ∈ fp.draw_ring Dbl.round64 g d 1 0 1 [])
    (hin : strictly_inside g op) (hdepth : 2 ≤ g.depth) :
    (∃ v ∈ fp.find_visits Dbl.round64 g d 1 0 1,
        ring_chain op = some v.chain ∧ fp.hit Dbl.round64 g v = true)
      ∧ (∃ v, (fp.find_visits Dbl.round64 g d 1 0 1).find? (fp.hit Dbl.round64 g) = some v
          ∧ fp.find_spot Dbl.round64 g d 1 0 1 [] = (true, path_log 1 v.chain))
      ∧ (∀ w ∈ (fp.find_spot Dbl.round64 g d 1 0 1 []).2, 1 ≤ w.1 ∧ (w.1 : Int) < g.depth)
      ∧ (sizes_consistent d = true → tree_bounded n d = true → n ≤ 2 ^ 32 →
          0 ≤ g.ring_width → g.depth * g.ring_width ≤ 2 ^ 53 →
          ((g.depth : ℚ) - 1) * span_slack n ≤ 1 →
          ∀ (c : List String) (x : ℚ) (a2 r1 r2 h b : Dbl),
            op = draw_op.ring c (Dbl.fin x) a2 r1 r2 h b →
            (r2 = fp.r_to Dbl.round64 g 1
              ∨ Dbl.fin (x + ((g.depth : ℚ) - 2) * span_slack n) < g.spot_a) →
            fp.find_spot Dbl.round64 g d 1 0 1 [] = (true, path_log 1 c)) := by
  obtain ⟨v, hv, hh, hch⟩ := (fp_drawn_visited Dbl.round64 g).1 d 1 0 1 [] op hop hin
  have hfirst : ∃ v', (fp.find_visits Dbl.round64 g d 1 0 1).find? (fp.hit Dbl.round64 g)
      = some v' := by
    cases hf : (fp.find_visits Dbl.round64 g d 1 0 1).find? (fp.hit Dbl.round64 g) with
    | none =>
      rw [List.find?_eq_none] at hf
      exact absurd hh (hf v hv)
    | some v' => exact ⟨v', rfl⟩
  obtain ⟨v', hv'⟩ := hfirst
  have hres : fp.find_spot Dbl.round64 g d 1 0 1 [] = (true, path_log 1 v'.chain) := by
    rw [(fp_find_spot_first_hit Dbl.round64 g).1]
    simp only [fp.first_hit, hv', List.append_nil]
  refine ⟨⟨v, hv, by simpa using hch, hh⟩, ⟨v', hv', hres⟩, ?_, ?_⟩
  · intro w hw
    rw [hres] at hw
    obtain ⟨m1, m2⟩ := mem_path_log v'.chain 1 hw
    obtain ⟨l1, l2, l3⟩ := (fp_find_visits_levels Dbl.round64 g).1 d 1 0 1 v'
      (List.mem_of_find?_eq_some hv')
    refine ⟨m1, ?_⟩
    rcases l2 with l2 | l2
    · have : w.1 = 1 := by omega
      rw [this]
      omega
    · have : w.1 ≤ v'.level := by omega
      have h' : (w.1 : Int) ≤ (v'.level : Int) := by exact_mod_cast this
      omega
  · intro hc hb hn hw hrad hslack c x a2 r1 r2 h b hopeq hm
    obtain ⟨j, hj⟩ : ∃ j : Nat, (j : Int) = g.depth - 2 := ⟨(g.depth - 2).toNat, by omega⟩
    have hjq : (j : ℚ) = (g.depth : ℚ) - 2 := by
      have : ((j : Int) : ℚ) = ((g.depth - 2 : Int) : ℚ) := by rw [hj]
      push_cast at this
      exact this
    have hop' : op ∈ fp.draw_ring Dbl.round64 g d 1 (Dbl.fin 0) (Dbl.fin 1) [] := by
      simpa using hop
    have hin' := hin
    rw [hopeq] at hin'
    have hm' : g.spot_r < fp.r_to Dbl.round64 g 1
        ∨ ∃ c x a2 r1 r2 h b, op = draw_op.ring c (Dbl.fin x) a2 r1 r2 h b
            ∧ Dbl.fin (x + (j : ℚ) * span_slack n) < g.spot_a := by
      rcases hm with hm | hm
      · left
        rw [← hm]
        exact hin'.2.2.2
      · right
        refine ⟨c, x, a2, r1, r2, h, b, hopeq, ?_⟩
        rw [hjq]
        exact hm
    obtain ⟨names, hn1, hn2⟩ := (draw_ring_inside_found_round64 g n hn hw hrad).1 d 1 j 0 1 [] []
      op hc hb le_rfl (by norm_num) representable_zero (by push_cast; omega)
      (by rw [hjq]; linarith) hop' hin hm'
    have hnc : names = c := by
      rw [hopeq] at hn1
      simpa [ring_chain] using hn1.symm
    have e0 : fp.find_spot Dbl.round64 g d 1 (Dbl.fin 0) (Dbl.fin 1) []
        = fp.find_spot Dbl.round64 g d 1 0 1 [] := by
      simp
    rw [← e0, hn2, hnc]
    simp


theorem C1_drawn_found_rounded_witness :
    sizes_consistent dir_overlap = true ∧ tree_bounded 12 dir_overlap = true
      ∧ draw_op.ring ["e7", "x"] (Dbl.fin (9007199254740991 / 18014398509481984))
          (Dbl.fin (2627099782632789 / 4503599627370496)) 81 108 0
          (Dbl.fin (7782220156096217 / 18014398509481984))
        ∈ fp.draw_ring Dbl.round64
          { graph_init 300 4 with spot_a := Dbl.fin (9 / 16), spot_r := Dbl.fin 90 }
          dir_overlap 1 0 1 []
      ∧ strictly_inside
          { graph_init 300 4 with spot_a := Dbl.fin (9 / 16), spot_r := Dbl.fin 90 }
          (draw_op.ring ["e7", "x"] (Dbl.fin (9007199254740991 / 18014398509481984))
            (Dbl.fin (2627099782632789 / 4503599627370496)) 81 108 0
            (Dbl.fin (7782220156096217 / 18014398509481984)))
      ∧ fp.find_spot Dbl.round64
          { graph_init 300 4 with spot_a := Dbl.fin (9 / 16), spot_r := Dbl.fin 90 }
          dir_overlap 1 0 1 [] = (true, [(1, "e7"), (2, "x")]) := by
  have hin : strictly_inside
      { graph_init 300 4 with spot_a := Dbl.fin (9 / 16), spot_r := Dbl.fin 90 }
      (draw_op.ring ["e7", "x"] (Dbl.fin (9007199254740991 / 18014398509481984))
        (Dbl.fin (2627099782632789 / 4503599627370496)) 81 108 0
        (Dbl.fin (7782220156096217 / 18014398509481984))) := by
    simp only [strictly_inside]
    decide!
  refine ⟨by decide, by decide, by decide!, hin, ?_⟩
  exact (C1_drawn_found_rounded
    { graph_init 300 4 with spot_a := Dbl.fin (9 / 16), spot_r := Dbl.fin 90 }
    dir_overlap 12 _ (by decide!) hin (by decide)).2.2.2 (by decide) (by decide) (by norm_num)
    (by decide) (by decide) (by decide!) ["e7", "x"] _ _ _ _ _ _ rfl (Or.inr (by decide!))


/-! ## The polar conversions in binary64 arithmetic -/

/-- The constant `M_PI` lies within `2^-52` below `pi`. -/
theorem pi_sub_M_PI : 0 ≤ Real.pi - (M_PI_q : ℝ) ∧ Real.pi - (M_PI_q : ℝ) ≤ 1 / 2 ^ 52 := by
  have h1 := Real.pi_gt_d20
  have h2 := Real.pi_lt_d20
  unfold M_PI_q
  constructor
  · norm_num at h1 ⊢
    linarith
  · norm_num at h2 ⊢
    linarith

theorem abs_sin_sub_sin_le (x y : ℝ) : |Real.sin x - Real.sin y| ≤ |x - y| := by
  rw [Real.sin_sub_sin]
  have h1 : |Real.sin ((x - y) / 2)| ≤ |(x - y) / 2| := Real.abs_sin_le_abs
  have h2 : |Real.cos ((x + y) / 2)| ≤ 1 := Real.abs_cos_le_one _
  rw [abs_mul, abs_mul, abs_two]
  have h3 : |(x - y) / 2| = |x - y| / 2 := by
    rw [abs_div, abs_two]
  rw [h3] at h1
  have h4 : 0 ≤ |Real.sin ((x - y) / 2)| := abs_nonneg _
  nlinarith [abs_nonneg (Real.cos ((x + y) / 2)), abs_nonneg (x - y)]

theorem abs_cos_sub_cos_le (x y : ℝ) : |Real.cos x - Real.cos y| ≤ |x - y| := by
  rw [Real.cos_sub_cos]
  have h1 : |Real.sin ((x - y) / 2)| ≤ |(x - y) / 2| := Real.abs_sin_le_abs
  have h2 : |Real.sin ((x + y) / 2)| ≤ 1 := Real.abs_sin_le_one _
  rw [abs_mul, abs_mul, abs_neg, abs_two]
  have h3 : |(x - y) / 2| = |x - y| / 2 := by
    rw [abs_div, abs_two]
  rw [h3] at h1
  have h4 : 0 ≤ |Real.sin ((x - y) / 2)| := abs_nonneg _
  nlinarith [abs_nonneg (Real.sin ((x + y) / 2)), abs_nonneg (x - y)]

theorem representable_two_pow (k : Nat) : Dbl.representable (2 ^ k) :=
  ⟨1, k, by norm_num, by omega, by simp⟩

/-- Rounding keeps a value within a bound that is a power of two. -/
theorem r64_abs_le {q : ℚ} {k : Nat} (h : |q| ≤ 2 ^ k) : |Dbl.r64 q| ≤ 2 ^ k := by
  rw [abs_le] at h ⊢
  have h1 := r64_mono h.1
  have h2 := r64_mono h.2
  rw [r64_fix (representable_neg (representable_two_pow k))] at h1
  rw [r64_fix (representable_two_pow k)] at h2
  exact ⟨h1, h2⟩

/-- The rounding error of a value of magnitude at most `B`. -/
theorem r64_err_le {q B : ℚ} (h : |q| ≤ B) : |Dbl.r64 q - q| ≤ (B + 1) * unit_roundoff := by
  have hu := unit_roundoff_pos
  have h1 := r64_abs_err q
  have h2 : underflow_unit ≤ unit_roundoff := by
    unfold underflow_unit unit_roundoff
    norm_num
  have h3 : |q| * unit_roundoff ≤ B * unit_roundoff := mul_le_mul_of_nonneg_right h hu.le
  linarith

/-- Rounding of a value of magnitude at most `2^k`, `k <= 1000`, gives a
finite double. -/
theorem round64_of_abs_le {q : ℚ} {k : Nat} (hk : k ≤ 1000) (h : |q| ≤ 2 ^ k) :
    Dbl.round64 q = Dbl.fin (Dbl.r64 q) := by
  have hb := r64_abs_le h
  rw [abs_le] at hb
  have hp : (2 : ℚ) ^ k < 2 ^ 1024 := by
    apply pow_lt_pow_right₀ (by norm_num)
    omega
  exact round64_eq_fin (by linarith) (by linarith)

theorem fp_mul_fin {a b : ℚ} {k : Nat} (hk : k ≤ 1000) (h : |a * b| ≤ 2 ^ k) :
    fp.mul Dbl.round64 (Dbl.fin a) (Dbl.fin b) = Dbl.fin (Dbl.r64 (a * b)) := by
  simp only [fp.mul, Dbl.fin_mul, Dbl.rounded]
  exact round64_of_abs_le hk h

theorem fp_add_fin {a b : ℚ} {k : Nat} (hk : k ≤ 1000) (h : |a + b| ≤ 2 ^ k) :
    fp.add Dbl.round64 (Dbl.fin a) (Dbl.fin b) = Dbl.fin (Dbl.r64 (a + b)) := by
  simp only [fp.add, Dbl.fin_add, Dbl.rounded]
  exact round64_of_abs_le hk h

theorem fp_div_fin {a b : ℚ} {k : Nat} (hk : k ≤ 1000) (hb : b ≠ 0) (h : |a / b| ≤ 2 ^ k) :
    fp.div Dbl.round64 (Dbl.fin a) (Dbl.fin b) = Dbl.fin (Dbl.r64 (a / b)) := by
  simp only [fp.div, Dbl.fin_div, hb, if_false, Dbl.rounded]
  exact round64_of_abs_le hk h

theorem fp_ofInt_fin {n : Int} (h : |n| ≤ 2 ^ 53) : fp.ofInt Dbl.round64 n = Dbl.fin n :=
  round64_int h


theorem representable_M_PI_scaled (e : Int) (he : -1074 ≤ e) :
    Dbl.representable (M_PI_q * 2 ^ (e + 48)) := by
  refine ⟨884279719003555, e, by norm_num, he, ?_⟩
  unfold M_PI_q
  rw [zpow_add₀ (by norm_num : (2 : ℚ) ≠ 0)]
  norm_num
  ring

theorem M_PI_q_bounds : 3 < M_PI_q ∧ M_PI_q < 22 / 7 := by
  unfold M_PI_q
  constructor <;> norm_num

theorem dbl_two_eq : (2 : Dbl) = Dbl.fin 2 := by
  show Dbl.fin ((2 : Nat) : ℚ) = Dbl.fin 2
  norm_num

theorem dbl_one_eq : (1 : Dbl) = Dbl.fin 1 := by
  show Dbl.fin ((1 : Nat) : ℚ) = Dbl.fin 1
  norm_num

theorem dbl_zero_eq : (0 : Dbl) = Dbl.fin 0 := by
  show Dbl.fin ((0 : Nat) : ℚ) = Dbl.fin 0
  norm_num

theorem neg_M_PI_eq : -M_PI = Dbl.fin (-M_PI_q) := rfl

/-- The product `M_PI * 2` is exact. -/
theorem two_M_PI_round64 : fp.mul Dbl.round64 M_PI 2 = Dbl.fin (2 * M_PI_q) := by
  have hrep : Dbl.representable (M_PI_q * 2) := by
    have := representable_M_PI_scaled (-47) (by norm_num)
    norm_num at this
    exact this
  have hb := M_PI_q_bounds
  rw [M_PI_eq, dbl_two_eq]
  simp only [fp.mul, Dbl.fin_mul, Dbl.rounded]
  rw [round64_fix hrep (by linarith) (by linarith), mul_comm]

/-- The product `-M_PI * 0.5` is exact. -/
theorem half_M_PI_round64 :
    fp.mul Dbl.round64 (-M_PI) (fp.lit Dbl.round64 (1 / 2)) = Dbl.fin (-(M_PI_q / 2)) := by
  have hrep : Dbl.representable (-(M_PI_q / 2)) := by
    have := representable_neg (representable_M_PI_scaled (-49) (by norm_num))
    norm_num at this
    have e : -(M_PI_q / 2) = -(M_PI_q * (1 / 2)) := by ring
    rw [e]
    exact this
  have hb := M_PI_q_bounds
  have hl : fp.lit Dbl.round64 (1 / 2) = Dbl.fin (1 / 2) := by
    unfold fp.lit
    exact round64_fix representable_half (by norm_num) (by norm_num)
  rw [hl, neg_M_PI_eq]
  simp only [fp.mul, Dbl.fin_mul, Dbl.rounded]
  have e : -M_PI_q * (1 / 2) = -(M_PI_q / 2) := by ring
  rw [e, round64_fix hrep (by linarith) (by linarith)]

/-- The angle `ang a` of a number of turns `a` in `[0, 1]`, computed in
binary64, is finite and within `32 * 2^-53` of `2 * M_PI * a - M_PI / 2`. -/
theorem ang_round64 {a : ℚ} (h0 : 0 ≤ a) (h1 : a ≤ 1) :
    ∃ th : ℚ, fp.ang Dbl.round64 (Dbl.fin a) = Dbl.fin th
      ∧ |th - (2 * M_PI_q * a - M_PI_q / 2)| ≤ 32 * unit_roundoff := by
  have hb := M_PI_q_bounds
  have hu := unit_roundoff_pos
  have hw : |2 * M_PI_q * a| ≤ 2 ^ 3 := by
    rw [abs_of_nonneg (by nlinarith)]
    nlinarith
  have hw7 : |2 * M_PI_q * a| ≤ 7 := by
    rw [abs_of_nonneg (by nlinarith)]
    nlinarith
  have e1 := r64_err_le hw7
  have b1 := r64_abs_le hw
  have hs : |-(M_PI_q / 2) + Dbl.r64 (2 * M_PI_q * a)| ≤ 2 ^ 4 := by
    rw [abs_le] at b1 ⊢
    constructor <;> norm_num at b1 ⊢ <;> linarith
  have hs15 : |-(M_PI_q / 2) + Dbl.r64 (2 * M_PI_q * a)| ≤ 15 := by
    rw [abs_le] at b1 ⊢
    constructor <;> norm_num at b1 ⊢ <;> linarith
  have e2 := r64_err_le hs15
  refine ⟨Dbl.r64 (-(M_PI_q / 2) + Dbl.r64 (2 * M_PI_q * a)), ?_, ?_⟩
  · unfold fp.ang
    rw [half_M_PI_round64, two_M_PI_round64, fp_mul_fin (by norm_num) hw,
      fp_add_fin (by norm_num) hs]
  · rw [abs_le] at e1 e2 ⊢
    constructor <;> linarith


/-- The normalisation of `car2pol` (lines 57-58) in binary64: an angle `al` of
magnitude at most 4 radians becomes a number of turns `a` in `[0, 1]` with
`2 * M_PI * a` within `32 * 2^-53` of `al` or of `al + 2 * M_PI`. -/
theorem normalise_round64 {al : ℚ} (hal : |al| ≤ 4) :
    ∃ a k : ℚ,
      (if fp.div Dbl.round64 (Dbl.fin al) (fp.mul Dbl.round64 M_PI 2) < 0
        then fp.add Dbl.round64 (fp.div Dbl.round64 (Dbl.fin al) (fp.mul Dbl.round64 M_PI 2)) 1
        else fp.div Dbl.round64 (Dbl.fin al) (fp.mul Dbl.round64 M_PI 2)) = Dbl.fin a
      ∧ 0 ≤ a ∧ a ≤ 1 ∧ (k = 0 ∨ k = 1)
      ∧ |2 * M_PI_q * a - al - 2 * M_PI_q * k| ≤ 32 * unit_roundoff := by
  have hb := M_PI_q_bounds
  have hu := unit_roundoff_pos
  have hM : (0 : ℚ) < 2 * M_PI_q := by linarith
  have hq : |al / (2 * M_PI_q)| ≤ 1 := by
    rw [abs_div, abs_of_pos hM, div_le_one hM]
    linarith
  have hq' : |al / (2 * M_PI_q)| ≤ 2 ^ 0 := by simpa using hq
  have b0 := r64_abs_le hq'
  have e0 := r64_err_le hq
  rw [two_M_PI_round64, fp_div_fin (by norm_num) hM.ne' hq', dbl_zero_eq, dbl_one_eq]
  have hmul : 2 * M_PI_q * (al / (2 * M_PI_q)) = al := by field_simp
  have e0' : |2 * M_PI_q * Dbl.r64 (al / (2 * M_PI_q)) - al| ≤ 14 * unit_roundoff := by
    have : 2 * M_PI_q * Dbl.r64 (al / (2 * M_PI_q)) - al
        = 2 * M_PI_q * (Dbl.r64 (al / (2 * M_PI_q)) - al / (2 * M_PI_q)) := by
      rw [mul_sub, hmul]
    rw [this, abs_mul, abs_of_pos hM]
    have h14 : 2 * M_PI_q * |Dbl.r64 (al / (2 * M_PI_q)) - al / (2 * M_PI_q)|
        ≤ 7 * ((1 + 1) * unit_roundoff) :=
      mul_le_mul (by linarith) e0 (abs_nonneg _) (by norm_num)
    linarith
  by_cases hneg : Dbl.r64 (al / (2 * M_PI_q)) < 0
  · have hlt : Dbl.fin (Dbl.r64 (al / (2 * M_PI_q))) < Dbl.fin 0 := (Dbl.fin_lt _ _).2 hneg
    rw [if_pos hlt]
    simp only [pow_zero] at b0
    rw [abs_le] at b0
    have hs0 : 0 ≤ Dbl.r64 (al / (2 * M_PI_q)) + 1 := by linarith
    have hs1 : Dbl.r64 (al / (2 * M_PI_q)) + 1 ≤ 1 := by linarith
    have hs : |Dbl.r64 (al / (2 * M_PI_q)) + 1| ≤ 2 ^ 0 := by
      rw [abs_of_nonneg hs0]
      simpa using hs1
    have hs' : |Dbl.r64 (al / (2 * M_PI_q)) + 1| ≤ 1 := by simpa using hs
    have e1 := r64_err_le hs'
    have m0 := r64_mono hs0
    have m1 := r64_mono hs1
    rw [r64_zero] at m0
    have hone : Dbl.r64 1 = 1 := by
      have := r64_fix (representable_two_pow 0)
      simpa using this
    rw [hone] at m1
    refine ⟨Dbl.r64 (Dbl.r64 (al / (2 * M_PI_q)) + 1), 1, fp_add_fin (by norm_num) hs, m0, m1,
      Or.inr rfl, ?_⟩
    have e1' : |2 * M_PI_q * Dbl.r64 (Dbl.r64 (al / (2 * M_PI_q)) + 1)
        - 2 * M_PI_q * (Dbl.r64 (al / (2 * M_PI_q)) + 1)| ≤ 14 * unit_roundoff := by
      rw [← mul_sub, abs_mul, abs_of_pos hM]
      have h14 : 2 * M_PI_q * |Dbl.r64 (Dbl.r64 (al / (2 * M_PI_q)) + 1)
          - (Dbl.r64 (al / (2 * M_PI_q)) + 1)| ≤ 7 * ((1 + 1) * unit_roundoff) :=
        mul_le_mul (by linarith) e1 (abs_nonneg _) (by norm_num)
      linarith
    clear hlt
    rw [abs_le] at e0' e1' ⊢
    constructor <;> linarith
  · have hlt : ¬ Dbl.fin (Dbl.r64 (al / (2 * M_PI_q))) < Dbl.fin 0 := by
      rw [Dbl.fin_lt]
      exact hneg
    rw [if_neg hlt]
    simp only [pow_zero] at b0
    rw [abs_le] at b0
    refine ⟨Dbl.r64 (al / (2 * M_PI_q)), 0, rfl, not_lt.1 hneg, b0.2, Or.inl rfl, ?_⟩
    clear hlt
    rw [abs_le] at e0' ⊢
    constructor <;> linarith

/-- The function `car2pol` in binary64, for a pixel within `2^53` of the
centre at which `hypot` returns `rho` and `atan2` an angle `al` of magnitude at
most 4: the result is `(a, rho)` with `a` in `[0, 1]` and `2 * M_PI * a` within
`32 * 2^-53` of `al` or of `al + 2 * M_PI`. -/
theorem car2pol_round64 {lc : libc} {g : graph} {x y : Int} {rho al : ℚ}
    (hx : |x - g.cx| ≤ 2 ^ 53) (hy : |y - g.cy| ≤ 2 ^ 53)
    (hrho : lc.hypot (Dbl.fin ((y - g.cy : Int) : ℚ)) (Dbl.fin ((x - g.cx : Int) : ℚ))
      = Dbl.fin rho)
    (hat : lc.atan2 (Dbl.fin ((x - g.cx : Int) : ℚ)) (Dbl.fin ((-(y - g.cy) : Int) : ℚ))
      = Dbl.fin al)
    (hal : |al| ≤ 4) :
    ∃ a k : ℚ, fp.car2pol Dbl.round64 lc g x y = (Dbl.fin a, Dbl.fin rho)
      ∧ 0 ≤ a ∧ a ≤ 1 ∧ (k = 0 ∨ k = 1)
      ∧ |2 * M_PI_q * a - al - 2 * M_PI_q * k| ≤ 32 * unit_roundoff := by
  obtain ⟨a, k, h1, h2, h3, h4, h5⟩ := normalise_round64 hal
  refine ⟨a, k, ?_, h2, h3, h4, h5⟩
  have hy' : |-(y - g.cy)| ≤ 2 ^ 53 := by rwa [abs_neg]
  simp only [fp.car2pol, fp_ofInt_fin hx, fp_ofInt_fin hy, fp_ofInt_fin hy', hrho, hat]
  rw [h1]


/-- The polar form of the point `(-dy, dx)`: norm times cosine and sine of the
argument give back the coordinates. -/
theorem polar_form (dx dy : ℝ) :
    Real.sqrt (dx ^ 2 + dy ^ 2) * Real.cos (Complex.arg (Complex.mk (-dy) dx)) = -dy
      ∧ Real.sqrt (dx ^ 2 + dy ^ 2) * Real.sin (Complex.arg (Complex.mk (-dy) dx)) = dx
      ∧ |Complex.arg (Complex.mk (-dy) dx)| ≤ Real.pi := by
  have habs : Complex.abs (Complex.mk (-dy) dx) = Real.sqrt (dx ^ 2 + dy ^ 2) := by
    rw [Complex.abs_apply, Complex.normSq_mk]
    congr 1
    ring
  refine ⟨?_, ?_, Complex.abs_arg_le_pi _⟩
  · rw [← habs, Complex.abs_mul_cos_arg]
  · rw [← habs, Complex.abs_mul_sin_arg]

theorem unit_roundoff_real : (unit_roundoff : ℝ) = 1 / 2 ^ 53 := by
  unfold unit_roundoff
  push_cast
  ring

/-- From turns back to the angle: when `2 * M_PI * a` is within `32 * 2^-53` of
`al + 2 * M_PI * k` for a whole `k` in `{0, 1}`, `a` in `[0, 1]`, and `al` is
within `delta` of an angle `A`, the sine and the cosine of `2 pi a` are within
`delta + 2^-47` of those of `A`. -/
theorem turns_trig {a k al delta : ℚ} {A : ℝ} (h0 : 0 ≤ a) (h1 : a ≤ 1) (hk : k = 0 ∨ k = 1)
    (h : |2 * M_PI_q * a - al - 2 * M_PI_q * k| ≤ 32 * unit_roundoff)
    (hA : |(al : ℝ) - A| ≤ (delta : ℝ)) :
    |Real.sin (2 * Real.pi * (a : ℝ)) - Real.sin A| ≤ (delta : ℝ) + 1 / 2 ^ 47
      ∧ |Real.cos (2 * Real.pi * (a : ℝ)) - Real.cos A| ≤ (delta : ℝ) + 1 / 2 ^ 47 := by
  obtain ⟨p0, p1⟩ := pi_sub_M_PI
  have hR : |2 * (M_PI_q : ℝ) * (a : ℝ) - (al : ℝ) - 2 * (M_PI_q : ℝ) * (k : ℝ)|
      ≤ 32 * (unit_roundoff : ℝ) := by
    exact_mod_cast h
  rw [unit_roundoff_real] at hR
  have ha0 : (0 : ℝ) ≤ (a : ℝ) := by exact_mod_cast h0
  have ha1 : (a : ℝ) ≤ 1 := by exact_mod_cast h1
  have hkk : |(a : ℝ) - (k : ℝ)| ≤ 1 := by
    rcases hk with rfl | rfl
    · rw [abs_le]
      constructor <;> push_cast <;> linarith
    · rw [abs_le]
      constructor <;> push_cast <;> linarith
  have hd : |2 * Real.pi * (a : ℝ) - (A + 2 * Real.pi * (k : ℝ))| ≤ (delta : ℝ) + 1 / 2 ^ 47 := by
    have e : 2 * Real.pi * (a : ℝ) - (A + 2 * Real.pi * (k : ℝ))
        = (2 * (M_PI_q : ℝ) * (a : ℝ) - (al : ℝ) - 2 * (M_PI_q : ℝ) * (k : ℝ))
          + ((al : ℝ) - A) + 2 * (Real.pi - (M_PI_q : ℝ)) * ((a : ℝ) - (k : ℝ)) := by
      ring
    have h3 : |2 * (Real.pi - (M_PI_q : ℝ)) * ((a : ℝ) - (k : ℝ))| ≤ 2 * (1 / 2 ^ 52) := by
      rw [abs_mul, abs_mul, abs_two, abs_of_nonneg p0]
      have := mul_le_mul p1 hkk (abs_nonneg _) (by norm_num)
      nlinarith
    rw [e]
    have t1 := abs_add_three (2 * (M_PI_q : ℝ) * (a : ℝ) - (al : ℝ) - 2 * (M_PI_q : ℝ) * (k : ℝ))
      ((al : ℝ) - A) (2 * (Real.pi - (M_PI_q : ℝ)) * ((a : ℝ) - (k : ℝ)))
    norm_num at hR h3 ⊢
    linarith
  have hper : Real.sin (A + 2 * Real.pi * (k : ℝ)) = Real.sin A
      ∧ Real.cos (A + 2 * Real.pi * (k : ℝ)) = Real.cos A := by
    rcases hk with rfl | rfl
    · simp
    · simp [Real.sin_add_two_pi, Real.cos_add_two_pi]
  constructor
  · rw [← hper.1]
    exact (abs_sin_sub_sin_le _ _).trans hd
  · rw [← hper.2]
    exact (abs_cos_sub_cos_le _ _).trans hd

/-- The angle of `ang`: when `th` is within `32 * 2^-53` of
`2 * M_PI * a - M_PI / 2` and `a` lies in `[0, 1]`, the cosine of `th` is within
`2^-47` of `sin (2 pi a)` and its sine within `2^-47` of `-cos (2 pi a)`. -/
theorem ang_trig {a th : ℚ} (h0 : 0 ≤ a) (h1 : a ≤ 1)
    (h : |th - (2 * M_PI_q * a - M_PI_q / 2)| ≤ 32 * unit_roundoff) :
    |Real.cos (th : ℝ) - Real.sin (2 * Real.pi * (a : ℝ))| ≤ 1 / 2 ^ 47
      ∧ |Real.sin (th : ℝ) + Real.cos (2 * Real.pi * (a : ℝ))| ≤ 1 / 2 ^ 47 := by
  obtain ⟨p0, p1⟩ := pi_sub_M_PI
  have hR : |(th : ℝ) - (2 * (M_PI_q : ℝ) * (a : ℝ) - (M_PI_q : ℝ) / 2)|
      ≤ 32 * (unit_roundoff : ℝ) := by
    exact_mod_cast h
  rw [unit_roundoff_real] at hR
  have ha0 : (0 : ℝ) ≤ (a : ℝ) := by exact_mod_cast h0
  have ha1 : (a : ℝ) ≤ 1 := by exact_mod_cast h1
  have hd : |(th : ℝ) - (2 * Real.pi * (a : ℝ) - Real.pi / 2)| ≤ 1 / 2 ^ 47 := by
    have e : (th : ℝ) - (2 * Real.pi * (a : ℝ) - Real.pi / 2)
        = ((th : ℝ) - (2 * (M_PI_q : ℝ) * (a : ℝ) - (M_PI_q : ℝ) / 2))
          - (Real.pi - (M_PI_q : ℝ)) * (2 * (a : ℝ) - 1 / 2) := by
      ring
    have h3 : |(Real.pi - (M_PI_q : ℝ)) * (2 * (a : ℝ) - 1 / 2)| ≤ (1 / 2 ^ 52) * (3 / 2) := by
      rw [abs_mul, abs_of_nonneg p0]
      have h4 : |2 * (a : ℝ) - 1 / 2| ≤ 3 / 2 := by
        rw [abs_le]
        constructor <;> linarith
      exact mul_le_mul p1 h4 (abs_nonneg _) (by norm_num)
    rw [e]
    have t1 := abs_sub ((th : ℝ) - (2 * (M_PI_q : ℝ) * (a : ℝ) - (M_PI_q : ℝ) / 2))
      ((Real.pi - (M_PI_q : ℝ)) * (2 * (a : ℝ) - 1 / 2))
    norm_num at hR h3 ⊢
    linarith
  constructor
  · rw [← Real.cos_sub_pi_div_two (2 * Real.pi * (a : ℝ))]
    exact (abs_cos_sub_cos_le _ _).trans hd
  · have e : Real.sin (th : ℝ) + Real.cos (2 * Real.pi * (a : ℝ))
        = Real.sin (th : ℝ) - Real.sin (2 * Real.pi * (a : ℝ) - Real.pi / 2) := by
      rw [Real.sin_sub_pi_div_two]
      ring
    rw [e]
    exact (abs_sin_sub_sin_le _ _).trans hd


/-- Conversion to `int` of a double within less than 1 of an integer `n`: the
truncation toward zero is defined and gives `n - 1`, `n` or `n + 1`. -/
theorem toInt_near {w : ℚ} {n : Int} (hn : |n| ≤ 2 ^ 30) (h : |w - n| < 1) :
    ∃ m : Int, (Dbl.fin w).toInt = some m ∧ |m - n| ≤ 1 ∧ |(m : ℚ) - w| < 1 := by
  rw [abs_lt] at h
  rw [abs_le] at hn
  by_cases h0 : 0 ≤ w
  · have f1 : (Int.floor w : ℚ) ≤ w := Int.floor_le w
    have f2 : w < (Int.floor w : ℚ) + 1 := Int.lt_floor_add_one w
    have g1 : n - 1 ≤ Int.floor w := by
      apply Int.le_floor.2
      push_cast
      linarith
    have g2 : Int.floor w ≤ n := by
      have : (Int.floor w : ℚ) < (n : ℚ) + 1 := by linarith
      have : Int.floor w < n + 1 := by exact_mod_cast this
      omega
    refine ⟨Int.floor w, ?_, ?_, ?_⟩
    · simp only [Dbl.toInt, h0, if_true]
      rw [if_pos]
      constructor <;> omega
    · rw [abs_le]
      constructor <;> omega
    · rw [abs_lt]
      constructor <;> linarith
  · have f1 : w ≤ (Int.ceil w : ℚ) := Int.le_ceil w
    have f2 : (Int.ceil w : ℚ) < w + 1 := Int.ceil_lt_add_one w
    have g1 : Int.ceil w ≤ n + 1 := by
      apply Int.ceil_le.2
      push_cast
      linarith
    have g2 : n ≤ Int.ceil w := by
      have : (n : ℚ) - 1 < (Int.ceil w : ℚ) := by linarith
      have : n - 1 < Int.ceil w := by exact_mod_cast this
      omega
    refine ⟨Int.ceil w, ?_, ?_, ?_⟩
    · simp only [Dbl.toInt, h0, if_false]
      rw [if_pos]
      constructor <;> omega
    · rw [abs_le]
      constructor <;> omega
    · rw [abs_lt]
      constructor <;> linarith

/-- One coordinate of `pol2car` before the conversion to `int`: when `c` is
within `eps` of a value `sg` of magnitude at most 1 and `rho` within the
relative error `dl` of a radius `Z`, the sum `c * rho + n` computed in
binary64 is finite and within `2^-19` of `Z * sg + n`. -/
theorem pol2car_coord {c rho eps dl : ℚ} {n : Int} {sg Z : ℝ}
    (hs : |sg| ≤ 1) (hZ0 : 0 ≤ Z) (hZ : Z ≤ 2 ^ 18) (hn : |n| ≤ 2 ^ 17)
    (he : eps ≤ 1 / 2 ^ 39) (hd0 : 0 ≤ dl) (hd : dl ≤ 1 / 2 ^ 40)
    (hc : |(c : ℝ) - sg| ≤ (eps : ℝ)) (hr : |(rho : ℝ) - Z| ≤ (dl : ℝ) * Z) :
    ∃ w : ℚ, fp.add Dbl.round64 (fp.mul Dbl.round64 (Dbl.fin c) (Dbl.fin rho))
        (fp.ofInt Dbl.round64 n) = Dbl.fin w
      ∧ |(w : ℝ) - (Z * sg + (n : ℝ))| ≤ 1 / 2 ^ 19 := by
  have heR : (eps : ℝ) ≤ 1 / 2 ^ 39 := by
    have : ((eps : ℚ) : ℝ) ≤ ((1 / 2 ^ 39 : ℚ) : ℝ) := Rat.cast_le.2 he
    push_cast at this
    exact this
  have hdR : (dl : ℝ) ≤ 1 / 2 ^ 40 := by
    have : ((dl : ℚ) : ℝ) ≤ ((1 / 2 ^ 40 : ℚ) : ℝ) := Rat.cast_le.2 hd
    push_cast at this
    exact this
  have hd0R : (0 : ℝ) ≤ (dl : ℝ) := by exact_mod_cast hd0
  have he0R : (0 : ℝ) ≤ (eps : ℝ) := (abs_nonneg _).trans hc
  have hcb : |(c : ℝ)| ≤ 2 := by
    have := abs_sub_abs_le_abs_sub (c : ℝ) sg
    linarith
  have hdZ : (dl : ℝ) * Z ≤ 1 / 2 ^ 22 := by
    have := mul_le_mul hdR hZ hZ0 (by norm_num : (0 : ℝ) ≤ 1 / 2 ^ 40)
    norm_num at this ⊢
    linarith
  have hrb : |(rho : ℝ)| ≤ 2 ^ 18 + 1 := by
    have := abs_sub_abs_le_abs_sub (rho : ℝ) Z
    rw [abs_of_nonneg hZ0] at this
    linarith
  have hprodR : |(c : ℝ) * (rho : ℝ)| ≤ 2 ^ 20 := by
    rw [abs_mul]
    have := mul_le_mul hcb hrb (abs_nonneg _) (by norm_num : (0 : ℝ) ≤ 2)
    norm_num at this ⊢
    linarith
  have hprod : |c * rho| ≤ 2 ^ 20 := by
    have : ((|c * rho| : ℚ) : ℝ) ≤ ((2 ^ 20 : ℚ) : ℝ) := by
      push_cast
      exact hprodR
    exact_mod_cast this
  have e1 := r64_err_le hprod
  have b1 := r64_abs_le hprod
  have hnq : |(n : ℚ)| ≤ 2 ^ 17 := by
    have : ((|n| : Int) : ℚ) ≤ ((2 ^ 17 : Int) : ℚ) := by exact_mod_cast hn
    rw [Int.cast_abs] at this
    refine this.trans (le_of_eq ?_)
    norm_num
  have hsum : |Dbl.r64 (c * rho) + (n : ℚ)| ≤ 2 ^ 21 := by
    have := abs_add (Dbl.r64 (c * rho)) (n : ℚ)
    norm_num at b1 hnq ⊢
    linarith
  have e2 := r64_err_le hsum
  have hn53 : |n| ≤ 2 ^ 53 := hn.trans (by norm_num)
  refine ⟨Dbl.r64 (Dbl.r64 (c * rho) + (n : ℚ)), ?_, ?_⟩
  · rw [fp_mul_fin (by norm_num) hprod, fp_ofInt_fin hn53, fp_add_fin (by norm_num) hsum]
  · have e1R : |((Dbl.r64 (c * rho) : ℚ) : ℝ) - (c : ℝ) * (rho : ℝ)|
        ≤ (2 ^ 20 + 1) * (unit_roundoff : ℝ) := by
      exact_mod_cast e1
    have e2R : |((Dbl.r64 (Dbl.r64 (c * rho) + (n : ℚ)) : ℚ) : ℝ)
        - (((Dbl.r64 (c * rho) : ℚ) : ℝ) + (n : ℝ))| ≤ (2 ^ 21 + 1) * (unit_roundoff : ℝ) := by
      exact_mod_cast e2
    rw [unit_roundoff_real] at e1R e2R
    have e3 : |(c : ℝ) * (rho : ℝ) - Z * sg| ≤ (eps : ℝ) * (2 ^ 18 + 1) + (dl : ℝ) * Z := by
      have e : (c : ℝ) * (rho : ℝ) - Z * sg = ((c : ℝ) - sg) * (rho : ℝ) + sg * ((rho : ℝ) - Z) := by
        ring
      rw [e]
      have t1 := abs_add (((c : ℝ) - sg) * (rho : ℝ)) (sg * ((rho : ℝ) - Z))
      have t2 : |((c : ℝ) - sg) * (rho : ℝ)| ≤ (eps : ℝ) * (2 ^ 18 + 1) := by
        rw [abs_mul]
        exact mul_le_mul hc hrb (abs_nonneg _) he0R
      have t3 : |sg * ((rho : ℝ) - Z)| ≤ 1 * ((dl : ℝ) * Z) := by
        rw [abs_mul]
        exact mul_le_mul hs hr (abs_nonneg _) (by norm_num)
      linarith
    have he2 : (eps : ℝ) * (2 ^ 18 + 1) ≤ 1 / 2 ^ 39 * (2 ^ 18 + 1) :=
      mul_le_mul_of_nonneg_right heR (by norm_num)
    have e : ((Dbl.r64 (Dbl.r64 (c * rho) + (n : ℚ)) : ℚ) : ℝ) - (Z * sg + (n : ℝ))
        = (((Dbl.r64 (Dbl.r64 (c * rho) + (n : ℚ)) : ℚ) : ℝ)
            - (((Dbl.r64 (c * rho) : ℚ) : ℝ) + (n : ℝ)))
          + ((((Dbl.r64 (c * rho) : ℚ) : ℝ) - (c : ℝ) * (rho : ℝ))
          + ((c : ℝ) * (rho : ℝ) - Z * sg)) := by
      ring
    rw [e]
    have t4 := abs_add_three (((Dbl.r64 (Dbl.r64 (c * rho) + (n : ℚ)) : ℚ) : ℝ)
        - (((Dbl.r64 (c * rho) : ℚ) : ℝ) + (n : ℝ)))
      (((Dbl.r64 (c * rho) : ℚ) : ℝ) - (c : ℝ) * (rho : ℝ)) ((c : ℝ) * (rho : ℝ) - Z * sg)
    rw [← add_assoc]
    norm_num at e1R e2R he2 hdZ ⊢
    linarith


/-- The norm of an offset of at most `2^17` per coordinate is at most `2^18`. -/
theorem norm_offset_le {dx dy : Int} (hx : |dx| ≤ 2 ^ 17) (hy : |dy| ≤ 2 ^ 17) :
    Real.sqrt ((dx : ℝ) ^ 2 + (dy : ℝ) ^ 2) ≤ 2 ^ 18 := by
  have hxr : |(dx : ℝ)| ≤ 2 ^ 17 := by
    have : ((|dx| : Int) : ℝ) ≤ ((2 ^ 17 : Int) : ℝ) := by exact_mod_cast hx
    rw [Int.cast_abs] at this
    refine this.trans (le_of_eq ?_)
    norm_num
  have hyr : |(dy : ℝ)| ≤ 2 ^ 17 := by
    have : ((|dy| : Int) : ℝ) ≤ ((2 ^ 17 : Int) : ℝ) := by exact_mod_cast hy
    rw [Int.cast_abs] at this
    refine this.trans (le_of_eq ?_)
    norm_num
  rw [Real.sqrt_le_left (by norm_num)]
  have h1 : (dx : ℝ) ^ 2 ≤ (2 ^ 17) ^ 2 := sq_le_sq' (abs_le.1 hxr).1 (abs_le.1 hxr).2
  have h2 : (dy : ℝ) ^ 2 ≤ (2 ^ 17) ^ 2 := sq_le_sq' (abs_le.1 hyr).1 (abs_le.1 hyr).2
  norm_num at h1 h2 ⊢
  linarith

/-- What `car2pol` returns at an offset where the library is accurate: the
radius `rho` of `hypot` and a number of turns `a` in `[0, 1]` whose sine and
cosine of `2 pi a` are within `delta + 2^-47` of those of the angle of the
offset. -/
theorem car2pol_accurate {lc : libc} {g : graph} {x y : Int} {delta : ℚ}
    (hx : |x - g.cx| ≤ 2 ^ 17) (hy : |y - g.cy| ≤ 2 ^ 17)
    (hd : delta ≤ 1 / 2 ^ 41)
    (hpol : polar_accurate lc delta (x - g.cx) (y - g.cy)) :
    ∃ a rho : ℚ, fp.car2pol Dbl.round64 lc g x y = (Dbl.fin a, Dbl.fin rho)
      ∧ 0 ≤ a ∧ a ≤ 1
      ∧ |(rho : ℝ) - Real.sqrt (((x - g.cx : Int) : ℝ) ^ 2 + ((y - g.cy : Int) : ℝ) ^ 2)|
          ≤ (delta : ℝ) * Real.sqrt (((x - g.cx : Int) : ℝ) ^ 2 + ((y - g.cy : Int) : ℝ) ^ 2)
      ∧ |Real.sin (2 * Real.pi * (a : ℝ))
            - Real.sin (Complex.arg (Complex.mk (-((y - g.cy : Int) : ℝ)) ((x - g.cx : Int) : ℝ)))|
          ≤ (delta : ℝ) + 1 / 2 ^ 47
      ∧ |Real.cos (2 * Real.pi * (a : ℝ))
            - Real.cos (Complex.arg (Complex.mk (-((y - g.cy : Int) : ℝ)) ((x - g.cx : Int) : ℝ)))|
          ≤ (delta : ℝ) + 1 / 2 ^ 47 := by
  obtain ⟨rho, al, hrho, hat, hrho', hal'⟩ := hpol
  obtain ⟨_, _, hA⟩ := polar_form ((x - g.cx : Int) : ℝ) ((y - g.cy : Int) : ℝ)
  have hdR : (delta : ℝ) ≤ 1 / 2 ^ 41 := by
    have : ((delta : ℚ) : ℝ) ≤ ((1 / 2 ^ 41 : ℚ) : ℝ) := Rat.cast_le.2 hd
    push_cast at this
    exact this
  have hal4 : |al| ≤ 4 := by
    have h1 := abs_sub_abs_le_abs_sub (al : ℝ)
      (Complex.arg (Complex.mk (-((y - g.cy : Int) : ℝ)) ((x - g.cx : Int) : ℝ)))
    have h2 := Real.pi_lt_d6
    have : |(al : ℝ)| ≤ 4 := by
      norm_num at hdR h2 ⊢
      linarith
    have : ((|al| : ℚ) : ℝ) ≤ ((4 : ℚ) : ℝ) := by
      push_cast
      exact this
    exact_mod_cast this
  have hat' : lc.atan2 (Dbl.fin ((x - g.cx : Int) : ℚ)) (Dbl.fin ((-(y - g.cy) : Int) : ℚ))
      = Dbl.fin al := by
    rw [← hat]
    push_cast
    rfl
  obtain ⟨a, k, hcar, h0, h1, hk, hN⟩ := car2pol_round64 (hx.trans (by norm_num))
    (hy.trans (by norm_num)) hrho hat' hal4
  obtain ⟨t1, t2⟩ := turns_trig h0 h1 hk hN hal'
  exact ⟨a, rho, hcar, h0, h1, hrho', t1, t2⟩

/-- C11 (Cartesian round trip, amended): for a chart centre and an integer
pixel `p = (x, y)` with coordinates of magnitude at most `2^16` and offsets from
the centre of at most `2^16`, computed in binary64 with a library whose `hypot`,
`atan2`, `cos` and `sin` are accurate to `delta <= 2^-41` at the arguments of
the calls made, converting `p` with `car2pol` and back with
`pol2car(ang(angle), radius)` returns a pixel `p'` that differs from `p` by at
most one in each coordinate; `pol2car` truncates toward zero, so `p' = p` is not
guaranteed. -/
theorem C11_cartesian_round_trip_within_pixel (tr : libm_trig) (lc : libc) (g : graph)
    (x y : Int) (delta : ℚ)
    (hx : |x - g.cx| ≤ 2 ^ 16) (hy : |y - g.cy| ≤ 2 ^ 16)
    (hcx : |g.cx| ≤ 2 ^ 16) (hcy : |g.cy| ≤ 2 ^ 16)
    (hd0 : 0 ≤ delta) (hd : delta ≤ 1 / 2 ^ 41)
    (hpol : polar_accurate lc delta (x - g.cx) (y - g.cy))
    (htrig : trig_accurate tr delta
      (fp.ang Dbl.round64 (fp.car2pol Dbl.round64 lc g x y).1)) :
    ∃ x' y' : Int, fp.cartesian_round_trip Dbl.round64 tr lc g x y = some (x', y')
      ∧ |x' - x| ≤ 1 ∧ |y' - y| ≤ 1 := by
  have hx17 : |x - g.cx| ≤ 2 ^ 17 := hx.trans (by norm_num)
  have hy17 : |y - g.cy| ≤ 2 ^ 17 := hy.trans (by norm_num)
  obtain ⟨a, rho, hcar, h0, h1, hrho, hsinA, hcosA⟩ := car2pol_accurate hx17 hy17 hd hpol
  obtain ⟨pc, ps, _⟩ := polar_form ((x - g.cx : Int) : ℝ) ((y - g.cy : Int) : ℝ)
  have hZ := norm_offset_le hx17 hy17
  have hZ0 := Real.sqrt_nonneg (((x - g.cx : Int) : ℝ) ^ 2 + ((y - g.cy : Int) : ℝ) ^ 2)
  generalize Complex.arg (Complex.mk (-((y - g.cy : Int) : ℝ)) ((x - g.cx : Int) : ℝ)) = A
    at hsinA hcosA pc ps
  generalize Real.sqrt (((x - g.cx : Int) : ℝ) ^ 2 + ((y - g.cy : Int) : ℝ) ^ 2) = Z
    at hrho pc ps hZ hZ0
  rw [hcar] at htrig
  obtain ⟨th, c, s, e1, hc, hs, hc', hs'⟩ := htrig
  obtain ⟨th', hth, hth'⟩ := ang_round64 h0 h1
  have hthe : th' = th := by
    rw [hth] at e1
    exact Dbl.fin.inj e1
  subst hthe
  obtain ⟨a1, a2⟩ := ang_trig h0 h1 hth'
  have heps : (2 * delta + 1 / 2 ^ 46 : ℚ) ≤ 1 / 2 ^ 39 := by
    norm_num at hd ⊢
    linarith
  have hcs : |(c : ℝ) - Real.sin A| ≤ ((2 * delta + 1 / 2 ^ 46 : ℚ) : ℝ) := by
    have e : (c : ℝ) - Real.sin A
        = ((c : ℝ) - Real.cos (th' : ℝ))
          + ((Real.cos (th' : ℝ) - Real.sin (2 * Real.pi * (a : ℝ)))
          + (Real.sin (2 * Real.pi * (a : ℝ)) - Real.sin A)) := by
      ring
    rw [e]
    have t := abs_add_three ((c : ℝ) - Real.cos (th' : ℝ))
      (Real.cos (th' : ℝ) - Real.sin (2 * Real.pi * (a : ℝ)))
      (Real.sin (2 * Real.pi * (a : ℝ)) - Real.sin A)
    rw [← add_assoc]
    refine t.trans ?_
    push_cast
    linarith
  have hsc : |(s : ℝ) - -Real.cos A| ≤ ((2 * delta + 1 / 2 ^ 46 : ℚ) : ℝ) := by
    have e : (s : ℝ) - -Real.cos A
        = ((s : ℝ) - Real.sin (th' : ℝ))
          + ((Real.sin (th' : ℝ) + Real.cos (2 * Real.pi * (a : ℝ)))
          - (Real.cos (2 * Real.pi * (a : ℝ)) - Real.cos A)) := by
      ring
    rw [e]
    have t := abs_add ((s : ℝ) - Real.sin (th' : ℝ))
      ((Real.sin (th' : ℝ) + Real.cos (2 * Real.pi * (a : ℝ)))
        - (Real.cos (2 * Real.pi * (a : ℝ)) - Real.cos A))
    have t' := abs_sub (Real.sin (th' : ℝ) + Real.cos (2 * Real.pi * (a : ℝ)))
      (Real.cos (2 * Real.pi * (a : ℝ)) - Real.cos A)
    refine t.trans ?_
    push_cast
    linarith
  have hd40 : delta ≤ 1 / 2 ^ 40 := hd.trans (by norm_num)
  obtain ⟨wx, hwx, hwx'⟩ := pol2car_coord (n := g.cx) (Real.abs_sin_le_one _) hZ0 hZ
    (hcx.trans (by norm_num)) heps hd0 hd40 hcs hrho
  obtain ⟨wy, hwy, hwy'⟩ := pol2car_coord (n := g.cy)
    (by rw [abs_neg]; exact Real.abs_cos_le_one _) hZ0 hZ
    (hcy.trans (by norm_num)) heps hd0 hd40 hsc hrho
  rw [ps] at hwx'
  rw [mul_neg, pc, neg_neg] at hwy'
  have hxn : |x| ≤ 2 ^ 30 := by
    have := abs_add (x - g.cx) g.cx
    rw [sub_add_cancel] at this
    exact this.trans (by linarith)
  have hyn : |y| ≤ 2 ^ 30 := by
    have := abs_add (y - g.cy) g.cy
    rw [sub_add_cancel] at this
    exact this.trans (by linarith)
  have hxw : |wx - (x : ℚ)| < 1 := by
    have : |(wx : ℝ) - (x : ℝ)| < 1 := by
      have e : (wx : ℝ) - (x : ℝ) = (wx : ℝ) - (((x - g.cx : Int) : ℝ) + (g.cx : ℝ)) := by
        push_cast
        ring
      rw [e]
      refine lt_of_le_of_lt hwx' ?_
      norm_num
    have h' : ((|wx - (x : ℚ)| : ℚ) : ℝ) < ((1 : ℚ) : ℝ) := by
      push_cast
      exact this
    exact_mod_cast h'
  have hyw : |wy - (y : ℚ)| < 1 := by
    have : |(wy : ℝ) - (y : ℝ)| < 1 := by
      have e : (wy : ℝ) - (y : ℝ) = (wy : ℝ) - (((y - g.cy : Int) : ℝ) + (g.cy : ℝ)) := by
        push_cast
        ring
      rw [e]
      refine lt_of_le_of_lt hwy' ?_
      norm_num
    have h' : ((|wy - (y : ℚ)| : ℚ) : ℝ) < ((1 : ℚ) : ℝ) := by
      push_cast
      exact this
    exact_mod_cast h'
  obtain ⟨x', hx1, hx2, _⟩ := toInt_near hxn hxw
  obtain ⟨y', hy1, hy2, _⟩ := toInt_near hyn hyw
  have hc2 : tr.cos (Dbl.fin th') = Dbl.fin c := by
    rw [← hth]
    exact hc
  have hs2 : tr.sin (Dbl.fin th') = Dbl.fin s := by
    rw [← hth]
    exact hs
  refine ⟨x', y', ?_, hx2, hy2⟩
  simp only [fp.cartesian_round_trip, fp.pol2car, hcar, hth, hc2, hs2, hwx, hwy, hx1, hy1]


theorem sqrt_two_bounds :
    (1.41421356237309 : ℝ) < Real.sqrt 2 ∧ Real.sqrt 2 < (1.41421356237310 : ℝ) := by
  constructor
  · rw [Real.lt_sqrt (by norm_num)]
    norm_num
  · rw [Real.sqrt_lt' (by norm_num)]
    norm_num

/-- The values of `libm_table` at `5 * M_PI / 4` are within `2^-41` of the
cosine and the sine of that argument. -/
theorem libm_table_accurate_diag :
    trig_accurate libm_table (1 / 2 ^ 41) (Dbl.fin (5 * M_PI_q / 4)) := by
  obtain ⟨p0, p1⟩ := pi_sub_M_PI
  obtain ⟨s0, s1⟩ := sqrt_two_bounds
  have hne : ¬ (5 * M_PI_q / 4 = 0) := by
    unfold M_PI_q
    norm_num
  refine ⟨5 * M_PI_q / 4, -3184525836262887 / 4503599627370496,
    -1592262918131443 / 2251799813685248, rfl, ?_, ?_, ?_, ?_⟩
  · simp only [libm_table, hne, if_false, if_true]
  · simp only [libm_table, hne, if_false, if_true]
  · have hd : |((5 * M_PI_q / 4 : ℚ) : ℝ) - (Real.pi / 4 + Real.pi)| ≤ 5 / 2 ^ 54 := by
      have e : ((5 * M_PI_q / 4 : ℚ) : ℝ) - (Real.pi / 4 + Real.pi)
          = -(5 / 4 * (Real.pi - (M_PI_q : ℝ))) := by
        push_cast
        ring
      rw [e, abs_neg, abs_of_nonneg (by linarith)]
      norm_num at p1 ⊢
      linarith
    have hl := (abs_cos_sub_cos_le ((5 * M_PI_q / 4 : ℚ) : ℝ) (Real.pi / 4 + Real.pi)).trans hd
    rw [Real.cos_add_pi, Real.cos_pi_div_four] at hl
    rw [abs_le] at hl ⊢
    push_cast at hl ⊢
    constructor <;> norm_num at hl s0 s1 ⊢ <;> linarith
  · have hd : |((5 * M_PI_q / 4 : ℚ) : ℝ) - (Real.pi / 4 + Real.pi)| ≤ 5 / 2 ^ 54 := by
      have e : ((5 * M_PI_q / 4 : ℚ) : ℝ) - (Real.pi / 4 + Real.pi)
          = -(5 / 4 * (Real.pi - (M_PI_q : ℝ))) := by
        push_cast
        ring
      rw [e, abs_neg, abs_of_nonneg (by linarith)]
      norm_num at p1 ⊢
      linarith
    have hl := (abs_sin_sub_sin_le ((5 * M_PI_q / 4 : ℚ) : ℝ) (Real.pi / 4 + Real.pi)).trans hd
    rw [Real.sin_add_pi, Real.sin_pi_div_four] at hl
    rw [abs_le] at hl ⊢
    push_cast at hl ⊢
    constructor <;> norm_num at hl s0 s1 ⊢ <;> linarith

/-- The argument of the complex number `37 - 37 i` is `-pi / 4`. -/
theorem arg_diag : Complex.arg (Complex.mk 37 (-37)) = -(Real.pi / 4) := by
  have hpi := Real.pi_pos
  have h := Complex.arg_mul_cos_add_sin_mul_I (r := 37 * Real.sqrt 2) (by positivity)
    (θ := -(Real.pi / 4)) ⟨by linarith, by linarith⟩
  rw [← h]
  congr 1
  have hs : Real.sqrt 2 * Real.sqrt 2 = 2 := Real.mul_self_sqrt (by norm_num)
  apply Complex.ext
  · simp only [Complex.mul_re, Complex.add_re, Complex.ofReal_re, Complex.ofReal_im,
      Complex.mul_im, Complex.I_re, Complex.I_im, Complex.add_im, Complex.cos_ofReal_re,
      Complex.sin_ofReal_re, Complex.cos_ofReal_im, Complex.sin_ofReal_im, Complex.ofReal_mul]
    rw [Real.cos_neg, Real.sin_neg, Real.cos_pi_div_four, Real.sin_pi_div_four]
    ring_nf
    nlinarith
  · simp only [Complex.mul_re, Complex.add_re, Complex.ofReal_re, Complex.ofReal_im,
      Complex.mul_im, Complex.I_re, Complex.I_im, Complex.add_im, Complex.cos_ofReal_re,
      Complex.sin_ofReal_re, Complex.cos_ofReal_im, Complex.sin_ofReal_im, Complex.ofReal_mul]
    rw [Real.cos_neg, Real.sin_neg, Real.cos_pi_div_four, Real.sin_pi_div_four]
    ring_nf
    nlinarith

/-- The values of `libc_table` at the offset `(-37, -37)` are within the
relative error `2^-41` of the norm and within `2^-41` of the angle. -/
theorem libc_table_accurate_diag : polar_accurate libc_table (1 / 2 ^ 41) (-37) (-37) := by
  obtain ⟨p0, p1⟩ := pi_sub_M_PI
  refine ⟨7364215996357925 / 140737488355328, -(M_PI_q / 4), ?_, ?_, ?_, ?_⟩
  · simp only [libc_table]
    norm_num
  · simp only [libc_table]
    norm_num
  · have hlo : (52.325901807804 : ℝ) < Real.sqrt (((-37 : Int) : ℝ) ^ 2 + ((-37 : Int) : ℝ) ^ 2) := by
      rw [Real.lt_sqrt (by norm_num)]
      norm_num
    have hhi : Real.sqrt (((-37 : Int) : ℝ) ^ 2 + ((-37 : Int) : ℝ) ^ 2) < (52.325901807805 : ℝ) := by
      rw [Real.sqrt_lt' (by norm_num)]
      norm_num
    rw [abs_le]
    push_cast
    constructor <;> norm_num at hlo hhi ⊢ <;> linarith
  · have e : Complex.arg (Complex.mk (-((-37 : Int) : ℝ)) ((-37 : Int) : ℝ)) = -(Real.pi / 4) := by
      rw [← arg_diag]
      congr 1
      apply Complex.ext <;> norm_num
    rw [e, abs_le]
    push_cast
    constructor <;> norm_num at p1 ⊢ <;> linarith


/-- Counterexample to C11 as stated: with the centre `(150, 150)` of an image of
size 300, the pixel `(113, 113)` lies on a diagonal at the offset `(-37, -37)`.
In binary64, with the correctly rounded library values of `libc_table` and
`libm_table` (each within `2^-41` of the exact value), `car2pol` gives the
angle `7/8` and the radius `37 * sqrt 2` rounded, `ang` gives `5 * M_PI / 4`,
and `cos(ang) * r + cx` evaluates to the double just below 113, which the
conversion to `int` truncates to 112: the round trip returns `(112, 113)`. -/
theorem C11_round_trip_moves_pixel :
    fp.car2pol Dbl.round64 libc_table (graph_init 300 4) 113 113
        = (Dbl.fin (7 / 8), Dbl.fin (7364215996357925 / 140737488355328))
      ∧ fp.ang Dbl.round64 (Dbl.fin (7 / 8)) = Dbl.fin (5 * M_PI_q / 4)
      ∧ fp.add Dbl.round64
          (fp.mul Dbl.round64 (libm_table.cos (Dbl.fin (5 * M_PI_q / 4)))
            (Dbl.fin (7364215996357925 / 140737488355328)))
          (fp.ofInt Dbl.round64 150) = Dbl.fin (113 - 1 / 2 ^ 46)
      ∧ fp.cartesian_round_trip Dbl.round64 libm_table libc_table (graph_init 300 4) 113 113
        = some (112, 113)
      ∧ ((112, 113) : Int × Int) ≠ (113, 113)
      ∧ polar_accurate libc_table (1 / 2 ^ 41) (-37) (-37)
      ∧ trig_accurate libm_table (1 / 2 ^ 41) (Dbl.fin (5 * M_PI_q / 4)) :=
  ⟨by decide!, by decide!, by decide!, by decide!, by decide, libc_table_accurate_diag,
    libm_table_accurate_diag⟩

theorem C11_cartesian_round_trip_within_pixel_witness :
    fp.cartesian_round_trip Dbl.round64 libm_table libc_table (graph_init 300 4) 113 113
        = some (112, 113)
      ∧ ∃ x' y' : Int,
        fp.cartesian_round_trip Dbl.round64 libm_table libc_table (graph_init 300 4) 113 113
          = some (x', y')
        ∧ |x' - 113| ≤ 1 ∧ |y' - 113| ≤ 1 := by
  have e : fp.ang Dbl.round64
      (fp.car2pol Dbl.round64 libc_table (graph_init 300 4) 113 113).1
      = Dbl.fin (5 * M_PI_q / 4) := by decide!
  refine ⟨by decide!, ?_⟩
  exact C11_cartesian_round_trip_within_pixel libm_table libc_table (graph_init 300 4) 113 113
    (1 / 2 ^ 41) (by decide) (by decide) (by decide) (by decide) (by norm_num) le_rfl
    libc_table_accurate_diag (by rw [e]; exact libm_table_accurate_diag)


/-- Two points given in polar form whose Cartesian coordinates differ by at
most `b <= 1 + 2^-18` each: the radii differ by at most `3/2`, and the sine of
the difference of the angles, scaled by the radius of the second point, is at
most `3/2`. -/
theorem chord_bounds {ρ r s1 c1 s2 c2 b : ℝ} (hρ : 0 ≤ ρ) (hr : 0 ≤ r)
    (h1 : s1 ^ 2 + c1 ^ 2 = 1) (h2 : s2 ^ 2 + c2 ^ 2 = 1)
    (hD1 : |ρ * s1 - r * s2| ≤ b) (hD2 : |ρ * c1 - r * c2| ≤ b) (hb : b ≤ 1 + 1 / 2 ^ 18) :
    |ρ - r| ≤ 3 / 2 ∧ r * |s1 * c2 - c1 * s2| ≤ 3 / 2 := by
  have hb0 : 0 ≤ b := (abs_nonneg _).trans hD1
  have q1 : (ρ * s1 - r * s2) ^ 2 ≤ b ^ 2 := sq_le_sq' (abs_le.1 hD1).1 (abs_le.1 hD1).2
  have q2 : (ρ * c1 - r * c2) ^ 2 ≤ b ^ 2 := sq_le_sq' (abs_le.1 hD2).1 (abs_le.1 hD2).2
  have hbb : b ^ 2 ≤ (1 + 1 / 2 ^ 18) ^ 2 := pow_le_pow_left₀ hb0 hb 2
  have hsum : (ρ * s1 - r * s2) ^ 2 + (ρ * c1 - r * c2) ^ 2 ≤ (3 / 2) ^ 2 := by
    norm_num at hbb ⊢
    linarith
  have hdot : s1 * s2 + c1 * c2 ≤ 1 := by
    nlinarith [sq_nonneg (s1 - s2), sq_nonneg (c1 - c2)]
  have hρr : 0 ≤ ρ * r := mul_nonneg hρ hr
  constructor
  · have hsq : (ρ - r) ^ 2 ≤ (3 / 2) ^ 2 := by
      have e : (ρ * s1 - r * s2) ^ 2 + (ρ * c1 - r * c2) ^ 2
          = ρ ^ 2 * (s1 ^ 2 + c1 ^ 2) + r ^ 2 * (s2 ^ 2 + c2 ^ 2)
            - 2 * (ρ * r) * (s1 * s2 + c1 * c2) := by
        ring
      rw [e, h1, h2] at hsum
      nlinarith
    exact abs_le.2 (abs_le_of_sq_le_sq' hsq (by norm_num))
  · have e : r * (s1 * c2 - c1 * s2)
        = (ρ * s1 - r * s2) * c1 - (ρ * c1 - r * c2) * s1 := by
      ring
    have hcs : ((ρ * s1 - r * s2) * c1 - (ρ * c1 - r * c2) * s1) ^ 2
        ≤ (ρ * s1 - r * s2) ^ 2 + (ρ * c1 - r * c2) ^ 2 := by
      have e2 : (ρ * s1 - r * s2) ^ 2 + (ρ * c1 - r * c2) ^ 2
          = ((ρ * s1 - r * s2) ^ 2 + (ρ * c1 - r * c2) ^ 2) * (s1 ^ 2 + c1 ^ 2) := by
        rw [h1, mul_one]
      rw [e2]
      nlinarith [sq_nonneg ((ρ * s1 - r * s2) * s1 + (ρ * c1 - r * c2) * c1)]
    have hsq : (r * (s1 * c2 - c1 * s2)) ^ 2 ≤ (3 / 2) ^ 2 := by
      rw [e]
      exact hcs.trans hsum
    have := abs_le_of_sq_le_sq' hsq (by norm_num)
    rw [← abs_of_nonneg hr, ← abs_mul]
    exact abs_le.2 this


/-- The radius and the angle that `car2pol` returns, put back in Cartesian form
with exact sine and cosine, give the offset up to `2^-21`. -/
theorem car2pol_point {rho delta : ℚ} {Z A sa ca dx dy : ℝ} (hZ0 : 0 ≤ Z) (hZ : Z ≤ 2 ^ 18)
    (hd0 : 0 ≤ delta) (hd : delta ≤ 1 / 2 ^ 41)
    (hrho : |(rho : ℝ) - Z| ≤ (delta : ℝ) * Z)
    (pc : Z * Real.cos A = -dy) (ps : Z * Real.sin A = dx)
    (hsa : |sa| ≤ 1) (hca : |ca| ≤ 1)
    (hsin : |sa - Real.sin A| ≤ (delta : ℝ) + 1 / 2 ^ 47)
    (hcos : |ca - Real.cos A| ≤ (delta : ℝ) + 1 / 2 ^ 47) :
    0 ≤ (rho : ℝ) ∧ |(rho : ℝ) * sa - dx| ≤ 1 / 2 ^ 21 ∧ |(rho : ℝ) * ca - -dy| ≤ 1 / 2 ^ 21 := by
  have hdR : (delta : ℝ) ≤ 1 / 2 ^ 41 := by
    have : ((delta : ℚ) : ℝ) ≤ ((1 / 2 ^ 41 : ℚ) : ℝ) := Rat.cast_le.2 hd
    push_cast at this
    exact this
  have hd0R : (0 : ℝ) ≤ (delta : ℝ) := by exact_mod_cast hd0
  have hdZ : (delta : ℝ) * Z ≤ 1 / 2 ^ 41 * 2 ^ 18 :=
    mul_le_mul hdR hZ hZ0 (by norm_num)
  have hdZ0 : 0 ≤ (delta : ℝ) * Z := mul_nonneg hd0R hZ0
  have hdZ1 : (delta : ℝ) * Z ≤ Z := by
    have := mul_le_mul_of_nonneg_right (hdR.trans (by norm_num : (1 : ℝ) / 2 ^ 41 ≤ 1)) hZ0
    linarith
  have hZe : Z * ((delta : ℝ) + 1 / 2 ^ 47) ≤ 2 ^ 18 * (1 / 2 ^ 41 + 1 / 2 ^ 47) :=
    mul_le_mul hZ (by linarith) (by positivity) (by norm_num)
  refine ⟨?_, ?_, ?_⟩
  · have := (abs_le.1 hrho).1
    linarith
  · rw [← ps]
    have e : (rho : ℝ) * sa - Z * Real.sin A = ((rho : ℝ) - Z) * sa + Z * (sa - Real.sin A) := by
      ring
    rw [e]
    have t1 := abs_add (((rho : ℝ) - Z) * sa) (Z * (sa - Real.sin A))
    have t2 : |((rho : ℝ) - Z) * sa| ≤ (delta : ℝ) * Z * 1 := by
      rw [abs_mul]
      exact mul_le_mul hrho hsa (abs_nonneg _) hdZ0
    have t3 : |Z * (sa - Real.sin A)| ≤ Z * ((delta : ℝ) + 1 / 2 ^ 47) := by
      rw [abs_mul, abs_of_nonneg hZ0]
      exact mul_le_mul_of_nonneg_left hsin hZ0
    refine t1.trans ?_
    norm_num at hdZ hZe ⊢
    linarith
  · rw [← pc]
    have e : (rho : ℝ) * ca - Z * Real.cos A = ((rho : ℝ) - Z) * ca + Z * (ca - Real.cos A) := by
      ring
    rw [e]
    have t1 := abs_add (((rho : ℝ) - Z) * ca) (Z * (ca - Real.cos A))
    have t2 : |((rho : ℝ) - Z) * ca| ≤ (delta : ℝ) * Z * 1 := by
      rw [abs_mul]
      exact mul_le_mul hrho hca (abs_nonneg _) hdZ0
    have t3 : |Z * (ca - Real.cos A)| ≤ Z * ((delta : ℝ) + 1 / 2 ^ 47) := by
      rw [abs_mul, abs_of_nonneg hZ0]
      exact mul_le_mul_of_nonneg_left hcos hZ0
    refine t1.trans ?_
    norm_num at hdZ hZe ⊢
    linarith

/-- The pixel of `pol2car` for the angle `t` in turns and the radius `r`: each
coordinate exists and its offset from the centre is less than `1 + 2^-19` away
from the coordinate `r * sg` of the point, when the library value `c` is within
`delta + 2^-47` of `sg`. -/
theorem pol2car_pixel {c r delta : ℚ} {n : Int} {sg : ℝ} (hs : |sg| ≤ 1)
    (hr0 : 0 ≤ r) (hr : r ≤ 2 ^ 16) (hn : |n| ≤ 2 ^ 16)
    (hd : delta ≤ 1 / 2 ^ 41)
    (hc : |(c : ℝ) - sg| ≤ (delta : ℝ) + 1 / 2 ^ 47) :
    ∃ m : Int, (fp.add Dbl.round64 (fp.mul Dbl.round64 (Dbl.fin c) (Dbl.fin r))
        (fp.ofInt Dbl.round64 n)).toInt = some m
      ∧ |((m - n : Int) : ℝ) - (r : ℝ) * sg| < 1 + 1 / 2 ^ 19
      ∧ |m - n| ≤ 2 ^ 17 := by
  have hrR0 : (0 : ℝ) ≤ (r : ℝ) := by exact_mod_cast hr0
  have hrR : (r : ℝ) ≤ 2 ^ 16 := by
    have : ((r : ℚ) : ℝ) ≤ ((2 ^ 16 : ℚ) : ℝ) := Rat.cast_le.2 hr
    push_cast at this
    exact this
  have heps : (delta + 1 / 2 ^ 47 : ℚ) ≤ 1 / 2 ^ 39 := by
    norm_num at hd ⊢
    linarith
  obtain ⟨w, hw, hw'⟩ := @pol2car_coord c r (delta + 1 / 2 ^ 47) 0 n sg (r : ℝ) hs hrR0 (hrR.trans (by norm_num))
    (hn.trans (by norm_num)) heps le_rfl (by norm_num) (by push_cast; exact hc) (by simp)
  have hnR : |(n : ℝ)| ≤ 2 ^ 16 := by
    have : ((|n| : Int) : ℝ) ≤ ((2 ^ 16 : Int) : ℝ) := by exact_mod_cast hn
    rw [Int.cast_abs] at this
    refine this.trans (le_of_eq ?_)
    norm_num
  have hrs : |(r : ℝ) * sg| ≤ 2 ^ 16 := by
    rw [abs_mul, abs_of_nonneg hrR0]
    have := mul_le_mul hrR hs (abs_nonneg _) (by norm_num : (0 : ℝ) ≤ 2 ^ 16)
    linarith
  have hwb : |(w : ℝ)| ≤ 2 ^ 18 := by
    have t1 := abs_sub_abs_le_abs_sub (w : ℝ) ((r : ℝ) * sg + (n : ℝ))
    have t2 := abs_add ((r : ℝ) * sg) (n : ℝ)
    norm_num at hw' hrs hnR ⊢
    linarith
  have hwq : |w| ≤ 2 ^ 18 := by
    have : ((|w| : ℚ) : ℝ) ≤ ((2 ^ 18 : ℚ) : ℝ) := by
      push_cast
      exact hwb
    exact_mod_cast this
  rw [abs_le] at hwq
  obtain ⟨m, hm1, hm2, _, _⟩ := Dbl.toInt_fin_trunc w (by linarith) (by linarith)
  have hm2R : |(m : ℝ) - (w : ℝ)| < 1 := by
    have : ((|(m : ℚ) - w| : ℚ) : ℝ) < ((1 : ℚ) : ℝ) := Rat.cast_lt.2 hm2
    push_cast at this
    exact this
  have hoff : |((m - n : Int) : ℝ) - (r : ℝ) * sg| < 1 + 1 / 2 ^ 19 := by
    have e : ((m - n : Int) : ℝ) - (r : ℝ) * sg
        = ((m : ℝ) - (w : ℝ)) + ((w : ℝ) - ((r : ℝ) * sg + (n : ℝ))) := by
      push_cast
      ring
    rw [e]
    have := abs_add ((m : ℝ) - (w : ℝ)) ((w : ℝ) - ((r : ℝ) * sg + (n : ℝ)))
    linarith
  refine ⟨m, by rw [hw]; exact hm1, hoff, ?_⟩
  have hb : |((m - n : Int) : ℝ)| ≤ 2 ^ 17 := by
    have t1 := abs_sub_abs_le_abs_sub ((m - n : Int) : ℝ) ((r : ℝ) * sg)
    push_cast at t1 hoff ⊢
    norm_num at hrs hoff ⊢
    linarith
  have : ((|m - n| : Int) : ℝ) ≤ ((2 ^ 17 : Int) : ℝ) := by
    rw [Int.cast_abs]
    refine hb.trans (le_of_eq ?_)
    norm_num
  exact_mod_cast this


/-- C12 (polar round trip, amended): for an angle `t` in `[0, 1]` turns and a
radius `0 < r <= 2^16`, with a centre of coordinates at most `2^16` in
magnitude, computed in binary64 with a library whose `cos`, `sin`, `hypot` and
`atan2` are accurate to `delta <= 2^-41` at the arguments of the calls made:
`pol2car(ang(t), r)` gives a pixel whose offset from the centre is less than
`1 + 2^-19` away, in each coordinate, from the point `(r sin 2 pi t, -r cos 2
pi t)` of the polar pair; `car2pol` of that pixel returns a pair `(t', r')`
with `t'` in `[0, 1]`, which denotes a point within `1 + 2^-18` of the
original point in each coordinate.  So the radius comes back within `3/2`
(not within an arbitrary epsilon), and the angle within
`r * |sin (2 pi (t' - t))| <= 3/2`: the tolerance is that of the pixel grid. -/
theorem C12_polar_round_trip_within_pixel (tr : libm_trig) (lc : libc) (g : graph)
    (t r delta : ℚ)
    (ht0 : 0 ≤ t) (ht1 : t ≤ 1) (hr0 : 0 < r) (hr : r ≤ 2 ^ 16)
    (hcx : |g.cx| ≤ 2 ^ 16) (hcy : |g.cy| ≤ 2 ^ 16)
    (hd0 : 0 ≤ delta) (hd : delta ≤ 1 / 2 ^ 41)
    (htrig : trig_accurate tr delta (fp.ang Dbl.round64 (Dbl.fin t)))
    (hpol : ∀ x y : Int,
      fp.pol2car Dbl.round64 tr g (fp.ang Dbl.round64 (Dbl.fin t)) (Dbl.fin r) = some (x, y) →
      polar_accurate lc delta (x - g.cx) (y - g.cy)) :
    ∃ (x y : Int) (t' r' : ℚ),
      fp.pol2car Dbl.round64 tr g (fp.ang Dbl.round64 (Dbl.fin t)) (Dbl.fin r) = some (x, y)
      ∧ fp.polar_round_trip Dbl.round64 tr lc g (Dbl.fin t) (Dbl.fin r)
          = some (Dbl.fin t', Dbl.fin r')
      ∧ 0 ≤ t' ∧ t' ≤ 1
      ∧ |((x - g.cx : Int) : ℝ) - (r : ℝ) * Real.sin (2 * Real.pi * (t : ℝ))| < 1 + 1 / 2 ^ 19
      ∧ |((y - g.cy : Int) : ℝ) + (r : ℝ) * Real.cos (2 * Real.pi * (t : ℝ))| < 1 + 1 / 2 ^ 19
      ∧ |(r' : ℝ) * Real.sin (2 * Real.pi * (t' : ℝ))
          - (r : ℝ) * Real.sin (2 * Real.pi * (t : ℝ))| ≤ 1 + 1 / 2 ^ 18
      ∧ |(r' : ℝ) * Real.cos (2 * Real.pi * (t' : ℝ))
          - (r : ℝ) * Real.cos (2 * Real.pi * (t : ℝ))| ≤ 1 + 1 / 2 ^ 18
      ∧ |(r' : ℝ) - (r : ℝ)| ≤ 3 / 2
      ∧ (r : ℝ) * |Real.sin (2 * Real.pi * ((t' : ℝ) - (t : ℝ)))| ≤ 3 / 2 := by
  obtain ⟨th, hth, hth'⟩ := ang_round64 ht0 ht1
  obtain ⟨a1, a2⟩ := ang_trig ht0 ht1 hth'
  rw [hth] at htrig hpol
  obtain ⟨th0, c, s, e1, hc, hs, hc', hs'⟩ := htrig
  have hthe : th = th0 := Dbl.fin.inj e1
  subst hthe
  have hcs : |(c : ℝ) - Real.sin (2 * Real.pi * (t : ℝ))| ≤ (delta : ℝ) + 1 / 2 ^ 47 := by
    have e : (c : ℝ) - Real.sin (2 * Real.pi * (t : ℝ))
        = ((c : ℝ) - Real.cos (th : ℝ))
          + (Real.cos (th : ℝ) - Real.sin (2 * Real.pi * (t : ℝ))) := by
      ring
    rw [e]
    exact (abs_add _ _).trans (by linarith)
  have hsc : |(s : ℝ) - -Real.cos (2 * Real.pi * (t : ℝ))| ≤ (delta : ℝ) + 1 / 2 ^ 47 := by
    have e : (s : ℝ) - -Real.cos (2 * Real.pi * (t : ℝ))
        = ((s : ℝ) - Real.sin (th : ℝ))
          + (Real.sin (th : ℝ) + Real.cos (2 * Real.pi * (t : ℝ))) := by
      ring
    rw [e]
    exact (abs_add _ _).trans (by linarith)
  obtain ⟨x, hx1, hx2, hx3⟩ := pol2car_pixel (n := g.cx) (Real.abs_sin_le_one _) hr0.le hr hcx
    hd hcs
  obtain ⟨y, hy1, hy2, hy3⟩ := pol2car_pixel (n := g.cy)
    (by rw [abs_neg]; exact Real.abs_cos_le_one _) hr0.le hr hcy hd hsc
  have hp : fp.pol2car Dbl.round64 tr g (Dbl.fin th) (Dbl.fin r) = some (x, y) := by
    simp only [fp.pol2car, hc, hs, hx1, hy1]
  obtain ⟨a', rho, hcar, h0', h1', hrho, hsinA, hcosA⟩ :=
    car2pol_accurate hx3 hy3 hd (hpol x y hp)
  obtain ⟨pc, ps, _⟩ := polar_form ((x - g.cx : Int) : ℝ) ((y - g.cy : Int) : ℝ)
  have hZ := norm_offset_le hx3 hy3
  have hZ0 := Real.sqrt_nonneg (((x - g.cx : Int) : ℝ) ^ 2 + ((y - g.cy : Int) : ℝ) ^ 2)
  obtain ⟨k0, k1, k2⟩ := car2pol_point hZ0 hZ hd0 hd hrho pc ps (Real.abs_sin_le_one _)
    (Real.abs_cos_le_one _) hsinA hcosA
  have hy2' : |((y - g.cy : Int) : ℝ) + (r : ℝ) * Real.cos (2 * Real.pi * (t : ℝ))|
      < 1 + 1 / 2 ^ 19 := by
    have e : ((y - g.cy : Int) : ℝ) + (r : ℝ) * Real.cos (2 * Real.pi * (t : ℝ))
        = ((y - g.cy : Int) : ℝ) - (r : ℝ) * -Real.cos (2 * Real.pi * (t : ℝ)) := by
      ring
    rw [e]
    exact hy2
  have D1 : |(rho : ℝ) * Real.sin (2 * Real.pi * (a' : ℝ))
      - (r : ℝ) * Real.sin (2 * Real.pi * (t : ℝ))| ≤ 1 + 1 / 2 ^ 18 := by
    have e : (rho : ℝ) * Real.sin (2 * Real.pi * (a' : ℝ))
          - (r : ℝ) * Real.sin (2 * Real.pi * (t : ℝ))
        = ((rho : ℝ) * Real.sin (2 * Real.pi * (a' : ℝ)) - ((x - g.cx : Int) : ℝ))
          + (((x - g.cx : Int) : ℝ) - (r : ℝ) * Real.sin (2 * Real.pi * (t : ℝ))) := by
      ring
    rw [e]
    refine (abs_add _ _).trans ?_
    have : (1 : ℝ) / 2 ^ 21 + (1 + 1 / 2 ^ 19) ≤ 1 + 1 / 2 ^ 18 := by norm_num
    linarith
  have D2 : |(rho : ℝ) * Real.cos (2 * Real.pi * (a' : ℝ))
      - (r : ℝ) * Real.cos (2 * Real.pi * (t : ℝ))| ≤ 1 + 1 / 2 ^ 18 := by
    have e : (rho : ℝ) * Real.cos (2 * Real.pi * (a' : ℝ))
          - (r : ℝ) * Real.cos (2 * Real.pi * (t : ℝ))
        = ((rho : ℝ) * Real.cos (2 * Real.pi * (a' : ℝ)) - -((y - g.cy : Int) : ℝ))
          - (((y - g.cy : Int) : ℝ) + (r : ℝ) * Real.cos (2 * Real.pi * (t : ℝ))) := by
      ring
    rw [e]
    refine (abs_sub _ _).trans ?_
    have : (1 : ℝ) / 2 ^ 21 + (1 + 1 / 2 ^ 19) ≤ 1 + 1 / 2 ^ 18 := by norm_num
    linarith
  have hrR0 : (0 : ℝ) ≤ (r : ℝ) := by exact_mod_cast hr0.le
  obtain ⟨c1, c2⟩ := chord_bounds k0 hrR0 (Real.sin_sq_add_cos_sq _) (Real.sin_sq_add_cos_sq _)
    D1 D2 le_rfl
  refine ⟨x, y, a', rho, by rw [hth]; exact hp, ?_, h0', h1', hx2, hy2', D1, D2, c1, ?_⟩
  · simp only [fp.polar_round_trip, hth, hp, Option.map_some', hcar]
  · have e : 2 * Real.pi * ((a' : ℝ) - (t : ℝ))
        = 2 * Real.pi * (a' : ℝ) - 2 * Real.pi * (t : ℝ) := by
      ring
    rw [e, Real.sin_sub]
    exact c2


/-- Counterexample to C12 as stated: with the centre `(150, 150)` of an image of
size 300, the angle `1/4` and the radius `100.5`, `ang` gives the angle 0, where
`cos` and `sin` are exactly 1 and 0, and `pol2car` truncates `100.5 + 150` to
the pixel `(250, 150)`; `car2pol` of that pixel returns the angle `1/4` and the
radius `hypot(0, 100) = 100`.  The radius comes back changed by `1/2`, which is
more than any epsilon below the size of a pixel. -/
theorem C12_polar_round_trip_loses_radius :
    fp.ang Dbl.round64 (Dbl.fin (1 / 4)) = Dbl.fin 0
      ∧ fp.pol2car Dbl.round64 libm_table (graph_init 300 4)
          (fp.ang Dbl.round64 (Dbl.fin (1 / 4))) (Dbl.fin (201 / 2)) = some (250, 150)
      ∧ fp.car2pol Dbl.round64 libc_table (graph_init 300 4) 250 150
          = (Dbl.fin (1 / 4), Dbl.fin 100)
      ∧ fp.polar_round_trip Dbl.round64 libm_table libc_table (graph_init 300 4)
          (Dbl.fin (1 / 4)) (Dbl.fin (201 / 2)) = some (Dbl.fin (1 / 4), Dbl.fin 100)
      ∧ |(100 : ℚ) - 201 / 2| = 1 / 2 :=
  ⟨by decide!, by decide!, by decide!, by decide!, by norm_num⟩

theorem C12_polar_round_trip_within_pixel_witness :
    fp.polar_round_trip Dbl.round64 libm_table libc_table (graph_init 300 4)
        (Dbl.fin (7 / 8)) (Dbl.fin 52)
        = some (Dbl.fin (7 / 8), Dbl.fin (7364215996357925 / 140737488355328))
      ∧ ∃ (x y : Int) (t' r' : ℚ),
        fp.pol2car Dbl.round64 libm_table (graph_init 300 4)
            (fp.ang Dbl.round64 (Dbl.fin (7 / 8))) (Dbl.fin 52) = some (x, y)
        ∧ fp.polar_round_trip Dbl.round64 libm_table libc_table (graph_init 300 4)
            (Dbl.fin (7 / 8)) (Dbl.fin 52) = some (Dbl.fin t', Dbl.fin r')
        ∧ 0 ≤ t' ∧ t' ≤ 1
        ∧ |((x - (graph_init 300 4).cx : Int) : ℝ)
            - ((52 : ℚ) : ℝ) * Real.sin (2 * Real.pi * ((7 / 8 : ℚ) : ℝ))| < 1 + 1 / 2 ^ 19
        ∧ |((y - (graph_init 300 4).cy : Int) : ℝ)
            + ((52 : ℚ) : ℝ) * Real.cos (2 * Real.pi * ((7 / 8 : ℚ) : ℝ))| < 1 + 1 / 2 ^ 19
        ∧ |(r' : ℝ) * Real.sin (2 * Real.pi * (t' : ℝ))
            - ((52 : ℚ) : ℝ) * Real.sin (2 * Real.pi * ((7 / 8 : ℚ) : ℝ))| ≤ 1 + 1 / 2 ^ 18
        ∧ |(r' : ℝ) * Real.cos (2 * Real.pi * (t' : ℝ))
            - ((52 : ℚ) : ℝ) * Real.cos (2 * Real.pi * ((7 / 8 : ℚ) : ℝ))| ≤ 1 + 1 / 2 ^ 18
        ∧ |(r' : ℝ) - ((52 : ℚ) : ℝ)| ≤ 3 / 2
        ∧ ((52 : ℚ) : ℝ) * |Real.sin (2 * Real.pi * ((t' : ℝ) - ((7 / 8 : ℚ) : ℝ)))| ≤ 3 / 2 := by
  have e : fp.ang Dbl.round64 (Dbl.fin (7 / 8)) = Dbl.fin (5 * M_PI_q / 4) := by decide!
  have hp : fp.pol2car Dbl.round64 libm_table (graph_init 300 4)
      (fp.ang Dbl.round64 (Dbl.fin (7 / 8))) (Dbl.fin 52) = some (113, 113) := by decide!
  refine ⟨by decide!, ?_⟩
  exact C12_polar_round_trip_within_pixel libm_table libc_table (graph_init 300 4) (7 / 8) 52
    (1 / 2 ^ 41) (by norm_num) (by norm_num) (by norm_num) (by norm_num) (by decide) (by decide)
    (by norm_num) le_rfl (by rw [e]; exact libm_table_accurate_diag) (by
      intro x y hxy
      rw [hp] at hxy
      have hx : x = 113 := by
        have := congrArg (fun o => o.map Prod.fst) hxy
        simpa using this.symm
      have hy : y = 113 := by
        have := congrArg (fun o => o.map Prod.snd) hxy
        simpa using this.symm
      subst hx
      subst hy
      exact libc_table_accurate_diag)
